import Mathlib

/-!
# Scheduler: a shallow embedding of `src/Scheduler`

The two worker threads `cpu()` and `io()` of `scheduler.c` run their whole loop
body between `pthread_mutex_lock` and `pthread_mutex_unlock` (or inside
`pthread_cond_wait`, which gives the mutex up while the thread sleeps), so one
loop iteration is one atomic step on the static globals of the file.

Conventions of the embedding:

* the clocks and totals of the workers are kept as the exact integers that the
  additions of `cpu()` and `io()` give (`cpuServe`, `ioServe`); the program
  holds them in globals of type `int` (32 bits), and `cpuServeInt`, `ioServeInt`
  are the same lines with the arithmetic of that type. The two agree as long as
  every result is a value of type `int` (`Fits`, `ServeFits`); the theorems on
  the values of the clocks carry that bound, and beyond it the exact integers
  are not what the globals hold;
* `malloc` succeeds;
* the result of `fopen` inside a worker is an input of the step (`fopenOk`);
* a step that has no defined behaviour in C (a failed `assert`, the use of an
  uninitialised pointer, a read past the end of `times`) has result `none`;
* the text appended to `log-A` and `log-B` is kept as a list of entries, one
  per block of `fprintf` calls, starting empty at the beginning of the run;
* the order in which the two threads take their passes is an input of a run
  (`run`, `threads`, `scheduler`);
* a value of type `double` printed by `scheduler()` is the exact quotient of
  the two integers it is computed from, or the special value that IEC 60559
  arithmetic gives for a zero divisor (`DoubleValue`).
-/

namespace Scheduler

/-- The enum `ERROR_CODE` of `error.h`. -/
inductive ERROR_CODE
  | E_SUCCESS
  | E_FAILURE
  | E_INVALID_INPUT
  | E_FILE_NOT_FOUND
  | E_OUT_OF_MEMORY
  | E_EMPTY_LIST
  deriving DecidableEq, Repr

/-- The struct `Pa` of `pa.h`; `times` is the array of `totalAc` burst times
allocated by `createPA`. -/
structure Pa where
  pid : Int
  ac : Int
  totalAc : Int
  state : Int
  arriveTime : Int
  remainingTime : Int
  times : List Int
  deriving DecidableEq, Repr

/-- The abstract content of a `LinkedList` of `linkedList.h`: the `data` of the
nodes from `head` along `next`. -/
abbrev LinkedList := List Pa

/-- The list made by `newLinkedList`: `head` and `tail` are `NULL`. -/
def newLinkedList : LinkedList := []

/-- The function `enqueue` of `linkedList.c`: the new node goes after `tail`. -/
def enqueue (list : LinkedList) (data : Pa) : ERROR_CODE × LinkedList :=
  (ERROR_CODE.E_SUCCESS, list ++ [data])

/-- The function `dequeue` of `linkedList.c`: the returned code, the list
afterwards and the value written through `data`, if any. -/
def dequeue (list : LinkedList) : ERROR_CODE × LinkedList × Option Pa :=
  match list with
  | [] => (ERROR_CODE.E_EMPTY_LIST, [], none)
  | temp :: next => (ERROR_CODE.E_SUCCESS, next, some temp)

/-- The function `isEmpty` of `linkedList.c`: `1` if `head` is `NULL`, else `0`. -/
def isEmpty (list : LinkedList) : Int :=
  match list with
  | [] => 1
  | _ :: _ => 0

/-- One block of `fprintf` calls of `scheduler.c`, with the values printed for
`PID`, `AC`, `Arrive` and `Time`. -/
inductive Entry
  /-- Entry "New process:" of `scheduler()`, written to `log-A`. -/
  | newProcess (pid ac arrive time : Int)
  /-- Entry "Finishing CPU activity:" of `cpu()`, written to `log-A`. -/
  | finishCpu (pid ac arrive time : Int)
  /-- Entry "Finishing I/O activity:" of `io()`, written to `log-A`. -/
  | finishIo (pid ac arrive time : Int)
  /-- Entry "Process PID-n is terminated." of `cpu()`, written to `log-B`. -/
  | terminated (pid ac arrive time : Int)
  deriving DecidableEq, Repr

/-- The static globals of `scheduler.c`, the two log files, and two history
fields that no code reads: `cpuBursts` and `ioBursts` list the values of
`remainingTime` that the execution loops of `cpu()` and `io()` have run. -/
structure Sched where
  errState : Int
  cpuTime : Int
  cpuIdleTime : Int
  cpuWaitingTime : Int
  ioTime : Int
  ioIdleTime : Int
  ioWaitingTime : Int
  cpuQueue : LinkedList
  ioQueue : LinkedList
  logA : List Entry
  logB : List Entry
  cpuBursts : List Int
  ioBursts : List Int
  deriving DecidableEq, Repr

/-- What a worker thread does at the end of one pass through its loop. -/
inductive Flow
  /-- The thread sleeps in `pthread_cond_wait`. -/
  | blocked
  /-- The thread reached the end of the loop body and starts it again. -/
  | looped
  /-- The thread function returned this code. -/
  | returned (code : ERROR_CODE)
  deriving DecidableEq, Repr

/-- The loop `for (i = 0; i < remainingTime; i++) time++;` run for `n` rounds,
in exact integers. -/
def tick : Nat → Int → Int
  | 0, time => time
  | n + 1, time => tick n (time + 1)

/-- The execution loop of `cpu()` and `io()`: the clock after the loop
`for (i = 0; i < remainingTime; i++) time++;`, in exact integers. -/
def execute (time remainingTime : Int) : Int :=
  tick remainingTime.toNat time

/-- The read `times[i]` of an array of `times.length` elements. -/
def readTimes (times : List Int) (i : Int) : Option Int :=
  if 0 ≤ i ∧ i < times.length then times[i.toNat]? else none

/-- Lines 246-260 of `cpu()`: the globals after `process` was taken from the
head of `cpuQueue` (leaving `rest`), the idle and waiting totals were brought
up to date and the burst was run, in exact integers (`cpuServeInt` has the
arithmetic of the type `int`). -/
def cpuServe (s : Sched) (process : Pa) (rest : LinkedList) : Sched :=
  let idle := if s.cpuTime < process.arriveTime
    then s.cpuIdleTime + (process.arriveTime - s.cpuTime) else s.cpuIdleTime
  let begin := if s.cpuTime < process.arriveTime
    then process.arriveTime else s.cpuTime
  let waiting := s.cpuWaitingTime + (begin - process.arriveTime)
  { s with
    cpuQueue := rest, cpuIdleTime := idle, cpuWaitingTime := waiting,
    cpuTime := execute begin process.remainingTime,
    cpuBursts := s.cpuBursts ++ [process.remainingTime] }

/-- Lines 386-397 of `io()`: as `cpuServe`, on the globals of the I/O side. -/
def ioServe (s : Sched) (process : Pa) (rest : LinkedList) : Sched :=
  let idle := if s.ioTime < process.arriveTime
    then s.ioIdleTime + (process.arriveTime - s.ioTime) else s.ioIdleTime
  let begin := if s.ioTime < process.arriveTime
    then process.arriveTime else s.ioTime
  let waiting := s.ioWaitingTime + (begin - process.arriveTime)
  { s with
    ioQueue := rest, ioIdleTime := idle, ioWaitingTime := waiting,
    ioTime := execute begin process.remainingTime,
    ioBursts := s.ioBursts ++ [process.remainingTime] }

/-- The value of type `int` (32 bits, two's complement) with the bits of the
integer `x`: what a variable of type `int` holds after an addition or a
subtraction whose exact result is `x`, as the usual compilers translate it (C
leaves a result outside the type undefined). -/
def wrap (x : Int) : Int :=
  (x + 2147483648) % 4294967296 - 2147483648

/-- The integer is a value of type `int`: from -2147483648 to 2147483647. -/
def Fits (x : Int) : Prop :=
  -2147483648 ≤ x ∧ x ≤ 2147483647

instance (x : Int) : Decidable (Fits x) := by
  unfold Fits
  infer_instance

/-- The loop `for (i = 0; i < remainingTime; i++) time++;` run for `n` rounds on
a variable `time` of type `int`. -/
def tickInt : Nat → Int → Int
  | 0, time => time
  | n + 1, time => tickInt n (wrap (time + 1))

/-- The execution loop of `cpu()` and `io()` on a clock of type `int`. -/
def executeInt (time remainingTime : Int) : Int :=
  tickInt remainingTime.toNat time

/-- Lines 246-260 of `cpu()` with the arithmetic of the type `int` of the
globals: as `cpuServe`, each sum and difference reduced to 32 bits. -/
def cpuServeInt (s : Sched) (process : Pa) (rest : LinkedList) : Sched :=
  let idle := if s.cpuTime < process.arriveTime
    then wrap (s.cpuIdleTime + wrap (process.arriveTime - s.cpuTime)) else s.cpuIdleTime
  let begin := if s.cpuTime < process.arriveTime
    then process.arriveTime else s.cpuTime
  let waiting := wrap (s.cpuWaitingTime + wrap (begin - process.arriveTime))
  { s with
    cpuQueue := rest, cpuIdleTime := idle, cpuWaitingTime := waiting,
    cpuTime := executeInt begin process.remainingTime,
    cpuBursts := s.cpuBursts ++ [process.remainingTime] }

/-- Lines 386-397 of `io()` with the arithmetic of the type `int` of the
globals: as `ioServe`, each sum and difference reduced to 32 bits. -/
def ioServeInt (s : Sched) (process : Pa) (rest : LinkedList) : Sched :=
  let idle := if s.ioTime < process.arriveTime
    then wrap (s.ioIdleTime + wrap (process.arriveTime - s.ioTime)) else s.ioIdleTime
  let begin := if s.ioTime < process.arriveTime
    then process.arriveTime else s.ioTime
  let waiting := wrap (s.ioWaitingTime + wrap (begin - process.arriveTime))
  { s with
    ioQueue := rest, ioIdleTime := idle, ioWaitingTime := waiting,
    ioTime := executeInt begin process.remainingTime,
    ioBursts := s.ioBursts ++ [process.remainingTime] }

/-- The record after `ac++; state = 1; arriveTime = time; remainingTime = next;`
(lines 265-269 of `cpu()`, lines 399-402 of `io()`). -/
def advance (process : Pa) (time next : Int) : Pa :=
  { process with
    ac := process.ac + 1, state := 1, arriveTime := time, remainingTime := next }

/-- One pass through the loop of `cpu()` (scheduler.c, lines 222-347). -/
def cpu (fopenOk : Bool) (s : Sched) : Option (Flow × Sched) :=
  if isEmpty s.cpuQueue ≠ 0 ∧ s.errState = 0 then
    some (Flow.blocked, s)
  else if s.errState = 1 then
    some (Flow.returned ERROR_CODE.E_SUCCESS, s)
  else if s.errState = 2 then
    some (Flow.returned ERROR_CODE.E_FAILURE, s)
  else
    match dequeue s.cpuQueue with
    | (_, _, none) => none
    | (_, rest, some process) =>
      let s1 := cpuServe s process rest
      if process.ac < process.totalAc then
        match readTimes process.times (process.ac + 1 - 1) with
        | none => none
        | some next =>
          let moved := advance process s1.cpuTime next
          if fopenOk then
            some (Flow.looped, { s1 with
              logA := s1.logA ++
                [Entry.finishCpu moved.pid moved.ac moved.arriveTime moved.remainingTime],
              ioQueue := (enqueue s1.ioQueue moved).2 })
          else
            some (Flow.returned ERROR_CODE.E_FILE_NOT_FOUND, { s1 with errState := 2 })
      else
        if fopenOk then
          let s2 : Sched := { s1 with
            logB := s1.logB ++ [Entry.terminated process.pid process.ac
              process.arriveTime process.remainingTime] }
          if isEmpty s2.cpuQueue ≠ 0 ∧ isEmpty s2.ioQueue ≠ 0 then
            some (Flow.returned ERROR_CODE.E_SUCCESS, { s2 with errState := 1 })
          else
            some (Flow.looped, s2)
        else
          some (Flow.returned ERROR_CODE.E_FILE_NOT_FOUND, { s1 with errState := 2 })

/-- One pass through the loop of `io()` (scheduler.c, lines 363-432). -/
def io (fopenOk : Bool) (s : Sched) : Option (Flow × Sched) :=
  if isEmpty s.ioQueue ≠ 0 ∧ s.errState = 0 then
    some (Flow.blocked, s)
  else if s.errState = 1 then
    some (Flow.returned ERROR_CODE.E_SUCCESS, s)
  else if s.errState = 2 then
    some (Flow.returned ERROR_CODE.E_FAILURE, s)
  else
    match dequeue s.ioQueue with
    | (_, _, none) => none
    | (_, rest, some process) =>
      let s1 := ioServe s process rest
      match readTimes process.times (process.ac + 1 - 1) with
      | none => none
      | some next =>
        let moved := advance process s1.ioTime next
        if fopenOk then
          some (Flow.looped, { s1 with
            logA := s1.logA ++
              [Entry.finishIo moved.pid moved.ac moved.arriveTime moved.remainingTime],
            cpuQueue := (enqueue s1.cpuQueue moved).2 })
        else
          some (Flow.returned ERROR_CODE.E_FILE_NOT_FOUND, { s1 with errState := 2 })

/-- The two worker threads started by `scheduler()`. -/
inductive Worker
  | cpuThread
  | ioThread
  deriving DecidableEq, Repr

/-- One pass through the loop of the given worker. -/
def body (w : Worker) (fopenOk : Bool) (s : Sched) : Option (Flow × Sched) :=
  match w with
  | Worker.cpuThread => cpu fopenOk s
  | Worker.ioThread => io fopenOk s

/-- The globals as initialised at program start, with empty queues and logs. -/
def start : Sched :=
  { errState := 0, cpuTime := 0, cpuIdleTime := 0, cpuWaitingTime := 0,
    ioTime := 0, ioIdleTime := 0, ioWaitingTime := 0,
    cpuQueue := newLinkedList, ioQueue := newLinkedList,
    logA := [], logB := [], cpuBursts := [], ioBursts := [] }

/-- The loop of `scheduler()` (lines 104-144) over the records made by
`createPA`: each is put at the end of `cpuQueue` and logged as a new process. -/
def seedLoop : List Pa → Sched → Sched
  | [], s => s
  | process :: later, s =>
    seedLoop later { s with
      cpuQueue := (enqueue s.cpuQueue process).2,
      logA := s.logA ++ [Entry.newProcess process.pid process.ac
        process.arriveTime process.remainingTime] }

/-- The state in which `scheduler()` creates the two threads. -/
def seed (processes : List Pa) : Sched :=
  seedLoop processes start

/-- A run: the worker steps taken in order, each with the result its `fopen`
would have. The result is `none` if some step has no defined behaviour. A
thread that has returned takes no further step in C; a run may list such steps,
and they change nothing: a thread returns only with `errState` at 1 or 2, and
from then on every step returns at once (`run_of_stopped`). -/
def run : List (Worker × Bool) → Sched → Option Sched
  | [], s => some s
  | (w, fopenOk) :: later, s =>
    match body w fopenOk s with
    | none => none
    | some (_, s1) => run later s1

/-- No `fopen` fails in the run (a step that opens no file does not use its
flag, which is then given as `true`). -/
def logsOpen (steps : List (Worker × Bool)) : Prop :=
  ∀ x ∈ steps, x.2 = true

/-- The process ids of the "is terminated" entries of a log, in order. -/
def terminatedPids : List Entry → List Int
  | [] => []
  | Entry.terminated pid _ _ _ :: later => pid :: terminatedPids later
  | _ :: later => terminatedPids later

/-! ## The threads, `scheduler()` and the values it reports -/

/-- The value of a quotient `(double) a / (double) b` of two `int` values, as
`scheduler()` prints it: the exact quotient when `b` is not 0 (rounding to a
`double`, and to two decimals by `%.2f`, is left out), and for `b = 0` the
special values of IEC 60559 arithmetic, which `printf` shows as `nan` or `inf`. -/
inductive DoubleValue
  /-- A number. -/
  | finite (q : ℚ)
  /-- The result of `0.0 / 0.0`. -/
  | notANumber
  /-- The result of `x / 0.0` for `x` other than 0, with the sign of `x`. -/
  | infinite (negative : Bool)
  deriving DecidableEq

/-- The quotient `(double) a / (double) b`. -/
def divide (a b : Int) : DoubleValue :=
  if b ≠ 0 then DoubleValue.finite ((a : ℚ) / (b : ℚ))
  else if a = 0 then DoubleValue.notANumber
  else DoubleValue.infinite (decide (a < 0))

/-- The four values `scheduler()` prints to `log-B` (lines 177-180). -/
structure Report where
  averageCpuWait : DoubleValue
  averageIoWait : DoubleValue
  cpuUtilization : DoubleValue
  ioUtilization : DoubleValue
  deriving DecidableEq

/-- Lines 177-180 of `scheduler()`: the four values computed from the globals
and `numProcesses`. -/
def statistics (s : Sched) (numProcesses : Int) : Report :=
  { averageCpuWait := divide s.cpuWaitingTime numProcesses,
    averageIoWait := divide s.ioWaitingTime numProcesses,
    cpuUtilization := divide (100 * (s.cpuTime - s.cpuIdleTime)) s.cpuTime,
    ioUtilization := divide (100 * (s.ioTime - s.ioIdleTime)) s.ioTime }

/-- The two threads of `scheduler()` between `pthread_create` and
`pthread_join`: the globals, and for each thread the value it has returned, if
it has returned (`returnValIo` is the variable `returnValIO` of the source). -/
structure Threads where
  globals : Sched
  returnValCPU : Option ERROR_CODE
  returnValIo : Option ERROR_CODE
  deriving DecidableEq

/-- One pass of a thread through its loop; a thread that has returned does
nothing more. -/
def threadStep (w : Worker) (fopenOk : Bool) (t : Threads) : Option Threads :=
  match w with
  | Worker.cpuThread =>
    match t.returnValCPU with
    | some _ => some t
    | none =>
      match cpu fopenOk t.globals with
      | none => none
      | some (Flow.returned code, s) => some { t with globals := s, returnValCPU := some code }
      | some (_, s) => some { t with globals := s }
  | Worker.ioThread =>
    match t.returnValIo with
    | some _ => some t
    | none =>
      match io fopenOk t.globals with
      | none => none
      | some (Flow.returned code, s) => some { t with globals := s, returnValIo := some code }
      | some (_, s) => some { t with globals := s }

/-- The passes of the two threads in the order given. -/
def threads : List (Worker × Bool) → Threads → Option Threads
  | [], t => some t
  | (w, fopenOk) :: later, t =>
    match threadStep w fopenOk t with
    | none => none
    | some t1 => threads later t1

/-- The two threads as `pthread_create` starts them on the seeded globals. -/
def spawn (processes : List Pa) : Threads :=
  { globals := seed processes, returnValCPU := none, returnValIo := none }

/-- Lines 162-189 of `scheduler()`: the result, and the values printed to
`log-B` if they are printed, from the values the two threads returned;
`logBOk` is the result of the `fopen` of `log-B`. -/
def collect (returnValCPU returnValIo : ERROR_CODE) (s : Sched) (numProcesses : Int)
    (logBOk : Bool) : ERROR_CODE × Option Report :=
  if returnValCPU ≠ ERROR_CODE.E_SUCCESS then (returnValCPU, none)
  else if returnValIo ≠ ERROR_CODE.E_SUCCESS then (returnValIo, none)
  else if logBOk then (ERROR_CODE.E_SUCCESS, some (statistics s numProcesses))
  else (ERROR_CODE.E_FILE_NOT_FOUND, none)

/-- The function `scheduler()` from line 150 on, for the records that
`createPA` has made: the threads run as `steps` says, and once both have
returned the result is collected. There is no result (`none`) if a step has no
defined behaviour or if a thread has not returned at the end of `steps`
(`pthread_join` still waits). Each `pthread_join` is taken to store the code
that its thread returned in the variable named in the call. The calls pass the
address of an `ERROR_CODE` of 4 bytes for a result of type `void*`: where a
pointer has 8 bytes the store also writes the 4 bytes that follow the variable,
and what lies there depends on the layout the compiler gives the local
variables, which this definition leaves out. When both threads have returned
`E_SUCCESS` these bytes are zero. -/
def scheduler (processes : List Pa) (steps : List (Worker × Bool)) (logBOk : Bool) :
    Option (ERROR_CODE × Option Report) :=
  match threads steps (spawn processes) with
  | none => none
  | some t =>
    match t.returnValCPU, t.returnValIo with
    | some returnValCPU, some returnValIo =>
      some (collect returnValCPU returnValIo t.globals processes.length logBOk)
    | _, _ => none

/-! ## `linkedList.c` at the level of nodes and pointers

The queues above are sequences of records. The definitions below follow
`linkedList.c` node by node; `Ptr.Represents` says which sequence a list of
nodes holds. -/

/-- The struct `LinkedListNode` of `linkedList.h`: `data` stands for the record
the pointer `data` points to, `next` is the address of the next node or `NULL`
(`none`). -/
structure Ptr.LinkedListNode where
  data : Pa
  next : Option Nat
  deriving DecidableEq

/-- The struct `LinkedList` of `linkedList.h` with the memory its nodes live
in: cell `i` of `heap` is the node at address `i`, or `none` when no node is
allocated there; `head` and `tail` are addresses or `NULL` (`none`). -/
structure Ptr.LinkedList where
  heap : List (Option Ptr.LinkedListNode)
  head : Option Nat
  tail : Option Nat
  deriving DecidableEq

/-- The function `newLinkedList` of `linkedList.c` (with `malloc` succeeding). -/
def Ptr.newLinkedList : Ptr.LinkedList :=
  { heap := [], head := none, tail := none }

/-- The function `enqueue` of `linkedList.c`; `mallocOk` says whether `malloc`
returns a node, whose address is then the first one not yet used. The result
is `none` when the code follows a pointer that is `NULL` or dangling. -/
def Ptr.enqueue (mallocOk : Bool) (list : Ptr.LinkedList) (data : Pa) :
    Option (ERROR_CODE × Ptr.LinkedList) :=
  if mallocOk = false then some (ERROR_CODE.E_OUT_OF_MEMORY, list)
  else
    let newNode := list.heap.length
    let heap1 := list.heap ++ [some { data := data, next := none }]
    match list.head with
    | none =>
      some (ERROR_CODE.E_SUCCESS, { heap := heap1, head := some newNode, tail := some newNode })
    | some _ =>
      match list.tail with
      | none => none
      | some last =>
        match heap1[last]? with
        | some (some node) =>
          some (ERROR_CODE.E_SUCCESS,
            { heap := heap1.set last (some { node with next := some newNode }),
              head := list.head, tail := some newNode })
        | _ => none

/-- The function `dequeue` of `linkedList.c`: the code returned, the list
afterwards, and the record written through `data`, if one is written. The
result is `none` when `head` is dangling. -/
def Ptr.dequeue (list : Ptr.LinkedList) :
    Option (ERROR_CODE × Ptr.LinkedList × Option Pa) :=
  match list.head with
  | none => some (ERROR_CODE.E_EMPTY_LIST, list, none)
  | some temp =>
    match list.heap[temp]? with
    | some (some node) =>
      some (ERROR_CODE.E_SUCCESS,
        { heap := list.heap.set temp none, head := node.next,
          tail := if node.next = none then none else list.tail },
        some node.data)
    | _ => none

/-- The function `isEmpty` of `linkedList.c`: `list->head == NULL`. -/
def Ptr.isEmpty (list : Ptr.LinkedList) : Int :=
  if list.head = none then 1 else 0

/-- The cells at the addresses `addresses` hold, in this order, nodes with the
data `q`, each pointing to the next and the last to `NULL`. -/
def Ptr.Linked (heap : List (Option Ptr.LinkedListNode)) : List Nat → List Pa → Prop
  | [], [] => True
  | a :: addresses, d :: q =>
    heap[a]? = some (some { data := d, next := addresses.head? }) ∧ Ptr.Linked heap addresses q
  | _, _ => False

/-- The list holds the sequence `q`: from `head` along `next` there are nodes
at pairwise distinct addresses with the data `q`, and `tail` is the last of
them. -/
def Ptr.Represents (list : Ptr.LinkedList) (q : List Pa) : Prop :=
  ∃ addresses : List Nat, addresses.Nodup ∧ Ptr.Linked list.heap addresses q ∧
    list.head = addresses.head? ∧ list.tail = addresses.getLast?

/-- The calls `enqueue(list, x)` for the records of a list in order, each with
`malloc` succeeding; `none` if a call does not return `E_SUCCESS`. -/
def Ptr.enqueueAll : Ptr.LinkedList → List Pa → Option Ptr.LinkedList
  | list, [] => some list
  | list, x :: later =>
    match Ptr.enqueue true list x with
    | some (ERROR_CODE.E_SUCCESS, list1) => Ptr.enqueueAll list1 later
    | _ => none

/-- The results of `n` calls of `dequeue` in a row: the records written, in
order, and the list afterwards; `none` if a call does not return `E_SUCCESS`
with a record. -/
def Ptr.dequeueAll : Nat → Ptr.LinkedList → Option (List Pa × Ptr.LinkedList)
  | 0, list => some ([], list)
  | n + 1, list =>
    match Ptr.dequeue list with
    | some (ERROR_CODE.E_SUCCESS, list1, some data) =>
      match Ptr.dequeueAll n list1 with
      | some (out, list2) => some (data :: out, list2)
      | none => none
    | _ => none

/-! ## Predicates and measures on states and steps -/

/-- The bookkeeping kept by every step whose `fopen` succeeds: each process id
is counted as often on the two queues and among the terminated entries of
`log-B` together as in the input, and `log-B` holds terminated entries only. -/
def Accounted (processes : List Pa) (s : Sched) : Prop :=
  (∀ x : Int, (s.cpuQueue.map Pa.pid).count x + (s.ioQueue.map Pa.pid).count x +
      (terminatedPids s.logB).count x = (processes.map Pa.pid).count x) ∧
  (terminatedPids s.logB).length = s.logB.length

/-- The value of `errState` is 0, 1 or 2, and at 1 both queues are empty. -/
def Settled (s : Sched) : Prop :=
  (s.errState = 0 ∨ s.errState = 1 ∨ s.errState = 2) ∧
  (s.errState = 1 → s.cpuQueue = [] ∧ s.ioQueue = [])

/-- While `errState` is 0 one of the two queues holds a record. -/
def Busy (s : Sched) : Prop :=
  s.errState = 0 → s.cpuQueue ≠ [] ∨ s.ioQueue ≠ []

/-- The step from `s` to `s1` wrote a terminated entry to `log-B`. -/
def retiredIn (s s1 : Sched) : Prop :=
  ∃ pid ac arrive time, s1.logB = s.logB ++ [Entry.terminated pid ac arrive time]

/-- The step of worker `w` from `s` to `s1` put a record at the end of the
queue of the other worker. -/
def handedOver (w : Worker) (s s1 : Sched) : Prop :=
  match w with
  | Worker.cpuThread => ∃ p, s1.ioQueue = s.ioQueue ++ [p]
  | Worker.ioThread => ∃ p, s1.cpuQueue = s.cpuQueue ++ [p]

/-- The queue a worker takes its records from. -/
def ownQueue (w : Worker) (s : Sched) : LinkedList :=
  match w with
  | Worker.cpuThread => s.cpuQueue
  | Worker.ioThread => s.ioQueue

/-- The clock of a worker: `cpuTime` or `ioTime`. -/
def ownTime (w : Worker) (s : Sched) : Int :=
  match w with
  | Worker.cpuThread => s.cpuTime
  | Worker.ioThread => s.ioTime

/-- The idle total of a worker: `cpuIdleTime` or `ioIdleTime`. -/
def ownIdleTime (w : Worker) (s : Sched) : Int :=
  match w with
  | Worker.cpuThread => s.cpuIdleTime
  | Worker.ioThread => s.ioIdleTime

/-- The waiting total of a worker: `cpuWaitingTime` or `ioWaitingTime`. -/
def ownWaitingTime (w : Worker) (s : Sched) : Int :=
  match w with
  | Worker.cpuThread => s.cpuWaitingTime
  | Worker.ioThread => s.ioWaitingTime

/-- For each side the idle total plus the bursts run so far make up the clock. -/
def Balanced (s : Sched) : Prop :=
  s.cpuIdleTime + s.cpuBursts.sum = s.cpuTime ∧ s.ioIdleTime + s.ioBursts.sum = s.ioTime

/-- The current burst and all bursts of the record are non-negative. -/
def NonNegative (p : Pa) : Prop :=
  0 ≤ p.remainingTime ∧ ∀ t ∈ p.times, 0 ≤ t

/-- The queue a worker puts its records on: the queue of the other worker. -/
def otherQueue (w : Worker) (s : Sched) : LinkedList :=
  match w with
  | Worker.cpuThread => s.ioQueue
  | Worker.ioThread => s.cpuQueue

/-- The globals after worker `w` has taken `process` from the head of its queue
and run its burst, with the arithmetic of the type `int`. -/
def serveInt (w : Worker) (s : Sched) (process : Pa) (rest : LinkedList) : Sched :=
  match w with
  | Worker.cpuThread => cpuServeInt s process rest
  | Worker.ioThread => ioServeInt s process rest

/-- The clock and the totals of worker `w` in `s` and the two times of the
record `p` are values of type `int`, and so is the result of every addition and
subtraction that lines 246-260 of `cpu()` (386-397 of `io()`) make of them. -/
def ServeFits (w : Worker) (s : Sched) (p : Pa) : Prop :=
  Fits (ownTime w s) ∧ Fits (ownIdleTime w s) ∧ Fits (ownWaitingTime w s) ∧
  Fits p.arriveTime ∧ Fits p.remainingTime ∧
  Fits (max 0 (p.arriveTime - ownTime w s)) ∧
  Fits (ownIdleTime w s + max 0 (p.arriveTime - ownTime w s)) ∧
  Fits (max 0 (ownTime w s - p.arriveTime)) ∧
  Fits (ownWaitingTime w s + max 0 (ownTime w s - p.arriveTime)) ∧
  Fits (max (ownTime w s) p.arriveTime + max p.remainingTime 0)

instance (w : Worker) (s : Sched) (p : Pa) : Decidable (ServeFits w s p) := by
  unfold ServeFits
  infer_instance

/-- The bursts that a record can still run: the current one and those after it
in `times`. -/
def budget (p : Pa) : Int :=
  p.remainingTime + (p.times.drop p.ac.toNat).sum

/-- The sum of the bursts run so far by both workers. -/
def spent (s : Sched) : Int :=
  s.cpuBursts.sum + s.ioBursts.sum

/-- Every queued record has `totalAc` equal to the number of its bursts. -/
def Shaped (s : Sched) : Prop :=
  ∀ p ∈ s.cpuQueue ++ s.ioQueue, p.totalAc = p.times.length

/-- Every queued record has `ac` at least 1; on `cpuQueue` it is at most
`totalAc + 1`, on `ioQueue` at most `totalAc`. -/
def Counted (s : Sched) : Prop :=
  (∀ p ∈ s.cpuQueue, 1 ≤ p.ac ∧ p.ac ≤ p.totalAc + 1) ∧
  (∀ p ∈ s.ioQueue, 1 ≤ p.ac ∧ p.ac ≤ p.totalAc)

/-- How the values returned by the threads go with `errState`: at 0 no thread
has returned; at 1 the CPU thread has returned `E_SUCCESS` and the I/O thread
that or nothing; at 2 one thread has returned `E_FILE_NOT_FOUND` and the other
`E_FAILURE` or nothing. -/
def Joined (t : Threads) : Prop :=
  (t.globals.errState = 0 ∧ t.returnValCPU = none ∧ t.returnValIo = none) ∨
  (t.globals.errState = 1 ∧ t.returnValCPU = some ERROR_CODE.E_SUCCESS ∧
    (t.returnValIo = none ∨ t.returnValIo = some ERROR_CODE.E_SUCCESS)) ∨
  (t.globals.errState = 2 ∧ t.returnValCPU = some ERROR_CODE.E_FILE_NOT_FOUND ∧
    (t.returnValIo = none ∨ t.returnValIo = some ERROR_CODE.E_FAILURE)) ∨
  (t.globals.errState = 2 ∧ t.returnValIo = some ERROR_CODE.E_FILE_NOT_FOUND ∧
    (t.returnValCPU = none ∨ t.returnValCPU = some ERROR_CODE.E_FAILURE))

/-- The idle totals are non-negative and no larger than their clocks. -/
def Ordered (s : Sched) : Prop :=
  0 ≤ s.cpuIdleTime ∧ s.cpuIdleTime ≤ s.cpuTime ∧ 0 ≤ s.ioIdleTime ∧ s.ioIdleTime ≤ s.ioTime

/-- The states of a run on records with bursts that are not negative and add up
to at most `total`: each side is balanced, no clock and no arrive time is
beyond the bursts run so far, and these with the bursts still to run stay
within `total`. -/
def Budgeted (total : Int) (s : Sched) : Prop :=
  Balanced s ∧ Ordered s ∧
  (∀ p ∈ s.cpuQueue ++ s.ioQueue, NonNegative p ∧ 0 ≤ p.arriveTime ∧ p.arriveTime ≤ spent s) ∧
  s.cpuTime ≤ spent s ∧ s.ioTime ≤ spent s ∧
  spent s + ((s.cpuQueue ++ s.ioQueue).map budget).sum ≤ total

/-- The terminated entry `cpu()` writes for a record. -/
def retirement (p : Pa) : Entry :=
  Entry.terminated p.pid p.ac p.arriveTime p.remainingTime

/-- The sum of the current bursts of the first `k` processes. -/
def finishTime (processes : List Pa) (k : Nat) : Int :=
  ((processes.take k).map Pa.remainingTime).sum

/-- The sum over the first `k` processes of the time each has waited when all
arrive at time 0 and are served in order: process `i + 1` waits
`finishTime processes i`. -/
def waitingTotal (processes : List Pa) (k : Nat) : Int :=
  ((List.range k).map (finishTime processes)).sum

/-- The state of a run on processes of one CPU burst each when the first `k`
of them have been retired. -/
def Served (processes : List Pa) (s : Sched) : Prop :=
  ∃ k, k ≤ processes.length ∧
    s.logB = (processes.take k).map retirement ∧
    s.cpuQueue = processes.drop k ∧ s.ioQueue = [] ∧
    s.cpuTime = finishTime processes k ∧ s.cpuIdleTime = 0 ∧
    s.cpuWaitingTime = waitingTotal processes k ∧
    (s.errState = 1 → k = processes.length)

/-! ## Sample inputs, runs and states -/

/-- A process of three bursts (CPU 2, I/O 3, CPU 1), as `createPA` leaves it. -/
def sampleLong : Pa :=
  { pid := 1, ac := 1, totalAc := 3, state := 2, arriveTime := 0, remainingTime := 2,
    times := [2, 3, 1] }

/-- A process of one CPU burst of length 4, as `createPA` leaves it (for a file
of one line `createPA` does not set `state`, which no worker reads; it is given
as 2 here). -/
def sampleShort : Pa :=
  { pid := 2, ac := 1, totalAc := 1, state := 2, arriveTime := 0, remainingTime := 4,
    times := [4] }

/-- A complete run on `sampleLong` and `sampleShort` in which every `fopen`
succeeds: the CPU hands the first to the I/O side and retires the second, the
I/O side hands the first back, the CPU retires it. -/
def sampleSteps : List (Worker × Bool) :=
  [(Worker.cpuThread, true), (Worker.cpuThread, true), (Worker.ioThread, true),
   (Worker.cpuThread, true)]

/-- The globals at the end of `sampleSteps`. -/
def sampleEnd : Sched :=
  { errState := 1, cpuTime := 7, cpuIdleTime := 0, cpuWaitingTime := 3,
    ioTime := 5, ioIdleTime := 2, ioWaitingTime := 0,
    cpuQueue := [], ioQueue := [],
    logA := [Entry.newProcess 1 1 0 2, Entry.newProcess 2 1 0 4, Entry.finishCpu 1 2 2 3,
      Entry.finishIo 1 3 5 1],
    logB := [Entry.terminated 2 1 0 4, Entry.terminated 1 3 5 1],
    cpuBursts := [2, 4, 1], ioBursts := [3] }

/-- The globals after the CPU has run the first burst of `sampleLong`, alone in
the input, and handed it to the I/O side. -/
def sampleMid : Sched :=
  { errState := 0, cpuTime := 2, cpuIdleTime := 0, cpuWaitingTime := 0,
    ioTime := 0, ioIdleTime := 0, ioWaitingTime := 0,
    cpuQueue := [],
    ioQueue := [advance sampleLong 2 3],
    logA := [Entry.newProcess 1 1 0 2, Entry.finishCpu 1 2 2 3],
    logB := [], cpuBursts := [2], ioBursts := [] }

/-- The globals after the CPU has retired `sampleShort`, alone in the input. -/
def sampleDone : Sched :=
  { errState := 1, cpuTime := 4, cpuIdleTime := 0, cpuWaitingTime := 0,
    ioTime := 0, ioIdleTime := 0, ioWaitingTime := 0,
    cpuQueue := [], ioQueue := [],
    logA := [Entry.newProcess 2 1 0 4], logB := [Entry.terminated 2 1 0 4],
    cpuBursts := [4], ioBursts := [] }

/-- The globals after the CPU has handed `sampleLong` to the I/O side and
retired `sampleShort`: the first two steps of `sampleSteps`. -/
def sampleHalf : Sched :=
  { errState := 0, cpuTime := 6, cpuIdleTime := 0, cpuWaitingTime := 2,
    ioTime := 0, ioIdleTime := 0, ioWaitingTime := 0,
    cpuQueue := [], ioQueue := [advance sampleLong 2 3],
    logA := [Entry.newProcess 1 1 0 2, Entry.newProcess 2 1 0 4, Entry.finishCpu 1 2 2 3],
    logB := [Entry.terminated 2 1 0 4],
    cpuBursts := [2, 4], ioBursts := [] }

/-- The globals after the I/O side has taken `sampleLong` in `sampleMid`, run
its burst of 3 and handed it back to the CPU. -/
def sampleBack : Sched :=
  { errState := 0, cpuTime := 2, cpuIdleTime := 0, cpuWaitingTime := 0,
    ioTime := 5, ioIdleTime := 2, ioWaitingTime := 0,
    cpuQueue := [advance (advance sampleLong 2 3) 5 1], ioQueue := [],
    logA := [Entry.newProcess 1 1 0 2, Entry.finishCpu 1 2 2 3, Entry.finishIo 1 3 5 1],
    logB := [], cpuBursts := [2], ioBursts := [3] }

/-- A process of two bursts (CPU 2, I/O 3), as `createPA` leaves it for a file
`PID-3` with the lines `1 CPU 2` and `2 I/O 3`. -/
def sampleEven : Pa :=
  { pid := 3, ac := 1, totalAc := 2, state := 1, arriveTime := 0, remainingTime := 2,
    times := [2, 3] }

/-- The globals after the CPU has run the first burst of `sampleEven`, alone in
the input: the record waits for the I/O side with its last burst. -/
def sampleEvenMid : Sched :=
  { errState := 0, cpuTime := 2, cpuIdleTime := 0, cpuWaitingTime := 0,
    ioTime := 0, ioIdleTime := 0, ioWaitingTime := 0,
    cpuQueue := [], ioQueue := [advance sampleEven 2 3],
    logA := [Entry.newProcess 3 1 0 2, Entry.finishCpu 3 2 2 3],
    logB := [], cpuBursts := [2], ioBursts := [] }

/-- The globals after the `fopen` of the first CPU step on `sampleLong` has
failed. -/
def sampleFailed : Sched :=
  { errState := 2, cpuTime := 2, cpuIdleTime := 0, cpuWaitingTime := 0,
    ioTime := 0, ioIdleTime := 0, ioWaitingTime := 0,
    cpuQueue := [], ioQueue := [],
    logA := [Entry.newProcess 1 1 0 2], logB := [],
    cpuBursts := [2], ioBursts := [] }

/-- A process of one CPU burst of length 3, as `createPA` leaves it (`state` as
for `sampleShort`). -/
def sampleThree : Pa :=
  { pid := 1, ac := 1, totalAc := 1, state := 2, arriveTime := 0, remainingTime := 3,
    times := [3] }

/-- The globals after the CPU has retired `sampleThree`, alone in the input. -/
def sampleThreeEnd : Sched :=
  { errState := 1, cpuTime := 3, cpuIdleTime := 0, cpuWaitingTime := 0,
    ioTime := 0, ioIdleTime := 0, ioWaitingTime := 0,
    cpuQueue := [], ioQueue := [],
    logA := [Entry.newProcess 1 1 0 3], logB := [Entry.terminated 1 1 0 3],
    cpuBursts := [3], ioBursts := [] }

/-- The values reported for `sampleThree`, alone in the input. -/
def reportThree : Report :=
  { averageCpuWait := DoubleValue.finite 0, averageIoWait := DoubleValue.finite 0,
    cpuUtilization := DoubleValue.finite 100, ioUtilization := DoubleValue.notANumber }

/-- The threads after the `fopen` of the first CPU step on `sampleLong` has
failed and the I/O thread has seen `errState` at 2. -/
def sampleFailedThreads : Threads :=
  { globals := sampleFailed, returnValCPU := some ERROR_CODE.E_FILE_NOT_FOUND,
    returnValIo := some ERROR_CODE.E_FAILURE }

/-- A process of one CPU burst of length 5 and one of length 2, as `createPA`
leaves them (`state` as for `sampleShort`). -/
def sampleFiveTwo : List Pa :=
  [{ pid := 1, ac := 1, totalAc := 1, state := 2, arriveTime := 0, remainingTime := 5,
     times := [5] },
   { pid := 2, ac := 1, totalAc := 1, state := 2, arriveTime := 0, remainingTime := 2,
     times := [2] }]

/-- The globals after the CPU has retired both processes of `sampleFiveTwo`. -/
def sampleFiveTwoEnd : Sched :=
  { errState := 1, cpuTime := 7, cpuIdleTime := 0, cpuWaitingTime := 5,
    ioTime := 0, ioIdleTime := 0, ioWaitingTime := 0,
    cpuQueue := [], ioQueue := [],
    logA := [Entry.newProcess 1 1 0 5, Entry.newProcess 2 1 0 2],
    logB := [Entry.terminated 1 1 0 5, Entry.terminated 2 1 0 2],
    cpuBursts := [5, 2], ioBursts := [] }

/-- The globals at the end of the run on `sampleLong`, alone in the input. -/
def sampleLongEnd : Sched :=
  { errState := 1, cpuTime := 6, cpuIdleTime := 3, cpuWaitingTime := 0,
    ioTime := 5, ioIdleTime := 2, ioWaitingTime := 0,
    cpuQueue := [], ioQueue := [],
    logA := [Entry.newProcess 1 1 0 2, Entry.finishCpu 1 2 2 3, Entry.finishIo 1 3 5 1],
    logB := [Entry.terminated 1 3 5 1],
    cpuBursts := [2, 1], ioBursts := [3] }

/-- The values reported for `sampleLong`, alone in the input. -/
def reportLong : Report :=
  { averageCpuWait := DoubleValue.finite 0, averageIoWait := DoubleValue.finite 0,
    cpuUtilization := DoubleValue.finite 50, ioUtilization := DoubleValue.finite 60 }

/-- A list of one node, at address 0, with the record `sampleLong`. -/
def sampleList : Ptr.LinkedList :=
  Ptr.LinkedList.mk [some (Ptr.LinkedListNode.mk sampleLong none)] (some 0) (some 0)

/-- A process of one CPU burst of length 2147483647, the largest value of type
`int`, as `createPA` leaves it for a file `PID-5` with the line
`1 CPU 2147483647` (`state` as for `sampleShort`). -/
def sampleLast : Pa :=
  { pid := 5, ac := 1, totalAc := 1, state := 2, arriveTime := 0,
    remainingTime := 2147483647, times := [2147483647] }

/-- A process of one CPU burst of length 1, as `createPA` leaves it for a file
`PID-6` with the line `1 CPU 1` (`state` as for `sampleShort`). -/
def sampleTick : Pa :=
  { pid := 6, ac := 1, totalAc := 1, state := 2, arriveTime := 0, remainingTime := 1,
    times := [1] }

/-- The globals after the CPU has retired `sampleLast`, the first process of the
input `sampleLast`, `sampleTick`: `cpuTime` is the largest value of type `int`
and `sampleTick` waits for the CPU. -/
def sampleBrim : Sched :=
  { errState := 0, cpuTime := 2147483647, cpuIdleTime := 0, cpuWaitingTime := 0,
    ioTime := 0, ioIdleTime := 0, ioWaitingTime := 0,
    cpuQueue := [sampleTick], ioQueue := [],
    logA := [Entry.newProcess 5 1 0 2147483647, Entry.newProcess 6 1 0 1],
    logB := [Entry.terminated 5 1 0 2147483647],
    cpuBursts := [2147483647], ioBursts := [] }

/-- The globals after the CPU has retired `sampleTick` in `sampleBrim`, in exact
integers: `cpuTime` is 2147483648, which is not a value of type `int`. -/
def sampleOver : Sched :=
  { errState := 1, cpuTime := 2147483648, cpuIdleTime := 0, cpuWaitingTime := 2147483647,
    ioTime := 0, ioIdleTime := 0, ioWaitingTime := 0,
    cpuQueue := [], ioQueue := [],
    logA := [Entry.newProcess 5 1 0 2147483647, Entry.newProcess 6 1 0 1],
    logB := [Entry.terminated 5 1 0 2147483647, Entry.terminated 6 1 0 1],
    cpuBursts := [2147483647, 1], ioBursts := [] }

/-! ## Reading a process description: `getLines` and `createPA`

A string of C is a list of characters; in an array of `char` it ends before the
first NUL. A file is the list of its bytes, or `none` when `fopen` fails. -/

/-- The character NUL. -/
def nul : Char := Char.ofNat 0

/-- The character newline. -/
def newline : Char := Char.ofNat 10

/-- The string held by an array of `char`: the characters before the first
NUL. -/
def cString (buffer : List Char) : List Char :=
  buffer.takeWhile (fun c => c != nul)

/-- The call `strncpy(dest, src, n)`: the `n` characters written to `dest`, the
characters of `src` up to its first NUL or up to `n` of them, then NUL up to
`n`. Without a NUL among fewer than `n` characters of `src` the call reads past
the end of `src`. -/
def strncpy (src : List Char) (n : Nat) : Option (List Char) :=
  if n ≤ src.length ∨ nul ∈ src then
    some (cString (src.take n) ++ List.replicate (n - (cString (src.take n)).length) nul)
  else none

/-- The first loop of `getLines`: `count` passes are left, `i` is the index
into `buffer`; the result is the buffer and `numLines`. -/
def countLoop (bytes : Int) : Nat → Nat → List Char → Int → List Char × Int
  | 0, _, buffer, numLines => (buffer, numLines)
  | count + 1, i, buffer, numLines =>
    if buffer[i]? = some newline then
      countLoop bytes count (i + 1) (buffer.set i nul) (numLines + 1)
    else if (i : Int) = bytes - 1 then countLoop bytes count (i + 1) buffer (numLines + 1)
    else countLoop bytes count (i + 1) buffer numLines

/-- The second loop of `getLines`: `count` passes are left, `i` is the index
into `buffer`, `lines` holds the `j` elements stored so far. An index before the
buffer gives no defined result. -/
def copyLoop (buffer : List Char) (numLines : Int) :
    Nat → Nat → Int → List (List Char) → Option (List (List Char))
  | 0, _, _, lines => some lines
  | count + 1, i, numChars, lines =>
    if buffer[i]? = some nul ∧ (lines.length : Int) < numLines then
      if 0 ≤ (i : Int) + 1 - numChars ∧ 0 ≤ numChars then
        match strncpy (buffer.drop ((i : Int) + 1 - numChars).toNat) numChars.toNat with
        | none => none
        | some line => copyLoop buffer numLines count (i + 1) (0 + 1) (lines ++ [line])
      else none
    else copyLoop buffer numLines count (i + 1) (numChars + 1) lines

/-- The function `getLines` of `scheduler.c` for the content of the file `job`
(`none` when the file cannot be opened): the code returned and, on success, the
array stored through `lines` and the number stored through `numJobs`. The
buffer has one element more than the file has bytes; that element is written
before it is read. The outer `none` stands for a call without defined
behaviour. -/
def getLines (file : Option (List Char)) :
    Option (ERROR_CODE × Option (List (List Char) × Int)) :=
  match file with
  | none => some (ERROR_CODE.E_FILE_NOT_FOUND, none)
  | some content =>
    match copyLoop ((countLoop content.length content.length 0 (content ++ [nul]) 0).1.set
        content.length nul) (countLoop content.length content.length 0 (content ++ [nul]) 0).2
        (content.length + 1) 0 1 [] with
    | none => none
    | some lines =>
      some (ERROR_CODE.E_SUCCESS,
        some (lines, (countLoop content.length content.length 0 (content ++ [nul]) 0).2))

/-- The lines of a text as the specification describes them: the text between
one newline and the next, an empty line kept as an empty string, and no element
for what follows a final newline. `current` holds the characters of the line
that is being read. -/
def textLines (current : List Char) : List Char → List (List Char)
  | [] => if current = [] then [] else [current]
  | c :: rest =>
    if c = newline then current :: textLines [] rest else textLines (current ++ [c]) rest

/-- A file of three lines, the second of them empty, with a final newline. -/
def sampleText : List Char := ['a', 'b', newline, newline, 'c', newline]

/-- The text made of the lines of a list, each followed by a newline. -/
def joinLines : List (List Char) → List Char
  | [] => []
  | line :: rest => line ++ newline :: joinLines rest

/-- A directive of a format of `sscanf`: white space, the conversion `%d`, or a
character that the input has to match. -/
inductive Directive
  | white
  | number
  | literal (c : Char)
  deriving DecidableEq, Repr

/-- The function `isspace` of C. -/
def isSpace (c : Char) : Bool :=
  c = ' ' ∨ (9 ≤ c.toNat ∧ c.toNat ≤ 13)

/-- The function `isdigit` of C. -/
def isDigit (c : Char) : Bool :=
  48 ≤ c.toNat ∧ c.toNat ≤ 57

/-- The directives of a format in which `%d` is the only conversion and `%%`
stands for the character `%`. -/
def parseFormat : List Char → List Directive
  | [] => []
  | [c] => if isSpace c then [Directive.white] else [Directive.literal c]
  | c :: d :: rest =>
    if c = '%' ∧ d = 'd' then Directive.number :: parseFormat rest
    else if c = '%' ∧ d = '%' then Directive.literal '%' :: parseFormat rest
    else if isSpace c then Directive.white :: parseFormat (d :: rest)
    else Directive.literal c :: parseFormat (d :: rest)

/-- The input without its leading white space. -/
def skipSpace : List Char → List Char
  | [] => []
  | c :: rest => if isSpace c then skipSpace rest else c :: rest

/-- The number written by a string of decimal digits. -/
def valueOf (digits : List Char) : Nat :=
  digits.foldl (fun n c => 10 * n + (c.toNat - 48)) 0

/-- The value that the conversion `%d` stores in its `int` for a number `v`
written in the input: the library converts the digits as `strtol` does, to a
`long` of 64 bits, which holds the nearest value of its range when `v` is
outside, and the `int` receives the low 32 bits of that. -/
def storeNumber (v : Int) : Int :=
  wrap (max (-9223372036854775808) (min v 9223372036854775807))

/-- The conversion `%d` on an input without leading white space: an optional
sign and at least one digit; the result is the value stored and the rest of the
input. -/
def scanNumber (input : List Char) : Option (Int × List Char) :=
  match input with
  | [] => none
  | c :: rest =>
    if c = '-' then
      if (rest.span isDigit).1 = [] then none
      else some (storeNumber (-(valueOf (rest.span isDigit).1 : Int)), (rest.span isDigit).2)
    else if c = '+' then
      if (rest.span isDigit).1 = [] then none
      else some (storeNumber (valueOf (rest.span isDigit).1 : Int), (rest.span isDigit).2)
    else
      if ((c :: rest).span isDigit).1 = [] then none
      else some (storeNumber (valueOf ((c :: rest).span isDigit).1 : Int),
        ((c :: rest).span isDigit).2)

/-- The directives of `sscanf` one after the other: the value returned (the
number of values assigned, or -1 for `EOF` when the input ends before the first
of them) and the values assigned. -/
def sscanfLoop : List Directive → List Char → List Int → Int × List Int
  | [], _, assigned => (assigned.length, assigned)
  | Directive.white :: format, input, assigned => sscanfLoop format (skipSpace input) assigned
  | Directive.literal c :: format, input, assigned =>
    match input with
    | [] => (if assigned = [] then -1 else assigned.length, assigned)
    | d :: rest =>
      if d = c then sscanfLoop format rest assigned else (assigned.length, assigned)
  | Directive.number :: format, input, assigned =>
    match skipSpace input with
    | [] => (if assigned = [] then -1 else assigned.length, assigned)
    | d :: rest =>
      match scanNumber (d :: rest) with
      | none => (assigned.length, assigned)
      | some (v, rest2) => sscanfLoop format rest2 (assigned ++ [v])

/-- The call `sscanf(str, format, ...)`. -/
def sscanf (str format : List Char) : Int × List Int :=
  sscanfLoop (parseFormat format) str []

/-- The string that `sprintf(format, "%d %3s %%d\n", i+1, state)` writes. -/
def formatOf (k : Nat) (state : List Char) : List Char :=
  Nat.toDigits 10 k ++ [' '] ++ state ++ [' ', '%', 'd', newline]

/-- The loop of `createPA` over the lines after the first: `count` passes are
left, `i` is the index of the line, `times` holds the `i` values stored so far.
The result is the code with which `createPA` returns from inside the loop, or
`E_SUCCESS` at its end, and `times`. A format of more than 11 characters does
not fit into `format`. -/
def activityLoop (lines : List (List Char)) : Nat → Nat → List Int →
    Option (ERROR_CODE × List Int)
  | 0, _, times => some (ERROR_CODE.E_SUCCESS, times)
  | count + 1, i, times =>
    if (formatOf (i + 1) (if (i + 1) % 2 = 0 then ['I', '/', 'O'] else ['C', 'P', 'U'])).length
        + 1 ≤ 12 then
      match lines[i]? with
      | none => none
      | some line =>
        if (sscanf (cString line)
            (formatOf (i + 1) (if (i + 1) % 2 = 0 then ['I', '/', 'O'] else ['C', 'P', 'U']))).1
            ≠ 1 then
          some (ERROR_CODE.E_INVALID_INPUT, times)
        else
          activityLoop lines count (i + 1) (times ++ (sscanf (cString line)
            (formatOf (i + 1)
              (if (i + 1) % 2 = 0 then ['I', '/', 'O'] else ['C', 'P', 'U']))).2)
    else none

/-- The function `createPA` of `scheduler.c` for the file name `job` and the
content of that file: the code returned and, on success, the record stored
through `process`. With one line in the file the array `state` is never
written, and the field `state` of the record has the indeterminate value
`stray`. The outer `none` stands for a call without defined behaviour, as the
read of `lines[0]` in an array of no elements. -/
def createPA (job : List Char) (file : Option (List Char)) (stray : Int) :
    Option (ERROR_CODE × Option Pa) :=
  match getLines file with
  | none => none
  | some (_, none) => some (ERROR_CODE.E_INVALID_INPUT, none)
  | some (code, some (lines, numActivities)) =>
    if code ≠ ERROR_CODE.E_SUCCESS then some (ERROR_CODE.E_INVALID_INPUT, none)
    else if (sscanf job ['P', 'I', 'D', '-', '%', 'd']).1 ≠ 1 then
      some (ERROR_CODE.E_INVALID_INPUT, none)
    else
      match lines[0]? with
      | none => none
      | some first =>
        if (sscanf (cString first) ['%', 'd', ' ', 'C', 'P', 'U', ' ', '%', 'd', newline]).1 ≠ 2
        then some (ERROR_CODE.E_INVALID_INPUT, none)
        else
          match activityLoop lines (numActivities.toNat - 1) 1
              ((sscanf (cString first)
                ['%', 'd', ' ', 'C', 'P', 'U', ' ', '%', 'd', newline]).2.drop 1) with
          | none => none
          | some (result, times) =>
            if result ≠ ERROR_CODE.E_SUCCESS then some (result, none)
            else
              some (ERROR_CODE.E_SUCCESS, some
                { pid := (sscanf job ['P', 'I', 'D', '-', '%', 'd']).2.headD 0,
                  ac := (sscanf (cString first)
                    ['%', 'd', ' ', 'C', 'P', 'U', ' ', '%', 'd', newline]).2.headD 0,
                  totalAc := numActivities,
                  state := if numActivities ≤ 1 then stray
                    else if numActivities % 2 = 0 then 1 else 2,
                  arriveTime := 0,
                  remainingTime := ((sscanf (cString first)
                    ['%', 'd', ' ', 'C', 'P', 'U', ' ', '%', 'd', newline]).2.drop 1).headD 0,
                  times := times })

/-- A description of three bursts in the form that `createPA` expects. -/
def sampleJob : List Char :=
  ['1', ' ', 'C', 'P', 'U', ' ', '2', newline, '2', ' ', 'I', '/', 'O', ' ', '3', newline,
    '3', ' ', 'C', 'P', 'U', ' ', '1', newline]

/-- A description of one burst whose line has the activity number 7. -/
def sampleSeven : List Char := ['7', ' ', 'C', 'P', 'U', ' ', '3', newline]

/-- The file name `PID-1`. -/
def sampleName : List Char := ['P', 'I', 'D', '-', '1']

/-- The description `sampleJob` with the activity number 3 on its second line. -/
def sampleMisnumbered : List Char :=
  ['1', ' ', 'C', 'P', 'U', ' ', '2', newline, '3', ' ', 'I', '/', 'O', ' ', '3', newline]

/-- A description of two bursts whose second line names the CPU. -/
def sampleTwice : List Char :=
  ['1', ' ', 'C', 'P', 'U', ' ', '2', newline, '2', ' ', 'C', 'P', 'U', ' ', '3', newline]

/-- A description of one burst whose line names the I/O device. -/
def sampleDevice : List Char := ['1', ' ', 'I', '/', 'O', ' ', '2', newline]

/-! ## Runs on processes of an odd number of bursts -/

/-- A record as `createPA` makes it of a description with an odd number of
lines: it is at its first burst, `times` has `totalAc` elements and `totalAc` is
odd. -/
def OddBursts (p : Pa) : Prop :=
  p.ac = 1 ∧ p.totalAc = p.times.length ∧ p.totalAc % 2 = 1

/-- A record of an odd number of bursts that waits for a CPU burst: `ac` is odd
and at most `totalAc`. -/
def CpuReady (p : Pa) : Prop :=
  1 ≤ p.ac ∧ p.ac ≤ p.totalAc ∧ p.ac % 2 = 1 ∧ p.totalAc % 2 = 1 ∧
    p.totalAc = p.times.length

/-- A record of an odd number of bursts that waits for an I/O burst: `ac` is
even and less than `totalAc`. -/
def IoReady (p : Pa) : Prop :=
  1 ≤ p.ac ∧ p.ac < p.totalAc ∧ p.ac % 2 = 0 ∧ p.totalAc % 2 = 1 ∧
    p.totalAc = p.times.length

/-- The states of a run without log failure on processes of an odd number of
bursts: `errState` is 0 or 1, at 0 a queue holds a record, at 1 both queues are
empty, and every queued record waits for a burst of the kind of its queue. -/
def Alternating (s : Sched) : Prop :=
  (s.errState = 0 ∨ s.errState = 1) ∧
  (s.errState = 0 → s.cpuQueue ≠ [] ∨ s.ioQueue ≠ []) ∧
  (s.errState = 1 → s.cpuQueue = [] ∧ s.ioQueue = []) ∧
  (∀ p ∈ s.cpuQueue, CpuReady p) ∧ (∀ p ∈ s.ioQueue, IoReady p)

/-- The number of bursts that the records of a queue still have to run, the
current one included. -/
def burstsLeft (queue : LinkedList) : Nat :=
  (queue.map (fun p => (p.totalAc - p.ac + 1).toNat)).sum

/-- The number of bursts that the queued records still have to run. -/
def work (s : Sched) : Nat :=
  burstsLeft s.cpuQueue + burstsLeft s.ioQueue

/-- The state without the text of `log-A`. -/
def forget (s : Sched) : Sched :=
  { s with logA := [] }

/-- The pass of worker `w` that starts in `s` takes a record from its queue: it
does not wait and does not return at the test of `errState`. -/
def Takes (w : Worker) (s : Sched) : Prop :=
  ¬ (isEmpty (ownQueue w s) ≠ 0 ∧ s.errState = 0) ∧ s.errState ≠ 1 ∧ s.errState ≠ 2

instance (w : Worker) (s : Sched) : Decidable (Takes w s) := by
  unfold Takes
  infer_instance

/-- The number of passes of a run that take a record. -/
def worked : List (Worker × Bool) → Sched → Nat
  | [], _ => 0
  | (w, fopenOk) :: later, s =>
    match body w fopenOk s with
    | none => 0
    | some (_, s1) => (if Takes w s then 1 else 0) + worked later s1

/-- A process of three bursts (CPU 1, I/O 2, CPU 1), as `createPA` leaves it. -/
def sampleTwin : Pa :=
  { pid := 4, ac := 1, totalAc := 3, state := 2, arriveTime := 0, remainingTime := 1,
    times := [1, 2, 1] }

/-- A complete run on `sampleLong` and `sampleTwin` in which the CPU runs the
first burst of both before the I/O side takes a step. -/
def sampleStepsLate : List (Worker × Bool) :=
  [(Worker.cpuThread, true), (Worker.cpuThread, true), (Worker.ioThread, true),
   (Worker.ioThread, true), (Worker.cpuThread, true), (Worker.cpuThread, true)]

/-- A complete run on `sampleLong` and `sampleTwin` in which the I/O side takes
the first process before the CPU runs the second, and waits once. -/
def sampleStepsEarly : List (Worker × Bool) :=
  [(Worker.cpuThread, true), (Worker.ioThread, true), (Worker.ioThread, true),
   (Worker.cpuThread, true), (Worker.ioThread, true), (Worker.cpuThread, true),
   (Worker.cpuThread, true)]

/-- The globals at the end of `sampleStepsLate`. -/
def sampleLateEnd : Sched :=
  { errState := 1, cpuTime := 8, cpuIdleTime := 3, cpuWaitingTime := 2,
    ioTime := 7, ioIdleTime := 2, ioWaitingTime := 2,
    cpuQueue := [], ioQueue := [],
    logA := [Entry.newProcess 1 1 0 2, Entry.newProcess 4 1 0 1, Entry.finishCpu 1 2 2 3,
      Entry.finishCpu 4 2 3 2, Entry.finishIo 1 3 5 1, Entry.finishIo 4 3 7 1],
    logB := [Entry.terminated 1 3 5 1, Entry.terminated 4 3 7 1],
    cpuBursts := [2, 1, 1, 1], ioBursts := [3, 2] }

/-- The globals at the end of `sampleStepsEarly`: `log-A` has its entries in
another order than in `sampleLateEnd`. -/
def sampleEarlyEnd : Sched :=
  { errState := 1, cpuTime := 8, cpuIdleTime := 3, cpuWaitingTime := 2,
    ioTime := 7, ioIdleTime := 2, ioWaitingTime := 2,
    cpuQueue := [], ioQueue := [],
    logA := [Entry.newProcess 1 1 0 2, Entry.newProcess 4 1 0 1, Entry.finishCpu 1 2 2 3,
      Entry.finishIo 1 3 5 1, Entry.finishCpu 4 2 3 2, Entry.finishIo 4 3 7 1],
    logB := [Entry.terminated 1 3 5 1, Entry.terminated 4 3 7 1],
    cpuBursts := [2, 1, 1, 1], ioBursts := [3, 2] }

/-- The current burst of the record is the one its activity number names:
`remainingTime` is `times[ac-1]`. -/
def Current (p : Pa) : Prop :=
  readTimes p.times (p.ac - 1) = some p.remainingTime

/-- Every queued record waits for a burst of the kind of its queue, with its
activity number within its bursts, and holds that burst as `remainingTime`. -/
def Ready (s : Sched) : Prop :=
  (∀ p ∈ s.cpuQueue, CpuReady p ∧ Current p) ∧ (∀ p ∈ s.ioQueue, IoReady p ∧ Current p)

end Scheduler

/-!
# ARchiver: a shallow embedding of `src/ARchiver`

Conventions of the embedding:

* a value of type `HuffNode*` is a tree value: the null pointer, or a node with
  its four fields (no node is shared between two trees of one array);
* a `char` is signed, as `decode` needs for its test `symbol != -1`, so a
  symbol is an integer from `-128` to `127`;
* an array is a list, an index is a natural number, and an access outside the
  array, like the use of a null pointer, has no defined behaviour: the result
  is `none`;
* `malloc` succeeds;
* a loop is a function with a fuel argument; the functions that call it give
  enough fuel for every pass the loop can make.
-/

namespace ARchiver

/-- A value of type `HuffNode*` of `Huffman.h`. -/
inductive HuffNode
  | null
  | node (symbol : Int) (freq : Int) (left right : HuffNode)
  deriving DecidableEq, Repr

/-- The field read `node->freq`. -/
def freq : HuffNode → Option Int
  | HuffNode.null => none
  | HuffNode.node _ f _ _ => some f

/-- The field read `node->symbol`. -/
def symbol : HuffNode → Option Int
  | HuffNode.null => none
  | HuffNode.node s _ _ _ => some s

/-- The expression `(currIdx - 1)/2` of `insert`: the division of C truncates
toward zero, so the value at index 0 is 0. -/
def parentOf (currIdx : Nat) : Nat :=
  (Int.tdiv ((currIdx : Int) - 1) 2).toNat

/-- The loop of `insert`, from the test of its condition. -/
def trickleUp : Nat → List HuffNode → Nat → Option (List HuffNode)
  | 0, _, _ => none
  | fuel + 1, heap, currIdx =>
    match heap[parentOf currIdx]?, heap[currIdx]? with
    | some p, some c =>
      match freq p, freq c with
      | some fp, some fc =>
        if fp > fc then
          trickleUp fuel ((heap.set (parentOf currIdx) c).set currIdx p) (parentOf currIdx)
        else some heap
      | _, _ => none
    | _, _ => none

/-- The function `insert` of `Heap.c`: the array and the size after the call. -/
def insert (heap : List HuffNode) (size : Int) (node : HuffNode) :
    Option (List HuffNode × Int) :=
  if 0 ≤ size ∧ size < heap.length then
    (trickleUp (size.toNat + 1) (heap.set size.toNat node) size.toNat).map
      (fun h => (h, size + 1))
  else none

/-- The loop of `removeNode`, from the test of its condition; `size` is the
size after the decrement. -/
def trickleDown : Nat → List HuffNode → Nat → Nat → Option (List HuffNode)
  | 0, _, _, _ => none
  | fuel + 1, heap, size, currIdx =>
    if currIdx < size / 2 then
      match heap[currIdx]?, heap[currIdx * 2 + 1]?, heap[currIdx * 2 + 2]? with
      | some c, some l, some r =>
        match freq c, freq l, freq r with
        | some fc, some fl, some fr =>
          if fc > fl ∨ fc > fr then
            if fl < fr then
              trickleDown fuel ((heap.set currIdx l).set (currIdx * 2 + 1) c) size
                (currIdx * 2 + 1)
            else
              trickleDown fuel ((heap.set currIdx r).set (currIdx * 2 + 2) c) size
                (currIdx * 2 + 2)
          else some heap
        | _, _, _ => none
      | _, _, _ => none
    else some heap

/-- The function `removeNode` of `Heap.c`: the node returned, the array and the
size after the call. -/
def removeNode (heap : List HuffNode) (size : Int) :
    Option (HuffNode × List HuffNode × Int) :=
  if 1 ≤ size then
    match heap[0]?, heap[(size - 1).toNat]? with
    | some node, some last =>
      (trickleDown size.toNat (heap.set 0 last) (size - 1).toNat 0).map
        (fun h => (node, h, size - 1))
    | _, _ => none
  else none

/-- The `freq` of a node, 0 for the null pointer. -/
def key (node : HuffNode) : Int := (freq node).getD 0

/-- The `freq` of the node at index `i` (0 where there is no node). -/
def keyAt (heap : List HuffNode) (i : Nat) : Int := ((heap[i]?).map key).getD 0

/-- The first `size` elements of the array are nodes, not null pointers. -/
def Nodes (heap : List HuffNode) (size : Nat) : Prop :=
  ∀ i, i < size → ∃ s f l r, heap[i]? = some (HuffNode.node s f l r)

/-- The first `size` elements are nodes and form a min-heap by `freq`: each of
them but the first has a parent of no greater `freq`. -/
def MinHeap (heap : List HuffNode) (size : Nat) : Prop :=
  Nodes heap size ∧ ∀ i, 1 ≤ i → i < size → keyAt heap ((i - 1) / 2) ≤ keyAt heap i

/-- A leaf with the given symbol and frequency. -/
def leaf (symbol freq : Int) : HuffNode :=
  HuffNode.node symbol freq HuffNode.null HuffNode.null

/-- A heap of four leaves in an array of five elements. -/
def sampleHeap : List HuffNode :=
  [leaf 97 1, leaf 98 3, leaf 99 2, leaf 100 5, HuffNode.null]

/-- The leaves of a tree, from left to right: the nodes whose two children are
null pointers. -/
def leaves : HuffNode → List HuffNode
  | HuffNode.null => []
  | HuffNode.node s f l r =>
    if l = HuffNode.null ∧ r = HuffNode.null then [HuffNode.node s f l r]
    else leaves l ++ leaves r

/-- The leaves of the trees of a list. -/
def forest : List HuffNode → List HuffNode
  | [] => []
  | x :: t => leaves x ++ forest t

/-- The tree that `buildTree` makes of `sampleHeap`. -/
def sampleTree : HuffNode :=
  HuffNode.node (-1) 11 (leaf 100 5)
    (HuffNode.node (-1) 6 (leaf 98 3) (HuffNode.node (-1) 3 (leaf 97 1) (leaf 99 2)))

/-- The string held by a buffer, as `strlen` and `strcpy` read it: the
characters before the first NUL. -/
def cString (buffer : List Char) : List Char :=
  buffer.takeWhile (fun c => c != Char.ofNat 0)

/-- The function `buildCodeTable` of `Huffman.c`: the table and the buffer
`code` after the call. The table is indexed from 0 (it is the array that
`compressFile` allocates); an entry is a null pointer (`none`) or a string. -/
def buildCodeTable : HuffNode → List (Option (List Char)) → List Char → Nat →
    Option (List (Option (List Char)) × List Char)
  | HuffNode.null, _, _, _ => none
  | HuffNode.node s _ l r, codeTable, code, level =>
    if l = HuffNode.null ∧ r = HuffNode.null then
      if level < code.length ∧ 0 ≤ s ∧ s < codeTable.length then
        some (codeTable.set s.toNat (some (cString (code.set level (Char.ofNat 0)))),
          code.set level (Char.ofNat 0))
      else none
    else
      if level < code.length then
        match buildCodeTable l codeTable (code.set level '0') (level + 1) with
        | none => none
        | some (table1, code1) => buildCodeTable r table1 (code1.set level '1') (level + 1)
      else none

/-- The loop of `decode`: `count` passes are left, `i` is the index into
`binary`, `decoded` holds the `j` symbols written so far, in a buffer of
`uncompressed + 1` characters. -/
def decodeLoop (root : HuffNode) (binary : List Char) (uncompressed : Int) :
    Nat → Nat → HuffNode → List Int → Option (HuffNode × List Int)
  | 0, _, node, decoded => some (node, decoded)
  | count + 1, i, node, decoded =>
    match binary[i]?, node with
    | some ch, HuffNode.node _ _ l r =>
      match (if ch = '0' then l else r) with
      | HuffNode.null => none
      | HuffNode.node s f l1 r1 =>
        if s ≠ -1 then
          if (decoded.length : Int) < uncompressed + 1 then
            decodeLoop root binary uncompressed count (i + 1) root (decoded ++ [s])
          else none
        else decodeLoop root binary uncompressed count (i + 1) (HuffNode.node s f l1 r1) decoded
    | _, _ => none

/-- The function `decode` of `Huffman.c`: the symbols written to `decoded`
before the final NUL. -/
def decode (binary : List Char) (sizeBits uncompressed : Int) (root : HuffNode) :
    Option (List Int) :=
  match decodeLoop root binary uncompressed sizeBits.toNat 0 root [] with
  | none => none
  | some (_, decoded) =>
    if (decoded.length : Int) < uncompressed + 1 then some decoded else none

/-- The leaf symbols of a tree with the path from the root to each of them, '0'
for a left edge and '1' for a right edge, from left to right. -/
def codes : HuffNode → List (Int × List Char)
  | HuffNode.null => []
  | HuffNode.node s _ l r =>
    if l = HuffNode.null ∧ r = HuffNode.null then [(s, [])]
    else (codes l).map (fun e => (e.1, '0' :: e.2)) ++
      (codes r).map (fun e => (e.1, '1' :: e.2))

/-- The table after the entries of a list have been stored, one after the
other, each at the index given by its symbol. -/
def store (codeTable : List (Option (List Char))) :
    List (Int × List Char) → List (Option (List Char))
  | [] => codeTable
  | e :: rest => store (codeTable.set e.1.toNat (some e.2)) rest

/-- Every node of the tree is a leaf or has two children. -/
def Full : HuffNode → Prop
  | HuffNode.null => False
  | HuffNode.node _ _ l r => (l = HuffNode.null ∧ r = HuffNode.null) ∨ (Full l ∧ Full r)

/-- A Huffman tree as `decode` reads it: every node is a leaf with a symbol
other than -1, or has the symbol -1 and two children. -/
def Marked : HuffNode → Prop
  | HuffNode.null => False
  | HuffNode.node s _ l r =>
    (l = HuffNode.null ∧ r = HuffNode.null ∧ s ≠ -1) ∨ (s = -1 ∧ Marked l ∧ Marked r)

/-- The number of edges on the longest path from the root to a leaf. -/
def height : HuffNode → Nat
  | HuffNode.null => 0
  | HuffNode.node _ _ l r =>
    if l = HuffNode.null ∧ r = HuffNode.null then 0 else max (height l) (height r) + 1

/-- The entry of the table for a symbol, as `encode` reads it. -/
def codeOf (codeTable : List (Option (List Char))) (s : Int) : Option (List Char) :=
  if 0 ≤ s then (codeTable[s.toNat]?).join else none

/-- The codes of the symbols of a sequence, one after the other. -/
def concatCodes (codeTable : List (Option (List Char))) : List Int → Option (List Char)
  | [] => some []
  | s :: rest =>
    match codeOf codeTable s, concatCodes codeTable rest with
    | some c, some cs => some (c ++ cs)
    | _, _ => none

/-- The table of 256 null pointers that `compressFile` passes to
`buildCodeTable`. -/
def emptyTable : List (Option (List Char)) := List.replicate 256 none

/-- A buffer of 256 characters, as `compressFile` allocates for `code`. -/
def codeBuffer : List Char := List.replicate 256 'x'

/-- A tree of two leaves whose symbols are the bytes `a` and 0xFD: as a signed
`char` the second is -3. -/
def sampleHigh : HuffNode := HuffNode.node (-1) 2 (leaf 97 1) (leaf (-3) 1)

/-- The symbols of the leaves of a tree, from left to right. -/
def symbols : HuffNode → List Int
  | HuffNode.null => []
  | HuffNode.node s _ l r =>
    if l = HuffNode.null ∧ r = HuffNode.null then [s] else symbols l ++ symbols r

/-- The paths of a list of entries, one after the other. -/
def bitsOf : List (Int × List Char) → List Char
  | [] => []
  | e :: rest => e.2 ++ bitsOf rest

/-- The function `serializeRecurse` of `Huffman.c`: the array `compressed` and
the index `*i` after the call. -/
def serializeRecurse : HuffNode → List Int → Nat → Option (List Int × Nat)
  | HuffNode.null, _, _ => none
  | HuffNode.node s _ l r, compressed, i =>
    if l = HuffNode.null ∧ r = HuffNode.null then
      if i + 1 < compressed.length then some ((compressed.set i 1).set (i + 1) s, i + 2)
      else none
    else
      if i < compressed.length then
        match serializeRecurse l (compressed.set i 0) (i + 1) with
        | none => none
        | some (compressed1, i1) => serializeRecurse r compressed1 i1
      else none

/-- The function `compressTree` of `Huffman.c`: the array returned, of
`10 * numElements - 1` characters that `calloc` has set to 0, and the size
stored in `*compressedSize`. -/
def compressTree (root : HuffNode) (numElements : Int) : Option (List Int × Int) :=
  (serializeRecurse root (List.replicate (10 * numElements - 1).toNat 0) 0).map
    (fun r => (r.1, 10 * numElements - 1))

/-- The value of a `short` whose two bytes are `low` and `high`. -/
def shortOf (low high : Int) : Int :=
  if low % 256 + 256 * (high % 256) < 32768 then low % 256 + 256 * (high % 256)
  else low % 256 + 256 * (high % 256) - 65536

/-- The read `treeSerial[i].symbol` where `treeSerial` points to the bytes of
the list: an element of type `HuffNodeSerial` takes six bytes, `symbol` is the
first of them, `left` the third and fourth, `right` the fifth and sixth, the low
byte first (the layout of the struct on the common platforms). -/
def serialSymbol (treeSerial : List Int) (i : Int) : Option Int :=
  if 0 ≤ i then treeSerial[(6 * i).toNat]? else none

/-- The read `treeSerial[i].left`. -/
def serialLeft (treeSerial : List Int) (i : Int) : Option Int :=
  if 0 ≤ i then
    match treeSerial[(6 * i).toNat + 2]?, treeSerial[(6 * i).toNat + 3]? with
    | some low, some high => some (shortOf low high)
    | _, _ => none
  else none

/-- The read `treeSerial[i].right`. -/
def serialRight (treeSerial : List Int) (i : Int) : Option Int :=
  if 0 ≤ i then
    match treeSerial[(6 * i).toNat + 4]?, treeSerial[(6 * i).toNat + 5]? with
    | some low, some high => some (shortOf low high)
    | _, _ => none
  else none

/-- The function `deserializeRecurse` of `Huffman.c` for a node with the given
symbol: the node with the children that the call gives it. The recursion has a
fuel argument: the indices read from the array need not lead to an end. -/
def deserializeRecurse (treeSerial : List Int) : Nat → Int → Int → Option HuffNode
  | 0, _, _ => none
  | fuel + 1, symbol, i =>
    match serialLeft treeSerial i with
    | none => none
    | some left =>
      match (if left ≠ -1 then
          match serialSymbol treeSerial left with
          | none => none
          | some s => deserializeRecurse treeSerial fuel s left
        else some HuffNode.null) with
      | none => none
      | some l =>
        match serialRight treeSerial i with
        | none => none
        | some right =>
          match (if right ≠ -1 then
              match serialSymbol treeSerial right with
              | none => none
              | some s => deserializeRecurse treeSerial fuel s right
            else some HuffNode.null) with
          | none => none
          | some r => some (HuffNode.node symbol (-1) l r)

/-- The function `decompressTree` of `Huffman.c`. -/
def decompressTree (treeSerial : List Int) (fuel : Nat) : Option HuffNode :=
  match serialSymbol treeSerial 0 with
  | none => none
  | some s => deserializeRecurse treeSerial fuel s 0

/-- A tree of two leaves with the symbols `a` and `b`. -/
def samplePair : HuffNode := HuffNode.node (-1) 2 (leaf 97 1) (leaf 98 1)

/-- An array of `HuffNodeSerial` in which element 0 has the children 1 and 2,
two leaves: the form that `decompressTree` reads. -/
def samplePairSerial : List Int :=
  [-1, 0, 1, 0, 2, 0, 97, 0, 255, 255, 255, 255, 98, 0, 255, 255, 255, 255]

/-- A tree of two leaves with the symbols 0 and 1. -/
def sampleSmall : HuffNode := HuffNode.node (-1) 3 (leaf 0 1) (leaf 1 2)

end ARchiver

namespace Scheduler

/-! ## The paths of a worker step, and runs -/

theorem tick_eq (n : Nat) (t : Int) : tick n t = t + n := by
  induction n generalizing t with
  | zero => simp [tick]
  | succ k ih => simp [tick, ih]; ring

theorem execute_eq (t r : Int) : execute t r = t + max r 0 := by
  unfold execute
  rw [tick_eq, Int.toNat_eq_max]

theorem isEmpty_ne_zero (l : LinkedList) : isEmpty l ≠ 0 ↔ l = [] := by
  cases l <;> simp [isEmpty]

/-- The paths through one pass of `cpu()`. -/
theorem cpu_cases {ok : Bool} {s s' : Sched} {f : Flow} (h : cpu ok s = some (f, s')) :
    (s' = s ∧ f = Flow.blocked ∧ s.cpuQueue = [] ∧ s.errState = 0) ∨
    (s' = s ∧ f = Flow.returned ERROR_CODE.E_SUCCESS ∧ s.errState = 1) ∨
    (s' = s ∧ f = Flow.returned ERROR_CODE.E_FAILURE ∧ s.errState = 2) ∨
    (∃ p rest, s.cpuQueue = p :: rest ∧ s.errState ≠ 1 ∧ s.errState ≠ 2 ∧
      ((∃ next, p.ac < p.totalAc ∧ readTimes p.times p.ac = some next ∧ ok = true ∧
          f = Flow.looped ∧
          s' = { cpuServe s p rest with
            logA := s.logA ++
              [Entry.finishCpu p.pid (p.ac + 1) (cpuServe s p rest).cpuTime next],
            ioQueue := s.ioQueue ++ [advance p (cpuServe s p rest).cpuTime next] }) ∨
       (ok = false ∧ f = Flow.returned ERROR_CODE.E_FILE_NOT_FOUND ∧
          s' = { cpuServe s p rest with errState := 2 }) ∨
       (¬ p.ac < p.totalAc ∧ ok = true ∧ rest = [] ∧ s.ioQueue = [] ∧
          f = Flow.returned ERROR_CODE.E_SUCCESS ∧
          s' = { cpuServe s p rest with
            logB := s.logB ++ [Entry.terminated p.pid p.ac p.arriveTime p.remainingTime],
            errState := 1 }) ∨
       (¬ p.ac < p.totalAc ∧ ok = true ∧ ¬ (rest = [] ∧ s.ioQueue = []) ∧
          f = Flow.looped ∧
          s' = { cpuServe s p rest with
            logB := s.logB ++
              [Entry.terminated p.pid p.ac p.arriveTime p.remainingTime] }))) := by
  unfold cpu at h
  simp only [isEmpty_ne_zero] at h
  split at h
  · rename_i hc
    cases h
    exact Or.inl ⟨rfl, rfl, hc.1, hc.2⟩
  split at h
  · rename_i hc
    cases h
    exact Or.inr (Or.inl ⟨rfl, rfl, hc⟩)
  split at h
  · rename_i hc
    cases h
    exact Or.inr (Or.inr (Or.inl ⟨rfl, rfl, hc⟩))
  rename_i h1 h2
  refine Or.inr (Or.inr (Or.inr ?_))
  cases hq : s.cpuQueue with
  | nil => simp [hq, dequeue] at h
  | cons p rest =>
    refine ⟨p, rest, rfl, h1, h2, ?_⟩
    simp only [hq, dequeue, enqueue, add_sub_cancel_right] at h
    by_cases hac : p.ac < p.totalAc
    · simp only [hac, if_true] at h
      cases hr : readTimes p.times p.ac with
      | none => simp [hr] at h
      | some next =>
        simp only [hr] at h
        cases ok with
        | true =>
          simp only [if_true, Option.some.injEq, Prod.mk.injEq] at h
          refine Or.inl ⟨next, hac, rfl, rfl, h.1.symm, ?_⟩
          rw [← h.2]
          simp [cpuServe, advance]
        | false =>
          simp only [Bool.false_eq_true, if_false, Option.some.injEq, Prod.mk.injEq] at h
          exact Or.inr (Or.inl ⟨rfl, h.1.symm, h.2.symm⟩)
    · simp only [hac, if_false] at h
      cases ok with
      | true =>
        simp only [if_true] at h
        by_cases hd : rest = [] ∧ s.ioQueue = []
        · have hd' : (cpuServe s p rest).cpuQueue = [] ∧ (cpuServe s p rest).ioQueue = [] := by
            simpa [cpuServe] using hd
          simp only [hd', and_self, if_true, Option.some.injEq, Prod.mk.injEq] at h
          refine Or.inr (Or.inr (Or.inl ⟨hac, rfl, hd.1, hd.2, h.1.symm, ?_⟩))
          rw [← h.2]
          simp [cpuServe, hd.1, hd.2]
        · have hd' : ¬ ((cpuServe s p rest).cpuQueue = [] ∧ (cpuServe s p rest).ioQueue = []) := by
            simpa [cpuServe] using hd
          simp only [hd', if_false, Option.some.injEq, Prod.mk.injEq] at h
          refine Or.inr (Or.inr (Or.inr ⟨hac, rfl, hd, h.1.symm, ?_⟩))
          rw [← h.2]
          simp [cpuServe]
      | false =>
        simp only [Bool.false_eq_true, if_false, Option.some.injEq, Prod.mk.injEq] at h
        exact Or.inr (Or.inl ⟨rfl, h.1.symm, h.2.symm⟩)


/-- The paths through one pass of `io()`. -/
theorem io_cases {ok : Bool} {s s' : Sched} {f : Flow} (h : io ok s = some (f, s')) :
    (s' = s ∧ f = Flow.blocked ∧ s.ioQueue = [] ∧ s.errState = 0) ∨
    (s' = s ∧ f = Flow.returned ERROR_CODE.E_SUCCESS ∧ s.errState = 1) ∨
    (s' = s ∧ f = Flow.returned ERROR_CODE.E_FAILURE ∧ s.errState = 2) ∨
    (∃ p rest next, s.ioQueue = p :: rest ∧ s.errState ≠ 1 ∧ s.errState ≠ 2 ∧
      readTimes p.times p.ac = some next ∧
      ((ok = true ∧ f = Flow.looped ∧
          s' = { ioServe s p rest with
            logA := s.logA ++
              [Entry.finishIo p.pid (p.ac + 1) (ioServe s p rest).ioTime next],
            cpuQueue := s.cpuQueue ++ [advance p (ioServe s p rest).ioTime next] }) ∨
       (ok = false ∧ f = Flow.returned ERROR_CODE.E_FILE_NOT_FOUND ∧
          s' = { ioServe s p rest with errState := 2 }))) := by
  unfold io at h
  simp only [isEmpty_ne_zero] at h
  split at h
  · rename_i hc
    cases h
    exact Or.inl ⟨rfl, rfl, hc.1, hc.2⟩
  split at h
  · rename_i hc
    cases h
    exact Or.inr (Or.inl ⟨rfl, rfl, hc⟩)
  split at h
  · rename_i hc
    cases h
    exact Or.inr (Or.inr (Or.inl ⟨rfl, rfl, hc⟩))
  rename_i h1 h2
  refine Or.inr (Or.inr (Or.inr ?_))
  cases hq : s.ioQueue with
  | nil => simp [hq, dequeue] at h
  | cons p rest =>
    simp only [hq, dequeue, enqueue, add_sub_cancel_right] at h
    cases hr : readTimes p.times p.ac with
    | none => simp [hr] at h
    | some next =>
      refine ⟨p, rest, next, rfl, h1, h2, hr, ?_⟩
      simp only [hr] at h
      cases ok with
      | true =>
        simp only [if_true, Option.some.injEq, Prod.mk.injEq] at h
        refine Or.inl ⟨rfl, h.1.symm, ?_⟩
        rw [← h.2]
        simp [ioServe, advance]
      | false =>
        simp only [Bool.false_eq_true, if_false, Option.some.injEq, Prod.mk.injEq] at h
        exact Or.inr ⟨rfl, h.1.symm, h.2.symm⟩

/-- A worker that finds `errState` at 1 or 2 returns and changes nothing. -/
theorem body_of_stopped (w : Worker) (ok : Bool) (s : Sched)
    (h : s.errState = 1 ∨ s.errState = 2) :
    ∃ code, body w ok s = some (Flow.returned code, s) := by
  cases w <;> rcases h with h | h <;> simp [body, cpu, io, h]

theorem run_of_stopped (steps : List (Worker × Bool)) (s : Sched)
    (h : s.errState = 1 ∨ s.errState = 2) : run steps s = some s := by
  induction steps with
  | nil => rfl
  | cons x later ih =>
    obtain ⟨w, ok⟩ := x
    obtain ⟨code, hb⟩ := body_of_stopped w ok s h
    simp [run, hb, ih]

theorem run_append (a b : List (Worker × Bool)) (s : Sched) :
    run (a ++ b) s = (run a s).bind (run b) := by
  induction a generalizing s with
  | nil => simp [run]
  | cons x later ih =>
    obtain ⟨w, ok⟩ := x
    simp only [List.cons_append, run]
    cases hb : body w ok s with
    | none => simp
    | some r => simp [ih]

/-- A property that holds at the start of a run and is kept by every step the
run may take holds at its end. -/
theorem run_invariant (P : Sched → Prop) (allowed : Bool → Prop)
    (hstep : ∀ w ok s f s', allowed ok → P s → body w ok s = some (f, s') → P s') :
    ∀ (steps : List (Worker × Bool)) (s s' : Sched),
      (∀ x ∈ steps, allowed x.2) → P s → run steps s = some s' → P s' := by
  intro steps
  induction steps with
  | nil =>
    intro s s' _ hP hrun
    simp only [run, Option.some.injEq] at hrun
    exact hrun ▸ hP
  | cons x later ih =>
    intro s s' hall hP hrun
    obtain ⟨w, ok⟩ := x
    simp only [run] at hrun
    cases hb : body w ok s with
    | none => simp [hb] at hrun
    | some r =>
      obtain ⟨f, s1⟩ := r
      simp only [hb] at hrun
      have h1 : P s1 := hstep w ok s f s1 (hall (w, ok) (List.mem_cons_self _ _)) hP hb
      exact ih s1 s' (fun x hx => hall x (List.mem_cons_of_mem _ hx)) h1 hrun

theorem seedLoop_fields (processes : List Pa) (s : Sched) :
    (seedLoop processes s).cpuQueue = s.cpuQueue ++ processes ∧
    (seedLoop processes s).ioQueue = s.ioQueue ∧
    (seedLoop processes s).errState = s.errState ∧
    (seedLoop processes s).logB = s.logB ∧
    (seedLoop processes s).cpuTime = s.cpuTime ∧
    (seedLoop processes s).cpuIdleTime = s.cpuIdleTime ∧
    (seedLoop processes s).ioTime = s.ioTime ∧
    (seedLoop processes s).ioIdleTime = s.ioIdleTime ∧
    (seedLoop processes s).cpuBursts = s.cpuBursts ∧
    (seedLoop processes s).ioBursts = s.ioBursts := by
  induction processes generalizing s with
  | nil => simp [seedLoop]
  | cons p later ih =>
    simp only [seedLoop]
    have := ih { s with
      cpuQueue := (enqueue s.cpuQueue p).2,
      logA := s.logA ++ [Entry.newProcess p.pid p.ac p.arriveTime p.remainingTime] }
    simpa [enqueue] using this

theorem seed_fields (processes : List Pa) :
    (seed processes).cpuQueue = processes ∧
    (seed processes).ioQueue = [] ∧
    (seed processes).errState = 0 ∧
    (seed processes).logB = [] ∧
    (seed processes).cpuTime = 0 ∧
    (seed processes).cpuIdleTime = 0 ∧
    (seed processes).ioTime = 0 ∧
    (seed processes).ioIdleTime = 0 ∧
    (seed processes).cpuBursts = [] ∧
    (seed processes).ioBursts = [] := by
  simpa [seed, start, newLinkedList] using seedLoop_fields processes start

theorem terminatedPids_append (a b : List Entry) :
    terminatedPids (a ++ b) = terminatedPids a ++ terminatedPids b := by
  induction a with
  | nil => rfl
  | cons e later ih => cases e <;> simp [terminatedPids, ih]

theorem terminatedPids_length_le (a : List Entry) :
    (terminatedPids a).length ≤ a.length := by
  induction a with
  | nil => simp [terminatedPids]
  | cons e later ih => cases e <;> simp [terminatedPids] <;> omega

theorem accounted_seed (processes : List Pa) : Accounted processes (seed processes) := by
  obtain ⟨h1, h2, _, h4, _⟩ := seed_fields processes
  simp [Accounted, h1, h2, h4, terminatedPids]

theorem accounted_step (processes : List Pa) (w : Worker) (s s' : Sched) (f : Flow)
    (hs : Accounted processes s) (h : body w true s = some (f, s')) :
    Accounted processes s' := by
  obtain ⟨hc, hl⟩ := hs
  cases w with
  | cpuThread =>
    rcases cpu_cases h with ⟨rfl, _⟩ | ⟨rfl, _⟩ | ⟨rfl, _⟩ | ⟨p, rest, hq, _, _, hp⟩
    · exact ⟨hc, hl⟩
    · exact ⟨hc, hl⟩
    · exact ⟨hc, hl⟩
    · rcases hp with ⟨next, _, _, _, _, rfl⟩ | ⟨hok, _⟩ | ⟨_, _, _, _, _, rfl⟩ | ⟨_, _, _, _, rfl⟩
      · refine ⟨fun x => ?_, by simpa [cpuServe] using hl⟩
        have := hc x
        simp only [hq, List.map_cons, List.count_cons] at this
        simp only [cpuServe, advance, List.map_append, List.count_append, List.map_cons,
          List.map_nil, List.count_cons, List.count_nil]
        omega
      · cases hok
      · refine ⟨fun x => ?_, by simpa [cpuServe, terminatedPids_append, terminatedPids] using hl⟩
        have := hc x
        simp only [hq, List.map_cons, List.count_cons] at this
        simp only [cpuServe, terminatedPids_append, terminatedPids, List.count_append,
          List.count_cons, List.count_nil]
        omega
      · refine ⟨fun x => ?_, by simpa [cpuServe, terminatedPids_append, terminatedPids] using hl⟩
        have := hc x
        simp only [hq, List.map_cons, List.count_cons] at this
        simp only [cpuServe, terminatedPids_append, terminatedPids, List.count_append,
          List.count_cons, List.count_nil]
        omega
  | ioThread =>
    rcases io_cases h with ⟨rfl, _⟩ | ⟨rfl, _⟩ | ⟨rfl, _⟩ | ⟨p, rest, next, hq, _, _, _, hp⟩
    · exact ⟨hc, hl⟩
    · exact ⟨hc, hl⟩
    · exact ⟨hc, hl⟩
    · rcases hp with ⟨_, _, rfl⟩ | ⟨hok, _⟩
      · refine ⟨fun x => ?_, by simpa [ioServe] using hl⟩
        have := hc x
        simp only [hq, List.map_cons, List.count_cons] at this
        simp only [ioServe, advance, List.map_append, List.count_append, List.map_cons,
          List.map_nil, List.count_cons, List.count_nil]
        omega
      · cases hok

theorem settled_seed (processes : List Pa) : Settled (seed processes) := by
  obtain ⟨_, _, h3, _⟩ := seed_fields processes
  simp [Settled, h3]

theorem settled_step (w : Worker) (ok : Bool) (s s' : Sched) (f : Flow)
    (hs : Settled s) (h : body w ok s = some (f, s')) : Settled s' := by
  obtain ⟨he, hd⟩ := hs
  cases w with
  | cpuThread =>
    rcases cpu_cases h with ⟨rfl, _⟩ | ⟨rfl, _⟩ | ⟨rfl, _⟩ | ⟨p, rest, hq, h1, h2, hp⟩
    · exact ⟨he, hd⟩
    · exact ⟨he, hd⟩
    · exact ⟨he, hd⟩
    · have h0 : s.errState = 0 := by omega
      rcases hp with ⟨next, _, _, _, _, rfl⟩ | ⟨_, _, rfl⟩ | ⟨_, _, hr, hi, _, rfl⟩ |
        ⟨_, _, _, _, rfl⟩
      · simp [Settled, cpuServe, h0]
      · simp [Settled, cpuServe]
      · simp [Settled, cpuServe, hr, hi]
      · simp [Settled, cpuServe, h0]
  | ioThread =>
    rcases io_cases h with ⟨rfl, _⟩ | ⟨rfl, _⟩ | ⟨rfl, _⟩ | ⟨p, rest, next, hq, h1, h2, _, hp⟩
    · exact ⟨he, hd⟩
    · exact ⟨he, hd⟩
    · exact ⟨he, hd⟩
    · have h0 : s.errState = 0 := by omega
      rcases hp with ⟨_, _, rfl⟩ | ⟨_, _, rfl⟩
      · simp [Settled, ioServe, h0]
      · simp [Settled, ioServe]

theorem busy_step (w : Worker) (ok : Bool) (s s' : Sched) (f : Flow)
    (hs : Busy s) (h : body w ok s = some (f, s')) : Busy s' := by
  cases w with
  | cpuThread =>
    rcases cpu_cases h with ⟨rfl, _⟩ | ⟨rfl, _⟩ | ⟨rfl, _⟩ | ⟨p, rest, hq, h1, h2, hp⟩
    · exact hs
    · exact hs
    · exact hs
    · rcases hp with ⟨next, _, _, _, _, rfl⟩ | ⟨_, _, rfl⟩ | ⟨_, _, hr, hi, _, rfl⟩ |
        ⟨_, _, hne, _, rfl⟩
      · simp [Busy, cpuServe]
      · simp [Busy, cpuServe]
      · simp [Busy, cpuServe]
      · intro _
        simp only [cpuServe]
        by_cases hr : rest = []
        · exact Or.inr (fun hi => hne ⟨hr, hi⟩)
        · exact Or.inl hr
  | ioThread =>
    rcases io_cases h with ⟨rfl, _⟩ | ⟨rfl, _⟩ | ⟨rfl, _⟩ | ⟨p, rest, next, hq, h1, h2, _, hp⟩
    · exact hs
    · exact hs
    · exact hs
    · rcases hp with ⟨_, _, rfl⟩ | ⟨_, _, rfl⟩
      · simp [Busy, ioServe]
      · simp [Busy, ioServe]

theorem sample_run : run sampleSteps (seed [sampleLong, sampleShort]) = some sampleEnd := by
  decide

theorem sample_logsOpen : logsOpen sampleSteps := by
  intro x hx
  simp only [sampleSteps, List.mem_cons, List.mem_singleton, List.not_mem_nil, or_false] at hx
  rcases hx with rfl | rfl | rfl | rfl <;> rfl

theorem reach_invariants (processes : List Pa) (steps : List (Worker × Bool)) (s : Sched)
    (hrun : run steps (seed processes) = some s) :
    Settled s ∧ (processes ≠ [] → Busy s) := by
  refine run_invariant (fun s => Settled s ∧ (processes ≠ [] → Busy s)) (fun _ => True)
    ?_ steps (seed processes) s (fun _ _ => trivial) ⟨settled_seed processes, ?_⟩ hrun
  · intro w ok s f s' _ hP h
    exact ⟨settled_step w ok s s' f hP.1 h, fun hne => busy_step w ok s s' f (hP.2 hne) h⟩
  · intro hne _
    left
    rw [(seed_fields processes).1]
    exact hne

theorem reach_accounted (processes : List Pa) (steps : List (Worker × Bool)) (s : Sched)
    (hopen : logsOpen steps) (hrun : run steps (seed processes) = some s) :
    Accounted processes s :=
  run_invariant (Accounted processes) (fun ok => ok = true)
    (fun w _ s f s' hok hP h => accounted_step processes w s s' f hP (hok ▸ h))
    steps (seed processes) s hopen (accounted_seed processes) hrun

/-- C1: in every run from the seeded state in which no log open fails and which
ends with `errState = 1`, the terminated entries written to `log-B` name each
input process exactly once (their process ids are a rearrangement of the ids of
the input), and `log-B` holds as many entries as there are input processes. -/
theorem terminal_events_exactly_once (processes : List Pa)
    (steps : List (Worker × Bool)) (s : Sched)
    (hopen : logsOpen steps) (hrun : run steps (seed processes) = some s)
    (hdrained : s.errState = 1) :
    List.Perm (terminatedPids s.logB) (processes.map Pa.pid) ∧
    s.logB.length = processes.length := by
  obtain ⟨hc, hl⟩ := reach_accounted processes steps s hopen hrun
  obtain ⟨hq, hi⟩ := (reach_invariants processes steps s hrun).1.2 hdrained
  have hperm : List.Perm (terminatedPids s.logB) (processes.map Pa.pid) := by
    rw [List.perm_iff_count]
    intro x
    have := hc x
    simpa [hq, hi] using this
  refine ⟨hperm, ?_⟩
  rw [← hl, hperm.length_eq, List.length_map]

theorem terminal_events_exactly_once_witness :
    List.Perm (terminatedPids sampleEnd.logB) ([sampleLong, sampleShort].map Pa.pid) ∧
    sampleEnd.logB.length = [sampleLong, sampleShort].length :=
  terminal_events_exactly_once [sampleLong, sampleShort] sampleSteps sampleEnd
    sample_logsOpen sample_run (by decide)

/-- C2: for an input of at least one process, in every state reached from the
seeded state by worker steps (whatever their `fopen` results), `errState = 0`
implies that `cpuQueue` or `ioQueue` holds a record; so in no such state do both
`cpu()` and `io()` sleep in `pthread_cond_wait`. -/
theorem running_state_has_work (processes : List Pa) (steps : List (Worker × Bool))
    (s : Sched) (hne : processes ≠ []) (hrun : run steps (seed processes) = some s)
    (hrunning : s.errState = 0) :
    (s.cpuQueue ≠ [] ∨ s.ioQueue ≠ []) ∧
    ¬ (∃ a b, (cpu a s).map Prod.fst = some Flow.blocked ∧
        (io b s).map Prod.fst = some Flow.blocked) := by
  have hb : s.cpuQueue ≠ [] ∨ s.ioQueue ≠ [] :=
    (reach_invariants processes steps s hrun).2 hne hrunning
  refine ⟨hb, ?_⟩
  rintro ⟨a, b, ha, hb'⟩
  cases hca : cpu a s with
  | none => simp [hca] at ha
  | some r =>
    obtain ⟨f, s1⟩ := r
    simp only [hca, Option.map_some', Option.some.injEq] at ha
    cases hcb : io b s with
    | none => simp [hcb] at hb'
    | some r2 =>
      obtain ⟨f2, s2⟩ := r2
      simp only [hcb, Option.map_some', Option.some.injEq] at hb'
      subst ha hb'
      have e1 : s.cpuQueue = [] := by
        rcases cpu_cases hca with ⟨_, _, h, _⟩ | ⟨_, h, _⟩ | ⟨_, h, _⟩ | ⟨p, rest, _, _, _, hp⟩
        · exact h
        · cases h
        · cases h
        · rcases hp with ⟨_, _, _, _, h, _⟩ | ⟨_, h, _⟩ | ⟨_, _, _, _, h, _⟩ | ⟨_, _, _, h, _⟩ <;>
            cases h
      have e2 : s.ioQueue = [] := by
        rcases io_cases hcb with ⟨_, _, h, _⟩ | ⟨_, h, _⟩ | ⟨_, h, _⟩ |
          ⟨p, rest, next, _, _, _, _, hp⟩
        · exact h
        · cases h
        · cases h
        · rcases hp with ⟨_, h, _⟩ | ⟨_, h, _⟩ <;> cases h
      rcases hb with h | h
      · exact h e1
      · exact h e2

theorem running_state_has_work_witness :
    (sampleMid.cpuQueue ≠ [] ∨ sampleMid.ioQueue ≠ []) ∧
    ¬ (∃ a b, (cpu a sampleMid).map Prod.fst = some Flow.blocked ∧
        (io b sampleMid).map Prod.fst = some Flow.blocked) :=
  running_state_has_work [sampleLong] [(Worker.cpuThread, true)] sampleMid
    (by decide) (by decide) (by decide)

/-- C3: a worker step whose `fopen` succeeds takes `errState` to 1 exactly when
it writes a terminated entry (it retires a record) and leaves both queues
empty; a step that puts its record on the queue of the other worker leaves
`errState` as it was (at 0, when the step started in the running state). -/
theorem drained_iff_last_retirement (w : Worker) (s s1 : Sched) (f : Flow)
    (h : body w true s = some (f, s1)) :
    ((s.errState ≠ 1 ∧ s1.errState = 1) ↔
      (retiredIn s s1 ∧ s1.cpuQueue = [] ∧ s1.ioQueue = [])) ∧
    (handedOver w s s1 → s1.errState = s.errState) ∧
    (handedOver w s s1 → s.errState = 0 → s1.errState = 0) := by
  have key : ((s.errState ≠ 1 ∧ s1.errState = 1) ↔
      (retiredIn s s1 ∧ s1.cpuQueue = [] ∧ s1.ioQueue = [])) ∧
      (handedOver w s s1 → s1.errState = s.errState) := by
    cases w with
    | cpuThread =>
      rcases cpu_cases h with ⟨rfl, _⟩ | ⟨rfl, _, he⟩ | ⟨rfl, _⟩ | ⟨p, rest, hq, h1, h2, hp⟩
      · simp [retiredIn]
      · simp [retiredIn, he]
      · simp [retiredIn]
      · rcases hp with ⟨next, _, _, _, _, rfl⟩ | ⟨hok, _⟩ | ⟨_, _, hr, hi, _, rfl⟩ |
          ⟨_, _, hne, _, rfl⟩
        · simp [retiredIn, handedOver, cpuServe, h1]
        · cases hok
        · simp [retiredIn, handedOver, cpuServe, h1, hr, hi]
        · simp only [retiredIn, handedOver, cpuServe, h1]
          simp
          tauto
    | ioThread =>
      rcases io_cases h with ⟨rfl, _⟩ | ⟨rfl, _, he⟩ | ⟨rfl, _⟩ |
        ⟨p, rest, next, hq, h1, h2, _, hp⟩
      · simp [retiredIn]
      · simp [retiredIn, he]
      · simp [retiredIn]
      · rcases hp with ⟨_, _, rfl⟩ | ⟨hok, _⟩
        · simp [retiredIn, handedOver, ioServe, h1]
        · cases hok
  exact ⟨key.1, key.2, fun hh h0 => (key.2 hh).trans h0⟩

theorem drained_iff_last_retirement_witness :
    (((seed [sampleShort]).errState ≠ 1 ∧ sampleDone.errState = 1) ↔
      (retiredIn (seed [sampleShort]) sampleDone ∧ sampleDone.cpuQueue = [] ∧
        sampleDone.ioQueue = [])) ∧
    (handedOver Worker.cpuThread (seed [sampleShort]) sampleDone →
      sampleDone.errState = (seed [sampleShort]).errState) ∧
    (handedOver Worker.cpuThread (seed [sampleShort]) sampleDone →
      (seed [sampleShort]).errState = 0 → sampleDone.errState = 0) :=
  drained_iff_last_retirement Worker.cpuThread (seed [sampleShort]) sampleDone
    (Flow.returned ERROR_CODE.E_SUCCESS) (by decide)

/-- C4: in every run from the seeded state, once `errState` has left 0 it is 1
or 2, every worker that takes a step returns from its thread function with all
globals, queues and logs unchanged, and whatever steps follow, the state (so
`errState` too) stays as it is. -/
theorem errState_leaves_zero_once (processes : List Pa)
    (steps later : List (Worker × Bool)) (s : Sched)
    (hrun : run steps (seed processes) = some s) (hleft : s.errState ≠ 0) :
    (s.errState = 1 ∨ s.errState = 2) ∧
    (∀ w ok, ∃ code, body w ok s = some (Flow.returned code, s)) ∧
    run (steps ++ later) (seed processes) = some s := by
  have h12 : s.errState = 1 ∨ s.errState = 2 := by
    rcases (reach_invariants processes steps s hrun).1.1 with h | h | h
    · exact absurd h hleft
    · exact Or.inl h
    · exact Or.inr h
  refine ⟨h12, fun w ok => body_of_stopped w ok s h12, ?_⟩
  rw [run_append, hrun]
  exact run_of_stopped later s h12

theorem errState_leaves_zero_once_witness :
    (sampleDone.errState = 1 ∨ sampleDone.errState = 2) ∧
    (∀ w ok, ∃ code, body w ok sampleDone = some (Flow.returned code, sampleDone)) ∧
    run ([(Worker.cpuThread, true)] ++ [(Worker.ioThread, true), (Worker.cpuThread, false)])
      (seed [sampleShort]) = some sampleDone :=
  errState_leaves_zero_once [sampleShort] [(Worker.cpuThread, true)]
    [(Worker.ioThread, true), (Worker.cpuThread, false)] sampleDone (by decide) (by decide)

theorem logB_grows (w : Worker) (ok : Bool) (s s' : Sched) (f : Flow)
    (h : body w ok s = some (f, s')) : ∃ more, s'.logB = s.logB ++ more := by
  cases w with
  | cpuThread =>
    rcases cpu_cases h with ⟨rfl, _⟩ | ⟨rfl, _⟩ | ⟨rfl, _⟩ | ⟨p, rest, hq, h1, h2, hp⟩
    · exact ⟨[], by simp⟩
    · exact ⟨[], by simp⟩
    · exact ⟨[], by simp⟩
    · rcases hp with ⟨next, _, _, _, _, rfl⟩ | ⟨_, _, rfl⟩ | ⟨_, _, _, _, _, rfl⟩ |
        ⟨_, _, _, _, rfl⟩
      · exact ⟨[], by simp [cpuServe]⟩
      · exact ⟨[], by simp [cpuServe]⟩
      · exact ⟨_, rfl⟩
      · exact ⟨_, rfl⟩
  | ioThread =>
    rcases io_cases h with ⟨rfl, _⟩ | ⟨rfl, _⟩ | ⟨rfl, _⟩ | ⟨p, rest, next, hq, h1, h2, _, hp⟩
    · exact ⟨[], by simp⟩
    · exact ⟨[], by simp⟩
    · exact ⟨[], by simp⟩
    · rcases hp with ⟨_, _, rfl⟩ | ⟨_, _, rfl⟩
      · exact ⟨[], by simp [ioServe]⟩
      · exact ⟨[], by simp [ioServe]⟩

theorem run_logB_grows (steps : List (Worker × Bool)) (s s' : Sched)
    (hrun : run steps s = some s') : ∃ more, s'.logB = s.logB ++ more := by
  induction steps generalizing s with
  | nil =>
    simp only [run, Option.some.injEq] at hrun
    exact ⟨[], by simp [hrun]⟩
  | cons x later ih =>
    obtain ⟨w, ok⟩ := x
    simp only [run] at hrun
    cases hb : body w ok s with
    | none => simp [hb] at hrun
    | some r =>
      obtain ⟨f, s1⟩ := r
      simp only [hb] at hrun
      obtain ⟨m1, h1⟩ := logB_grows w ok s s1 f hb
      obtain ⟨m2, h2⟩ := ih s1 hrun
      exact ⟨m1 ++ m2, by rw [h2, h1, List.append_assoc]⟩

theorem logsOpen_append (a b : List (Worker × Bool)) (ha : logsOpen a) (hb : logsOpen b) :
    logsOpen (a ++ b) := by
  intro x hx
  rcases List.mem_append.1 hx with h | h
  · exact ha x h
  · exact hb x h

/-- C5: in every state reached from the seeded state by steps whose `fopen`
succeeds, the process ids on the two queues together with those of the
terminated entries of `log-B` are a rearrangement of the ids of the input. So,
when the input ids are pairwise distinct, a process that has no terminated
entry is on the two queues exactly once in all, and a process that has one is
on neither queue, in this state and in every state that follows (hence never
taken by a worker again), and keeps exactly one terminated entry. -/
theorem record_on_exactly_one_queue (processes : List Pa)
    (steps : List (Worker × Bool)) (s : Sched)
    (hopen : logsOpen steps) (hrun : run steps (seed processes) = some s) :
    List.Perm ((s.cpuQueue ++ s.ioQueue).map Pa.pid ++ terminatedPids s.logB)
      (processes.map Pa.pid) ∧
    ((processes.map Pa.pid).Nodup → ∀ p ∈ processes,
      (p.pid ∉ terminatedPids s.logB →
        (s.cpuQueue.map Pa.pid).count p.pid + (s.ioQueue.map Pa.pid).count p.pid = 1) ∧
      (p.pid ∈ terminatedPids s.logB →
        ∀ later s2, logsOpen later → run later s = some s2 →
          p.pid ∉ s2.cpuQueue.map Pa.pid ∧ p.pid ∉ s2.ioQueue.map Pa.pid ∧
          (terminatedPids s2.logB).count p.pid = 1)) := by
  have hacc := reach_accounted processes steps s hopen hrun
  refine ⟨?_, ?_⟩
  · rw [List.perm_iff_count]
    intro x
    have := hacc.1 x
    simpa [List.count_append, add_assoc] using this
  · intro hnd p hp
    have hone : (processes.map Pa.pid).count p.pid = 1 :=
      List.count_eq_one_of_mem hnd (List.mem_map_of_mem _ hp)
    refine ⟨fun hnot => ?_, fun hmem later s2 hlater hrun2 => ?_⟩
    · have := hacc.1 p.pid
      rw [List.count_eq_zero_of_not_mem hnot] at this
      omega
    · have hrun12 : run (steps ++ later) (seed processes) = some s2 := by
        rw [run_append, hrun]
        exact hrun2
      have hacc2 := reach_accounted processes (steps ++ later) s2
        (logsOpen_append steps later hopen hlater) hrun12
      obtain ⟨more, hmore⟩ := run_logB_grows later s s2 hrun2
      have hpos : 0 < (terminatedPids s2.logB).count p.pid := by
        rw [List.count_pos_iff]
        rw [hmore, terminatedPids_append]
        exact List.mem_append_left _ hmem
      have := hacc2.1 p.pid
      refine ⟨?_, ?_, by omega⟩
      · rw [← List.count_eq_zero]
        omega
      · rw [← List.count_eq_zero]
        omega

theorem record_on_exactly_one_queue_witness :
    List.Perm ((sampleHalf.cpuQueue ++ sampleHalf.ioQueue).map Pa.pid ++
        terminatedPids sampleHalf.logB) ([sampleLong, sampleShort].map Pa.pid) ∧
    (([sampleLong, sampleShort].map Pa.pid).Nodup → ∀ p ∈ [sampleLong, sampleShort],
      (p.pid ∉ terminatedPids sampleHalf.logB →
        (sampleHalf.cpuQueue.map Pa.pid).count p.pid +
          (sampleHalf.ioQueue.map Pa.pid).count p.pid = 1) ∧
      (p.pid ∈ terminatedPids sampleHalf.logB →
        ∀ later s2, logsOpen later → run later sampleHalf = some s2 →
          p.pid ∉ s2.cpuQueue.map Pa.pid ∧ p.pid ∉ s2.ioQueue.map Pa.pid ∧
          (terminatedPids s2.logB).count p.pid = 1)) :=
  record_on_exactly_one_queue [sampleLong, sampleShort]
    [(Worker.cpuThread, true), (Worker.cpuThread, true)] sampleHalf
    (by intro x hx; simp at hx; subst hx; rfl) (by decide)

theorem cpuServe_clock (s : Sched) (p : Pa) (rest : LinkedList) :
    (cpuServe s p rest).cpuIdleTime = s.cpuIdleTime + max 0 (p.arriveTime - s.cpuTime) ∧
    (cpuServe s p rest).cpuWaitingTime = s.cpuWaitingTime + max 0 (s.cpuTime - p.arriveTime) ∧
    (cpuServe s p rest).cpuTime = max s.cpuTime p.arriveTime + max p.remainingTime 0 := by
  simp only [cpuServe, execute_eq]
  by_cases h : s.cpuTime < p.arriveTime
  · simp only [h, if_true]
    refine ⟨?_, ?_, ?_⟩ <;> omega
  · simp only [h, if_false]
    refine ⟨?_, ?_, ?_⟩ <;> omega

theorem ioServe_clock (s : Sched) (p : Pa) (rest : LinkedList) :
    (ioServe s p rest).ioIdleTime = s.ioIdleTime + max 0 (p.arriveTime - s.ioTime) ∧
    (ioServe s p rest).ioWaitingTime = s.ioWaitingTime + max 0 (s.ioTime - p.arriveTime) ∧
    (ioServe s p rest).ioTime = max s.ioTime p.arriveTime + max p.remainingTime 0 := by
  simp only [ioServe, execute_eq]
  by_cases h : s.ioTime < p.arriveTime
  · simp only [h, if_true]
    refine ⟨?_, ?_, ?_⟩ <;> omega
  · simp only [h, if_false]
    refine ⟨?_, ?_, ?_⟩ <;> omega

/-- What a step that takes a record does to the globals of its own side. -/
theorem served_clock (w : Worker) (ok : Bool) (s s1 : Sched) (f : Flow) (p : Pa)
    (rest : LinkedList) (hrunning : s.errState = 0) (hq : ownQueue w s = p :: rest)
    (h : body w ok s = some (f, s1)) :
    ownIdleTime w s1 = ownIdleTime w s + max 0 (p.arriveTime - ownTime w s) ∧
    ownWaitingTime w s1 = ownWaitingTime w s + max 0 (ownTime w s - p.arriveTime) ∧
    ownTime w s1 = max (ownTime w s) p.arriveTime + max p.remainingTime 0 := by
  cases w with
  | cpuThread =>
    simp only [ownQueue] at hq
    simp only [ownIdleTime, ownWaitingTime, ownTime]
    rcases cpu_cases h with ⟨_, _, he, _⟩ | ⟨_, _, he⟩ | ⟨_, _, he⟩ | ⟨q, rest2, hq2, _, _, hp⟩
    · rw [he] at hq; cases hq
    · omega
    · omega
    · rw [hq] at hq2
      obtain ⟨rfl, rfl⟩ := List.cons.inj hq2
      have hc := cpuServe_clock s p rest
      rcases hp with ⟨next, _, _, _, _, rfl⟩ | ⟨_, _, rfl⟩ | ⟨_, _, _, _, _, rfl⟩ |
        ⟨_, _, _, _, rfl⟩ <;> exact hc
  | ioThread =>
    simp only [ownQueue] at hq
    simp only [ownIdleTime, ownWaitingTime, ownTime]
    rcases io_cases h with ⟨_, _, he, _⟩ | ⟨_, _, he⟩ | ⟨_, _, he⟩ |
      ⟨q, rest2, next, hq2, _, _, _, hp⟩
    · rw [he] at hq; cases hq
    · omega
    · omega
    · rw [hq] at hq2
      obtain ⟨rfl, rfl⟩ := List.cons.inj hq2
      have hc := ioServe_clock s p rest
      rcases hp with ⟨_, _, rfl⟩ | ⟨_, _, rfl⟩ <;> exact hc

theorem readTimes_mem (times : List Int) (i v : Int) (h : readTimes times i = some v) :
    v ∈ times := by
  unfold readTimes at h
  split at h
  · exact List.getElem?_mem h
  · cases h

theorem advance_nonNegative (p : Pa) (time next : Int) (hp : NonNegative p)
    (hr : readTimes p.times p.ac = some next) : NonNegative (advance p time next) :=
  ⟨hp.2 next (readTimes_mem p.times p.ac next hr), hp.2⟩

theorem balanced_step (w : Worker) (ok : Bool) (s s' : Sched) (f : Flow)
    (hs : Balanced s ∧ ∀ p ∈ s.cpuQueue ++ s.ioQueue, NonNegative p)
    (h : body w ok s = some (f, s')) :
    Balanced s' ∧ ∀ p ∈ s'.cpuQueue ++ s'.ioQueue, NonNegative p := by
  obtain ⟨⟨hc, hi⟩, hn⟩ := hs
  cases w with
  | cpuThread =>
    rcases cpu_cases h with ⟨rfl, _⟩ | ⟨rfl, _⟩ | ⟨rfl, _⟩ | ⟨p, rest, hq, h1, h2, hp⟩
    · exact ⟨⟨hc, hi⟩, hn⟩
    · exact ⟨⟨hc, hi⟩, hn⟩
    · exact ⟨⟨hc, hi⟩, hn⟩
    · have hpn : NonNegative p := hn p (by simp [hq])
      have hrest : ∀ q ∈ rest ++ s.ioQueue, NonNegative q := by
        intro q hq'
        apply hn q
        rw [hq]
        rcases List.mem_append.1 hq' with h | h
        · exact List.mem_append_left _ (List.mem_cons_of_mem _ h)
        · exact List.mem_append_right _ h
      obtain ⟨e1, _, e3⟩ := cpuServe_clock s p rest
      have hb : Balanced (cpuServe s p rest) := by
        refine ⟨?_, by simpa [cpuServe] using hi⟩
        rw [e1, e3]
        have : (cpuServe s p rest).cpuBursts = s.cpuBursts ++ [p.remainingTime] := rfl
        rw [this, List.sum_append, List.sum_singleton]
        have := hpn.1
        omega
      rcases hp with ⟨next, _, hr, _, _, rfl⟩ | ⟨_, _, rfl⟩ | ⟨_, _, _, _, _, rfl⟩ |
        ⟨_, _, _, _, rfl⟩
      · refine ⟨hb, ?_⟩
        intro q hq'
        have : q ∈ rest ++ s.ioQueue ∨ q = advance p (cpuServe s p rest).cpuTime next := by
          simpa [cpuServe, or_assoc] using hq'
        rcases this with h | rfl
        · exact hrest q h
        · exact advance_nonNegative p _ next hpn hr
      · exact ⟨hb, hrest⟩
      · exact ⟨hb, hrest⟩
      · exact ⟨hb, hrest⟩
  | ioThread =>
    rcases io_cases h with ⟨rfl, _⟩ | ⟨rfl, _⟩ | ⟨rfl, _⟩ | ⟨p, rest, next, hq, h1, h2, hr, hp⟩
    · exact ⟨⟨hc, hi⟩, hn⟩
    · exact ⟨⟨hc, hi⟩, hn⟩
    · exact ⟨⟨hc, hi⟩, hn⟩
    · have hpn : NonNegative p := hn p (by simp [hq])
      have hrest : ∀ q ∈ s.cpuQueue ++ rest, NonNegative q := by
        intro q hq'
        apply hn q
        rw [hq]
        rcases List.mem_append.1 hq' with h | h
        · exact List.mem_append_left _ h
        · exact List.mem_append_right _ (List.mem_cons_of_mem _ h)
      obtain ⟨e1, _, e3⟩ := ioServe_clock s p rest
      have hb : Balanced (ioServe s p rest) := by
        refine ⟨by simpa [ioServe] using hc, ?_⟩
        rw [e1, e3]
        have : (ioServe s p rest).ioBursts = s.ioBursts ++ [p.remainingTime] := rfl
        rw [this, List.sum_append, List.sum_singleton]
        have := hpn.1
        omega
      rcases hp with ⟨_, _, rfl⟩ | ⟨_, _, rfl⟩
      · refine ⟨hb, ?_⟩
        intro q hq'
        have : q ∈ s.cpuQueue ++ rest ∨ q = advance p (ioServe s p rest).ioTime next := by
          have h' : q ∈ s.cpuQueue ∨ q = advance p (ioServe s p rest).ioTime next ∨
              q ∈ rest := by
            simpa [ioServe] using hq'
          rw [List.mem_append]
          tauto
        rcases this with h | rfl
        · exact hrest q h
        · exact advance_nonNegative p _ next hpn hr
      · exact ⟨hb, hrest⟩

theorem readTimes_next (p : Pa) (h1 : 1 ≤ p.ac) (h2 : p.ac < p.totalAc)
    (h3 : p.totalAc = p.times.length) :
    ∃ next, p.times[p.ac.toNat]? = some next ∧ readTimes p.times p.ac = some next := by
  have hlt : p.ac.toNat < p.times.length := by omega
  refine ⟨p.times[p.ac.toNat], List.getElem?_eq_getElem hlt, ?_⟩
  unfold readTimes
  rw [if_pos ⟨by omega, by omega⟩]
  exact List.getElem?_eq_getElem hlt

theorem cpu_handoff (s : Sched) (p : Pa) (rest : LinkedList) (next : Int)
    (hrunning : s.errState = 0) (hq : s.cpuQueue = p :: rest) (hac : p.ac < p.totalAc)
    (hr : readTimes p.times p.ac = some next) :
    cpu true s = some (Flow.looped, { cpuServe s p rest with
      logA := s.logA ++ [Entry.finishCpu p.pid (p.ac + 1) (cpuServe s p rest).cpuTime next],
      ioQueue := s.ioQueue ++ [advance p (cpuServe s p rest).cpuTime next] }) := by
  simp [cpu, hq, isEmpty, dequeue, enqueue, hrunning, hac, hr, cpuServe, advance]

theorem io_handoff (s : Sched) (p : Pa) (rest : LinkedList) (next : Int)
    (hrunning : s.errState = 0) (hq : s.ioQueue = p :: rest)
    (hr : readTimes p.times p.ac = some next) :
    io true s = some (Flow.looped, { ioServe s p rest with
      logA := s.logA ++ [Entry.finishIo p.pid (p.ac + 1) (ioServe s p rest).ioTime next],
      cpuQueue := s.cpuQueue ++ [advance p (ioServe s p rest).ioTime next] }) := by
  simp [io, hq, isEmpty, dequeue, enqueue, hrunning, hr, ioServe, advance]

theorem cpu_retire (s : Sched) (p : Pa) (rest : LinkedList)
    (hrunning : s.errState = 0) (hq : s.cpuQueue = p :: rest) (hlast : ¬ p.ac < p.totalAc) :
    ∃ f s1, cpu true s = some (f, s1) ∧
      s1.logB = s.logB ++ [Entry.terminated p.pid p.ac p.arriveTime p.remainingTime] ∧
      s1.cpuQueue = rest ∧ s1.ioQueue = s.ioQueue := by
  by_cases hd : rest = [] ∧ s.ioQueue = []
  · refine ⟨Flow.returned ERROR_CODE.E_SUCCESS, { cpuServe s p rest with
      logB := s.logB ++ [Entry.terminated p.pid p.ac p.arriveTime p.remainingTime],
      errState := 1 }, ?_, rfl, rfl, rfl⟩
    simp [cpu, hq, isEmpty, dequeue, hrunning, hlast, cpuServe, hd.1, hd.2]
  · refine ⟨Flow.looped, { cpuServe s p rest with
      logB := s.logB ++ [Entry.terminated p.pid p.ac p.arriveTime p.remainingTime] },
      ?_, rfl, rfl, rfl⟩
    have hd2 : ¬ (isEmpty (cpuServe s p rest).cpuQueue ≠ 0 ∧
        isEmpty (cpuServe s p rest).ioQueue ≠ 0) := by
      simpa [isEmpty_ne_zero, cpuServe] using hd
    have hne : ¬ (isEmpty s.cpuQueue ≠ 0 ∧ s.errState = 0) := by
      simp [isEmpty_ne_zero, hq]
    unfold cpu
    rw [if_neg hne, if_neg (by omega), if_neg (by omega)]
    simp only [hq, dequeue, hlast, if_false, if_true]
    rw [if_neg hd2]
    simp [cpuServe]

/-- C10, where the code departs from it. The CPU side does what the claim says:
in the running state with `fopen` succeeding, `cpu()` with a record at the head
of `cpuQueue` that has no burst left (`ac` not below `totalAc`) writes its
terminated entry and puts it on neither queue. But `io()` has no branch that
retires a record. For the process of two bursts CPU 2, I/O 3 the CPU step puts
the record on `ioQueue` with `ac = totalAc = 2`; the step of `io()` that runs
this last burst then reads `times[2]` of an array of two elements and has no
defined result, and no step of `io()`, whatever the state, writes a terminated
entry to `log-B`. -/
theorem io_does_not_retire_last_burst :
    (∀ s p rest, s.errState = 0 → s.cpuQueue = p :: rest → ¬ p.ac < p.totalAc →
      ∃ f s1, cpu true s = some (f, s1) ∧
        s1.logB = s.logB ++ [Entry.terminated p.pid p.ac p.arriveTime p.remainingTime] ∧
        s1.cpuQueue = rest ∧ s1.ioQueue = s.ioQueue) ∧
    run [(Worker.cpuThread, true)] (seed [sampleEven]) = some sampleEvenMid ∧
    (∀ p ∈ sampleEvenMid.ioQueue, p.ac = p.totalAc ∧ p.totalAc = p.times.length) ∧
    io true sampleEvenMid = none ∧
    (∀ ok s f s1, io ok s = some (f, s1) → s1.logB = s.logB) := by
  refine ⟨cpu_retire, by decide, by decide, by decide, ?_⟩
  intro ok s f s1 h
  rcases io_cases h with ⟨rfl, _⟩ | ⟨rfl, _⟩ | ⟨rfl, _⟩ | ⟨p, rest, next, hq, h1, h2, _, hp⟩
  · rfl
  · rfl
  · rfl
  · rcases hp with ⟨_, _, rfl⟩ | ⟨_, _, rfl⟩ <;> rfl

theorem counted_step (w : Worker) (ok : Bool) (s s' : Sched) (f : Flow)
    (hs : Counted s) (h : body w ok s = some (f, s')) : Counted s' := by
  obtain ⟨hc, hi⟩ := hs
  cases w with
  | cpuThread =>
    rcases cpu_cases h with ⟨rfl, _⟩ | ⟨rfl, _⟩ | ⟨rfl, _⟩ | ⟨p, rest, hq, h1, h2, hp⟩
    · exact ⟨hc, hi⟩
    · exact ⟨hc, hi⟩
    · exact ⟨hc, hi⟩
    · have hp1 := hc p (by simp [hq])
      have hrest : ∀ q ∈ rest, 1 ≤ q.ac ∧ q.ac ≤ q.totalAc + 1 :=
        fun q hq' => hc q (by rw [hq]; exact List.mem_cons_of_mem _ hq')
      rcases hp with ⟨next, hlt, _, _, _, rfl⟩ | ⟨_, _, rfl⟩ | ⟨_, _, _, _, _, rfl⟩ |
        ⟨_, _, _, _, rfl⟩
      · refine ⟨hrest, ?_⟩
        intro q hq'
        have : q ∈ s.ioQueue ∨ q = advance p (cpuServe s p rest).cpuTime next := by
          simpa [cpuServe] using hq'
        rcases this with h | rfl
        · exact hi q h
        · simp only [advance]
          omega
      · exact ⟨hrest, hi⟩
      · exact ⟨hrest, hi⟩
      · exact ⟨hrest, hi⟩
  | ioThread =>
    rcases io_cases h with ⟨rfl, _⟩ | ⟨rfl, _⟩ | ⟨rfl, _⟩ | ⟨p, rest, next, hq, h1, h2, _, hp⟩
    · exact ⟨hc, hi⟩
    · exact ⟨hc, hi⟩
    · exact ⟨hc, hi⟩
    · have hp1 := hi p (by simp [hq])
      have hrest : ∀ q ∈ rest, 1 ≤ q.ac ∧ q.ac ≤ q.totalAc :=
        fun q hq' => hi q (by rw [hq]; exact List.mem_cons_of_mem _ hq')
      rcases hp with ⟨_, _, rfl⟩ | ⟨_, _, rfl⟩
      · refine ⟨?_, hrest⟩
        intro q hq'
        have : q ∈ s.cpuQueue ∨ q = advance p (ioServe s p rest).ioTime next := by
          simpa [ioServe] using hq'
        rcases this with h | rfl
        · exact hc q h
        · simp only [advance]
          omega
      · exact ⟨hc, hrest⟩

/-- What one step does to the activity number of the record it takes. -/
theorem ac_step (w : Worker) (ok : Bool) (s s1 : Sched) (f : Flow) (p : Pa)
    (rest : LinkedList) (h : body w ok s = some (f, s1)) (hq : ownQueue w s = p :: rest) :
    (∀ q, otherQueue w s1 = otherQueue w s ++ [q] → q.ac = p.ac + 1) ∧
    (∀ pid ac arrive time,
      s1.logB = s.logB ++ [Entry.terminated pid ac arrive time] → ac = p.ac) := by
  cases w with
  | cpuThread =>
    simp only [ownQueue] at hq
    simp only [otherQueue]
    rcases cpu_cases h with ⟨rfl, _⟩ | ⟨rfl, _⟩ | ⟨rfl, _⟩ | ⟨p2, rest2, hq2, h1, h2, hp⟩
    · simp
    · simp
    · simp
    · rw [hq] at hq2
      obtain ⟨rfl, rfl⟩ := List.cons.inj hq2
      rcases hp with ⟨next, hlt, _, _, _, rfl⟩ | ⟨_, _, rfl⟩ | ⟨_, _, _, _, _, rfl⟩ |
        ⟨_, _, _, _, rfl⟩
      · refine ⟨?_, by simp [cpuServe]⟩
        intro q hq'
        have : advance p (cpuServe s p rest).cpuTime next = q := by
          simpa [cpuServe] using hq'
        rw [← this]
        rfl
      · simp [cpuServe]
      · refine ⟨by simp [cpuServe], ?_⟩
        intro pid ac arrive time he
        have := List.append_cancel_left he
        simp only [List.cons.injEq, Entry.terminated.injEq, and_true] at this
        exact this.2.1.symm
      · refine ⟨by simp [cpuServe], ?_⟩
        intro pid ac arrive time he
        have := List.append_cancel_left he
        simp only [List.cons.injEq, Entry.terminated.injEq, and_true] at this
        exact this.2.1.symm
  | ioThread =>
    simp only [ownQueue] at hq
    simp only [otherQueue]
    rcases io_cases h with ⟨rfl, _⟩ | ⟨rfl, _⟩ | ⟨rfl, _⟩ |
      ⟨p2, rest2, next, hq2, h1, h2, _, hp⟩
    · simp
    · simp
    · simp
    · rw [hq] at hq2
      obtain ⟨rfl, rfl⟩ := List.cons.inj hq2
      rcases hp with ⟨_, _, rfl⟩ | ⟨_, _, rfl⟩
      · refine ⟨?_, by simp [ioServe]⟩
        intro q hq'
        have : advance p (ioServe s p rest).ioTime next = q := by
          simpa [ioServe] using hq'
        rw [← this]
        rfl
      · simp [ioServe]

theorem shaped_step (w : Worker) (ok : Bool) (s s' : Sched) (f : Flow)
    (hs : Shaped s) (h : body w ok s = some (f, s')) : Shaped s' := by
  cases w with
  | cpuThread =>
    rcases cpu_cases h with ⟨rfl, _⟩ | ⟨rfl, _⟩ | ⟨rfl, _⟩ | ⟨p, rest, hq, h1, h2, hp⟩
    · exact hs
    · exact hs
    · exact hs
    · have hp1 := hs p (by simp [hq])
      have hrest : ∀ q ∈ rest ++ s.ioQueue, q.totalAc = q.times.length := by
        intro q hq'
        apply hs q
        rw [hq]
        rcases List.mem_append.1 hq' with h | h
        · exact List.mem_append_left _ (List.mem_cons_of_mem _ h)
        · exact List.mem_append_right _ h
      rcases hp with ⟨next, hlt, _, _, _, rfl⟩ | ⟨_, _, rfl⟩ | ⟨_, _, _, _, _, rfl⟩ |
        ⟨_, _, _, _, rfl⟩
      · intro q hq'
        have : q ∈ rest ++ s.ioQueue ∨ q = advance p (cpuServe s p rest).cpuTime next := by
          simpa [cpuServe, or_assoc] using hq'
        rcases this with h | rfl
        · exact hrest q h
        · exact hp1
      · intro q hq'
        exact hrest q (by simpa [cpuServe] using hq')
      · intro q hq'
        exact hrest q (by simpa [cpuServe] using hq')
      · intro q hq'
        exact hrest q (by simpa [cpuServe] using hq')
  | ioThread =>
    rcases io_cases h with ⟨rfl, _⟩ | ⟨rfl, _⟩ | ⟨rfl, _⟩ | ⟨p, rest, next, hq, h1, h2, _, hp⟩
    · exact hs
    · exact hs
    · exact hs
    · have hp1 := hs p (by simp [hq])
      have hrest : ∀ q ∈ s.cpuQueue ++ rest, q.totalAc = q.times.length := by
        intro q hq'
        apply hs q
        rw [hq]
        rcases List.mem_append.1 hq' with h | h
        · exact List.mem_append_left _ h
        · exact List.mem_append_right _ (List.mem_cons_of_mem _ h)
      rcases hp with ⟨_, _, rfl⟩ | ⟨_, _, rfl⟩
      · intro q hq'
        have : q ∈ s.cpuQueue ++ rest ∨ q = advance p (ioServe s p rest).ioTime next := by
          have h' : q ∈ s.cpuQueue ∨ q = advance p (ioServe s p rest).ioTime next ∨
              q ∈ rest := by
            simpa [ioServe] using hq'
          rw [List.mem_append]
          tauto
        rcases this with h | rfl
        · exact hrest q h
        · exact hp1
      · intro q hq'
        exact hrest q (by simpa [ioServe] using hq')

/-- C11: for an input in which every record has activity number 1 and
`totalAc` equal to the number of its bursts, in every state reached from the
seeded state: every record on a queue has `1 ≤ ac` and its 0-based cursor
`ac - 1` is at most `totalAc`. In the running state with `fopen` succeeding, the
pass of `cpu()` for a record at the head of `cpuQueue` that has a burst left
(`ac < totalAc`) runs to the end of its loop body and puts the record on
`ioQueue` with `ac + 1`, and the pass of `io()` for such a record at the head of
`ioQueue` puts it on `cpuQueue` with `ac + 1`; neither writes to `log-B`. The
pass of `cpu()` for a record without a burst left writes its terminated entry
with `ac` as it was and puts it on no queue. And whatever a pass does, the
record it puts on the queue of the other worker has the `ac` of the record taken
plus 1, and a terminated entry shows that `ac` unchanged. -/
theorem ac_advances_by_one (processes : List Pa) (steps : List (Worker × Bool))
    (s : Sched) (hcreated : ∀ p ∈ processes, p.ac = 1 ∧ p.totalAc = p.times.length)
    (hrun : run steps (seed processes) = some s) :
    (∀ p ∈ s.cpuQueue ++ s.ioQueue, 1 ≤ p.ac ∧ p.ac - 1 ≤ p.totalAc) ∧
    (∀ p rest, s.errState = 0 → s.cpuQueue = p :: rest → p.ac < p.totalAc →
      ∃ s1 moved, cpu true s = some (Flow.looped, s1) ∧
        s1.cpuQueue = rest ∧ s1.ioQueue = s.ioQueue ++ [moved] ∧ s1.logB = s.logB ∧
        moved.pid = p.pid ∧ moved.ac = p.ac + 1) ∧
    (∀ p rest, s.errState = 0 → s.ioQueue = p :: rest → p.ac < p.totalAc →
      ∃ s1 moved, io true s = some (Flow.looped, s1) ∧
        s1.ioQueue = rest ∧ s1.cpuQueue = s.cpuQueue ++ [moved] ∧ s1.logB = s.logB ∧
        moved.pid = p.pid ∧ moved.ac = p.ac + 1) ∧
    (∀ p rest, s.errState = 0 → s.cpuQueue = p :: rest → ¬ p.ac < p.totalAc →
      ∃ f s1, cpu true s = some (f, s1) ∧
        s1.logB = s.logB ++ [Entry.terminated p.pid p.ac p.arriveTime p.remainingTime] ∧
        s1.cpuQueue = rest ∧ s1.ioQueue = s.ioQueue) ∧
    (∀ w ok f s1 p rest, body w ok s = some (f, s1) → ownQueue w s = p :: rest →
      (∀ q, otherQueue w s1 = otherQueue w s ++ [q] → q.ac = p.ac + 1) ∧
      (∀ pid ac arrive time,
        s1.logB = s.logB ++ [Entry.terminated pid ac arrive time] → ac = p.ac)) := by
  obtain ⟨h1, h2, _⟩ := seed_fields processes
  have h0 : Counted (seed processes) := by
    refine ⟨?_, by simp [h2]⟩
    rw [h1]
    intro p hp
    obtain ⟨ha, ht⟩ := hcreated p hp
    omega
  have hc : Counted s :=
    run_invariant Counted (fun _ => True)
      (fun w ok s f s' _ hP h => counted_step w ok s s' f hP h)
      steps (seed processes) s (fun _ _ => trivial) h0 hrun
  have hsh : Shaped s :=
    run_invariant Shaped (fun _ => True)
      (fun w ok s f s' _ hP h => shaped_step w ok s s' f hP h)
      steps (seed processes) s (fun _ _ => trivial)
      (by
        intro p hp
        rw [h1, h2, List.append_nil] at hp
        exact (hcreated p hp).2) hrun
  refine ⟨?_, ?_, ?_, fun p rest hr hq hlast => cpu_retire s p rest hr hq hlast,
    fun w ok f s1 p rest h hq => ac_step w ok s s1 f p rest h hq⟩
  · intro p hp
    rcases List.mem_append.1 hp with h | h
    · have := hc.1 p h
      omega
    · have := hc.2 p h
      omega
  · intro p rest hr hq hlt
    have hp1 := (hc.1 p (by rw [hq]; exact List.mem_cons_self _ _)).1
    have hp2 := hsh p (by rw [hq]; simp)
    obtain ⟨next, -, hn⟩ := readTimes_next p hp1 hlt hp2
    exact ⟨_, advance p (cpuServe s p rest).cpuTime next, cpu_handoff s p rest next hr hq hlt hn,
      rfl, rfl, rfl, rfl, rfl⟩
  · intro p rest hr hq hlt
    have hp1 := (hc.2 p (by rw [hq]; exact List.mem_cons_self _ _)).1
    have hp2 := hsh p (by rw [hq]; simp)
    obtain ⟨next, -, hn⟩ := readTimes_next p hp1 hlt hp2
    exact ⟨_, advance p (ioServe s p rest).ioTime next, io_handoff s p rest next hr hq hn,
      rfl, rfl, rfl, rfl, rfl⟩

theorem ac_advances_by_one_witness :
    (∀ p ∈ [sampleLong], p.ac = 1 ∧ p.totalAc = p.times.length) ∧
    run [(Worker.cpuThread, true)] (seed [sampleLong]) = some sampleMid ∧
    sampleMid.ioQueue = [advance sampleLong 2 3] ∧ (advance sampleLong 2 3).ac = 2 ∧
    ∃ s1 moved, io true sampleMid = some (Flow.looped, s1) ∧
      s1.ioQueue = [] ∧ s1.cpuQueue = sampleMid.cpuQueue ++ [moved] ∧
      s1.logB = sampleMid.logB ∧ moved.pid = (advance sampleLong 2 3).pid ∧
      moved.ac = (advance sampleLong 2 3).ac + 1 :=
  ⟨by decide, by decide, by decide, by decide,
    (ac_advances_by_one [sampleLong] [(Worker.cpuThread, true)] sampleMid
      (by decide) (by decide)).2.2.1 (advance sampleLong 2 3) [] (by decide) (by decide)
      (by decide)⟩

/-- C12: in the running state, a step whose `fopen` fails after it has taken
the record `p` from the head of its queue returns `E_FILE_NOT_FOUND` with
`errState` at 2, its own queue without that head, the queue of the other
worker and both logs as they were: the record is put on no queue. Such a step
has a result whenever the burst it reads next lies inside `times`, or the
worker is `cpu()` and no burst is left. -/
theorem log_failure_discards_record (w : Worker) (s : Sched) (p : Pa) (rest : LinkedList)
    (hrunning : s.errState = 0) (hq : ownQueue w s = p :: rest) :
    (∀ f s1, body w false s = some (f, s1) →
      f = Flow.returned ERROR_CODE.E_FILE_NOT_FOUND ∧ s1.errState = 2 ∧
      ownQueue w s1 = rest ∧ otherQueue w s1 = otherQueue w s ∧
      s1.logA = s.logA ∧ s1.logB = s.logB) ∧
    ((w = Worker.cpuThread ∧ ¬ p.ac < p.totalAc) ∨ (0 ≤ p.ac ∧ p.ac < p.times.length) →
      ∃ s1, body w false s = some (Flow.returned ERROR_CODE.E_FILE_NOT_FOUND, s1)) := by
  refine ⟨?_, ?_⟩
  · intro f s1 h
    cases w with
    | cpuThread =>
      simp only [ownQueue] at hq
      simp only [ownQueue, otherQueue]
      rcases cpu_cases h with ⟨_, _, he, _⟩ | ⟨_, _, he⟩ | ⟨_, _, he⟩ |
        ⟨p2, rest2, hq2, h1, h2, hp⟩
      · rw [he] at hq; cases hq
      · omega
      · omega
      · rw [hq] at hq2
        obtain ⟨rfl, rfl⟩ := List.cons.inj hq2
        rcases hp with ⟨next, _, _, hok, _⟩ | ⟨_, rfl, rfl⟩ | ⟨_, hok, _⟩ | ⟨_, hok, _⟩
        · cases hok
        · exact ⟨rfl, rfl, rfl, rfl, rfl, rfl⟩
        · cases hok
        · cases hok
    | ioThread =>
      simp only [ownQueue] at hq
      simp only [ownQueue, otherQueue]
      rcases io_cases h with ⟨_, _, he, _⟩ | ⟨_, _, he⟩ | ⟨_, _, he⟩ |
        ⟨p2, rest2, next, hq2, h1, h2, _, hp⟩
      · rw [he] at hq; cases hq
      · omega
      · omega
      · rw [hq] at hq2
        obtain ⟨rfl, rfl⟩ := List.cons.inj hq2
        rcases hp with ⟨hok, _⟩ | ⟨_, rfl, rfl⟩
        · cases hok
        · exact ⟨rfl, rfl, rfl, rfl, rfl, rfl⟩
  · intro hd
    have hread : 0 ≤ p.ac ∧ p.ac < p.times.length →
        ∃ next, readTimes p.times p.ac = some next := by
      intro hb
      have hlt : p.ac.toNat < p.times.length := by omega
      refine ⟨p.times[p.ac.toNat], ?_⟩
      unfold readTimes
      rw [if_pos hb]
      exact List.getElem?_eq_getElem hlt
    cases w with
    | cpuThread =>
      simp only [ownQueue] at hq
      by_cases hlt : p.ac < p.totalAc
      · rcases hd with ⟨_, hn⟩ | hb
        · exact absurd hlt hn
        · obtain ⟨next, hr⟩ := hread hb
          exact ⟨{ cpuServe s p rest with errState := 2 },
            by simp [body, cpu, hq, isEmpty, dequeue, hrunning, hlt, hr]⟩
      · exact ⟨{ cpuServe s p rest with errState := 2 },
          by simp [body, cpu, hq, isEmpty, dequeue, hrunning, hlt]⟩
    | ioThread =>
      simp only [ownQueue] at hq
      rcases hd with ⟨hw, _⟩ | hb
      · cases hw
      · obtain ⟨next, hr⟩ := hread hb
        exact ⟨{ ioServe s p rest with errState := 2 },
          by simp [body, io, hq, isEmpty, dequeue, hrunning, hr]⟩

theorem log_failure_discards_record_witness :
    (∀ f s1, body Worker.cpuThread false (seed [sampleLong]) = some (f, s1) →
      f = Flow.returned ERROR_CODE.E_FILE_NOT_FOUND ∧ s1.errState = 2 ∧
      ownQueue Worker.cpuThread s1 = [] ∧
      otherQueue Worker.cpuThread s1 = otherQueue Worker.cpuThread (seed [sampleLong]) ∧
      s1.logA = (seed [sampleLong]).logA ∧ s1.logB = (seed [sampleLong]).logB) ∧
    ((Worker.cpuThread = Worker.cpuThread ∧ ¬ sampleLong.ac < sampleLong.totalAc) ∨
        (0 ≤ sampleLong.ac ∧ sampleLong.ac < sampleLong.times.length) →
      ∃ s1, body Worker.cpuThread false (seed [sampleLong]) =
        some (Flow.returned ERROR_CODE.E_FILE_NOT_FOUND, s1)) :=
  log_failure_discards_record Worker.cpuThread (seed [sampleLong]) sampleLong []
    (by decide) (by decide)

theorem joined_spawn (processes : List Pa) : Joined (spawn processes) :=
  Or.inl ⟨(seed_fields processes).2.2.1, rfl, rfl⟩

theorem cpu_returned {ok : Bool} {s s1 : Sched} {f : Flow} (h : cpu ok s = some (f, s1)) :
    (s.errState = 0 ∧ s1.errState = 0 ∧ (f = Flow.blocked ∨ f = Flow.looped)) ∨
    (s.errState = 0 ∧ s1.errState = 1 ∧ f = Flow.returned ERROR_CODE.E_SUCCESS) ∨
    (s.errState = 0 ∧ s1.errState = 2 ∧ f = Flow.returned ERROR_CODE.E_FILE_NOT_FOUND) ∨
    (s.errState = 1 ∧ s1 = s ∧ f = Flow.returned ERROR_CODE.E_SUCCESS) ∨
    (s.errState = 2 ∧ s1 = s ∧ f = Flow.returned ERROR_CODE.E_FAILURE) ∨
    (s.errState ≠ 0 ∧ s.errState ≠ 1 ∧ s.errState ≠ 2) := by
  by_cases h0 : s.errState = 0
  · rcases cpu_cases h with ⟨rfl, rfl, _⟩ | ⟨_, _, he⟩ | ⟨_, _, he⟩ | ⟨p, rest, hq, h1, h2, hp⟩
    · exact Or.inl ⟨h0, h0, Or.inl rfl⟩
    · omega
    · omega
    · rcases hp with ⟨next, _, _, _, rfl, rfl⟩ | ⟨_, rfl, rfl⟩ | ⟨_, _, _, _, rfl, rfl⟩ |
        ⟨_, _, _, rfl, rfl⟩
      · exact Or.inl ⟨h0, h0, Or.inr rfl⟩
      · exact Or.inr (Or.inr (Or.inl ⟨h0, rfl, rfl⟩))
      · exact Or.inr (Or.inl ⟨h0, rfl, rfl⟩)
      · exact Or.inl ⟨h0, h0, Or.inr rfl⟩
  · by_cases h1 : s.errState = 1
    · have hc : cpu ok s = some (Flow.returned ERROR_CODE.E_SUCCESS, s) := by
        simp [cpu, h1]
      rw [hc] at h
      cases h
      exact Or.inr (Or.inr (Or.inr (Or.inl ⟨h1, rfl, rfl⟩)))
    · by_cases h2 : s.errState = 2
      · have hc : cpu ok s = some (Flow.returned ERROR_CODE.E_FAILURE, s) := by
          simp [cpu, h2]
        rw [hc] at h
        cases h
        exact Or.inr (Or.inr (Or.inr (Or.inr (Or.inl ⟨h2, rfl, rfl⟩))))
      · exact Or.inr (Or.inr (Or.inr (Or.inr (Or.inr ⟨h0, h1, h2⟩))))

theorem io_returned {ok : Bool} {s s1 : Sched} {f : Flow} (h : io ok s = some (f, s1)) :
    (s.errState = 0 ∧ s1.errState = 0 ∧ (f = Flow.blocked ∨ f = Flow.looped)) ∨
    (s.errState = 0 ∧ s1.errState = 2 ∧ f = Flow.returned ERROR_CODE.E_FILE_NOT_FOUND) ∨
    (s.errState = 1 ∧ s1 = s ∧ f = Flow.returned ERROR_CODE.E_SUCCESS) ∨
    (s.errState = 2 ∧ s1 = s ∧ f = Flow.returned ERROR_CODE.E_FAILURE) ∨
    (s.errState ≠ 0 ∧ s.errState ≠ 1 ∧ s.errState ≠ 2) := by
  by_cases h0 : s.errState = 0
  · rcases io_cases h with ⟨rfl, rfl, _⟩ | ⟨_, _, he⟩ | ⟨_, _, he⟩ |
      ⟨p, rest, next, hq, h1, h2, _, hp⟩
    · exact Or.inl ⟨h0, h0, Or.inl rfl⟩
    · omega
    · omega
    · rcases hp with ⟨_, rfl, rfl⟩ | ⟨_, rfl, rfl⟩
      · exact Or.inl ⟨h0, h0, Or.inr rfl⟩
      · exact Or.inr (Or.inl ⟨h0, rfl, rfl⟩)
  · by_cases h1 : s.errState = 1
    · have hc : io ok s = some (Flow.returned ERROR_CODE.E_SUCCESS, s) := by
        simp [io, h1]
      rw [hc] at h
      cases h
      exact Or.inr (Or.inr (Or.inl ⟨h1, rfl, rfl⟩))
    · by_cases h2 : s.errState = 2
      · have hc : io ok s = some (Flow.returned ERROR_CODE.E_FAILURE, s) := by
          simp [io, h2]
        rw [hc] at h
        cases h
        exact Or.inr (Or.inr (Or.inr (Or.inl ⟨h2, rfl, rfl⟩)))
      · exact Or.inr (Or.inr (Or.inr (Or.inr ⟨h0, h1, h2⟩)))

theorem threadStep_body (w : Worker) (ok : Bool) (t t1 : Threads) (hj : Joined t)
    (h : threadStep w ok t = some t1) :
    Joined t1 ∧ ∃ f, body w ok t.globals = some (f, t1.globals) := by
  cases w with
  | cpuThread =>
    simp only [threadStep] at h
    cases hr : t.returnValCPU with
    | some c =>
      simp only [hr, Option.some.injEq] at h
      subst h
      refine ⟨hj, ?_⟩
      have h12 : t.globals.errState = 1 ∨ t.globals.errState = 2 := by
        rcases hj with ⟨_, h, _⟩ | ⟨h, _⟩ | ⟨h, _⟩ | ⟨h, _⟩
        · rw [hr] at h; cases h
        · exact Or.inl h
        · exact Or.inr h
        · exact Or.inr h
      obtain ⟨code, hb⟩ := body_of_stopped Worker.cpuThread ok t.globals h12
      exact ⟨_, hb⟩
    | none =>
      simp only [hr] at h
      cases hc : cpu ok t.globals with
      | none => simp [hc] at h
      | some r =>
        obtain ⟨f, s⟩ := r
        have hg : t1.globals = s ∧ t1.returnValIo = t.returnValIo ∧
            t1.returnValCPU = (match f with
              | Flow.returned code => some code
              | _ => none) := by
          cases f <;> simp only [hc, Option.some.injEq] at h <;> subst h <;> simp [hr]
        obtain ⟨hg1, hg2, hg3⟩ := hg
        refine ⟨?_, f, by rw [hg1]; exact hc⟩
        have hio : (t.globals.errState = 0 ∧ t.returnValIo = none) ∨
            (t.globals.errState = 2 ∧ t.returnValIo = some ERROR_CODE.E_FILE_NOT_FOUND) := by
          rcases hj with ⟨h, _, h2⟩ | ⟨_, h, _⟩ | ⟨_, h, _⟩ | ⟨h, h2, _⟩
          · exact Or.inl ⟨h, h2⟩
          · rw [hr] at h; cases h
          · rw [hr] at h; cases h
          · exact Or.inr ⟨h, h2⟩
        unfold Joined
        rw [hg1, hg2, hg3]
        rcases cpu_returned hc with ⟨e0, e1, hf⟩ | ⟨e0, e1, rfl⟩ | ⟨e0, e1, rfl⟩ |
          ⟨e0, _, _⟩ | ⟨e0, rfl, rfl⟩ | ⟨e0, e1, e2⟩
        · rcases hio with ⟨_, hi⟩ | ⟨e2, _⟩
          · rcases hf with rfl | rfl <;> exact Or.inl ⟨e1, rfl, hi⟩
          · omega
        · rcases hio with ⟨_, hi⟩ | ⟨e2, _⟩
          · exact Or.inr (Or.inl ⟨e1, rfl, Or.inl hi⟩)
          · omega
        · rcases hio with ⟨_, hi⟩ | ⟨e2, _⟩
          · exact Or.inr (Or.inr (Or.inl ⟨e1, rfl, Or.inl hi⟩))
          · omega
        · rcases hio with ⟨e, _⟩ | ⟨e, _⟩ <;> omega
        · rcases hio with ⟨e, _⟩ | ⟨_, hi⟩
          · omega
          · exact Or.inr (Or.inr (Or.inr ⟨e0, hi, Or.inr rfl⟩))
        · rcases hio with ⟨e, _⟩ | ⟨e, _⟩ <;> omega
  | ioThread =>
    simp only [threadStep] at h
    cases hr : t.returnValIo with
    | some c =>
      simp only [hr, Option.some.injEq] at h
      subst h
      refine ⟨hj, ?_⟩
      have h12 : t.globals.errState = 1 ∨ t.globals.errState = 2 := by
        rcases hj with ⟨_, _, h⟩ | ⟨h, _⟩ | ⟨h, _⟩ | ⟨h, _⟩
        · rw [hr] at h; cases h
        · exact Or.inl h
        · exact Or.inr h
        · exact Or.inr h
      obtain ⟨code, hb⟩ := body_of_stopped Worker.ioThread ok t.globals h12
      exact ⟨_, hb⟩
    | none =>
      simp only [hr] at h
      cases hc : io ok t.globals with
      | none => simp [hc] at h
      | some r =>
        obtain ⟨f, s⟩ := r
        have hg : t1.globals = s ∧ t1.returnValCPU = t.returnValCPU ∧
            t1.returnValIo = (match f with
              | Flow.returned code => some code
              | _ => none) := by
          cases f <;> simp only [hc, Option.some.injEq] at h <;> subst h <;> simp [hr]
        obtain ⟨hg1, hg2, hg3⟩ := hg
        refine ⟨?_, f, by rw [hg1]; exact hc⟩
        have hcpu : (t.globals.errState = 0 ∧ t.returnValCPU = none) ∨
            (t.globals.errState = 1 ∧ t.returnValCPU = some ERROR_CODE.E_SUCCESS) ∨
            (t.globals.errState = 2 ∧ t.returnValCPU = some ERROR_CODE.E_FILE_NOT_FOUND) := by
          rcases hj with ⟨h, h2, _⟩ | ⟨h, h2, _⟩ | ⟨h, h2, _⟩ | ⟨_, h, _⟩
          · exact Or.inl ⟨h, h2⟩
          · exact Or.inr (Or.inl ⟨h, h2⟩)
          · exact Or.inr (Or.inr ⟨h, h2⟩)
          · rw [hr] at h; cases h
        unfold Joined
        rw [hg1, hg2, hg3]
        rcases io_returned hc with ⟨e0, e1, hf⟩ | ⟨e0, e1, rfl⟩ | ⟨e0, rfl, rfl⟩ |
          ⟨e0, rfl, rfl⟩ | ⟨e0, e1, e2⟩
        · rcases hcpu with ⟨_, hi⟩ | ⟨e2, _⟩ | ⟨e2, _⟩
          · rcases hf with rfl | rfl <;> exact Or.inl ⟨e1, hi, rfl⟩
          · omega
          · omega
        · rcases hcpu with ⟨_, hi⟩ | ⟨e2, _⟩ | ⟨e2, _⟩
          · exact Or.inr (Or.inr (Or.inr ⟨e1, rfl, Or.inl hi⟩))
          · omega
          · omega
        · rcases hcpu with ⟨e, _⟩ | ⟨_, hi⟩ | ⟨e, _⟩
          · omega
          · exact Or.inr (Or.inl ⟨e0, hi, Or.inr rfl⟩)
          · omega
        · rcases hcpu with ⟨e, _⟩ | ⟨e, _⟩ | ⟨_, hi⟩
          · omega
          · omega
          · exact Or.inr (Or.inr (Or.inl ⟨e0, hi, Or.inr rfl⟩))
        · rcases hcpu with ⟨e, _⟩ | ⟨e, _⟩ | ⟨e, _⟩ <;> omega

theorem threads_run (steps : List (Worker × Bool)) (t t1 : Threads) (hj : Joined t)
    (h : threads steps t = some t1) :
    Joined t1 ∧ run steps t.globals = some t1.globals := by
  induction steps generalizing t with
  | nil =>
    simp only [threads, Option.some.injEq] at h
    subst h
    exact ⟨hj, rfl⟩
  | cons x later ih =>
    obtain ⟨w, ok⟩ := x
    simp only [threads] at h
    cases hs : threadStep w ok t with
    | none => simp [hs] at h
    | some t2 =>
      simp only [hs] at h
      obtain ⟨hj2, f, hb⟩ := threadStep_body w ok t t2 hj hs
      obtain ⟨hj1, hr⟩ := ih t2 hj2 h
      refine ⟨hj1, ?_⟩
      simp only [run, hb]
      exact hr

theorem threads_append (a b : List (Worker × Bool)) (t : Threads) :
    threads (a ++ b) t = (threads a t).bind (threads b) := by
  induction a generalizing t with
  | nil => simp [threads]
  | cons x later ih =>
    obtain ⟨w, ok⟩ := x
    simp only [List.cons_append, threads]
    cases hs : threadStep w ok t with
    | none => simp
    | some r => simp [ih]

/-- What a result of `scheduler` says about the threads. -/
theorem scheduler_result (processes : List Pa) (steps : List (Worker × Bool))
    (logBOk : Bool) (r : ERROR_CODE × Option Report)
    (h : scheduler processes steps logBOk = some r) :
    ∃ t a b, threads steps (spawn processes) = some t ∧ t.returnValCPU = some a ∧
      t.returnValIo = some b ∧ r = collect a b t.globals processes.length logBOk ∧
      Joined t ∧ run steps (seed processes) = some t.globals := by
  unfold scheduler at h
  cases ht : threads steps (spawn processes) with
  | none => simp [ht] at h
  | some t =>
    simp only [ht] at h
    obtain ⟨hj, hr⟩ := threads_run steps (spawn processes) t (joined_spawn processes) ht
    cases ha : t.returnValCPU with
    | none => simp [ha] at h
    | some a =>
      cases hb : t.returnValIo with
      | none => simp [ha, hb] at h
      | some b =>
        simp only [ha, hb, Option.some.injEq] at h
        exact ⟨t, a, b, rfl, ha, hb, h.symm, hj, hr⟩

/-- A successful result of `scheduler` comes with a run that ends with
`errState` at 1, and the values reported are the statistics of its last
state. -/
theorem scheduler_success (processes : List Pa) (steps : List (Worker × Bool))
    (logBOk : Bool) (report : Option Report)
    (h : scheduler processes steps logBOk = some (ERROR_CODE.E_SUCCESS, report)) :
    ∃ s, run steps (seed processes) = some s ∧ s.errState = 1 ∧
      report = some (statistics s processes.length) := by
  obtain ⟨t, a, b, _, ha, hb, hr, hj, hrun⟩ :=
    scheduler_result processes steps logBOk _ h
  refine ⟨t.globals, hrun, ?_, ?_⟩
  · rcases hj with ⟨_, h1, _⟩ | ⟨h1, _⟩ | ⟨_, h1, _⟩ | ⟨_, h1, _⟩
    · rw [ha] at h1; cases h1
    · exact h1
    · rw [ha] at h1
      cases h1
      simp [collect] at hr
    · rw [hb] at h1
      cases h1
      unfold collect at hr
      split at hr
      · rename_i hne
        cases hr
        exact absurd rfl hne
      · simp at hr
  · unfold collect at hr
    split at hr
    · rename_i hne
      cases hr
      exact absurd rfl hne
    · split at hr
      · rename_i hne
        cases hr
        exact absurd rfl hne
      · split at hr
        · cases hr; rfl
        · cases hr

theorem scheduler_of_threads (processes : List Pa) (steps : List (Worker × Bool))
    (logBOk : Bool) (t : Threads) (a b : ERROR_CODE)
    (ht : threads steps (spawn processes) = some t) (ha : t.returnValCPU = some a)
    (hb : t.returnValIo = some b) :
    scheduler processes steps logBOk =
      some (collect a b t.globals processes.length logBOk) := by
  simp [scheduler, ht, ha, hb]

theorem sampleThree_scheduler :
    scheduler [sampleThree] [(Worker.cpuThread, true), (Worker.ioThread, true)] true =
      some (ERROR_CODE.E_SUCCESS, some reportThree) := by
  rw [scheduler_of_threads [sampleThree] [(Worker.cpuThread, true), (Worker.ioThread, true)] true
    { globals := sampleThreeEnd, returnValCPU := some ERROR_CODE.E_SUCCESS,
      returnValIo := some ERROR_CODE.E_SUCCESS } ERROR_CODE.E_SUCCESS ERROR_CODE.E_SUCCESS
    (by decide) rfl rfl]
  simp only [collect, statistics, divide, reportThree, sampleThreeEnd]
  norm_num

/-- A step whose `fopen` fails changes nothing, and then does what it would do
had the `fopen` succeeded, or it leaves `errState` at 2. -/
theorem body_false (w : Worker) (s s1 : Sched) (f : Flow)
    (h : body w false s = some (f, s1)) :
    (s1 = s ∧ body w true s = some (f, s)) ∨ s1.errState = 2 := by
  cases w with
  | cpuThread =>
    rcases cpu_cases h with ⟨rfl, rfl, hq, he⟩ | ⟨rfl, rfl, he⟩ | ⟨rfl, rfl, he⟩ |
      ⟨p, rest, hq, h1, h2, hp⟩
    · exact Or.inl ⟨rfl, by simp [body, cpu, hq, he, isEmpty]⟩
    · exact Or.inl ⟨rfl, by simp [body, cpu, he]⟩
    · exact Or.inl ⟨rfl, by simp [body, cpu, he]⟩
    · rcases hp with ⟨next, _, _, hok, _⟩ | ⟨_, _, rfl⟩ | ⟨_, hok, _⟩ | ⟨_, hok, _⟩
      · cases hok
      · exact Or.inr rfl
      · cases hok
      · cases hok
  | ioThread =>
    rcases io_cases h with ⟨rfl, rfl, hq, he⟩ | ⟨rfl, rfl, he⟩ | ⟨rfl, rfl, he⟩ |
      ⟨p, rest, next, hq, h1, h2, _, hp⟩
    · exact Or.inl ⟨rfl, by simp [body, io, hq, he, isEmpty]⟩
    · exact Or.inl ⟨rfl, by simp [body, io, he]⟩
    · exact Or.inl ⟨rfl, by simp [body, io, he]⟩
    · rcases hp with ⟨hok, _⟩ | ⟨_, _, rfl⟩
      · cases hok
      · exact Or.inr rfl

/-- A property kept by every step whose `fopen` succeeds holds at the end of
every run that does not end with `errState` at 2. -/
theorem run_invariant_unless_failed (P : Sched → Prop)
    (hstep : ∀ w s f s', P s → body w true s = some (f, s') → P s')
    (steps : List (Worker × Bool)) (s s' : Sched) (hP : P s)
    (hrun : run steps s = some s') : s'.errState = 2 ∨ P s' := by
  refine run_invariant (fun s => s.errState = 2 ∨ P s) (fun _ => True) ?_ steps s s'
    (fun _ _ => trivial) (Or.inr hP) hrun
  intro w ok s f s1 _ hs h
  rcases hs with h2 | hp
  · left
    obtain ⟨code, hb⟩ := body_of_stopped w ok s (Or.inr h2)
    rw [hb] at h
    cases h
    exact h2
  · cases ok with
    | true => exact Or.inr (hstep w s f s1 hp h)
    | false =>
      rcases body_false w s s1 f h with ⟨rfl, _⟩ | h2
      · exact Or.inr hp
      · exact Or.inl h2

theorem ordered_step (w : Worker) (ok : Bool) (s s' : Sched) (f : Flow)
    (hs : Ordered s) (h : body w ok s = some (f, s')) : Ordered s' := by
  obtain ⟨a1, a2, a3, a4⟩ := hs
  cases w with
  | cpuThread =>
    rcases cpu_cases h with ⟨rfl, _⟩ | ⟨rfl, _⟩ | ⟨rfl, _⟩ | ⟨p, rest, hq, h1, h2, hp⟩
    · exact ⟨a1, a2, a3, a4⟩
    · exact ⟨a1, a2, a3, a4⟩
    · exact ⟨a1, a2, a3, a4⟩
    · obtain ⟨e1, _, e3⟩ := cpuServe_clock s p rest
      have hb : Ordered (cpuServe s p rest) := by
        refine ⟨by omega, by omega, ?_, ?_⟩
        · simpa [cpuServe] using a3
        · simpa [cpuServe] using a4
      rcases hp with ⟨next, _, _, _, _, rfl⟩ | ⟨_, _, rfl⟩ | ⟨_, _, _, _, _, rfl⟩ |
        ⟨_, _, _, _, rfl⟩ <;> exact hb
  | ioThread =>
    rcases io_cases h with ⟨rfl, _⟩ | ⟨rfl, _⟩ | ⟨rfl, _⟩ | ⟨p, rest, next, hq, h1, h2, _, hp⟩
    · exact ⟨a1, a2, a3, a4⟩
    · exact ⟨a1, a2, a3, a4⟩
    · exact ⟨a1, a2, a3, a4⟩
    · obtain ⟨e1, _, e3⟩ := ioServe_clock s p rest
      have hb : Ordered (ioServe s p rest) := by
        refine ⟨?_, ?_, by omega, by omega⟩
        · simpa [ioServe] using a1
        · simpa [ioServe] using a2
      rcases hp with ⟨_, _, rfl⟩ | ⟨_, _, rfl⟩ <;> exact hb

/-- In the running state, a step that has a record to take and whose `fopen`
fails returns `E_FILE_NOT_FOUND` and leaves `errState` at 2. -/
theorem failed_open_returns (w : Worker) (s s1 : Sched) (f : Flow) (p : Pa)
    (rest : LinkedList) (hrunning : s.errState = 0) (hq : ownQueue w s = p :: rest)
    (h : body w false s = some (f, s1)) :
    f = Flow.returned ERROR_CODE.E_FILE_NOT_FOUND ∧ s1.errState = 2 := by
  cases w with
  | cpuThread =>
    simp only [ownQueue] at hq
    rcases cpu_cases h with ⟨_, _, he, _⟩ | ⟨_, _, he⟩ | ⟨_, _, he⟩ | ⟨p2, rest2, hq2, h1, h2, hp⟩
    · rw [he] at hq; cases hq
    · omega
    · omega
    · rcases hp with ⟨next, _, _, hok, _⟩ | ⟨_, rfl, rfl⟩ | ⟨_, hok, _⟩ | ⟨_, hok, _⟩
      · cases hok
      · exact ⟨rfl, rfl⟩
      · cases hok
      · cases hok
  | ioThread =>
    simp only [ownQueue] at hq
    rcases io_cases h with ⟨_, _, he, _⟩ | ⟨_, _, he⟩ | ⟨_, _, he⟩ |
      ⟨p2, rest2, next, hq2, h1, h2, _, hp⟩
    · rw [he] at hq; cases hq
    · omega
    · omega
    · rcases hp with ⟨hok, _⟩ | ⟨_, rfl, rfl⟩
      · cases hok
      · exact ⟨rfl, rfl⟩

/-- With `errState` at 2 a worker returns `E_FAILURE` and changes nothing. -/
theorem body_of_failed (w : Worker) (ok : Bool) (s : Sched) (h : s.errState = 2) :
    body w ok s = some (Flow.returned ERROR_CODE.E_FAILURE, s) := by
  cases w <;> simp [body, cpu, io, h]

theorem sampleFailed_threads :
    threads [(Worker.cpuThread, false), (Worker.ioThread, true)] (spawn [sampleLong]) =
      some sampleFailedThreads := by
  decide

/-- C13, refuted as stated: on the input `sampleLong` the `fopen` of the first
CPU step fails, so `cpu()` returns `E_FILE_NOT_FOUND`; the I/O thread, which
then finds `errState` at 2, returns `E_FAILURE`, not the code of the failure it
observes. -/
theorem observer_returns_generic_failure :
    threads [(Worker.cpuThread, false), (Worker.ioThread, true)] (spawn [sampleLong]) =
      some sampleFailedThreads ∧
    sampleFailedThreads.returnValCPU = some ERROR_CODE.E_FILE_NOT_FOUND ∧
    sampleFailedThreads.returnValIo = some ERROR_CODE.E_FAILURE ∧
    sampleFailedThreads.returnValIo ≠ some ERROR_CODE.E_FILE_NOT_FOUND := by
  decide

/-- C13, amended: in the running state the step whose `fopen` fails returns
`E_FILE_NOT_FOUND` and sets `errState` to 2; a worker that finds `errState` at
2 returns `E_FAILURE` and changes nothing. So once a thread has returned
`E_FILE_NOT_FOUND`, `errState` is 2 and the other thread returns `E_FAILURE` if
it returns at all. -/
theorem failure_codes (processes : List Pa) (steps : List (Worker × Bool)) (t : Threads)
    (hrun : threads steps (spawn processes) = some t) :
    (∀ w s s1 f p rest, s.errState = 0 → ownQueue w s = p :: rest →
      body w false s = some (f, s1) →
      f = Flow.returned ERROR_CODE.E_FILE_NOT_FOUND ∧ s1.errState = 2) ∧
    (∀ w ok s, s.errState = 2 →
      body w ok s = some (Flow.returned ERROR_CODE.E_FAILURE, s)) ∧
    (t.returnValCPU = some ERROR_CODE.E_FILE_NOT_FOUND →
      t.globals.errState = 2 ∧
      (t.returnValIo = none ∨ t.returnValIo = some ERROR_CODE.E_FAILURE)) ∧
    (t.returnValIo = some ERROR_CODE.E_FILE_NOT_FOUND →
      t.globals.errState = 2 ∧
      (t.returnValCPU = none ∨ t.returnValCPU = some ERROR_CODE.E_FAILURE)) := by
  obtain ⟨hj, _⟩ := threads_run steps (spawn processes) t (joined_spawn processes) hrun
  refine ⟨fun w s s1 f p rest h0 hq h => failed_open_returns w s s1 f p rest h0 hq h,
    fun w ok s h2 => body_of_failed w ok s h2, ?_, ?_⟩
  · intro hc
    rcases hj with ⟨_, h, _⟩ | ⟨_, h, _⟩ | ⟨he, _, hi⟩ | ⟨he, hi, h⟩
    · rw [hc] at h; cases h
    · rw [hc] at h; cases h
    · exact ⟨he, hi⟩
    · rcases h with h | h <;> rw [hc] at h <;> cases h
  · intro hc
    rcases hj with ⟨_, _, h⟩ | ⟨_, _, h⟩ | ⟨he, _, h⟩ | ⟨he, _, hi⟩
    · rw [hc] at h; cases h
    · rcases h with h | h <;> rw [hc] at h <;> cases h
    · rcases h with h | h <;> rw [hc] at h <;> cases h
    · exact ⟨he, hi⟩

theorem failure_codes_witness :
    (∀ w s s1 f p rest, s.errState = 0 → ownQueue w s = p :: rest →
      body w false s = some (f, s1) →
      f = Flow.returned ERROR_CODE.E_FILE_NOT_FOUND ∧ s1.errState = 2) ∧
    (∀ w ok s, s.errState = 2 →
      body w ok s = some (Flow.returned ERROR_CODE.E_FAILURE, s)) ∧
    (sampleFailedThreads.returnValCPU = some ERROR_CODE.E_FILE_NOT_FOUND →
      sampleFailedThreads.globals.errState = 2 ∧
      (sampleFailedThreads.returnValIo = none ∨
        sampleFailedThreads.returnValIo = some ERROR_CODE.E_FAILURE)) ∧
    (sampleFailedThreads.returnValIo = some ERROR_CODE.E_FILE_NOT_FOUND →
      sampleFailedThreads.globals.errState = 2 ∧
      (sampleFailedThreads.returnValCPU = none ∨
        sampleFailedThreads.returnValCPU = some ERROR_CODE.E_FAILURE)) :=
  failure_codes [sampleLong] [(Worker.cpuThread, false), (Worker.ioThread, true)]
    sampleFailedThreads sampleFailed_threads

/-- Once a thread has returned `E_FILE_NOT_FOUND`, two more passes, one of each
thread, leave both threads returned, none of them with `E_SUCCESS`. -/
theorem failed_threads_finish (t : Threads) (a b : Bool) (hj : Joined t)
    (hfail : t.returnValCPU = some ERROR_CODE.E_FILE_NOT_FOUND ∨
      t.returnValIo = some ERROR_CODE.E_FILE_NOT_FOUND) :
    ∃ t2 x y, threads [(Worker.cpuThread, a), (Worker.ioThread, b)] t = some t2 ∧
      t2.returnValCPU = some x ∧ t2.returnValIo = some y ∧ x ≠ ERROR_CODE.E_SUCCESS := by
  have h2 : t.globals.errState = 2 := by
    rcases hfail with hc | hc
    · rcases hj with ⟨_, h, _⟩ | ⟨_, h, _⟩ | ⟨he, _⟩ | ⟨he, _⟩
      · rw [hc] at h; cases h
      · rw [hc] at h; cases h
      · exact he
      · exact he
    · rcases hj with ⟨_, _, h⟩ | ⟨_, _, h⟩ | ⟨he, _⟩ | ⟨he, _⟩
      · rw [hc] at h; cases h
      · rcases h with h | h <;> rw [hc] at h <;> cases h
      · exact he
      · exact he
  have hcpu : cpu a t.globals = some (Flow.returned ERROR_CODE.E_FAILURE, t.globals) := by
    simp [cpu, h2]
  have hio : io b t.globals = some (Flow.returned ERROR_CODE.E_FAILURE, t.globals) := by
    simp [io, h2]
  have hcases : (t.returnValCPU = some ERROR_CODE.E_FILE_NOT_FOUND ∧
        (t.returnValIo = none ∨ t.returnValIo = some ERROR_CODE.E_FAILURE)) ∨
      (t.returnValIo = some ERROR_CODE.E_FILE_NOT_FOUND ∧
        (t.returnValCPU = none ∨ t.returnValCPU = some ERROR_CODE.E_FAILURE)) := by
    rcases hj with ⟨he, _⟩ | ⟨he, _⟩ | ⟨_, hc, hi⟩ | ⟨_, hi, hc⟩
    · omega
    · omega
    · exact Or.inl ⟨hc, hi⟩
    · exact Or.inr ⟨hi, hc⟩
  rcases hcases with ⟨hc, hi | hi⟩ | ⟨hi, hc | hc⟩
  · exact ⟨{ t with returnValIo := some ERROR_CODE.E_FAILURE }, _, _,
      by simp [threads, threadStep, hc, hi, hio], hc, rfl, by decide⟩
  · exact ⟨t, _, _, by simp [threads, threadStep, hc, hi], hc, hi, by decide⟩
  · exact ⟨{ t with returnValCPU := some ERROR_CODE.E_FAILURE }, _, _,
      by simp [threads, threadStep, hc, hi, hcpu], rfl, hi, by decide⟩
  · exact ⟨t, _, _, by simp [threads, threadStep, hc, hi], hc, hi, by decide⟩

/-- C14: in every run of the threads in which a thread has returned
`E_FILE_NOT_FOUND` (its log open has failed), `errState` is 2; every later pass
of a worker returns `E_FAILURE` at once, with all globals and both queues
unchanged; every result of `scheduler()`, however the run goes on, is a code
other than `E_SUCCESS` with no statistics reported; and after one more pass of
each thread `scheduler()` has such a result. -/
theorem failure_stops_both_workers (processes : List Pa) (steps : List (Worker × Bool))
    (t : Threads) (hrun : threads steps (spawn processes) = some t)
    (hfail : t.returnValCPU = some ERROR_CODE.E_FILE_NOT_FOUND ∨
      t.returnValIo = some ERROR_CODE.E_FILE_NOT_FOUND) :
    t.globals.errState = 2 ∧
    (∀ w ok, body w ok t.globals = some (Flow.returned ERROR_CODE.E_FAILURE, t.globals)) ∧
    (∀ more logBOk code report,
      scheduler processes (steps ++ more) logBOk = some (code, report) →
      code ≠ ERROR_CODE.E_SUCCESS ∧ report = none) ∧
    (∀ a b logBOk, ∃ code, code ≠ ERROR_CODE.E_SUCCESS ∧
      scheduler processes (steps ++ [(Worker.cpuThread, a), (Worker.ioThread, b)]) logBOk =
        some (code, none)) := by
  obtain ⟨hj, hr⟩ := threads_run steps (spawn processes) t (joined_spawn processes) hrun
  have h2 : t.globals.errState = 2 := by
    rcases hfail with hc | hc
    · rcases hj with ⟨_, h, _⟩ | ⟨_, h, _⟩ | ⟨he, _⟩ | ⟨he, _⟩
      · rw [hc] at h; cases h
      · rw [hc] at h; cases h
      · exact he
      · exact he
    · rcases hj with ⟨_, _, h⟩ | ⟨_, _, h⟩ | ⟨he, _⟩ | ⟨he, _⟩
      · rw [hc] at h; cases h
      · rcases h with h | h <;> rw [hc] at h <;> cases h
      · exact he
      · exact he
  refine ⟨h2, fun w ok => body_of_failed w ok t.globals h2, ?_, ?_⟩
  · intro more logBOk code report hs
    by_contra hcon
    have hcode : code = ERROR_CODE.E_SUCCESS := by
      by_contra hne
      apply hcon
      refine ⟨hne, ?_⟩
      obtain ⟨t2, a, b, _, _, _, hres, _⟩ :=
        scheduler_result processes (steps ++ more) logBOk _ hs
      unfold collect at hres
      split at hres
      · cases hres; rfl
      · split at hres
        · cases hres; rfl
        · split at hres
          · cases hres; exact absurd rfl hne
          · cases hres; rfl
    subst hcode
    obtain ⟨s, hrun2, he, _⟩ := scheduler_success processes (steps ++ more) logBOk _ hs
    have hr2 : run steps (seed processes) = some t.globals := hr
    rw [run_append, hr2] at hrun2
    have hstay : run more t.globals = some t.globals :=
      run_of_stopped more t.globals (Or.inr h2)
    have hs2 : some t.globals = some s := by
      rw [← hstay]
      exact hrun2
    cases hs2
    omega
  · intro a b logBOk
    obtain ⟨t2, x, y, ht2, hx, hy, hne⟩ := failed_threads_finish t a b hj hfail
    have hth : threads (steps ++ [(Worker.cpuThread, a), (Worker.ioThread, b)])
        (spawn processes) = some t2 := by
      rw [threads_append, hrun]
      exact ht2
    refine ⟨x, hne, ?_⟩
    rw [scheduler_of_threads processes _ logBOk t2 x y hth hx hy]
    simp [collect, hne]

theorem failure_stops_both_workers_witness :
    (seed [sampleLong]).errState = 0 ∧ sampleFailed.errState = 2 ∧
    (∀ w ok, body w ok sampleFailed = some (Flow.returned ERROR_CODE.E_FAILURE, sampleFailed)) ∧
    (∀ more logBOk code report,
      scheduler [sampleLong] ([(Worker.cpuThread, false)] ++ more) logBOk =
        some (code, report) →
      code ≠ ERROR_CODE.E_SUCCESS ∧ report = none) ∧
    (∀ a b logBOk, ∃ code, code ≠ ERROR_CODE.E_SUCCESS ∧
      scheduler [sampleLong]
        ([(Worker.cpuThread, false)] ++ [(Worker.cpuThread, a), (Worker.ioThread, b)]) logBOk =
        some (code, none)) :=
  ⟨by decide,
    failure_stops_both_workers [sampleLong] [(Worker.cpuThread, false)]
      { globals := sampleFailed, returnValCPU := some ERROR_CODE.E_FILE_NOT_FOUND,
        returnValIo := none } (by decide) (Or.inl rfl)⟩

theorem drop_eq_cons {α : Type} (l : List α) (k : Nat) (p : α) (rest : List α)
    (h : l.drop k = p :: rest) :
    k < l.length ∧ l.take (k + 1) = l.take k ++ [p] ∧ l.drop (k + 1) = rest := by
  induction l generalizing k with
  | nil => simp at h
  | cons a l ih =>
    cases k with
    | zero =>
      simp only [List.drop_zero, List.cons.injEq] at h
      obtain ⟨rfl, rfl⟩ := h
      simp
    | succ k =>
      simp only [List.drop_succ_cons] at h
      obtain ⟨h1, h2, h3⟩ := ih k h
      refine ⟨by simp only [List.length_cons]; omega, ?_, ?_⟩
      · simp only [List.take_succ_cons, List.cons_append, h2]
      · simpa using h3

theorem finishTime_succ (processes : List Pa) (k : Nat) (p : Pa) (rest : List Pa)
    (h : processes.drop k = p :: rest) :
    finishTime processes (k + 1) = finishTime processes k + p.remainingTime := by
  obtain ⟨_, h2, _⟩ := drop_eq_cons processes k p rest h
  simp [finishTime, h2]

theorem waitingTotal_succ (processes : List Pa) (k : Nat) :
    waitingTotal processes (k + 1) = waitingTotal processes k + finishTime processes k := by
  simp [waitingTotal, List.range_succ]

theorem finishTime_nonneg (processes : List Pa) (k : Nat)
    (h : ∀ p ∈ processes, 0 ≤ p.remainingTime) : 0 ≤ finishTime processes k := by
  unfold finishTime
  apply List.sum_nonneg
  intro x hx
  obtain ⟨p, hp, rfl⟩ := List.mem_map.1 hx
  exact h p (List.mem_of_mem_take hp)

theorem finishTime_length (processes : List Pa) :
    finishTime processes processes.length = (processes.map Pa.remainingTime).sum := by
  simp [finishTime]

theorem served_step (processes : List Pa)
    (hsingle : ∀ p ∈ processes,
      p.ac = 1 ∧ p.totalAc = 1 ∧ p.arriveTime = 0 ∧ 0 ≤ p.remainingTime)
    (w : Worker) (s s' : Sched) (f : Flow)
    (hs : Served processes s) (h : body w true s = some (f, s')) : Served processes s' := by
  obtain ⟨k, hk, hlog, hq, hio, ht, hidle, hwait, hend⟩ := hs
  cases w with
  | cpuThread =>
    rcases cpu_cases h with ⟨rfl, _⟩ | ⟨rfl, _⟩ | ⟨rfl, _⟩ | ⟨p, rest, hq2, h1, h2, hp⟩
    · exact ⟨k, hk, hlog, hq, hio, ht, hidle, hwait, hend⟩
    · exact ⟨k, hk, hlog, hq, hio, ht, hidle, hwait, hend⟩
    · exact ⟨k, hk, hlog, hq, hio, ht, hidle, hwait, hend⟩
    · have hdrop : processes.drop k = p :: rest := by rw [← hq, hq2]
      obtain ⟨hklt, htake, hrest⟩ := drop_eq_cons processes k p rest hdrop
      have hmem : p ∈ processes := by
        apply List.mem_of_mem_drop (n := k)
        rw [hdrop]
        exact List.mem_cons_self _ _
      obtain ⟨pa, pt, parr, pb⟩ := hsingle p hmem
      have hfin := finishTime_nonneg processes k (fun q hq' => (hsingle q hq').2.2.2)
      obtain ⟨e1, e2, e3⟩ := cpuServe_clock s p rest
      have c1 : (cpuServe s p rest).cpuTime = finishTime processes (k + 1) := by
        rw [e3, finishTime_succ processes k p rest hdrop, ht, parr]
        omega
      have c2 : (cpuServe s p rest).cpuIdleTime = 0 := by
        rw [e1, hidle, parr, ht]
        omega
      have c3 : (cpuServe s p rest).cpuWaitingTime = waitingTotal processes (k + 1) := by
        rw [e2, waitingTotal_succ, hwait, parr, ht]
        omega
      have c4 : s.logB ++ [Entry.terminated p.pid p.ac p.arriveTime p.remainingTime] =
          (processes.take (k + 1)).map retirement := by
        rw [htake, List.map_append, hlog]
        rfl
      rcases hp with ⟨next, hlt, _⟩ | ⟨hok, _⟩ | ⟨_, _, hr, _, _, rfl⟩ | ⟨_, _, _, _, rfl⟩
      · omega
      · cases hok
      · refine ⟨k + 1, hklt, c4, hrest.symm, hio, c1, c2, c3, fun _ => ?_⟩
        have : processes.drop (k + 1) = [] := by rw [hrest, hr]
        have := List.drop_eq_nil_iff.1 this
        omega
      · refine ⟨k + 1, hklt, c4, hrest.symm, hio, c1, c2, c3, fun he => ?_⟩
        exact absurd he h1
  | ioThread =>
    rcases io_cases h with ⟨rfl, _⟩ | ⟨rfl, _⟩ | ⟨rfl, _⟩ | ⟨p, rest, next, hq2, _⟩
    · exact ⟨k, hk, hlog, hq, hio, ht, hidle, hwait, hend⟩
    · exact ⟨k, hk, hlog, hq, hio, ht, hidle, hwait, hend⟩
    · exact ⟨k, hk, hlog, hq, hio, ht, hidle, hwait, hend⟩
    · rw [hio] at hq2
      cases hq2

theorem seedLoop_waiting (processes : List Pa) (s : Sched) :
    (seedLoop processes s).cpuWaitingTime = s.cpuWaitingTime ∧
    (seedLoop processes s).ioWaitingTime = s.ioWaitingTime := by
  induction processes generalizing s with
  | nil => simp [seedLoop]
  | cons p later ih =>
    simp only [seedLoop]
    have := ih { s with
      cpuQueue := (enqueue s.cpuQueue p).2,
      logA := s.logA ++ [Entry.newProcess p.pid p.ac p.arriveTime p.remainingTime] }
    simpa using this

theorem seed_waiting (processes : List Pa) :
    (seed processes).cpuWaitingTime = 0 ∧ (seed processes).ioWaitingTime = 0 := by
  simpa [seed, start] using seedLoop_waiting processes start

theorem served_seed (processes : List Pa) : Served processes (seed processes) := by
  obtain ⟨h1, h2, h3, h4, h5, h6, _⟩ := seed_fields processes
  refine ⟨0, Nat.zero_le _, by simp [h4], by simp [h1], h2, by simp [h5, finishTime], h6,
    ?_, fun he => ?_⟩
  · simp [(seed_waiting processes).1, waitingTotal]
  · omega

/-- The numbers for `sampleFiveTwo`: bursts 5 and 2 finish at 5 and 7, the
waiting total is 5 and the average wait reported is 5/2. -/
theorem sampleFiveTwo_numbers :
    finishTime sampleFiveTwo 1 = 5 ∧ finishTime sampleFiveTwo 2 = 7 ∧
    waitingTotal sampleFiveTwo 2 = 5 ∧
    scheduler sampleFiveTwo
      [(Worker.cpuThread, true), (Worker.cpuThread, true), (Worker.ioThread, true)] true =
      some (ERROR_CODE.E_SUCCESS, some
        { averageCpuWait := DoubleValue.finite 2.5, averageIoWait := DoubleValue.finite 0,
          cpuUtilization := DoubleValue.finite 100,
          ioUtilization := DoubleValue.notANumber }) := by
  refine ⟨by decide, by decide, by decide, ?_⟩
  rw [scheduler_of_threads sampleFiveTwo _ true
    { globals := sampleFiveTwoEnd, returnValCPU := some ERROR_CODE.E_SUCCESS,
      returnValIo := some ERROR_CODE.E_SUCCESS } ERROR_CODE.E_SUCCESS ERROR_CODE.E_SUCCESS
    (by decide) rfl rfl]
  simp only [collect, statistics, divide, sampleFiveTwoEnd, sampleFiveTwo]
  norm_num

theorem sampleThree_reach (steps : List (Worker × Bool)) (s : Sched)
    (hrun : run steps (seed [sampleThree]) = some s) :
    s.errState = 2 ∨ s = seed [sampleThree] ∨ s = sampleThreeEnd := by
  refine run_invariant_unless_failed
    (fun s => s = seed [sampleThree] ∨ s = sampleThreeEnd) ?_ steps _ s (Or.inl rfl) hrun
  intro w s f s' hs h
  rcases hs with rfl | rfl <;> cases w
  · rw [(by decide : body Worker.cpuThread true (seed [sampleThree]) =
      some (Flow.returned ERROR_CODE.E_SUCCESS, sampleThreeEnd))] at h
    cases h
    exact Or.inr rfl
  · rw [(by decide : body Worker.ioThread true (seed [sampleThree]) =
      some (Flow.blocked, seed [sampleThree]))] at h
    cases h
    exact Or.inl rfl
  · rw [(by decide : body Worker.cpuThread true sampleThreeEnd =
      some (Flow.returned ERROR_CODE.E_SUCCESS, sampleThreeEnd))] at h
    cases h
    exact Or.inr rfl
  · rw [(by decide : body Worker.ioThread true sampleThreeEnd =
      some (Flow.returned ERROR_CODE.E_SUCCESS, sampleThreeEnd))] at h
    cases h
    exact Or.inr rfl

/-- C19: for the single process of one CPU burst of length 3, `scheduler()`
succeeds on the run in which each thread takes one pass, and every run on which
it succeeds ends in the same state and reports the same values: `log-A` holds
the one entry for the CPU burst (the "New process" entry, with `State=CPU` and
`Time=3`) and `log-B` the one terminated entry; `cpuTime` is 3, `cpuIdleTime`
0 and `ioTime` 0; the CPU utilization is 100, the I/O utilization is the
quotient `0.0 / 0.0`, not a number, and both average waits are 0. -/
theorem single_cpu_burst_scenario :
    scheduler [sampleThree] [(Worker.cpuThread, true), (Worker.ioThread, true)] true =
      some (ERROR_CODE.E_SUCCESS, some reportThree) ∧
    (∀ steps logBOk report,
      scheduler [sampleThree] steps logBOk = some (ERROR_CODE.E_SUCCESS, some report) →
      run steps (seed [sampleThree]) = some sampleThreeEnd ∧ report = reportThree) ∧
    sampleThreeEnd.logA = [Entry.newProcess 1 1 0 3] ∧
    sampleThreeEnd.logB = [Entry.terminated 1 1 0 3] ∧
    sampleThreeEnd.cpuBursts = [3] ∧ sampleThreeEnd.ioBursts = [] ∧
    sampleThreeEnd.cpuTime = 3 ∧ sampleThreeEnd.cpuIdleTime = 0 ∧ sampleThreeEnd.ioTime = 0 ∧
    reportThree.cpuUtilization = DoubleValue.finite 100 ∧
    reportThree.ioUtilization = DoubleValue.notANumber ∧
    reportThree.averageCpuWait = DoubleValue.finite 0 ∧
    reportThree.averageIoWait = DoubleValue.finite 0 := by
  refine ⟨sampleThree_scheduler, ?_, rfl, rfl, rfl, rfl, rfl, rfl, rfl, rfl, rfl, rfl, rfl⟩
  intro steps logBOk report hs
  obtain ⟨s, hrun, he, hr⟩ := scheduler_success [sampleThree] steps logBOk _ hs
  have hrep : report = statistics s ([sampleThree] : List Pa).length := by simpa using hr
  rcases sampleThree_reach steps s hrun with h2 | rfl | rfl
  · omega
  · exact absurd he (by decide)
  · refine ⟨hrun, ?_⟩
    rw [hrep]
    simp only [statistics, divide, reportThree, sampleThreeEnd]
    norm_num

theorem sampleLong_reach (steps : List (Worker × Bool)) (s : Sched)
    (hrun : run steps (seed [sampleLong]) = some s) :
    s.errState = 2 ∨ s = seed [sampleLong] ∨ s = sampleMid ∨ s = sampleBack ∨
      s = sampleLongEnd := by
  refine run_invariant_unless_failed
    (fun s => s = seed [sampleLong] ∨ s = sampleMid ∨ s = sampleBack ∨ s = sampleLongEnd)
    ?_ steps _ s (Or.inl rfl) hrun
  intro w s f s' hs h
  rcases hs with rfl | rfl | rfl | rfl <;> cases w
  · rw [(by decide : body Worker.cpuThread true (seed [sampleLong]) =
      some (Flow.looped, sampleMid))] at h
    cases h
    exact Or.inr (Or.inl rfl)
  · rw [(by decide : body Worker.ioThread true (seed [sampleLong]) =
      some (Flow.blocked, seed [sampleLong]))] at h
    cases h
    exact Or.inl rfl
  · rw [(by decide : body Worker.cpuThread true sampleMid =
      some (Flow.blocked, sampleMid))] at h
    cases h
    exact Or.inr (Or.inl rfl)
  · rw [(by decide : body Worker.ioThread true sampleMid =
      some (Flow.looped, sampleBack))] at h
    cases h
    exact Or.inr (Or.inr (Or.inl rfl))
  · rw [(by decide : body Worker.cpuThread true sampleBack =
      some (Flow.returned ERROR_CODE.E_SUCCESS, sampleLongEnd))] at h
    cases h
    exact Or.inr (Or.inr (Or.inr rfl))
  · rw [(by decide : body Worker.ioThread true sampleBack =
      some (Flow.blocked, sampleBack))] at h
    cases h
    exact Or.inr (Or.inr (Or.inl rfl))
  · rw [(by decide : body Worker.cpuThread true sampleLongEnd =
      some (Flow.returned ERROR_CODE.E_SUCCESS, sampleLongEnd))] at h
    cases h
    exact Or.inr (Or.inr (Or.inr rfl))
  · rw [(by decide : body Worker.ioThread true sampleLongEnd =
      some (Flow.returned ERROR_CODE.E_SUCCESS, sampleLongEnd))] at h
    cases h
    exact Or.inr (Or.inr (Or.inr rfl))

theorem sampleLong_scheduler :
    scheduler [sampleLong]
      [(Worker.cpuThread, true), (Worker.ioThread, true), (Worker.cpuThread, true),
        (Worker.ioThread, true)] true =
      some (ERROR_CODE.E_SUCCESS, some reportLong) := by
  rw [scheduler_of_threads [sampleLong] _ true
    { globals := sampleLongEnd, returnValCPU := some ERROR_CODE.E_SUCCESS,
      returnValIo := some ERROR_CODE.E_SUCCESS } ERROR_CODE.E_SUCCESS ERROR_CODE.E_SUCCESS
    (by decide) rfl rfl]
  simp only [collect, statistics, divide, reportLong, sampleLongEnd]
  norm_num

/-- C20, refuted as stated: for the single process of bursts CPU 2, I/O 3,
CPU 1 the run in which the threads take their passes in turn succeeds and ends
with `cpuTime` 6, not 3, and `ioTime` 5, not 3; the CPU utilization reported is
50 and the I/O utilization 60, not 100. -/
theorem three_burst_scenario_not_as_stated :
    scheduler [sampleLong]
      [(Worker.cpuThread, true), (Worker.ioThread, true), (Worker.cpuThread, true),
        (Worker.ioThread, true)] true =
      some (ERROR_CODE.E_SUCCESS, some reportLong) ∧
    run [(Worker.cpuThread, true), (Worker.ioThread, true), (Worker.cpuThread, true),
        (Worker.ioThread, true)] (seed [sampleLong]) = some sampleLongEnd ∧
    sampleLongEnd.cpuTime = 6 ∧ sampleLongEnd.cpuTime ≠ 3 ∧
    sampleLongEnd.ioTime = 5 ∧ sampleLongEnd.ioTime ≠ 3 ∧
    reportLong.cpuUtilization ≠ DoubleValue.finite 100 ∧
    reportLong.ioUtilization ≠ DoubleValue.finite 100 := by
  refine ⟨sampleLong_scheduler, by decide, rfl, by decide, rfl, by decide, ?_, ?_⟩
  · simp only [reportLong, ne_eq, DoubleValue.finite.injEq]
    norm_num
  · simp only [reportLong, ne_eq, DoubleValue.finite.injEq]
    norm_num

/-- C20, amended: for the single process of bursts CPU 2, I/O 3, CPU 1,
`scheduler()` succeeds on the run in which the threads take their passes in
turn, and every run on which it succeeds ends in the same state and reports the
same values: `cpuTime` is 6 with `cpuIdleTime` 3 (the CPU waits while the I/O
burst runs; the two CPU bursts make up the other 3), `ioTime` is 5 with
`ioIdleTime` 2 (the I/O burst makes up the other 3), no process has waited, the
CPU utilization is 50, the I/O utilization 60, and both average waits are 0. -/
theorem three_burst_scenario :
    scheduler [sampleLong]
      [(Worker.cpuThread, true), (Worker.ioThread, true), (Worker.cpuThread, true),
        (Worker.ioThread, true)] true =
      some (ERROR_CODE.E_SUCCESS, some reportLong) ∧
    (∀ steps logBOk report,
      scheduler [sampleLong] steps logBOk = some (ERROR_CODE.E_SUCCESS, some report) →
      run steps (seed [sampleLong]) = some sampleLongEnd ∧ report = reportLong) ∧
    sampleLongEnd.cpuTime = 6 ∧ sampleLongEnd.cpuIdleTime = 3 ∧
    sampleLongEnd.cpuBursts = [2, 1] ∧
    sampleLongEnd.ioTime = 5 ∧ sampleLongEnd.ioIdleTime = 2 ∧ sampleLongEnd.ioBursts = [3] ∧
    sampleLongEnd.cpuWaitingTime = 0 ∧ sampleLongEnd.ioWaitingTime = 0 ∧
    reportLong.cpuUtilization = DoubleValue.finite 50 ∧
    reportLong.ioUtilization = DoubleValue.finite 60 ∧
    reportLong.averageCpuWait = DoubleValue.finite 0 ∧
    reportLong.averageIoWait = DoubleValue.finite 0 := by
  refine ⟨sampleLong_scheduler, ?_, rfl, rfl, rfl, rfl, rfl, rfl, rfl, rfl, rfl, rfl, rfl, rfl⟩
  intro steps logBOk report hs
  obtain ⟨s, hrun, he, hr⟩ := scheduler_success [sampleLong] steps logBOk _ hs
  have hrep : report = statistics s ([sampleLong] : List Pa).length := by simpa using hr
  rcases sampleLong_reach steps s hrun with h2 | rfl | rfl | rfl | rfl
  · omega
  · exact absurd he (by decide)
  · exact absurd he (by decide)
  · exact absurd he (by decide)
  · refine ⟨hrun, ?_⟩
    rw [hrep]
    simp only [statistics, divide, reportLong, sampleLongEnd]
    norm_num

theorem linked_length (heap : List (Option Ptr.LinkedListNode)) (as : List Nat)
    (q : List Pa) (h : Ptr.Linked heap as q) : as.length = q.length := by
  induction as generalizing q with
  | nil => cases q <;> simp_all [Ptr.Linked]
  | cons a as ih =>
    cases q with
    | nil => simp [Ptr.Linked] at h
    | cons d q =>
      simp only [Ptr.Linked] at h
      simp [ih q h.2]

theorem linked_bound (heap : List (Option Ptr.LinkedListNode)) (as : List Nat)
    (q : List Pa) (h : Ptr.Linked heap as q) : ∀ a ∈ as, a < heap.length := by
  induction as generalizing q with
  | nil => simp
  | cons b as ih =>
    cases q with
    | nil => simp [Ptr.Linked] at h
    | cons d q =>
      simp only [Ptr.Linked] at h
      intro a ha
      rcases List.mem_cons.1 ha with rfl | ha
      · obtain ⟨hlt, _⟩ := List.getElem?_eq_some.1 h.1
        exact hlt
      · exact ih q h.2 a ha

theorem linked_frame (heap heap1 : List (Option Ptr.LinkedListNode)) (as : List Nat)
    (q : List Pa) (h : Ptr.Linked heap as q) (hsame : ∀ a ∈ as, heap1[a]? = heap[a]?) :
    Ptr.Linked heap1 as q := by
  induction as generalizing q with
  | nil => cases q <;> simp_all [Ptr.Linked]
  | cons b as ih =>
    cases q with
    | nil => simp [Ptr.Linked] at h
    | cons d q =>
      simp only [Ptr.Linked] at h ⊢
      refine ⟨?_, ih q h.2 (fun a ha => hsame a (List.mem_cons_of_mem _ ha))⟩
      rw [hsame b (List.mem_cons_self _ _)]
      exact h.1

theorem linked_append (heap : List (Option Ptr.LinkedListNode)) (as : List Nat)
    (q : List Pa) (x : Pa) (last : Nat) (node : Ptr.LinkedListNode)
    (h : Ptr.Linked heap as q) (hnd : as.Nodup) (hlast : as.getLast? = some last)
    (hnode : heap[last]? = some (some node)) :
    Ptr.Linked ((heap ++ [some ({ data := x, next := none } : Ptr.LinkedListNode)]).set last
        (some { node with next := some heap.length }))
      (as ++ [heap.length]) (q ++ [x]) := by
  induction as generalizing q with
  | nil => simp at hlast
  | cons a as ih =>
    cases q with
    | nil => simp [Ptr.Linked] at h
    | cons d q =>
      simp only [Ptr.Linked] at h
      obtain ⟨ha, hrest⟩ := h
      obtain ⟨halt, _⟩ := List.getElem?_eq_some.1 ha
      cases as with
      | nil =>
        have hq : q = [] := by
          cases q with
          | nil => rfl
          | cons e q => simp [Ptr.Linked] at hrest
        subst hq
        simp only [List.getLast?_singleton, Option.some.injEq] at hlast
        subst hlast
        rw [ha] at hnode
        simp only [Option.some.injEq] at hnode
        subst hnode
        simp only [List.nil_append, List.cons_append, Ptr.Linked, List.head?_cons,
          List.head?_nil, and_true]
        refine ⟨?_, ?_⟩
        · rw [List.getElem?_set_self (by simp; omega)]
          rfl
        · rw [List.getElem?_set_ne (by omega), List.getElem?_concat_length]
      | cons b as =>
        have hne : a ≠ last := by
          intro he
          have hmem : last ∈ b :: as := by
            rw [List.getLast?_cons_cons] at hlast
            exact List.mem_of_getLast?_eq_some hlast
          rw [← he] at hmem
          exact (List.nodup_cons.1 hnd).1 hmem
        rw [List.getLast?_cons_cons] at hlast
        have ih' := ih q hrest (List.nodup_cons.1 hnd).2 hlast
        simp only [List.cons_append, Ptr.Linked, List.head?_cons] at ih' ⊢
        refine ⟨?_, ih'⟩
        rw [List.getElem?_set_ne (fun he => hne he.symm), List.getElem?_append_left halt]
        simpa using ha

theorem represents_nil_iff (list : Ptr.LinkedList) (q : List Pa)
    (h : Ptr.Represents list q) : list.head = none ↔ q = [] := by
  obtain ⟨as, _, hl, hh, _⟩ := h
  have hlen := linked_length list.heap as q hl
  rw [hh]
  cases as with
  | nil =>
    simp only [List.length_nil] at hlen
    simp [List.length_eq_zero.1 hlen.symm]
  | cons a as =>
    cases q with
    | nil => simp at hlen
    | cons d q => simp

theorem linked_node (heap : List (Option Ptr.LinkedListNode)) (as : List Nat)
    (q : List Pa) (h : Ptr.Linked heap as q) :
    ∀ a ∈ as, ∃ node, heap[a]? = some (some node) := by
  induction as generalizing q with
  | nil => simp
  | cons b as ih =>
    cases q with
    | nil => simp [Ptr.Linked] at h
    | cons d q =>
      simp only [Ptr.Linked] at h
      intro a ha
      rcases List.mem_cons.1 ha with rfl | ha
      · exact ⟨_, h.1⟩
      · exact ih q h.2 a ha

/-- On a list that holds `q`, `enqueue` with `malloc` succeeding returns
`E_SUCCESS` and leaves a list that holds `q` followed by the new record. -/
theorem ptr_enqueue_spec (list : Ptr.LinkedList) (q : List Pa) (x : Pa)
    (h : Ptr.Represents list q) :
    ∃ list1, Ptr.enqueue true list x = some (ERROR_CODE.E_SUCCESS, list1) ∧
      Ptr.Represents list1 (q ++ [x]) := by
  obtain ⟨as, hnd, hl, hh, ht⟩ := h
  have hbound := linked_bound list.heap as q hl
  have hfresh : list.heap.length ∉ as := fun hm => Nat.lt_irrefl _ (hbound _ hm)
  cases as with
  | nil =>
    have hq : q = [] := by
      cases q with
      | nil => rfl
      | cons d q => simp [Ptr.Linked] at hl
    subst hq
    simp only [List.head?_nil] at hh
    refine ⟨Ptr.LinkedList.mk
      (list.heap ++ [some ({ data := x, next := none } : Ptr.LinkedListNode)])
      (some list.heap.length) (some list.heap.length), ?_, ?_⟩
    · simp [Ptr.enqueue, hh]
    · refine ⟨[list.heap.length], by simp, ?_, rfl, rfl⟩
      simp [Ptr.Linked]
  | cons a as =>
    cases q with
    | nil => simp [Ptr.Linked] at hl
    | cons d q =>
      have hne : a :: as ≠ [] := List.cons_ne_nil _ _
      obtain ⟨last, hlast⟩ : ∃ last, (a :: as).getLast? = some last :=
        ⟨(a :: as).getLast hne, List.getLast?_eq_getLast _ hne⟩
      have hmem : last ∈ a :: as := List.mem_of_getLast?_eq_some hlast
      have hlt : last < list.heap.length := hbound last hmem
      obtain ⟨node, hnode⟩ := linked_node list.heap (a :: as) (d :: q) hl last hmem
      have happ := linked_append list.heap (a :: as) (d :: q) x last node hl hnd hlast hnode
      refine ⟨Ptr.LinkedList.mk
        ((list.heap ++ [some ({ data := x, next := none } : Ptr.LinkedListNode)]).set last
          (some { node with next := some list.heap.length }))
        list.head (some list.heap.length), ?_, ?_⟩
      · have h1 : (list.heap ++ [some ({ data := x, next := none } : Ptr.LinkedListNode)])[last]? =
            some (some node) := by
          rw [List.getElem?_append_left hlt]
          exact hnode
        simp only [List.head?_cons] at hh
        simp only [Ptr.enqueue, hh, ht, hlast, h1]
        simp
      · refine ⟨(a :: as) ++ [list.heap.length], ?_, happ, ?_, ?_⟩
        · rw [List.nodup_append]
          refine ⟨hnd, by simp, ?_⟩
          intro y hy hy2
          simp only [List.mem_singleton] at hy2
          subst hy2
          exact hfresh hy
        · simpa using hh
        · show some list.heap.length = ((a :: as) ++ [list.heap.length]).getLast?
          rw [List.getLast?_concat]

/-- On a list that holds `d` followed by `q`, `dequeue` returns `E_SUCCESS`,
writes `d`, and leaves a list that holds `q`. -/
theorem ptr_dequeue_spec (list : Ptr.LinkedList) (d : Pa) (q : List Pa)
    (h : Ptr.Represents list (d :: q)) :
    ∃ list1, Ptr.dequeue list = some (ERROR_CODE.E_SUCCESS, list1, some d) ∧
      Ptr.Represents list1 q := by
  obtain ⟨as, hnd, hl, hh, ht⟩ := h
  cases as with
  | nil => simp [Ptr.Linked] at hl
  | cons a as =>
    simp only [Ptr.Linked] at hl
    obtain ⟨ha, hrest⟩ := hl
    simp only [List.head?_cons] at hh
    have hnot : a ∉ as := (List.nodup_cons.1 hnd).1
    refine ⟨Ptr.LinkedList.mk (list.heap.set a none) as.head?
      (if as.head? = none then none else list.tail), ?_, ?_⟩
    · simp [Ptr.dequeue, hh, ha]
    · refine ⟨as, (List.nodup_cons.1 hnd).2, ?_, rfl, ?_⟩
      · apply linked_frame list.heap _ as q hrest
        intro b hb
        rw [List.getElem?_set_ne]
        intro he
        exact hnot (he ▸ hb)
      · cases as with
        | nil => simp
        | cons b as =>
          simp only [List.head?_cons, if_false, reduceCtorEq]
          rw [ht, List.getLast?_cons_cons]

theorem represents_new : Ptr.Represents Ptr.newLinkedList [] :=
  ⟨[], List.nodup_nil, trivial, rfl, rfl⟩

theorem ptr_enqueueAll_spec (list : Ptr.LinkedList) (q xs : List Pa)
    (h : Ptr.Represents list q) :
    ∃ list1, Ptr.enqueueAll list xs = some list1 ∧ Ptr.Represents list1 (q ++ xs) := by
  induction xs generalizing list q with
  | nil => exact ⟨list, rfl, by simpa using h⟩
  | cons x later ih =>
    obtain ⟨l1, he, hr⟩ := ptr_enqueue_spec list q x h
    obtain ⟨l2, he2, hr2⟩ := ih l1 (q ++ [x]) hr
    refine ⟨l2, ?_, by simpa using hr2⟩
    simp only [Ptr.enqueueAll, he]
    exact he2

theorem ptr_dequeueAll_spec (list : Ptr.LinkedList) (q : List Pa)
    (h : Ptr.Represents list q) :
    ∃ list1, Ptr.dequeueAll q.length list = some (q, list1) ∧ Ptr.Represents list1 [] := by
  induction q generalizing list with
  | nil => exact ⟨list, rfl, h⟩
  | cons d q ih =>
    obtain ⟨l1, hd, hr⟩ := ptr_dequeue_spec list d q h
    obtain ⟨l2, hd2, hr2⟩ := ih l1 hr
    refine ⟨l2, ?_, hr2⟩
    simp only [List.length_cons, Ptr.dequeueAll, hd, hd2]

theorem represents_sampleList : Ptr.Represents sampleList [sampleLong] :=
  ⟨[0], by decide, ⟨rfl, trivial⟩, rfl, rfl⟩

/-- C15: on a list of nodes that holds the sequence `q`, `enqueue` (with
`malloc` succeeding) returns `E_SUCCESS` and leaves a list that holds `q`
followed by the new record; `dequeue` on a non-empty `q` returns `E_SUCCESS`,
writes the first record of `q` and leaves a list that holds the rest; so
enqueuing `xs` one by one and then calling `dequeue` as often as there are
records returns `q` followed by `xs`, in this order, and leaves the empty list.
The functions `enqueue` and `dequeue` on sequences, which `cpu()` and `io()`
use above, give the same sequences. -/
theorem queue_is_fifo (list : Ptr.LinkedList) (q xs : List Pa)
    (h : Ptr.Represents list q) :
    (∀ x, ∃ list1, Ptr.enqueue true list x = some (ERROR_CODE.E_SUCCESS, list1) ∧
      Ptr.Represents list1 (q ++ [x]) ∧ Ptr.Represents list1 (enqueue q x).2) ∧
    (∀ d rest, q = d :: rest →
      ∃ list1, Ptr.dequeue list = some (ERROR_CODE.E_SUCCESS, list1, some d) ∧
        Ptr.Represents list1 rest ∧ dequeue q = (ERROR_CODE.E_SUCCESS, rest, some d)) ∧
    (∃ list1 list2, Ptr.enqueueAll list xs = some list1 ∧
      Ptr.dequeueAll (q.length + xs.length) list1 = some (q ++ xs, list2) ∧
      Ptr.Represents list2 [] ∧ Ptr.isEmpty list2 = 1) := by
  refine ⟨?_, ?_, ?_⟩
  · intro x
    obtain ⟨l1, he, hr⟩ := ptr_enqueue_spec list q x h
    exact ⟨l1, he, hr, hr⟩
  · intro d rest hq
    subst hq
    obtain ⟨l1, hd, hr⟩ := ptr_dequeue_spec list d rest h
    exact ⟨l1, hd, hr, rfl⟩
  · obtain ⟨l1, he, hr⟩ := ptr_enqueueAll_spec list q xs h
    obtain ⟨l2, hd, hr2⟩ := ptr_dequeueAll_spec l1 (q ++ xs) hr
    refine ⟨l1, l2, he, ?_, hr2, ?_⟩
    · rw [← List.length_append]
      exact hd
    · have := (represents_nil_iff l2 [] hr2).2 rfl
      simp [Ptr.isEmpty, this]

theorem queue_is_fifo_witness :
    (∀ x, ∃ list1, Ptr.enqueue true sampleList x = some (ERROR_CODE.E_SUCCESS, list1) ∧
      Ptr.Represents list1 ([sampleLong] ++ [x]) ∧
      Ptr.Represents list1 (enqueue [sampleLong] x).2) ∧
    (∀ d rest, [sampleLong] = d :: rest →
      ∃ list1, Ptr.dequeue sampleList = some (ERROR_CODE.E_SUCCESS, list1, some d) ∧
        Ptr.Represents list1 rest ∧
        dequeue [sampleLong] = (ERROR_CODE.E_SUCCESS, rest, some d)) ∧
    (∃ list1 list2, Ptr.enqueueAll sampleList [sampleShort, sampleThree] = some list1 ∧
      Ptr.dequeueAll ([sampleLong].length + [sampleShort, sampleThree].length) list1 =
        some ([sampleLong] ++ [sampleShort, sampleThree], list2) ∧
      Ptr.Represents list2 [] ∧ Ptr.isEmpty list2 = 1) :=
  queue_is_fifo sampleList [sampleLong] [sampleShort, sampleThree] represents_sampleList

/-- C16: on a list of nodes that holds a sequence `q`, `dequeue` has a result;
it returns `E_EMPTY_LIST` exactly when `isEmpty` is 1, which is exactly when
`q` is empty, and then the list is unchanged and nothing is written through
`data`; when `isEmpty` is not 1 it returns `E_SUCCESS`. `isEmpty` is 1 for the
list made by `newLinkedList`, and 0 for the list left by any call of `enqueue`
that returns `E_SUCCESS`. -/
theorem dequeue_empty_iff_isEmpty (list : Ptr.LinkedList) (q : List Pa)
    (h : Ptr.Represents list q) :
    (∃ code list1 out, Ptr.dequeue list = some (code, list1, out) ∧
      (code = ERROR_CODE.E_EMPTY_LIST ↔ Ptr.isEmpty list = 1) ∧
      (Ptr.isEmpty list = 1 → list1 = list ∧ out = none) ∧
      (Ptr.isEmpty list ≠ 1 → code = ERROR_CODE.E_SUCCESS)) ∧
    (Ptr.isEmpty list = 1 ↔ q = []) ∧
    Ptr.isEmpty Ptr.newLinkedList = 1 ∧
    (∀ mallocOk x list1,
      Ptr.enqueue mallocOk list x = some (ERROR_CODE.E_SUCCESS, list1) →
      Ptr.isEmpty list1 = 0) := by
  have hiff := represents_nil_iff list q h
  have hempty : Ptr.isEmpty list = 1 ↔ list.head = none := by
    unfold Ptr.isEmpty
    split <;> simp_all
  refine ⟨?_, hempty.trans hiff, rfl, ?_⟩
  · cases q with
    | nil =>
      have hh : list.head = none := hiff.2 rfl
      refine ⟨ERROR_CODE.E_EMPTY_LIST, list, none, by simp [Ptr.dequeue, hh], ?_, ?_, ?_⟩
      · simp [hempty, hh]
      · intro _
        exact ⟨rfl, rfl⟩
      · intro hne
        exact absurd (hempty.2 hh) hne
    | cons d q =>
      obtain ⟨l1, hd, _⟩ := ptr_dequeue_spec list d q h
      have hh : list.head ≠ none := fun hn => by
        have := hiff.1 hn
        cases this
      have hne : Ptr.isEmpty list ≠ 1 := fun he => hh (hempty.1 he)
      refine ⟨ERROR_CODE.E_SUCCESS, l1, some d, hd, ?_, ?_, ?_⟩
      · constructor
        · intro hc
          cases hc
        · intro he
          exact absurd he hne
      · intro he
        exact absurd he hne
      · intro _
        rfl
  · intro mallocOk x list1 he
    unfold Ptr.enqueue at he
    split at he
    · cases he
    · simp only at he
      split at he
      · cases he
        rfl
      · rename_i a hhead
        split at he
        · cases he
        · split at he
          · cases he
            simp [Ptr.isEmpty, hhead]
          · cases he

theorem dequeue_empty_iff_isEmpty_witness :
    (∃ code list1 out, Ptr.dequeue sampleList = some (code, list1, out) ∧
      (code = ERROR_CODE.E_EMPTY_LIST ↔ Ptr.isEmpty sampleList = 1) ∧
      (Ptr.isEmpty sampleList = 1 → list1 = sampleList ∧ out = none) ∧
      (Ptr.isEmpty sampleList ≠ 1 → code = ERROR_CODE.E_SUCCESS)) ∧
    (Ptr.isEmpty sampleList = 1 ↔ [sampleLong] = []) ∧
    Ptr.isEmpty Ptr.newLinkedList = 1 ∧
    (∀ mallocOk x list1,
      Ptr.enqueue mallocOk sampleList x = some (ERROR_CODE.E_SUCCESS, list1) →
      Ptr.isEmpty list1 = 0) :=
  dequeue_empty_iff_isEmpty sampleList [sampleLong] represents_sampleList

theorem getElem?_mid {α : Type} (done : List α) (c : α) (rest : List α) :
    (done ++ c :: rest)[done.length]? = some c := by
  induction done with
  | nil => simp
  | cons d t ih => simpa using ih

theorem countLoop_spec (bytes : Int) : ∀ (rest done tail : List Char) (numLines : Int),
    bytes = done.length + rest.length →
    countLoop bytes rest.length done.length (done ++ rest ++ tail) numLines =
      (done ++ rest.map (fun c => if c = newline then nul else c) ++ tail,
        numLines + rest.count newline +
          (if rest ≠ [] ∧ rest.getLast? ≠ some newline then 1 else 0)) := by
  intro rest
  induction rest with
  | nil => intro done tail numLines _; simp [countLoop]
  | cons c r ih =>
    intro done tail numLines hb
    have hget : (done ++ c :: r ++ tail)[done.length]? = some c := by
      rw [List.append_assoc]
      exact getElem?_mid done c (r ++ tail)
    have hbytes : bytes = ((done ++ [c]).length : Int) + r.length := by
      simp at hb ⊢; omega
    have hlen : (done ++ [c]).length = done.length + 1 := by simp
    by_cases hc : c = newline
    · subst hc
      have hset : (done ++ newline :: r ++ tail).set done.length nul =
          (done ++ [nul]) ++ r ++ tail := by
        simp
      have hbytes2 : bytes = ((done ++ [nul]).length : Int) + r.length := by
        simp at hb ⊢; omega
      have hlen2 : (done ++ [nul]).length = done.length + 1 := by simp
      simp only [List.length_cons, countLoop, hget, if_true, hset]
      rw [← hlen2, ih (done ++ [nul]) tail (numLines + 1) hbytes2]
      cases r with
      | nil => simp
      | cons d r2 => simp [List.getLast?_cons_cons]; ring
    · have hne : ¬ (some c = some newline) := by simpa using hc
      have hcount : (c :: r).count newline = r.count newline := by
        simp [List.count_cons, hc]
      have happ : done ++ c :: r ++ tail = (done ++ [c]) ++ r ++ tail := by simp
      by_cases hlast : (done.length : Int) = bytes - 1
      · have hr : r = [] := by
          simp at hb
          have : r.length = 0 := by omega
          exact List.length_eq_zero.1 this
        subst hr
        simp only [List.length_cons, countLoop, hget, hne, if_false, hlast, if_true]
        simp [countLoop, hc]
        simpa using hcount
      · have hr : r ≠ [] := by
          intro h0
          subst h0
          simp at hb
          omega
        simp only [List.length_cons, countLoop, hget, hne, if_false, hlast]
        rw [happ, ← hlen, ih (done ++ [c]) tail numLines hbytes, hcount]
        obtain ⟨d, r2, rfl⟩ := List.exists_cons_of_ne_nil hr
        simp [List.getLast?_cons_cons, hc]
theorem takeWhile_until {α : Type} (f : α → Bool) (p : List α) (x : α) (rest : List α)
    (hp : ∀ c ∈ p, f c = true) (hx : f x = false) : (p ++ x :: rest).takeWhile f = p := by
  induction p with
  | nil => simp [List.takeWhile, hx]
  | cons a t ih =>
    have h1 := ih (fun c hc => hp c (List.mem_cons_of_mem _ hc))
    simp [List.takeWhile_cons, hp a (List.mem_cons_self _ _), h1]

theorem cString_terminated (cur rest : List Char) (hcur : nul ∉ cur) :
    cString (cur ++ nul :: rest) = cur := by
  apply takeWhile_until
  · intro c hc
    have : c ≠ nul := fun h => hcur (h ▸ hc)
    simpa using this
  · simp

theorem strncpy_line (cur rest : List Char) (hcur : nul ∉ cur) :
    strncpy (cur ++ nul :: rest) (cur.length + 1) = some (cur ++ [nul]) := by
  have htake : (cur ++ nul :: rest).take (cur.length + 1) = cur ++ [nul] := by
    rw [List.take_append_eq_append_take]
    simp
  have hc : cString (cur ++ [nul]) = cur := cString_terminated cur [] hcur
  simp [strncpy, htake, hc]

theorem textLines_length (rest : List Char) : ∀ (cur : List Char),
    ((textLines cur rest).length : Int) = rest.count newline +
      (if (rest ≠ [] ∧ rest.getLast? ≠ some newline) ∨ (rest = [] ∧ cur ≠ []) then 1 else 0) := by
  induction rest with
  | nil =>
    intro cur
    by_cases h : cur = [] <;> simp [textLines, h]
  | cons c r ih =>
    intro cur
    by_cases hc : c = newline
    · subst hc
      simp only [textLines, if_true, List.length_cons, Nat.cast_add, Nat.cast_one, ih []]
      cases r with
      | nil => simp
      | cons d r2 => simp [List.getLast?_cons_cons]; ring
    · have hcount : (c :: r).count newline = r.count newline := by
        simp [List.count_cons, hc]
      simp only [textLines, hc, if_false, ih (cur ++ [c]), hcount]
      cases r with
      | nil => simp [hc]
      | cons d r2 => simp [List.getLast?_cons_cons, hc]

theorem textLines_no_nul (rest : List Char) : ∀ (cur : List Char), nul ∉ cur → nul ∉ rest →
    ∀ line ∈ textLines cur rest, nul ∉ line := by
  induction rest with
  | nil =>
    intro cur hcur _ line hl
    by_cases h : cur = []
    · simp [textLines, h] at hl
    · simp [textLines, h] at hl
      rw [hl]; exact hcur
  | cons c r ih =>
    intro cur hcur hrest line hl
    have hr : nul ∉ r := fun h => hrest (List.mem_cons_of_mem _ h)
    have hcn : c ≠ nul := fun h => hrest (h ▸ List.mem_cons_self _ _)
    by_cases hc : c = newline
    · simp only [textLines, hc, if_true, List.mem_cons] at hl
      rcases hl with rfl | hl
      · exact hcur
      · exact ih [] (by simp) hr line hl
    · simp only [textLines, hc, if_false] at hl
      refine ih (cur ++ [c]) ?_ hr line hl
      intro hmem
      rcases List.mem_append.1 hmem with h | h
      · exact hcur h
      · simp at h; exact hcn h.symm

theorem copyLoop_store (buffer : List Char) (numLines : Int) (count i : Nat) (numChars : Int)
    (lines : List (List Char)) (line : List Char) (hget : buffer[i]? = some nul)
    (hlt : (lines.length : Int) < numLines) (hidx : 0 ≤ (i : Int) + 1 - numChars)
    (hnn : 0 ≤ numChars)
    (hs : strncpy (buffer.drop ((i : Int) + 1 - numChars).toNat) numChars.toNat = some line) :
    copyLoop buffer numLines (count + 1) i numChars lines =
      copyLoop buffer numLines count (i + 1) 1 (lines ++ [line]) := by
  rw [copyLoop]
  simp [hget, hlt, hidx, hnn, hs]

theorem copyLoop_skip (buffer : List Char) (numLines : Int) (count i : Nat) (numChars : Int)
    (lines : List (List Char))
    (h : ¬ (buffer[i]? = some nul ∧ (lines.length : Int) < numLines)) :
    copyLoop buffer numLines (count + 1) i numChars lines =
      copyLoop buffer numLines count (i + 1) (numChars + 1) lines := by
  rw [copyLoop]
  simp only [h, if_false]

theorem copyLoop_spec (numLines : Int) : ∀ (rest pre cur : List Char) (lines : List (List Char)),
    nul ∉ cur → nul ∉ rest →
    numLines = lines.length + (textLines cur rest).length →
    copyLoop (pre ++ cur ++ rest.map (fun c => if c = newline then nul else c) ++ [nul])
        numLines (rest.length + 1) (pre.length + cur.length) (cur.length + 1) lines =
      some (lines ++ (textLines cur rest).map (fun line => line ++ [nul])) := by
  intro rest
  induction rest with
  | nil =>
    intro pre cur lines hcur _ hn
    have hget : (pre ++ cur ++ [nul])[pre.length + cur.length]? = some nul := by
      have := getElem?_mid (pre ++ cur) nul []
      simpa using this
    have hidx : ((pre.length + cur.length : Nat) : Int) + 1 - ((cur.length : Int) + 1) =
        (pre.length : Int) := by push_cast; ring
    simp only [List.map_nil, List.append_nil, List.length_nil, Nat.zero_add]
    by_cases h : cur = []
    · subst h
      simp [textLines] at hn
      rw [copyLoop_skip _ _ _ _ _ _ (by simp [hn])]
      simp [copyLoop, textLines]
    · simp [textLines, h] at hn
      have hdrop : (pre ++ cur ++ [nul]).drop pre.length = cur ++ [nul] := by
        rw [List.append_assoc, List.drop_left]
      rw [copyLoop_store _ _ _ _ _ _ (cur ++ [nul]) hget (by omega) (by omega) (by omega)
        (by
          rw [hidx]
          have htn : ((cur.length : Int) + 1).toNat = cur.length + 1 := by omega
          rw [htn, Int.toNat_ofNat, hdrop]
          exact strncpy_line cur [] hcur)]
      simp [copyLoop, textLines, h]
  | cons c r ih =>
    intro pre cur lines hcur hrest hn
    have hr : nul ∉ r := fun h => hrest (List.mem_cons_of_mem _ h)
    have hcn : c ≠ nul := fun h => hrest (h ▸ List.mem_cons_self _ _)
    have hidx : ((pre.length + cur.length : Nat) : Int) + 1 - ((cur.length : Int) + 1) =
        (pre.length : Int) := by push_cast; ring
    by_cases hc : c = newline
    · subst hc
      have hbuf : pre ++ cur ++ (newline :: r).map (fun c => if c = newline then nul else c) ++
          [nul] = pre ++ (cur ++ nul :: (r.map (fun c => if c = newline then nul else c) ++
            [nul])) := by simp
      have hget : (pre ++ (cur ++ nul :: (r.map (fun c => if c = newline then nul else c) ++
          [nul])))[pre.length + cur.length]? = some nul := by
        have := getElem?_mid (pre ++ cur) nul
          (r.map (fun c => if c = newline then nul else c) ++ [nul])
        simpa using this
      simp only [textLines, if_true, List.length_cons] at hn ⊢
      have hnext := ih (pre ++ cur ++ [nul]) [] (lines ++ [cur ++ [nul]]) (by simp) hr
        (by simp; push_cast at hn; omega)
      have hbuf2 : pre ++ cur ++ [nul] ++ [] ++
          r.map (fun c => if c = newline then nul else c) ++ [nul] =
          pre ++ (cur ++ nul :: (r.map (fun c => if c = newline then nul else c) ++
            [nul])) := by simp
      rw [hbuf2] at hnext
      rw [hbuf, copyLoop_store _ _ _ _ _ _ (cur ++ [nul]) hget (by push_cast at hn; omega)
        (by omega) (by omega)
        (by
          rw [hidx]
          have htn : ((cur.length : Int) + 1).toNat = cur.length + 1 := by omega
          rw [htn, Int.toNat_ofNat, List.drop_left]
          exact strncpy_line cur _ hcur)]
      simp only [List.length_append, List.length_cons, List.length_nil, Nat.zero_add,
        Nat.cast_zero, Int.zero_add, zero_add, Nat.add_zero] at hnext
      rw [hnext]
      simp
    · have hmark : (if c = newline then nul else c) = c := by simp [hc]
      have hbuf : pre ++ cur ++ (c :: r).map (fun c => if c = newline then nul else c) ++
          [nul] = pre ++ (cur ++ [c]) ++ r.map (fun c => if c = newline then nul else c) ++
            [nul] := by simp [hmark]
      have hget : (pre ++ (cur ++ [c]) ++ r.map (fun c => if c = newline then nul else c) ++
          [nul])[pre.length + cur.length]? = some c := by
        have := getElem?_mid (pre ++ cur) c
          (r.map (fun c => if c = newline then nul else c) ++ [nul])
        simpa using this
      have hne : ¬ (some c = some nul) := by simpa using hcn
      have hcur2 : nul ∉ cur ++ [c] := by
        intro hmem
        rcases List.mem_append.1 hmem with h | h
        · exact hcur h
        · simp at h; exact hcn h.symm
      simp only [textLines, hc, if_false] at hn ⊢
      have hnext := ih pre (cur ++ [c]) lines hcur2 hr hn
      rw [hbuf, List.length_cons, copyLoop_skip _ _ _ _ _ _ (by rw [hget]; simp [hne])]
      simp only [List.length_append, List.length_cons, List.length_nil, Nat.zero_add] at hnext
      have e1 : pre.length + cur.length + 1 = pre.length + (cur.length + 1) := by omega
      have e2 : ((cur.length : Int) + 1 + 1) = ((cur.length + 1 : Nat) : Int) + 1 := by
        push_cast; ring
      rw [e1, e2]
      exact hnext
theorem textLines_join (rest : List Char) : ∀ (cur : List Char),
    joinLines (textLines cur rest) = cur ++ rest ++
      (if (rest ≠ [] ∧ rest.getLast? ≠ some newline) ∨ (rest = [] ∧ cur ≠ []) then [newline]
        else []) := by
  induction rest with
  | nil =>
    intro cur
    by_cases h : cur = [] <;> simp [textLines, joinLines, h]
  | cons c r ih =>
    intro cur
    by_cases hc : c = newline
    · subst hc
      simp only [textLines, if_true, joinLines, ih []]
      cases r with
      | nil => simp
      | cons d r2 => simp [List.getLast?_cons_cons]
    · simp only [textLines, hc, if_false, ih (cur ++ [c])]
      cases r with
      | nil => simp [hc]
      | cons d r2 => simp [List.getLast?_cons_cons, hc]

theorem textLines_no_newline (rest : List Char) : ∀ (cur : List Char), newline ∉ cur →
    ∀ line ∈ textLines cur rest, newline ∉ line := by
  induction rest with
  | nil =>
    intro cur hcur line hl
    by_cases h : cur = []
    · simp [textLines, h] at hl
    · simp [textLines, h] at hl
      rw [hl]; exact hcur
  | cons c r ih =>
    intro cur hcur line hl
    by_cases hc : c = newline
    · simp only [textLines, hc, if_true, List.mem_cons] at hl
      rcases hl with rfl | hl
      · exact hcur
      · exact ih [] (by simp) line hl
    · simp only [textLines, hc, if_false] at hl
      refine ih (cur ++ [c]) ?_ line hl
      intro hmem
      rcases List.mem_append.1 hmem with h | h
      · exact hcur h
      · simp at h; exact hc h.symm

theorem getLines_spec (content : List Char) (h : nul ∉ content) :
    getLines (some content) = some (ERROR_CODE.E_SUCCESS,
      some ((textLines [] content).map (fun line => line ++ [nul]),
        (content.count newline : Int) +
          (if content ≠ [] ∧ content.getLast? ≠ some newline then 1 else 0))) := by
  have h1 := countLoop_spec content.length content [] [nul] 0 (by simp)
  simp only [List.length_nil, List.nil_append, Int.zero_add, zero_add] at h1
  have hset : (content.map (fun c => if c = newline then nul else c) ++ [nul]).set
      content.length nul = content.map (fun c => if c = newline then nul else c) ++ [nul] := by
    apply List.ext_getElem?
    intro k
    by_cases hk : k = content.length
    · subst hk
      have := getElem?_mid (content.map (fun c => if c = newline then nul else c)) nul []
      simp only [List.length_map] at this
      rw [this, List.getElem?_set_self (by simp)]
    · rw [List.getElem?_set_ne (Ne.symm hk)]
  have hlen := textLines_length content []
  simp only [ne_eq, not_true_eq_false, and_false, or_false] at hlen
  have h2 := copyLoop_spec ((content.count newline : Int) +
      (if content ≠ [] ∧ content.getLast? ≠ some newline then 1 else 0)) content [] [] []
    (by simp) h (by simpa using hlen.symm)
  simp only [List.length_nil, List.nil_append, Nat.cast_zero, Int.zero_add, zero_add,
    Nat.zero_add, List.append_nil] at h2
  simp only [getLines, h1, hset, h2]
/-- C29: for every file content without NUL bytes `getLines` succeeds; the
number it reports is the number of newline characters, plus one when the content
is not empty and does not end with a newline; the array has that many elements,
each a string that ends with NUL, and the strings are, in order, the texts
between one newline and the next: no string holds a newline, and the strings,
each followed by a newline, make up the content (with a newline added at its end
when it has none there), so that an empty line is kept as an empty string and a
final newline adds no element. -/
theorem getLines_stores_lines (content : List Char) (h : nul ∉ content) :
    ∃ lines, getLines (some content) = some (ERROR_CODE.E_SUCCESS,
        some (lines, (content.count newline : Int) +
          (if content ≠ [] ∧ content.getLast? ≠ some newline then 1 else 0))) ∧
      (lines.length : Int) = (content.count newline : Int) +
        (if content ≠ [] ∧ content.getLast? ≠ some newline then 1 else 0) ∧
      (∀ line ∈ lines, line.getLast? = some nul) ∧
      lines.map cString = textLines [] content ∧
      (∀ line ∈ textLines [] content, newline ∉ line) ∧
      joinLines (textLines [] content) = content ++
        (if content ≠ [] ∧ content.getLast? ≠ some newline then [newline] else []) := by
  refine ⟨_, getLines_spec content h, ?_, ?_, ?_, textLines_no_newline content [] (by simp), ?_⟩
  · have := textLines_length content []
    simpa using this
  · intro line hl
    obtain ⟨x, -, rfl⟩ := List.mem_map.1 hl
    simp
  · rw [List.map_map]
    have hno := textLines_no_nul content [] (by simp) h
    calc (textLines [] content).map (cString ∘ fun line => line ++ [nul])
        = (textLines [] content).map id := by
          apply List.map_congr_left
          intro line hl
          exact cString_terminated line [] (hno line hl)
      _ = textLines [] content := by simp
  · have := textLines_join content []
    simpa using this

theorem getLines_stores_lines_witness :
    ∃ lines, getLines (some sampleText) = some (ERROR_CODE.E_SUCCESS,
        some (lines, (sampleText.count newline : Int) +
          (if sampleText ≠ [] ∧ sampleText.getLast? ≠ some newline then 1 else 0))) ∧
      (lines.length : Int) = (sampleText.count newline : Int) +
        (if sampleText ≠ [] ∧ sampleText.getLast? ≠ some newline then 1 else 0) ∧
      (∀ line ∈ lines, line.getLast? = some nul) ∧
      lines.map cString = textLines [] sampleText ∧
      (∀ line ∈ textLines [] sampleText, newline ∉ line) ∧
      joinLines (textLines [] sampleText) = sampleText ++
        (if sampleText ≠ [] ∧ sampleText.getLast? ≠ some newline then [newline] else []) :=
  getLines_stores_lines sampleText (by decide)

/-- C21: `createPA` reads the activity number of the first line with `%d` and
does not compare it with 1: the description `sampleSeven`, whose only line is
`7 CPU 3`, is accepted, and the record starts at activity 7. For the empty
description `getLines` reports no line and `createPA` reads `lines[0]` all the
same, so that the call has no defined result. The other checks are made: a
file that cannot be opened, a second line with the number 3, a second line
that names the CPU and a first line that names the I/O device are refused with
`E_INVALID_INPUT`, and `sampleJob` is accepted. -/
theorem createPA_accepts_any_first_number :
    (∀ stray, createPA sampleName (some sampleSeven) stray =
      some (ERROR_CODE.E_SUCCESS, some (Pa.mk 1 7 1 stray 0 3 [3]))) ∧
    (∀ stray, createPA sampleName (some []) stray = none) ∧
    (∀ stray, createPA sampleName none stray = some (ERROR_CODE.E_INVALID_INPUT, none)) ∧
    (∀ stray, createPA sampleName (some sampleMisnumbered) stray =
      some (ERROR_CODE.E_INVALID_INPUT, none)) ∧
    (∀ stray, createPA sampleName (some sampleTwice) stray =
      some (ERROR_CODE.E_INVALID_INPUT, none)) ∧
    (∀ stray, createPA sampleName (some sampleDevice) stray =
      some (ERROR_CODE.E_INVALID_INPUT, none)) ∧
    (∀ stray, createPA sampleName (some sampleJob) stray =
      some (ERROR_CODE.E_SUCCESS, some (Pa.mk 1 1 3 2 0 2 [2, 3, 1]))) :=
  ⟨fun _ => rfl, fun _ => rfl, fun _ => rfl, fun _ => rfl, fun _ => rfl, fun _ => rfl,
    fun _ => rfl⟩

theorem readTimes_some (times : List Int) (i : Int) (h0 : 0 ≤ i) (h1 : i < times.length) :
    ∃ next, readTimes times i = some next := by
  have hlt : i.toNat < times.length := by omega
  exact ⟨times[i.toNat], by simp [readTimes, h0, h1, List.getElem?_eq_getElem hlt]⟩

theorem burstsLeft_cons (p : Pa) (rest : LinkedList) :
    burstsLeft (p :: rest) = (p.totalAc - p.ac + 1).toNat + burstsLeft rest := by
  simp [burstsLeft]

theorem burstsLeft_append (a : LinkedList) (p : Pa) :
    burstsLeft (a ++ [p]) = burstsLeft a + (p.totalAc - p.ac + 1).toNat := by
  simp [burstsLeft]

theorem takes_iff (w : Worker) (s : Sched) (h : s.errState = 0 ∨ s.errState = 1) :
    Takes w s ↔ s.errState = 0 ∧ ownQueue w s ≠ [] := by
  unfold Takes
  rw [isEmpty_ne_zero]
  constructor
  · rintro ⟨h1, h2, h3⟩
    have h0 : s.errState = 0 := by omega
    exact ⟨h0, fun hq => h1 ⟨hq, h0⟩⟩
  · rintro ⟨h0, hq⟩
    exact ⟨fun hh => hq hh.1, by omega, by omega⟩
theorem alternating_defined (w : Worker) (s : Sched) (hs : Alternating s) :
    ∃ f s', body w true s = some (f, s') := by
  obtain ⟨he, -, -, hc, hi⟩ := hs
  cases hb : body w true s with
  | some r => exact ⟨r.1, r.2, rfl⟩
  | none =>
    exfalso
    cases w with
    | cpuThread =>
      cases hq : s.cpuQueue with
      | nil =>
        rcases he with h | h <;> simp [body, cpu, hq, isEmpty, h] at hb
      | cons p rest =>
        rcases he with h | h
        · obtain ⟨h1, h2, -, -, h5⟩ := hc p (by rw [hq]; exact List.mem_cons_self _ _)
          by_cases hac : p.ac < p.totalAc
          · obtain ⟨next, hn⟩ := readTimes_some p.times p.ac (by omega) (by omega)
            simp [body, cpu, hq, isEmpty, h, dequeue, hac, hn] at hb
          · simp only [body, cpu, hq, isEmpty, h, dequeue, hac, if_false, if_true] at hb
            split_ifs at hb
        · simp [body, cpu, hq, isEmpty, h] at hb
    | ioThread =>
      cases hq : s.ioQueue with
      | nil =>
        rcases he with h | h <;> simp [body, io, hq, isEmpty, h] at hb
      | cons p rest =>
        rcases he with h | h
        · obtain ⟨h1, h2, -, -, h5⟩ := hi p (by rw [hq]; exact List.mem_cons_self _ _)
          obtain ⟨next, hn⟩ := readTimes_some p.times p.ac (by omega) (by omega)
          simp [body, io, hq, isEmpty, h, dequeue, hn] at hb
        · simp [body, io, hq, isEmpty, h] at hb

theorem alternating_step (w : Worker) (s s' : Sched) (f : Flow) (hs : Alternating s)
    (h : body w true s = some (f, s')) :
    Alternating s' ∧ (Takes w s → work s' + 1 = work s) ∧ (¬ Takes w s → s' = s) := by
  have hs0 := hs
  obtain ⟨he, hb, hd, hc, hi⟩ := hs
  rw [takes_iff w s he]
  cases w with
  | cpuThread =>
    rcases cpu_cases h with ⟨rfl, _, hq, _⟩ | ⟨rfl, _, h1⟩ | ⟨rfl, _, h2⟩ |
      ⟨p, rest, hq, h1, h2, hp⟩
    · exact ⟨hs0, fun ht => absurd hq ht.2, fun _ => rfl⟩
    · exact ⟨hs0, fun ht => by omega, fun _ => rfl⟩
    · exact ⟨hs0, fun ht => by omega, fun _ => rfl⟩
    · have h0 : s.errState = 0 := by omega
      obtain ⟨c1, c2, c3, c4, c5⟩ := hc p (by rw [hq]; exact List.mem_cons_self _ _)
      have hrest : ∀ x ∈ rest, CpuReady x := fun x hx =>
        hc x (by rw [hq]; exact List.mem_cons_of_mem _ hx)
      rcases hp with ⟨next, hac, _, _, _, rfl⟩ | ⟨hok, _⟩ | ⟨hac, _, hr, hio, _, rfl⟩ |
        ⟨hac, _, hne, _, rfl⟩
      · refine ⟨⟨Or.inl (by simpa [cpuServe] using h0), ?_, ?_, ?_, ?_⟩, ?_, ?_⟩
        · intro _; right; simp
        · intro h1'; simp [cpuServe] at h1'; omega
        · simpa [cpuServe] using hrest
        · intro x hx
          simp only [List.mem_append, List.mem_singleton] at hx
          rcases hx with hx | rfl
          · exact hi x hx
          · simp only [IoReady, advance]
            refine ⟨by omega, by omega, by omega, c4, c5⟩
        · intro _
          simp only [work, cpuServe, hq, burstsLeft_cons, burstsLeft_append, advance]
          omega
        · intro hnt
          exact absurd ⟨h0, by rw [ownQueue, hq]; simp⟩ hnt
      · cases hok
      · refine ⟨⟨Or.inr rfl, ?_, ?_, ?_, ?_⟩, ?_, ?_⟩
        · intro h1'; simp at h1'
        · intro _; simp [cpuServe, hr, hio]
        · simpa [cpuServe] using hrest
        · simpa [cpuServe] using hi
        · intro _
          simp only [work, cpuServe, hq, burstsLeft_cons, hr, hio]
          simp [burstsLeft]
          omega
        · intro hnt
          exact absurd ⟨h0, by rw [ownQueue, hq]; simp⟩ hnt
      · refine ⟨⟨Or.inl (by simpa [cpuServe] using h0), ?_, ?_, ?_, ?_⟩, ?_, ?_⟩
        · intro _
          simp only [cpuServe]
          by_cases hr : rest = []
          · right; exact fun hio => hne ⟨hr, hio⟩
          · left; exact hr
        · intro h1'; simp [cpuServe] at h1'; omega
        · simpa [cpuServe] using hrest
        · simpa [cpuServe] using hi
        · intro _
          simp only [work, cpuServe, hq, burstsLeft_cons]
          omega
        · intro hnt
          exact absurd ⟨h0, by rw [ownQueue, hq]; simp⟩ hnt
  | ioThread =>
    rcases io_cases h with ⟨rfl, _, hq, _⟩ | ⟨rfl, _, h1⟩ | ⟨rfl, _, h2⟩ |
      ⟨p, rest, next, hq, h1, h2, hn, hp⟩
    · exact ⟨hs0, fun ht => absurd hq ht.2, fun _ => rfl⟩
    · exact ⟨hs0, fun ht => by omega, fun _ => rfl⟩
    · exact ⟨hs0, fun ht => by omega, fun _ => rfl⟩
    · have h0 : s.errState = 0 := by omega
      obtain ⟨c1, c2, c3, c4, c5⟩ := hi p (by rw [hq]; exact List.mem_cons_self _ _)
      have hrest : ∀ x ∈ rest, IoReady x := fun x hx =>
        hi x (by rw [hq]; exact List.mem_cons_of_mem _ hx)
      rcases hp with ⟨_, _, rfl⟩ | ⟨hok, _⟩
      · refine ⟨⟨Or.inl (by simpa [ioServe] using h0), ?_, ?_, ?_, ?_⟩, ?_, ?_⟩
        · intro _; left; simp
        · intro h1'; simp [ioServe] at h1'; omega
        · intro x hx
          simp only [List.mem_append, List.mem_singleton] at hx
          rcases hx with hx | rfl
          · exact hc x hx
          · simp only [CpuReady, advance]
            refine ⟨by omega, by omega, by omega, c4, c5⟩
        · simpa [ioServe] using hrest
        · intro _
          simp only [work, ioServe, hq, burstsLeft_cons, burstsLeft_append, advance]
          omega
        · intro hnt
          exact absurd ⟨h0, by rw [ownQueue, hq]; simp⟩ hnt
      · cases hok
theorem body_forget (w : Worker) (ok : Bool) (s : Sched) :
    (body w ok (forget s)).map (fun r => (r.1, forget r.2)) =
      (body w ok s).map (fun r => (r.1, forget r.2)) := by
  cases w with
  | cpuThread =>
    by_cases h1 : s.errState = 1
    · simp [body, cpu, forget, h1]
    by_cases h2 : s.errState = 2
    · simp [body, cpu, forget, h2]
    cases hq : s.cpuQueue with
    | nil =>
      by_cases h0 : s.errState = 0
      · simp [body, cpu, forget, isEmpty, hq, h0]
      · simp [body, cpu, forget, isEmpty, hq, h0, h1, h2, dequeue]
    | cons p rest =>
      by_cases hac : p.ac < p.totalAc
      · cases hr : readTimes p.times p.ac with
        | none => simp [body, cpu, forget, isEmpty, hq, h1, h2, dequeue, hac, hr]
        | some next =>
          cases ok <;>
            simp [body, cpu, forget, isEmpty, hq, h1, h2, dequeue, hac, hr, cpuServe, enqueue,
              advance]
      · cases ok
        · simp [body, cpu, forget, isEmpty, hq, h1, h2, dequeue, hac, cpuServe]
        · cases rest <;> cases hio : s.ioQueue <;>
            simp [body, cpu, forget, isEmpty, hq, h1, h2, dequeue, hac, cpuServe, hio]
  | ioThread =>
    by_cases h1 : s.errState = 1
    · simp [body, io, forget, h1]
    by_cases h2 : s.errState = 2
    · simp [body, io, forget, h2]
    cases hq : s.ioQueue with
    | nil =>
      by_cases h0 : s.errState = 0
      · simp [body, io, forget, isEmpty, hq, h0]
      · simp [body, io, forget, isEmpty, hq, h0, h1, h2, dequeue]
    | cons p rest =>
      cases hr : readTimes p.times p.ac with
      | none => simp [body, io, forget, isEmpty, hq, h1, h2, dequeue, hr]
      | some next =>
        cases ok <;>
          simp [body, io, forget, isEmpty, hq, h1, h2, dequeue, hr, ioServe, enqueue, advance]

theorem body_same (w : Worker) (ok : Bool) (s t s' : Sched) (f : Flow)
    (hst : forget s = forget t) (h : body w ok s = some (f, s')) :
    ∃ t', body w ok t = some (f, t') ∧ forget s' = forget t' := by
  have h1 := body_forget w ok s
  have h2 := body_forget w ok t
  rw [hst, h2, h] at h1
  cases hb : body w ok t with
  | none => rw [hb] at h1; simp at h1
  | some r =>
    rw [hb] at h1
    simp only [Option.map_some', Option.some.injEq, Prod.mk.injEq] at h1
    obtain ⟨r1, r2⟩ := r
    exact ⟨r2, by rw [← h1.1], h1.2.symm⟩

theorem run_same (steps : List (Worker × Bool)) : ∀ (s t s' : Sched),
    forget s = forget t → run steps s = some s' →
    ∃ t', run steps t = some t' ∧ forget s' = forget t' := by
  induction steps with
  | nil =>
    intro s t s' hst h
    simp only [run, Option.some.injEq] at h
    exact ⟨t, rfl, h ▸ hst⟩
  | cons x later ih =>
    intro s t s' hst h
    obtain ⟨w, ok⟩ := x
    simp only [run] at h
    cases hb : body w ok s with
    | none => rw [hb] at h; cases h
    | some r =>
      obtain ⟨f, s1⟩ := r
      rw [hb] at h
      obtain ⟨t1, hb2, hst1⟩ := body_same w ok s t s1 f hst hb
      obtain ⟨t', hr, hst'⟩ := ih s1 t1 s' hst1 h
      exact ⟨t', by simp [run, hb2, hr], hst'⟩
theorem io_eval (s : Sched) (q : Pa) (rest : LinkedList) (next : Int)
    (hq : s.ioQueue = q :: rest) (h0 : s.errState = 0)
    (hn : readTimes q.times q.ac = some next) :
    io true s = some (Flow.looped, { ioServe s q rest with
      logA := s.logA ++ [Entry.finishIo q.pid (q.ac + 1) (ioServe s q rest).ioTime next],
      cpuQueue := s.cpuQueue ++ [advance q (ioServe s q rest).ioTime next] }) := by
  simp [io, hq, h0, isEmpty, dequeue, hn, enqueue, ioServe, advance]

theorem cpu_eval_handoff (s : Sched) (p : Pa) (rest : LinkedList) (next : Int)
    (hq : s.cpuQueue = p :: rest) (h0 : s.errState = 0) (hac : p.ac < p.totalAc)
    (hn : readTimes p.times p.ac = some next) :
    cpu true s = some (Flow.looped, { cpuServe s p rest with
      logA := s.logA ++ [Entry.finishCpu p.pid (p.ac + 1) (cpuServe s p rest).cpuTime next],
      ioQueue := s.ioQueue ++ [advance p (cpuServe s p rest).cpuTime next] }) := by
  simp [cpu, hq, h0, isEmpty, dequeue, hac, hn, enqueue, cpuServe, advance]

theorem cpu_eval_retire (s : Sched) (p : Pa) (rest : LinkedList)
    (hq : s.cpuQueue = p :: rest) (h0 : s.errState = 0) (hac : ¬ p.ac < p.totalAc)
    (hne : ¬ (rest = [] ∧ s.ioQueue = [])) :
    cpu true s = some (Flow.looped, { cpuServe s p rest with
      logB := s.logB ++ [Entry.terminated p.pid p.ac p.arriveTime p.remainingTime] }) := by
  have hd : ¬ ((cpuServe s p rest).cpuQueue = [] ∧ (cpuServe s p rest).ioQueue = []) := by
    simpa [cpuServe] using hne
  simp only [cpu, hq, h0, isEmpty_ne_zero, dequeue, hac, if_false, if_true, hd]
  simp [cpuServe]

theorem steps_commute (s sa sb : Sched) (fa fb : Flow) (hs : Alternating s)
    (h0 : s.errState = 0) (hc : s.cpuQueue ≠ []) (hi : s.ioQueue ≠ [])
    (ha : cpu true s = some (fa, sa)) (hb : io true s = some (fb, sb)) :
    ∃ fab sab fba sba, io true sa = some (fab, sab) ∧ cpu true sb = some (fba, sba) ∧
      forget sab = forget sba := by
  obtain ⟨p, cr, hcq⟩ := List.exists_cons_of_ne_nil hc
  obtain ⟨q, ir, hiq⟩ := List.exists_cons_of_ne_nil hi
  obtain ⟨p1, p2, -, -, p5⟩ := hs.2.2.2.1 p (by rw [hcq]; exact List.mem_cons_self _ _)
  obtain ⟨q1, q2, -, -, q5⟩ := hs.2.2.2.2 q (by rw [hiq]; exact List.mem_cons_self _ _)
  obtain ⟨nextq, hnq⟩ := readTimes_some q.times q.ac (by omega) (by omega)
  rw [io_eval s q ir nextq hiq h0 hnq] at hb
  cases hb
  by_cases hac : p.ac < p.totalAc
  · obtain ⟨nextp, hnp⟩ := readTimes_some p.times p.ac (by omega) (by omega)
    rw [cpu_eval_handoff s p cr nextp hcq h0 hac hnp] at ha
    cases ha
    refine ⟨_, _, _, _,
      io_eval _ q (ir ++ [advance p (cpuServe s p cr).cpuTime nextp]) nextq
        (by simp [cpuServe, hiq]) (by simpa [cpuServe] using h0) hnq,
      cpu_eval_handoff _ p (cr ++ [advance q (ioServe s q ir).ioTime nextq]) nextp
        (by simp [ioServe, hcq]) (by simpa [ioServe] using h0) hac hnp, ?_⟩
    simp [forget, cpuServe, ioServe, advance, hcq, hiq]
  · rw [cpu_eval_retire s p cr hcq h0 hac (by rw [hiq]; simp)] at ha
    cases ha
    refine ⟨_, _, _, _,
      io_eval _ q ir nextq (by simp [cpuServe, hiq]) (by simpa [cpuServe] using h0) hnq,
      cpu_eval_retire _ p (cr ++ [advance q (ioServe s q ir).ioTime nextq])
        (by simp [ioServe, hcq]) (by simpa [ioServe] using h0) hac (by simp), ?_⟩
    simp [forget, cpuServe, ioServe, advance, hcq, hiq]
theorem alternating_completes : ∀ (n : Nat) (s : Sched), work s = n → Alternating s →
    ∃ steps t, logsOpen steps ∧ run steps s = some t ∧ t.errState = 1 := by
  intro n
  induction n using Nat.strong_induction_on with
  | _ n ih =>
    intro s hw hs
    rcases hs.1 with h0 | h1
    · have hq := hs.2.1 h0
      obtain ⟨w, hw1⟩ : ∃ w, ownQueue w s ≠ [] := by
        rcases hq with h | h
        · exact ⟨Worker.cpuThread, h⟩
        · exact ⟨Worker.ioThread, h⟩
      obtain ⟨f, s', hb⟩ := alternating_defined w s hs
      obtain ⟨hs', hdec, -⟩ := alternating_step w s s' f hs hb
      have ht : Takes w s := (takes_iff w s hs.1).2 ⟨h0, hw1⟩
      have hlt := hdec ht
      obtain ⟨steps, t, ho, hr, he⟩ := ih (work s') (by omega) s' rfl hs'
      refine ⟨(w, true) :: steps, t, ?_, by simp [run, hb, hr], he⟩
      intro x hx
      rcases List.mem_cons.1 hx with rfl | hx
      · rfl
      · exact ho x hx
    · exact ⟨[], s, fun x hx => by simp at hx, rfl, h1⟩

theorem run_first_taking : ∀ (steps : List (Worker × Bool)) (s t : Sched), Alternating s →
    s.errState = 0 → logsOpen steps → run steps s = some t → t.errState = 1 →
    ∃ w later f s', Takes w s ∧ body w true s = some (f, s') ∧ run later s' = some t ∧
      logsOpen later ∧ worked steps s = 1 + worked later s' := by
  intro steps
  induction steps with
  | nil =>
    intro s t _ h0 _ hr ht
    simp only [run, Option.some.injEq] at hr
    rw [← hr] at ht
    omega
  | cons x later ih =>
    intro s t hs h0 ho hr ht
    obtain ⟨w, ok⟩ := x
    have hok : ok = true := ho (w, ok) (List.mem_cons_self _ _)
    subst hok
    have ho2 : logsOpen later := fun y hy => ho y (List.mem_cons_of_mem _ hy)
    simp only [run] at hr
    cases hb : body w true s with
    | none => rw [hb] at hr; cases hr
    | some r =>
      obtain ⟨f, s'⟩ := r
      rw [hb] at hr
      simp only at hr
      by_cases htk : Takes w s
      · exact ⟨w, later, f, s', htk, hb, hr, ho2, by simp [worked, hb, htk]⟩
      · have heq := (alternating_step w s s' f hs hb).2.2 htk
        subst heq
        obtain ⟨w2, later2, f2, s2, a1, a2, a3, a4, a5⟩ := ih s' t hs h0 ho2 hr ht
        exact ⟨w2, later2, f2, s2, a1, a2, a3, a4, by simp [worked, hb, htk, a5]⟩

theorem worked_count : ∀ (steps : List (Worker × Bool)) (s t : Sched), Alternating s →
    logsOpen steps → run steps s = some t → worked steps s + work t = work s := by
  intro steps
  induction steps with
  | nil =>
    intro s t _ _ hr
    simp only [run, Option.some.injEq] at hr
    simp [worked, hr]
  | cons x later ih =>
    intro s t hs ho hr
    obtain ⟨w, ok⟩ := x
    have hok : ok = true := ho (w, ok) (List.mem_cons_self _ _)
    subst hok
    have ho2 : logsOpen later := fun y hy => ho y (List.mem_cons_of_mem _ hy)
    simp only [run] at hr
    cases hb : body w true s with
    | none => rw [hb] at hr; cases hr
    | some r =>
      obtain ⟨f, s'⟩ := r
      rw [hb] at hr
      simp only at hr
      obtain ⟨hs', hdec, hsame⟩ := alternating_step w s s' f hs hb
      have := ih s' t hs' ho2 hr
      by_cases htk : Takes w s
      · have := hdec htk
        simp only [worked, hb, htk, if_true]
        omega
      · have heq := hsame htk
        subst heq
        simp only [worked, hb, htk, if_false]
        omega

theorem runs_agree : ∀ (n : Nat) (s : Sched), work s = n → Alternating s →
    ∀ (steps1 steps2 : List (Worker × Bool)) (t1 t2 : Sched),
      logsOpen steps1 → logsOpen steps2 → run steps1 s = some t1 → run steps2 s = some t2 →
      t1.errState = 1 → t2.errState = 1 → forget t1 = forget t2 := by
  intro n
  induction n using Nat.strong_induction_on with
  | _ n ih =>
    intro s hw hs steps1 steps2 t1 t2 ho1 ho2 hr1 hr2 he1 he2
    rcases hs.1 with h0 | h1
    · obtain ⟨a, r1, fa, sa, ta, ha, hra, hoa, -⟩ := run_first_taking steps1 s t1 hs h0 ho1 hr1 he1
      obtain ⟨b, r2, fb, sb, tb, hb, hrb, hob, -⟩ := run_first_taking steps2 s t2 hs h0 ho2 hr2 he2
      obtain ⟨hsa, hda, -⟩ := alternating_step a s sa fa hs ha
      obtain ⟨hsb, hdb, -⟩ := alternating_step b s sb fb hs hb
      have hwa := hda ta
      have hwb := hdb tb
      have hqa := ((takes_iff a s hs.1).1 ta).2
      have hqb := ((takes_iff b s hs.1).1 tb).2
      have key : ∀ (sa sb : Sched) (fa fb : Flow) (r1 r2 : List (Worker × Bool)) (t1 t2 : Sched),
          cpu true s = some (fa, sa) → io true s = some (fb, sb) →
          s.cpuQueue ≠ [] → s.ioQueue ≠ [] → Alternating sa → Alternating sb →
          work sa + 1 = work s → work sb + 1 = work s →
          logsOpen r1 → logsOpen r2 → run r1 sa = some t1 → run r2 sb = some t2 →
          t1.errState = 1 → t2.errState = 1 → forget t1 = forget t2 := by
        intro sa sb fa fb r1 r2 t1 t2 ha hb hqa hqb hsa hsb hwa hwb hoa hob hra hrb he1 he2
        obtain ⟨fab, sab, fba, sba, hab, hba, hf⟩ :=
          steps_commute s sa sb fa fb hs h0 hqa hqb ha hb
        obtain ⟨hsab, -, -⟩ := alternating_step Worker.ioThread sa sab fab hsa hab
        obtain ⟨l3, t3, ho3, hr3, he3⟩ := alternating_completes (work sab) sab rfl hsab
        obtain ⟨t4, hr4, hf4⟩ := run_same l3 sab sba t3 hf hr3
        have he4 : t4.errState = 1 := by
          have : (forget t3).errState = (forget t4).errState := by rw [hf4]
          simpa [forget, he3] using this.symm
        have hcons : ∀ (w : Worker), logsOpen ((w, true) :: l3) := by
          intro w x hx
          rcases List.mem_cons.1 hx with rfl | hx
          · rfl
          · exact ho3 x hx
        have e1 := ih (work sa) (by omega) sa rfl hsa r1 ((Worker.ioThread, true) :: l3) t1 t3
          hoa (hcons _) hra (by simp only [run, body, hab]; exact hr3) he1 he3
        have e2 := ih (work sb) (by omega) sb rfl hsb r2 ((Worker.cpuThread, true) :: l3) t2 t4
          hob (hcons _) hrb (by simp only [run, body, hba]; exact hr4) he2 he4
        rw [e1, hf4, ← e2]
      cases a with
      | cpuThread =>
        cases b with
        | cpuThread =>
          have : (fa, sa) = (fb, sb) := by
            have := ha.symm.trans hb
            simpa using this
          cases this
          exact ih (work sa) (by omega) sa rfl hsa r1 r2 t1 t2 hoa hob hra hrb he1 he2
        | ioThread =>
          exact key sa sb fa fb r1 r2 t1 t2 ha hb hqa hqb hsa hsb hwa hwb hoa hob hra hrb
            he1 he2
      | ioThread =>
        cases b with
        | cpuThread =>
          exact (key sb sa fb fa r2 r1 t2 t1 hb ha hqb hqa hsb hsa hwb hwa hob hoa hrb hra
            he2 he1).symm
        | ioThread =>
          have : (fa, sa) = (fb, sb) := by
            have := ha.symm.trans hb
            simpa using this
          cases this
          exact ih (work sa) (by omega) sa rfl hsa r1 r2 t1 t2 hoa hob hra hrb he1 he2
    · rw [run_of_stopped steps1 s (Or.inl h1)] at hr1
      rw [run_of_stopped steps2 s (Or.inl h1)] at hr2
      cases hr1
      cases hr2
      rfl
theorem run_seed_nil (steps : List (Worker × Bool)) : run steps (seed []) = some (seed []) := by
  induction steps with
  | nil => rfl
  | cons x later ih =>
    obtain ⟨w, ok⟩ := x
    have hb : body w ok (seed []) = some (Flow.blocked, seed []) := by
      cases w <;> rfl
    simp [run, hb, ih]

theorem alternating_seed (processes : List Pa) (hne : processes ≠ [])
    (hodd : ∀ p ∈ processes, OddBursts p) : Alternating (seed processes) := by
  obtain ⟨hc, hi, he, -⟩ := seed_fields processes
  refine ⟨Or.inl he, fun _ => Or.inl (by rw [hc]; exact hne), fun h => by omega, ?_, ?_⟩
  · intro p hp
    rw [hc] at hp
    obtain ⟨h1, h2, h3⟩ := hodd p hp
    refine ⟨by omega, by omega, by omega, h3, h2⟩
  · intro p hp
    rw [hi] at hp
    simp at hp

theorem burstsLeft_seed (processes : List Pa) (hodd : ∀ p ∈ processes, OddBursts p) :
    (burstsLeft processes : Int) = (processes.map Pa.totalAc).sum := by
  induction processes with
  | nil => rfl
  | cons p rest ih =>
    obtain ⟨h1, h2, h3⟩ := hodd p (List.mem_cons_self _ _)
    rw [burstsLeft_cons, List.map_cons, List.sum_cons, Nat.cast_add,
      ih (fun x hx => hodd x (List.mem_cons_of_mem _ hx))]
    omega

/-- C30: for processes with an odd number of bursts each, as `createPA` leaves
them, and two runs from the seeded state in which no `fopen` fails and which
both end with `errState` at 1: the two runs have the same number of passes that
take a record, the number of bursts of the input; they end with the same
`cpuTime`, `cpuIdleTime`, `cpuWaitingTime`, `ioTime`, `ioIdleTime` and
`ioWaitingTime`, and so with the same statistics. -/
theorem statistics_independent_of_schedule (processes : List Pa)
    (steps1 steps2 : List (Worker × Bool)) (s1 s2 : Sched)
    (hodd : ∀ p ∈ processes, OddBursts p) (ho1 : logsOpen steps1) (ho2 : logsOpen steps2)
    (hr1 : run steps1 (seed processes) = some s1)
    (hr2 : run steps2 (seed processes) = some s2)
    (hd1 : s1.errState = 1) (hd2 : s2.errState = 1) :
    worked steps1 (seed processes) = worked steps2 (seed processes) ∧
    (worked steps1 (seed processes) : Int) = (processes.map Pa.totalAc).sum ∧
    s1.cpuTime = s2.cpuTime ∧ s1.cpuIdleTime = s2.cpuIdleTime ∧
    s1.cpuWaitingTime = s2.cpuWaitingTime ∧ s1.ioTime = s2.ioTime ∧
    s1.ioIdleTime = s2.ioIdleTime ∧ s1.ioWaitingTime = s2.ioWaitingTime ∧
    ∀ numProcesses, statistics s1 numProcesses = statistics s2 numProcesses := by
  have hne : processes ≠ [] := by
    intro h
    subst h
    rw [run_seed_nil] at hr1
    cases hr1
    simp [(seed_fields []).2.2.1] at hd1
  have hs := alternating_seed processes hne hodd
  have hf := runs_agree (work (seed processes)) (seed processes) rfl hs steps1 steps2 s1 s2
    ho1 ho2 hr1 hr2 hd1 hd2
  have hw1 := worked_count steps1 (seed processes) s1 hs ho1 hr1
  have hw2 := worked_count steps2 (seed processes) s2 hs ho2 hr2
  have ha1 := run_invariant Alternating (fun ok => ok = true)
    (fun w ok s f s' hok hP h => by subst hok; exact (alternating_step w s s' f hP h).1)
    steps1 (seed processes) s1 ho1 hs hr1
  have ha2 := run_invariant Alternating (fun ok => ok = true)
    (fun w ok s f s' hok hP h => by subst hok; exact (alternating_step w s s' f hP h).1)
    steps2 (seed processes) s2 ho2 hs hr2
  have hz1 : work s1 = 0 := by
    obtain ⟨e1, e2⟩ := ha1.2.2.1 hd1
    simp [work, e1, e2, burstsLeft]
  have hz2 : work s2 = 0 := by
    obtain ⟨e1, e2⟩ := ha2.2.2.1 hd2
    simp [work, e1, e2, burstsLeft]
  have hseed : (work (seed processes) : Int) = (processes.map Pa.totalAc).sum := by
    obtain ⟨hc, hi, -⟩ := seed_fields processes
    rw [work, hc, hi, ← burstsLeft_seed processes hodd]
    simp [burstsLeft]
  have c1 : s1.cpuTime = s2.cpuTime := by
    have := congrArg Sched.cpuTime hf
    simpa [forget] using this
  have c2 : s1.cpuIdleTime = s2.cpuIdleTime := by
    have := congrArg Sched.cpuIdleTime hf
    simpa [forget] using this
  have c3 : s1.cpuWaitingTime = s2.cpuWaitingTime := by
    have := congrArg Sched.cpuWaitingTime hf
    simpa [forget] using this
  have c4 : s1.ioTime = s2.ioTime := by
    have := congrArg Sched.ioTime hf
    simpa [forget] using this
  have c5 : s1.ioIdleTime = s2.ioIdleTime := by
    have := congrArg Sched.ioIdleTime hf
    simpa [forget] using this
  have c6 : s1.ioWaitingTime = s2.ioWaitingTime := by
    have := congrArg Sched.ioWaitingTime hf
    simpa [forget] using this
  refine ⟨by omega, by rw [← hseed]; omega, c1, c2, c3, c4, c5, c6, ?_⟩
  intro n
  simp [statistics, c1, c2, c3, c4, c5, c6]

theorem statistics_independent_of_schedule_witness :
    worked sampleStepsLate (seed [sampleLong, sampleTwin]) =
      worked sampleStepsEarly (seed [sampleLong, sampleTwin]) ∧
    (worked sampleStepsLate (seed [sampleLong, sampleTwin]) : Int) =
      ([sampleLong, sampleTwin].map Pa.totalAc).sum ∧
    sampleLateEnd.cpuTime = sampleEarlyEnd.cpuTime ∧
    sampleLateEnd.cpuIdleTime = sampleEarlyEnd.cpuIdleTime ∧
    sampleLateEnd.cpuWaitingTime = sampleEarlyEnd.cpuWaitingTime ∧
    sampleLateEnd.ioTime = sampleEarlyEnd.ioTime ∧
    sampleLateEnd.ioIdleTime = sampleEarlyEnd.ioIdleTime ∧
    sampleLateEnd.ioWaitingTime = sampleEarlyEnd.ioWaitingTime ∧
    ∀ numProcesses,
      statistics sampleLateEnd numProcesses = statistics sampleEarlyEnd numProcesses :=
  statistics_independent_of_schedule [sampleLong, sampleTwin] sampleStepsLate
    sampleStepsEarly sampleLateEnd sampleEarlyEnd
    (by simp [OddBursts, sampleLong, sampleTwin]) (by simp [logsOpen, sampleStepsLate])
    (by simp [logsOpen, sampleStepsEarly]) (by decide) (by decide) (by decide) (by decide)

theorem current_advance (p : Pa) (time next : Int) (h : readTimes p.times p.ac = some next) :
    Current (advance p time next) := by
  simpa [Current, advance] using h

theorem ready_seed (processes : List Pa) (hodd : ∀ p ∈ processes, OddBursts p)
    (hcur : ∀ p ∈ processes, Current p) : Ready (seed processes) := by
  obtain ⟨hc, hi, -⟩ := seed_fields processes
  constructor
  · intro p hp
    rw [hc] at hp
    obtain ⟨h1, h2, h3⟩ := hodd p hp
    exact ⟨⟨by omega, by omega, by omega, h3, h2⟩, hcur p hp⟩
  · intro p hp
    rw [hi] at hp
    simp at hp

theorem ready_step (w : Worker) (ok : Bool) (s s' : Sched) (f : Flow) (hs : Ready s)
    (h : body w ok s = some (f, s')) : Ready s' := by
  obtain ⟨hc, hi⟩ := hs
  cases w with
  | cpuThread =>
    rcases cpu_cases h with ⟨rfl, _⟩ | ⟨rfl, _⟩ | ⟨rfl, _⟩ | ⟨p, rest, hq, h1, h2, hp⟩
    · exact ⟨hc, hi⟩
    · exact ⟨hc, hi⟩
    · exact ⟨hc, hi⟩
    · obtain ⟨⟨c1, c2, c3, c4, c5⟩, -⟩ := hc p (by rw [hq]; exact List.mem_cons_self _ _)
      have hrest : ∀ x ∈ rest, CpuReady x ∧ Current x := fun x hx =>
        hc x (by rw [hq]; exact List.mem_cons_of_mem _ hx)
      rcases hp with ⟨next, hac, hn, _, _, rfl⟩ | ⟨_, _, rfl⟩ | ⟨_, _, _, _, _, rfl⟩ |
        ⟨_, _, _, _, rfl⟩
      · refine ⟨by simpa [cpuServe] using hrest, ?_⟩
        intro x hx
        simp only [List.mem_append, List.mem_singleton] at hx
        rcases hx with hx | rfl
        · exact hi x hx
        · refine ⟨?_, current_advance p _ next hn⟩
          simp only [IoReady, advance]
          exact ⟨by omega, by omega, by omega, c4, c5⟩
      · exact ⟨by simpa [cpuServe] using hrest, by simpa [cpuServe] using hi⟩
      · exact ⟨by simpa [cpuServe] using hrest, by simpa [cpuServe] using hi⟩
      · exact ⟨by simpa [cpuServe] using hrest, by simpa [cpuServe] using hi⟩
  | ioThread =>
    rcases io_cases h with ⟨rfl, _⟩ | ⟨rfl, _⟩ | ⟨rfl, _⟩ | ⟨p, rest, next, hq, h1, h2, hn, hp⟩
    · exact ⟨hc, hi⟩
    · exact ⟨hc, hi⟩
    · exact ⟨hc, hi⟩
    · obtain ⟨⟨c1, c2, c3, c4, c5⟩, -⟩ := hi p (by rw [hq]; exact List.mem_cons_self _ _)
      have hrest : ∀ x ∈ rest, IoReady x ∧ Current x := fun x hx =>
        hi x (by rw [hq]; exact List.mem_cons_of_mem _ hx)
      rcases hp with ⟨_, _, rfl⟩ | ⟨_, _, rfl⟩
      · refine ⟨?_, by simpa [ioServe] using hrest⟩
        intro x hx
        simp only [List.mem_append, List.mem_singleton] at hx
        rcases hx with hx | rfl
        · exact hc x hx
        · refine ⟨?_, current_advance p _ next hn⟩
          simp only [CpuReady, advance]
          exact ⟨by omega, by omega, by omega, c4, c5⟩
      · exact ⟨by simpa [ioServe] using hc, by simpa [ioServe] using hrest⟩

theorem ready_defined (w : Worker) (ok : Bool) (s : Sched) (hset : Settled s) (hs : Ready s) :
    ∃ f s', body w ok s = some (f, s') := by
  obtain ⟨hc, hi⟩ := hs
  have he := hset.1
  cases hb : body w ok s with
  | some r => exact ⟨r.1, r.2, rfl⟩
  | none =>
    exfalso
    cases w with
    | cpuThread =>
      cases hq : s.cpuQueue with
      | nil =>
        rcases he with h | h | h
        · simp [body, cpu, hq, isEmpty, h] at hb
        · simp [body, cpu, hq, isEmpty, h] at hb
        · simp [body, cpu, hq, isEmpty, h] at hb
      | cons p rest =>
        rcases he with h | h | h
        · obtain ⟨⟨h1, h2, -, -, h5⟩, -⟩ := hc p (by rw [hq]; exact List.mem_cons_self _ _)
          by_cases hac : p.ac < p.totalAc
          · obtain ⟨next, hn⟩ := readTimes_some p.times p.ac (by omega) (by omega)
            cases ok <;> simp [body, cpu, hq, isEmpty, h, dequeue, hac, hn] at hb
          · simp only [body, cpu, hq, isEmpty, h, dequeue, hac, if_false, if_true] at hb
            split_ifs at hb
        · simp [body, cpu, hq, isEmpty, h] at hb
        · simp [body, cpu, hq, isEmpty, h] at hb
    | ioThread =>
      cases hq : s.ioQueue with
      | nil =>
        rcases he with h | h | h
        · simp [body, io, hq, isEmpty, h] at hb
        · simp [body, io, hq, isEmpty, h] at hb
        · simp [body, io, hq, isEmpty, h] at hb
      | cons p rest =>
        rcases he with h | h | h
        · obtain ⟨⟨h1, h2, -, -, h5⟩, -⟩ := hi p (by rw [hq]; exact List.mem_cons_self _ _)
          obtain ⟨next, hn⟩ := readTimes_some p.times p.ac (by omega) (by omega)
          cases ok <;> simp [body, io, hq, isEmpty, h, dequeue, hn] at hb
        · simp [body, io, hq, isEmpty, h] at hb
        · simp [body, io, hq, isEmpty, h] at hb

theorem ready_run : ∀ (steps : List (Worker × Bool)) (s : Sched), Settled s → Ready s →
    ∃ t, run steps s = some t ∧ Settled t ∧ Ready t := by
  intro steps
  induction steps with
  | nil => intro s h1 h2; exact ⟨s, rfl, h1, h2⟩
  | cons x later ih =>
    intro s h1 h2
    obtain ⟨w, ok⟩ := x
    obtain ⟨f, s', hb⟩ := ready_defined w ok s h1 h2
    obtain ⟨t, hr, h3, h4⟩ := ih s' (settled_step w ok s s' f h1 hb) (ready_step w ok s s' f h2 hb)
    exact ⟨t, by simp [run, hb, hr], h3, h4⟩
theorem sscanfLoop_count : ∀ (format : List Directive) (input : List Char) (assigned : List Int),
    (sscanfLoop format input assigned).1 = (sscanfLoop format input assigned).2.length ∨
      (sscanfLoop format input assigned).1 = -1 := by
  intro format
  induction format with
  | nil => intro input assigned; simp [sscanfLoop]
  | cons d rest ih =>
    intro input assigned
    cases d with
    | white => simpa [sscanfLoop] using ih (skipSpace input) assigned
    | number =>
      simp only [sscanfLoop]
      cases hs : skipSpace input with
      | nil =>
        by_cases ha : assigned = [] <;> simp [ha]
      | cons c tail =>
        simp only []
        cases hn : scanNumber (c :: tail) with
        | none => simp
        | some r =>
          obtain ⟨v, rest2⟩ := r
          simpa using ih rest2 (assigned ++ [v])
    | literal c =>
      cases input with
      | nil =>
        by_cases ha : assigned = [] <;> simp [sscanfLoop, ha]
      | cons e tail =>
        by_cases hec : e = c
        · simpa [sscanfLoop, hec] using ih tail assigned
        · simp [sscanfLoop, hec]

theorem sscanf_count (str format : List Char) (n : Nat)
    (h : (sscanf str format).1 = (n : Int)) : (sscanf str format).2.length = n := by
  rcases sscanfLoop_count (parseFormat format) str [] with h1 | h1
  · have : ((sscanf str format).2.length : Int) = n := by
      rw [sscanf] at h ⊢
      omega
    exact_mod_cast this
  · rw [sscanf] at h
    omega

theorem activityLoop_times (lines : List (List Char)) : ∀ (count i : Nat) (times result : List Int),
    activityLoop lines count i times = some (ERROR_CODE.E_SUCCESS, result) →
    ∃ more, result = times ++ more ∧ more.length = count := by
  intro count
  induction count with
  | zero =>
    intro i times result h
    simp only [activityLoop, Option.some.injEq, Prod.mk.injEq, true_and] at h
    exact ⟨[], by simp [h], rfl⟩
  | succ n ih =>
    intro i times result h
    rw [activityLoop] at h
    generalize (if (i + 1) % 2 = 0 then ['I', '/', 'O'] else ['C', 'P', 'U']) = state at h
    by_cases hfit : (formatOf (i + 1) state).length + 1 ≤ 12
    · rw [if_pos hfit] at h
      cases hl : lines[i]? with
      | none => rw [hl] at h; cases h
      | some line =>
        rw [hl] at h
        simp only at h
        by_cases hr : (sscanf (cString line) (formatOf (i + 1) state)).1 ≠ 1
        · rw [if_pos hr] at h
          cases h
        · rw [if_neg hr] at h
          have hr1 : (sscanf (cString line) (formatOf (i + 1) state)).1 = ((1 : Nat) : Int) := by
            simpa using hr
          have hlen := sscanf_count _ _ 1 hr1
          obtain ⟨more, hm, hml⟩ := ih (i + 1) _ result h
          refine ⟨(sscanf (cString line) (formatOf (i + 1) state)).2 ++ more,
            by rw [hm, List.append_assoc], ?_⟩
          rw [List.length_append, hlen, hml]
          omega
    · rw [if_neg hfit] at h
      cases h
theorem createPA_shape (job content : List Char) (stray : Int) (p : Pa) (hn : nul ∉ content)
    (h : createPA job (some content) stray = some (ERROR_CODE.E_SUCCESS, some p)) :
    p.totalAc = p.times.length ∧ readTimes p.times 0 = some p.remainingTime ∧
      p.arriveTime = 0 ∧ (p.totalAc : Int) = (textLines [] content).length := by
  have hlen := textLines_length content []
  simp only [ne_eq, not_true_eq_false, and_false, or_false] at hlen
  rw [createPA, getLines_spec content hn] at h
  simp only [ne_eq, not_true_eq_false, if_false] at h
  rw [← hlen] at h
  generalize hL : (textLines [] content).map (fun line => line ++ [nul]) = lines at h
  have hLlen : lines.length = (textLines [] content).length := by rw [← hL]; simp
  by_cases hjob : (sscanf job ['P', 'I', 'D', '-', '%', 'd']).1 = 1
  swap
  · rw [if_pos hjob] at h
    cases h
  rw [if_neg (by simpa using hjob)] at h
  cases hfirst : lines[0]? with
  | none => rw [hfirst] at h; cases h
  | some first =>
    rw [hfirst] at h
    simp only at h
    generalize hr1 : sscanf (cString first)
      ['%', 'd', ' ', 'C', 'P', 'U', ' ', '%', 'd', newline] = r1 at h
    by_cases h2 : r1.1 = 2
    · rw [if_neg (by simpa using h2)] at h
      have hr1len : r1.2.length = 2 := by
        rw [← hr1]
        exact sscanf_count _ _ 2 (by rw [hr1]; exact_mod_cast h2)
      cases ha : activityLoop lines ((textLines [] content).length : Int).toNat.pred 1
          (r1.2.drop 1) with
      | none =>
        simp only [Nat.pred_eq_sub_one] at ha
        rw [ha] at h
        cases h
      | some res =>
        obtain ⟨code, times⟩ := res
        simp only [Nat.pred_eq_sub_one] at ha
        rw [ha] at h
        simp only at h
        by_cases hcode : code = ERROR_CODE.E_SUCCESS
        · subst hcode
          simp only [ne_eq, not_true_eq_false, if_false, Option.some.injEq, Prod.mk.injEq,
            true_and] at h
          obtain ⟨more, hm, hml⟩ := activityLoop_times lines _ 1 _ times ha
          have hpos : 1 ≤ lines.length := by
            by_contra hlt
            rw [List.getElem?_eq_none (by omega)] at hfirst
            cases hfirst
          obtain ⟨a, b, hab⟩ : ∃ a b, r1.2 = [a, b] := by
            match r1.2, hr1len with
            | [a, b], _ => exact ⟨a, b, rfl⟩
          subst h
          simp only [hab, List.drop_succ_cons, List.drop_zero, List.headD_cons] at hm ⊢
          subst hm
          refine ⟨?_, by simp [readTimes], trivial, trivial⟩
          simp only [List.length_append, List.length_cons, List.length_nil, hml]
          simp only [Int.toNat_ofNat]
          omega
        · rw [if_pos hcode] at h
          cases h
    · rw [if_pos (by simpa using h2)] at h
      cases h
/-- C31: for processes with an odd number of bursts each that start at activity
number 1 and hold their first burst as `remainingTime`, as `createPA` leaves
them, every run from the seeded state has a defined result, with or without a
failing `fopen`, and in the state it reaches every queued record has
`1 ≤ ac ≤ totalAc` and `remainingTime = times[ac-1]`; `ac` is odd on the CPU
queue and even on the I/O queue; the index `ac` at which `cpu()` (for a record
with `ac < totalAc`) and `io()` read `times` after `ac++` is within the array,
and so the next pass of either worker has a defined result. A record that
`createPA` makes of a file without NUL bytes has `totalAc` elements in `times`
and the first of them as `remainingTime`, so with `ac = 1` and an odd `totalAc`
it is such a process. -/
theorem queued_records_within_bursts (processes : List Pa) (steps : List (Worker × Bool))
    (hodd : ∀ p ∈ processes, OddBursts p) (hcur : ∀ p ∈ processes, Current p) :
    (∃ s, run steps (seed processes) = some s) ∧
    (∀ s, run steps (seed processes) = some s →
      (∀ p ∈ s.cpuQueue, 1 ≤ p.ac ∧ p.ac ≤ p.totalAc ∧ p.ac % 2 = 1 ∧
        readTimes p.times (p.ac - 1) = some p.remainingTime ∧
        (p.ac < p.totalAc → 0 ≤ p.ac + 1 - 1 ∧ p.ac + 1 - 1 < p.times.length)) ∧
      (∀ p ∈ s.ioQueue, 1 ≤ p.ac ∧ p.ac ≤ p.totalAc ∧ p.ac % 2 = 0 ∧
        readTimes p.times (p.ac - 1) = some p.remainingTime ∧
        0 ≤ p.ac + 1 - 1 ∧ p.ac + 1 - 1 < p.times.length) ∧
      (∀ w ok, ∃ f s', body w ok s = some (f, s'))) ∧
    (∀ job content stray p, nul ∉ content →
      createPA job (some content) stray = some (ERROR_CODE.E_SUCCESS, some p) →
      p.ac = 1 → p.totalAc % 2 = 1 → OddBursts p ∧ Current p) := by
  obtain ⟨t, hr, hset, hready⟩ := ready_run steps (seed processes) (settled_seed processes)
    (ready_seed processes hodd hcur)
  refine ⟨⟨t, hr⟩, ?_, ?_⟩
  · intro s hs
    rw [hr] at hs
    cases hs
    refine ⟨?_, ?_, fun w ok => ready_defined w ok t hset hready⟩
    · intro p hp
      obtain ⟨⟨c1, c2, c3, c4, c5⟩, hc⟩ := hready.1 p hp
      exact ⟨c1, c2, c3, hc, fun hlt => ⟨by omega, by omega⟩⟩
    · intro p hp
      obtain ⟨⟨c1, c2, c3, c4, c5⟩, hc⟩ := hready.2 p hp
      exact ⟨c1, by omega, c3, hc, by omega, by omega⟩
  · intro job content stray p hn hc hac hodd1
    obtain ⟨h1, h2, -, -⟩ := createPA_shape job content stray p hn hc
    refine ⟨⟨hac, h1, hodd1⟩, ?_⟩
    rw [Current, hac]
    exact h2

theorem queued_records_within_bursts_witness :
    (∃ s, run [(Worker.cpuThread, true)] (seed [sampleLong, sampleTwin]) = some s) ∧
    (∀ s, run [(Worker.cpuThread, true)] (seed [sampleLong, sampleTwin]) = some s →
      (∀ p ∈ s.cpuQueue, 1 ≤ p.ac ∧ p.ac ≤ p.totalAc ∧ p.ac % 2 = 1 ∧
        readTimes p.times (p.ac - 1) = some p.remainingTime ∧
        (p.ac < p.totalAc → 0 ≤ p.ac + 1 - 1 ∧ p.ac + 1 - 1 < p.times.length)) ∧
      (∀ p ∈ s.ioQueue, 1 ≤ p.ac ∧ p.ac ≤ p.totalAc ∧ p.ac % 2 = 0 ∧
        readTimes p.times (p.ac - 1) = some p.remainingTime ∧
        0 ≤ p.ac + 1 - 1 ∧ p.ac + 1 - 1 < p.times.length) ∧
      (∀ w ok, ∃ f s', body w ok s = some (f, s'))) ∧
    (∀ job content stray p, nul ∉ content →
      createPA job (some content) stray = some (ERROR_CODE.E_SUCCESS, some p) →
      p.ac = 1 → p.totalAc % 2 = 1 → OddBursts p ∧ Current p) :=
  queued_records_within_bursts [sampleLong, sampleTwin] [(Worker.cpuThread, true)]
    (by simp [OddBursts, sampleLong, sampleTwin])
    (by simp [Current, readTimes, sampleLong, sampleTwin])

/-! ## The clocks within the type `int` -/

theorem wrap_of_fits (x : Int) (h : Fits x) : wrap x = x := by
  unfold Fits at h
  unfold wrap
  omega

theorem wrap_add_wrap (a b : Int) : wrap (a + wrap b) = wrap (a + b) := by
  unfold wrap
  omega

theorem tickInt_eq : ∀ (n : Nat) (t : Int), -2147483648 ≤ t → t + n ≤ 2147483647 →
    tickInt n t = t + n := by
  intro n
  induction n with
  | zero => intro t _ _; simp [tickInt]
  | succ k ih =>
    intro t h1 h2
    have hw : wrap (t + 1) = t + 1 := wrap_of_fits _ ⟨by omega, by push_cast at h2; omega⟩
    rw [tickInt, hw, ih (t + 1) (by omega) (by push_cast at h2; omega)]
    push_cast
    ring

theorem executeInt_eq (t r : Int) (h1 : -2147483648 ≤ t) (h2 : t + max r 0 ≤ 2147483647) :
    executeInt t r = execute t r := by
  unfold executeInt
  rw [execute_eq, tickInt_eq _ _ h1 (by rw [Int.toNat_eq_max]; exact h2), Int.toNat_eq_max]

theorem cpuServeInt_eq (s : Sched) (p : Pa) (rest : LinkedList)
    (h : ServeFits Worker.cpuThread s p) : cpuServeInt s p rest = cpuServe s p rest := by
  obtain ⟨a1, a2, a3, a4, a5, a6, a7, a8, a9, a10⟩ := h
  simp only [ownTime, ownIdleTime, ownWaitingTime] at a1 a2 a3 a6 a7 a8 a9 a10
  unfold Fits at *
  unfold cpuServeInt cpuServe
  by_cases hlt : s.cpuTime < p.arriveTime
  · simp only [hlt, if_true]
    rw [executeInt_eq _ _ (by omega) (by omega), wrap_add_wrap, wrap_add_wrap,
      wrap_of_fits _ ⟨by omega, by omega⟩, wrap_of_fits _ ⟨by omega, by omega⟩]
  · simp only [hlt, if_false]
    rw [executeInt_eq _ _ (by omega) (by omega), wrap_add_wrap,
      wrap_of_fits _ ⟨by omega, by omega⟩]

theorem ioServeInt_eq (s : Sched) (p : Pa) (rest : LinkedList)
    (h : ServeFits Worker.ioThread s p) : ioServeInt s p rest = ioServe s p rest := by
  obtain ⟨a1, a2, a3, a4, a5, a6, a7, a8, a9, a10⟩ := h
  simp only [ownTime, ownIdleTime, ownWaitingTime] at a1 a2 a3 a6 a7 a8 a9 a10
  unfold Fits at *
  unfold ioServeInt ioServe
  by_cases hlt : s.ioTime < p.arriveTime
  · simp only [hlt, if_true]
    rw [executeInt_eq _ _ (by omega) (by omega), wrap_add_wrap, wrap_add_wrap,
      wrap_of_fits _ ⟨by omega, by omega⟩, wrap_of_fits _ ⟨by omega, by omega⟩]
  · simp only [hlt, if_false]
    rw [executeInt_eq _ _ (by omega) (by omega), wrap_add_wrap,
      wrap_of_fits _ ⟨by omega, by omega⟩]

/-- A pass has a result when `errState` is 0, 1 or 2 and the burst that the pass
reads for the record at the head of the queue, if it reads one, is in `times`. -/
theorem body_defined (w : Worker) (ok : Bool) (s : Sched)
    (he : s.errState = 0 ∨ s.errState = 1 ∨ s.errState = 2)
    (hnext : ∀ p rest, ownQueue w s = p :: rest → w = Worker.ioThread ∨ p.ac < p.totalAc →
      ∃ next, readTimes p.times p.ac = some next) :
    ∃ f s1, body w ok s = some (f, s1) := by
  cases hb : body w ok s with
  | some r => exact ⟨r.1, r.2, rfl⟩
  | none =>
    exfalso
    cases w with
    | cpuThread =>
      cases hq : s.cpuQueue with
      | nil =>
        rcases he with h | h | h
        · simp [body, cpu, hq, isEmpty, h] at hb
        · simp [body, cpu, hq, isEmpty, h] at hb
        · simp [body, cpu, hq, isEmpty, h] at hb
      | cons p rest =>
        rcases he with h | h | h
        · by_cases hac : p.ac < p.totalAc
          · obtain ⟨next, hn⟩ := hnext p rest hq (Or.inr hac)
            cases ok <;> simp [body, cpu, hq, isEmpty, h, dequeue, hac, hn] at hb
          · simp only [body, cpu, hq, isEmpty, h, dequeue, hac, if_false, if_true] at hb
            split_ifs at hb
        · simp [body, cpu, hq, isEmpty, h] at hb
        · simp [body, cpu, hq, isEmpty, h] at hb
    | ioThread =>
      cases hq : s.ioQueue with
      | nil =>
        rcases he with h | h | h
        · simp [body, io, hq, isEmpty, h] at hb
        · simp [body, io, hq, isEmpty, h] at hb
        · simp [body, io, hq, isEmpty, h] at hb
      | cons p rest =>
        rcases he with h | h | h
        · obtain ⟨next, hn⟩ := hnext p rest hq (Or.inl rfl)
          cases ok <;> simp [body, io, hq, isEmpty, h, dequeue, hn] at hb
        · simp [body, io, hq, isEmpty, h] at hb
        · simp [body, io, hq, isEmpty, h] at hb

/-- In exact integers the totals of a worker after it has served a record are
those of `serveInt` when every result is a value of type `int`. -/
theorem serveInt_own (w : Worker) (s : Sched) (p : Pa) (rest : LinkedList)
    (h : ServeFits w s p) :
    ownIdleTime w (serveInt w s p rest) =
      ownIdleTime w s + max 0 (p.arriveTime - ownTime w s) ∧
    ownWaitingTime w (serveInt w s p rest) =
      ownWaitingTime w s + max 0 (ownTime w s - p.arriveTime) ∧
    ownTime w (serveInt w s p rest) =
      max (ownTime w s) p.arriveTime + max p.remainingTime 0 := by
  cases w with
  | cpuThread =>
    simp only [serveInt, cpuServeInt_eq s p rest h, ownIdleTime, ownWaitingTime, ownTime]
    exact cpuServe_clock s p rest
  | ioThread =>
    simp only [serveInt, ioServeInt_eq s p rest h, ownIdleTime, ownWaitingTime, ownTime]
    exact ioServe_clock s p rest

theorem brim_run (b : Int) (hb : 0 ≤ b) :
    run [(Worker.cpuThread, true)]
        (seed [Pa.mk 5 1 1 2 0 b [b], sampleTick]) =
      some (Sched.mk 0 b 0 0 0 0 0 [sampleTick] []
        [Entry.newProcess 5 1 0 b, Entry.newProcess 6 1 0 1] [Entry.terminated 5 1 0 b]
        [b] []) := by
  have h := cpu_eval_retire (seed [Pa.mk 5 1 1 2 0 b [b], sampleTick]) (Pa.mk 5 1 1 2 0 b [b])
    [sampleTick] rfl rfl (by simp) (by simp)
  simp only [run, body, h]
  simp [cpuServe, execute_eq, seed, seedLoop, start, enqueue, newLinkedList, sampleTick, hb]

theorem sampleBrim_run :
    run [(Worker.cpuThread, true)] (seed [sampleLast, sampleTick]) = some sampleBrim :=
  brim_run 2147483647 (by decide)

theorem sampleBrim_step :
    cpu true sampleBrim = some (Flow.returned ERROR_CODE.E_SUCCESS, sampleOver) := by
  decide

theorem sampleOver_run :
    run [(Worker.cpuThread, true), (Worker.cpuThread, true)] (seed [sampleLast, sampleTick]) =
      some sampleOver := by
  have h := run_append [(Worker.cpuThread, true)] [(Worker.cpuThread, true)]
    (seed [sampleLast, sampleTick])
  rw [sampleBrim_run] at h
  simp only [List.singleton_append, Option.some_bind] at h
  rw [h]
  simp only [run, body, sampleBrim_step]

/-- C6, refuted as stated: after `cpu()` has run the burst of 2147483647 of
`sampleLast`, the first process of the input, `cpuTime` reads 2147483647, the
largest value of type `int`, and `sampleTick` (arrive time 0, burst 1) is at the
head of `cpuQueue`. For the step that takes it the claim gives the clock
`max t r + b` = 2147483648, which is not a value of type `int`: the lines of
`cpu()` leave the global `cpuTime` at -2147483648. -/
theorem clock_update_exceeds_int :
    run [(Worker.cpuThread, true)] (seed [sampleLast, sampleTick]) = some sampleBrim ∧
    sampleBrim.errState = 0 ∧ ownQueue Worker.cpuThread sampleBrim = [sampleTick] ∧
    0 ≤ sampleTick.remainingTime ∧
    max (ownTime Worker.cpuThread sampleBrim) sampleTick.arriveTime + sampleTick.remainingTime =
      2147483648 ∧
    ¬ Fits 2147483648 ∧
    ownTime Worker.cpuThread (serveInt Worker.cpuThread sampleBrim sampleTick []) =
      -2147483648 ∧
    ownTime Worker.cpuThread (serveInt Worker.cpuThread sampleBrim sampleTick []) ≠
      max (ownTime Worker.cpuThread sampleBrim) sampleTick.arriveTime +
        sampleTick.remainingTime :=
  ⟨sampleBrim_run, by decide, by decide, by decide, by decide, by decide, by decide, by decide⟩

/-- C6, amended: in the running state let worker `w` have the record `p` at the
head of its queue, with arrive time `r` and burst `b ≥ 0`, while its clock reads
`t`, and let the burst that the pass reads next, if it reads one, be in `times`.
If the values involved and every sum and difference that the pass makes of them
are values of type `int` (`ServeFits`), the pass has a result, the totals of `w`
after it are those of the lines in `int` arithmetic, and they are: idle total
plus `max 0 (r - t)`, waiting total plus `max 0 (t - r)`, clock `max t r + b`. So
a burst of 0 leaves the clock at `max t r`, and with `r = t` the waiting total
is unchanged. -/
theorem clock_update (w : Worker) (ok : Bool) (s : Sched) (p : Pa) (rest : LinkedList)
    (hrunning : s.errState = 0) (hq : ownQueue w s = p :: rest)
    (hnext : w = Worker.ioThread ∨ p.ac < p.totalAc →
      ∃ next, readTimes p.times p.ac = some next)
    (hb : 0 ≤ p.remainingTime) (hfit : ServeFits w s p) :
    ∃ f s1, body w ok s = some (f, s1) ∧
      ownIdleTime w s1 = ownIdleTime w (serveInt w s p rest) ∧
      ownWaitingTime w s1 = ownWaitingTime w (serveInt w s p rest) ∧
      ownTime w s1 = ownTime w (serveInt w s p rest) ∧
      ownIdleTime w s1 = ownIdleTime w s + max 0 (p.arriveTime - ownTime w s) ∧
      ownWaitingTime w s1 = ownWaitingTime w s + max 0 (ownTime w s - p.arriveTime) ∧
      ownTime w s1 = max (ownTime w s) p.arriveTime + p.remainingTime ∧
      Fits (ownIdleTime w s1) ∧ Fits (ownWaitingTime w s1) ∧ Fits (ownTime w s1) ∧
      (p.remainingTime = 0 → ownTime w s1 = max (ownTime w s) p.arriveTime) ∧
      (p.arriveTime = ownTime w s → ownWaitingTime w s1 = ownWaitingTime w s) := by
  obtain ⟨f, s1, h⟩ := body_defined w ok s (Or.inl hrunning) (fun q rest2 hq2 hw => by
    rw [hq] at hq2
    obtain ⟨rfl, rfl⟩ := List.cons.inj hq2
    exact hnext hw)
  obtain ⟨h1, h2, h3⟩ := served_clock w ok s s1 f p rest hrunning hq h
  obtain ⟨i1, i2, i3⟩ := serveInt_own w s p rest hfit
  obtain ⟨-, -, -, -, -, -, f7, -, f9, f10⟩ := hfit
  refine ⟨f, s1, h, by rw [h1, i1], by rw [h2, i2], by rw [h3, i3], h1, h2, ?_, ?_, ?_, ?_, ?_, ?_⟩
  · rw [h3, max_eq_left hb]
  · rw [h1]; exact f7
  · rw [h2]; exact f9
  · rw [h3]; exact f10
  · intro h0
    rw [h3, h0]
    simp
  · intro hr
    rw [h2, hr, sub_self, max_self, add_zero]

theorem clock_update_witness :
    sampleHalf.errState = 0 ∧ ownQueue Worker.ioThread sampleHalf = [advance sampleLong 2 3] ∧
    ServeFits Worker.ioThread sampleHalf (advance sampleLong 2 3) ∧
    ∃ f s1, body Worker.ioThread true sampleHalf = some (f, s1) ∧
      ownIdleTime Worker.ioThread s1 =
        ownIdleTime Worker.ioThread
          (serveInt Worker.ioThread sampleHalf (advance sampleLong 2 3) []) ∧
      ownWaitingTime Worker.ioThread s1 =
        ownWaitingTime Worker.ioThread
          (serveInt Worker.ioThread sampleHalf (advance sampleLong 2 3) []) ∧
      ownTime Worker.ioThread s1 =
        ownTime Worker.ioThread
          (serveInt Worker.ioThread sampleHalf (advance sampleLong 2 3) []) ∧
      ownIdleTime Worker.ioThread s1 = ownIdleTime Worker.ioThread sampleHalf +
        max 0 ((advance sampleLong 2 3).arriveTime - ownTime Worker.ioThread sampleHalf) ∧
      ownWaitingTime Worker.ioThread s1 = ownWaitingTime Worker.ioThread sampleHalf +
        max 0 (ownTime Worker.ioThread sampleHalf - (advance sampleLong 2 3).arriveTime) ∧
      ownTime Worker.ioThread s1 =
        max (ownTime Worker.ioThread sampleHalf) (advance sampleLong 2 3).arriveTime +
          (advance sampleLong 2 3).remainingTime ∧
      Fits (ownIdleTime Worker.ioThread s1) ∧ Fits (ownWaitingTime Worker.ioThread s1) ∧
      Fits (ownTime Worker.ioThread s1) ∧
      ((advance sampleLong 2 3).remainingTime = 0 → ownTime Worker.ioThread s1 =
        max (ownTime Worker.ioThread sampleHalf) (advance sampleLong 2 3).arriveTime) ∧
      ((advance sampleLong 2 3).arriveTime = ownTime Worker.ioThread sampleHalf →
        ownWaitingTime Worker.ioThread s1 = ownWaitingTime Worker.ioThread sampleHalf) :=
  ⟨by decide, by decide, by decide,
    clock_update Worker.ioThread true sampleHalf (advance sampleLong 2 3) []
      (by decide) (by decide) (fun _ => ⟨1, by decide⟩) (by decide) (by decide)⟩

theorem drop_sum (l : List Int) (i : Nat) (x : Int) (h : l[i]? = some x) :
    (l.drop i).sum = x + (l.drop (i + 1)).sum := by
  have hlt : i < l.length := by
    by_contra hge
    rw [List.getElem?_eq_none (by omega)] at h
    cases h
  rw [List.drop_eq_getElem_cons hlt, List.sum_cons]
  rw [List.getElem?_eq_getElem hlt] at h
  cases h
  rfl

theorem budget_ge (p : Pa) (h : NonNegative p) : p.remainingTime ≤ budget p := by
  have : 0 ≤ (p.times.drop p.ac.toNat).sum := by
    apply List.sum_nonneg
    intro x hx
    exact h.2 x (List.mem_of_mem_drop hx)
  unfold budget
  omega

theorem budget_advance (p : Pa) (time next : Int) (h : readTimes p.times p.ac = some next) :
    budget (advance p time next) + p.remainingTime = budget p := by
  unfold readTimes at h
  split at h
  · rename_i hc
    have := drop_sum p.times p.ac.toNat next h
    have e : (p.ac + 1).toNat = p.ac.toNat + 1 := by omega
    simp only [budget, advance, e]
    omega
  · cases h

theorem budgets_nonneg (q : List Pa) (h : ∀ p ∈ q, NonNegative p) : 0 ≤ (q.map budget).sum := by
  apply List.sum_nonneg
  intro x hx
  obtain ⟨p, hp, rfl⟩ := List.mem_map.1 hx
  have := budget_ge p (h p hp)
  have := (h p hp).1
  omega

theorem budgeted_step (total : Int) (w : Worker) (ok : Bool) (s s' : Sched) (f : Flow)
    (hs : Budgeted total s) (h : body w ok s = some (f, s')) : Budgeted total s' := by
  obtain ⟨hbal, hord, hq, hc, hi, hsum⟩ := hs
  have hnn : ∀ p ∈ s.cpuQueue ++ s.ioQueue, NonNegative p := fun p hp => (hq p hp).1
  obtain ⟨hbal', hnn'⟩ := balanced_step w ok s s' f ⟨hbal, hnn⟩ h
  have hord' := ordered_step w ok s s' f hord h
  refine ⟨hbal', hord', ?_⟩
  cases w with
  | cpuThread =>
    rcases cpu_cases h with ⟨rfl, _⟩ | ⟨rfl, _⟩ | ⟨rfl, _⟩ | ⟨p, rest, hq2, h1, h2, hp⟩
    · exact ⟨hq, hc, hi, hsum⟩
    · exact ⟨hq, hc, hi, hsum⟩
    · exact ⟨hq, hc, hi, hsum⟩
    · obtain ⟨pn, pa0, pa1⟩ := hq p (by simp [hq2])
      have e3 := (cpuServe_clock s p rest).2.2
      have hb := pn.1
      have hge := budget_ge p pn
      rw [max_eq_left hb] at e3
      have hrest : ∀ q ∈ rest ++ s.ioQueue,
          NonNegative q ∧ 0 ≤ q.arriveTime ∧ q.arriveTime ≤ spent s + p.remainingTime := by
        intro q hq'
        have := hq q (by
          rw [hq2]
          rcases List.mem_append.1 hq' with h | h
          · exact List.mem_append_left _ (List.mem_cons_of_mem _ h)
          · exact List.mem_append_right _ h)
        exact ⟨this.1, this.2.1, by omega⟩
      have hsp : spent (cpuServe s p rest) = spent s + p.remainingTime := by
        simp only [spent, cpuServe, List.sum_append, List.sum_singleton]
        omega
      have hsum2 : spent s + (budget p + ((rest ++ s.ioQueue).map budget).sum) ≤ total := by
        simpa [hq2] using hsum
      have hrn : 0 ≤ ((rest ++ s.ioQueue).map budget).sum :=
        budgets_nonneg _ (fun q hq' => (hrest q hq').1)
      have hct : (cpuServe s p rest).cpuTime ≤ spent s + p.remainingTime := by
        rw [e3]; omega
      have hct0 : 0 ≤ (cpuServe s p rest).cpuTime := by
        rw [e3]; omega
      have hit : (cpuServe s p rest).ioTime ≤ spent s + p.remainingTime := by
        have : (cpuServe s p rest).ioTime = s.ioTime := rfl
        rw [this]; omega
      rcases hp with ⟨next, _, hr, _, _, rfl⟩ | ⟨_, _, rfl⟩ | ⟨_, _, _, _, _, rfl⟩ |
        ⟨_, _, _, _, rfl⟩
      · have hadv := budget_advance p (cpuServe s p rest).cpuTime next hr
        have hsp' : spent { cpuServe s p rest with
            logA := s.logA ++
              [Entry.finishCpu p.pid (p.ac + 1) (cpuServe s p rest).cpuTime next],
            ioQueue := s.ioQueue ++ [advance p (cpuServe s p rest).cpuTime next] } =
            spent s + p.remainingTime := hsp
        refine ⟨?_, by rw [hsp']; exact hct, by rw [hsp']; exact hit, ?_⟩
        · intro q hq'
          rw [hsp']
          have : q ∈ rest ++ s.ioQueue ∨ q = advance p (cpuServe s p rest).cpuTime next := by
            simpa [cpuServe, or_assoc] using hq'
          rcases this with h | rfl
          · exact hrest q h
          · exact ⟨hnn' _ hq', hct0, hct⟩
        · rw [hsp']
          have : (({ cpuServe s p rest with
              logA := s.logA ++
                [Entry.finishCpu p.pid (p.ac + 1) (cpuServe s p rest).cpuTime next],
              ioQueue := s.ioQueue ++ [advance p (cpuServe s p rest).cpuTime next] } :
                Sched).cpuQueue ++
            ({ cpuServe s p rest with
              logA := s.logA ++
                [Entry.finishCpu p.pid (p.ac + 1) (cpuServe s p rest).cpuTime next],
              ioQueue := s.ioQueue ++ [advance p (cpuServe s p rest).cpuTime next] } :
                Sched).ioQueue).map budget =
              (rest ++ s.ioQueue).map budget ++
                [budget (advance p (cpuServe s p rest).cpuTime next)] := by
            simp [cpuServe]
          rw [this, List.sum_append, List.sum_singleton]
          omega
      · have hsp' : spent ({ cpuServe s p rest with errState := 2 } : Sched) =
            spent s + p.remainingTime := hsp
        refine ⟨?_, by rw [hsp']; exact hct, by rw [hsp']; exact hit, ?_⟩
        · intro q hq'
          rw [hsp']
          exact hrest q (by simpa [cpuServe] using hq')
        · rw [hsp']
          have : (({ cpuServe s p rest with errState := 2 } : Sched).cpuQueue ++
              ({ cpuServe s p rest with errState := 2 } : Sched).ioQueue).map budget =
              (rest ++ s.ioQueue).map budget := by
            simp [cpuServe]
          rw [this]
          omega
      · have hsp' : spent ({ cpuServe s p rest with
            logB := s.logB ++ [Entry.terminated p.pid p.ac p.arriveTime p.remainingTime],
            errState := 1 } : Sched) = spent s + p.remainingTime := hsp
        refine ⟨?_, by rw [hsp']; exact hct, by rw [hsp']; exact hit, ?_⟩
        · intro q hq'
          rw [hsp']
          exact hrest q (by simpa [cpuServe] using hq')
        · rw [hsp']
          have : (({ cpuServe s p rest with
              logB := s.logB ++ [Entry.terminated p.pid p.ac p.arriveTime p.remainingTime],
              errState := 1 } : Sched).cpuQueue ++
              ({ cpuServe s p rest with
              logB := s.logB ++ [Entry.terminated p.pid p.ac p.arriveTime p.remainingTime],
              errState := 1 } : Sched).ioQueue).map budget =
              (rest ++ s.ioQueue).map budget := by
            simp [cpuServe]
          rw [this]
          omega
      · have hsp' : spent ({ cpuServe s p rest with
            logB := s.logB ++ [Entry.terminated p.pid p.ac p.arriveTime p.remainingTime] } :
              Sched) = spent s + p.remainingTime := hsp
        refine ⟨?_, by rw [hsp']; exact hct, by rw [hsp']; exact hit, ?_⟩
        · intro q hq'
          rw [hsp']
          exact hrest q (by simpa [cpuServe] using hq')
        · rw [hsp']
          have : (({ cpuServe s p rest with
              logB := s.logB ++ [Entry.terminated p.pid p.ac p.arriveTime p.remainingTime] } :
                Sched).cpuQueue ++
              ({ cpuServe s p rest with
              logB := s.logB ++ [Entry.terminated p.pid p.ac p.arriveTime p.remainingTime] } :
                Sched).ioQueue).map budget =
              (rest ++ s.ioQueue).map budget := by
            simp [cpuServe]
          rw [this]
          omega
  | ioThread =>
    rcases io_cases h with ⟨rfl, _⟩ | ⟨rfl, _⟩ | ⟨rfl, _⟩ | ⟨p, rest, next, hq2, h1, h2, hr, hp⟩
    · exact ⟨hq, hc, hi, hsum⟩
    · exact ⟨hq, hc, hi, hsum⟩
    · exact ⟨hq, hc, hi, hsum⟩
    · obtain ⟨pn, pa0, pa1⟩ := hq p (by simp [hq2])
      have e3 := (ioServe_clock s p rest).2.2
      have hb := pn.1
      have hge := budget_ge p pn
      rw [max_eq_left hb] at e3
      have hrest : ∀ q ∈ s.cpuQueue ++ rest,
          NonNegative q ∧ 0 ≤ q.arriveTime ∧ q.arriveTime ≤ spent s + p.remainingTime := by
        intro q hq'
        have := hq q (by
          rw [hq2]
          rcases List.mem_append.1 hq' with h | h
          · exact List.mem_append_left _ h
          · exact List.mem_append_right _ (List.mem_cons_of_mem _ h))
        exact ⟨this.1, this.2.1, by omega⟩
      have hsp : spent (ioServe s p rest) = spent s + p.remainingTime := by
        simp only [spent, ioServe, List.sum_append, List.sum_singleton]
        omega
      have hsum2 : spent s + (budget p + ((s.cpuQueue ++ rest).map budget).sum) ≤ total := by
        have : ((s.cpuQueue ++ s.ioQueue).map budget).sum =
            budget p + ((s.cpuQueue ++ rest).map budget).sum := by
          simp [hq2]
          omega
        omega
      have hrn : 0 ≤ ((s.cpuQueue ++ rest).map budget).sum :=
        budgets_nonneg _ (fun q hq' => (hrest q hq').1)
      have hit : (ioServe s p rest).ioTime ≤ spent s + p.remainingTime := by
        rw [e3]; omega
      have hit0 : 0 ≤ (ioServe s p rest).ioTime := by
        rw [e3]; omega
      have hct : (ioServe s p rest).cpuTime ≤ spent s + p.remainingTime := by
        have : (ioServe s p rest).cpuTime = s.cpuTime := rfl
        rw [this]; omega
      rcases hp with ⟨_, _, rfl⟩ | ⟨_, _, rfl⟩
      · have hadv := budget_advance p (ioServe s p rest).ioTime next hr
        have hsp' : spent { ioServe s p rest with
            logA := s.logA ++
              [Entry.finishIo p.pid (p.ac + 1) (ioServe s p rest).ioTime next],
            cpuQueue := s.cpuQueue ++ [advance p (ioServe s p rest).ioTime next] } =
            spent s + p.remainingTime := hsp
        refine ⟨?_, by rw [hsp']; exact hct, by rw [hsp']; exact hit, ?_⟩
        · intro q hq'
          rw [hsp']
          have : q ∈ s.cpuQueue ++ rest ∨ q = advance p (ioServe s p rest).ioTime next := by
            have h' : q ∈ s.cpuQueue ∨ q = advance p (ioServe s p rest).ioTime next ∨
                q ∈ rest := by
              simpa [ioServe] using hq'
            rw [List.mem_append]
            tauto
          rcases this with h | rfl
          · exact hrest q h
          · exact ⟨hnn' _ hq', hit0, hit⟩
        · rw [hsp']
          have : ((({ ioServe s p rest with
              logA := s.logA ++
                [Entry.finishIo p.pid (p.ac + 1) (ioServe s p rest).ioTime next],
              cpuQueue := s.cpuQueue ++ [advance p (ioServe s p rest).ioTime next] } :
                Sched).cpuQueue ++
            ({ ioServe s p rest with
              logA := s.logA ++
                [Entry.finishIo p.pid (p.ac + 1) (ioServe s p rest).ioTime next],
              cpuQueue := s.cpuQueue ++ [advance p (ioServe s p rest).ioTime next] } :
                Sched).ioQueue).map budget).sum =
              ((s.cpuQueue ++ rest).map budget).sum +
                budget (advance p (ioServe s p rest).ioTime next) := by
            simp [ioServe]
            omega
          rw [this]
          omega
      · have hsp' : spent ({ ioServe s p rest with errState := 2 } : Sched) =
            spent s + p.remainingTime := hsp
        refine ⟨?_, by rw [hsp']; exact hct, by rw [hsp']; exact hit, ?_⟩
        · intro q hq'
          rw [hsp']
          exact hrest q (by simpa [ioServe] using hq')
        · rw [hsp']
          have : (({ ioServe s p rest with errState := 2 } : Sched).cpuQueue ++
              ({ ioServe s p rest with errState := 2 } : Sched).ioQueue).map budget =
              (s.cpuQueue ++ rest).map budget := by
            simp [ioServe]
          rw [this]
          omega

theorem budgeted_seed (processes : List Pa)
    (hnn : ∀ p ∈ processes, 0 ≤ p.remainingTime ∧ ∀ t ∈ p.times, 0 ≤ t)
    (harrive : ∀ p ∈ processes, p.arriveTime = 0) :
    Budgeted (processes.map budget).sum (seed processes) := by
  obtain ⟨h1, h2, -, -, h5, h6, h7, h8, h9, h10⟩ := seed_fields processes
  have hsp : spent (seed processes) = 0 := by simp [spent, h9, h10]
  refine ⟨by simp [Balanced, h5, h6, h7, h8, h9, h10],
    ⟨by rw [h6], by rw [h5, h6], by rw [h8], by rw [h7, h8]⟩, ?_, by rw [h5, hsp],
    by rw [h7, hsp], ?_⟩
  · intro p hp
    rw [h1, h2, List.append_nil] at hp
    rw [hsp, harrive p hp]
    exact ⟨hnn p hp, le_refl _, le_refl _⟩
  · rw [hsp, h1, h2, List.append_nil]
    omega

/-- In a state of a run within its budget the clocks, the idle totals and the
sums of the bursts run are values of type `int`, and for the record at the head
of a queue the lines in `int` arithmetic give the clock and the idle total of
the exact integers. -/
theorem budgeted_fits (total : Int) (s : Sched) (ht : total ≤ 2147483647)
    (hs : Budgeted total s) :
    Fits s.cpuTime ∧ Fits s.cpuIdleTime ∧ Fits s.cpuBursts.sum ∧
    Fits s.ioTime ∧ Fits s.ioIdleTime ∧ Fits s.ioBursts.sum ∧
    (∀ p rest, s.cpuQueue = p :: rest →
      (cpuServeInt s p rest).cpuTime = (cpuServe s p rest).cpuTime ∧
      (cpuServeInt s p rest).cpuIdleTime = (cpuServe s p rest).cpuIdleTime) ∧
    (∀ p rest, s.ioQueue = p :: rest →
      (ioServeInt s p rest).ioTime = (ioServe s p rest).ioTime ∧
      (ioServeInt s p rest).ioIdleTime = (ioServe s p rest).ioIdleTime) := by
  obtain ⟨⟨b1, b2⟩, ⟨o1, o2, o3, o4⟩, hq, hc, hi, hsum⟩ := hs
  have hrn : 0 ≤ ((s.cpuQueue ++ s.ioQueue).map budget).sum :=
    budgets_nonneg _ (fun q hq' => (hq q hq').1)
  unfold Fits
  refine ⟨⟨by omega, by omega⟩, ⟨by omega, by omega⟩, ⟨by omega, by omega⟩,
    ⟨by omega, by omega⟩, ⟨by omega, by omega⟩, ⟨by omega, by omega⟩, ?_, ?_⟩
  · intro p rest hq2
    obtain ⟨pn, pa0, pa1⟩ := hq p (by simp [hq2])
    have hge := budget_ge p pn
    have hb := pn.1
    have hle : budget p ≤ ((s.cpuQueue ++ s.ioQueue).map budget).sum := by
      have hr0 : 0 ≤ ((rest ++ s.ioQueue).map budget).sum :=
        budgets_nonneg _ (fun q hq' => (hq q (by
          rw [hq2]
          rcases List.mem_append.1 hq' with h | h
          · exact List.mem_append_left _ (List.mem_cons_of_mem _ h)
          · exact List.mem_append_right _ h)).1)
      have : ((s.cpuQueue ++ s.ioQueue).map budget).sum =
          budget p + ((rest ++ s.ioQueue).map budget).sum := by
        simp [hq2]
      omega
    unfold cpuServeInt cpuServe
    by_cases hlt : s.cpuTime < p.arriveTime
    · simp only [hlt, if_true]
      rw [executeInt_eq _ _ (by omega) (by omega), wrap_add_wrap,
        wrap_of_fits _ ⟨by omega, by omega⟩]
      refine ⟨?_, ?_⟩ <;> trivial
    · simp only [hlt, if_false]
      rw [executeInt_eq _ _ (by omega) (by omega)]
      refine ⟨?_, ?_⟩ <;> trivial
  · intro p rest hq2
    obtain ⟨pn, pa0, pa1⟩ := hq p (by simp [hq2])
    have hge := budget_ge p pn
    have hb := pn.1
    have hle : budget p ≤ ((s.cpuQueue ++ s.ioQueue).map budget).sum := by
      have hr0 : 0 ≤ ((s.cpuQueue ++ rest).map budget).sum :=
        budgets_nonneg _ (fun q hq' => (hq q (by
          rw [hq2]
          rcases List.mem_append.1 hq' with h | h
          · exact List.mem_append_left _ h
          · exact List.mem_append_right _ (List.mem_cons_of_mem _ h))).1)
      have : ((s.cpuQueue ++ s.ioQueue).map budget).sum =
          budget p + ((s.cpuQueue ++ rest).map budget).sum := by
        simp [hq2]
        omega
      omega
    unfold ioServeInt ioServe
    by_cases hlt : s.ioTime < p.arriveTime
    · simp only [hlt, if_true]
      rw [executeInt_eq _ _ (by omega) (by omega), wrap_add_wrap,
        wrap_of_fits _ ⟨by omega, by omega⟩]
      refine ⟨?_, ?_⟩ <;> trivial
    · simp only [hlt, if_false]
      rw [executeInt_eq _ _ (by omega) (by omega)]
      refine ⟨?_, ?_⟩ <;> trivial

/-- C7, refuted as stated: the bursts of the input `sampleLast`, `sampleTick`
are 2147483647 and 1, none negative. After `cpu()` has run the first, `cpuTime`
is 2147483647; when it has run the second, the idle total 0 plus the bursts run
is 2147483648, which is not a value of type `int`, and the global `cpuTime`
holds -2147483648. -/
theorem idle_plus_bursts_exceeds_int :
    (∀ p ∈ [sampleLast, sampleTick], 0 ≤ p.remainingTime ∧ ∀ t ∈ p.times, 0 ≤ t) ∧
    run [(Worker.cpuThread, true)] (seed [sampleLast, sampleTick]) = some sampleBrim ∧
    sampleBrim.errState = 0 ∧ sampleBrim.cpuQueue = [sampleTick] ∧
    (cpuServeInt sampleBrim sampleTick []).cpuIdleTime +
      (cpuServeInt sampleBrim sampleTick []).cpuBursts.sum = 2147483648 ∧
    (cpuServeInt sampleBrim sampleTick []).cpuTime = -2147483648 ∧
    run [(Worker.cpuThread, true), (Worker.cpuThread, true)] (seed [sampleLast, sampleTick]) =
      some sampleOver ∧
    sampleOver.cpuIdleTime + sampleOver.cpuBursts.sum = 2147483648 ∧
    ¬ Fits 2147483648 :=
  ⟨by decide, sampleBrim_run, by decide, by decide, by decide, by decide, sampleOver_run,
    by decide, by decide⟩

/-- C7, amended: for an input of records with arrive time 0, as `createPA`
makes them, in which no burst is negative and the bursts that the records can
run add up to at most 2147483647, the largest value of type `int`: in every
state reached from the seeded state by worker steps, `cpuIdleTime` plus the sum
of the bursts run by `cpu()` equals `cpuTime`, and `ioIdleTime` plus the sum of
the bursts run by `io()` equals `ioTime`; these six numbers are values of type
`int`, and for the record at the head of a queue the lines of the worker in
`int` arithmetic give the clock and the idle total of the exact integers. -/
theorem idle_plus_bursts_eq_clock (processes : List Pa) (steps : List (Worker × Bool))
    (s : Sched) (hnn : ∀ p ∈ processes, 0 ≤ p.remainingTime ∧ ∀ t ∈ p.times, 0 ≤ t)
    (harrive : ∀ p ∈ processes, p.arriveTime = 0)
    (hbudget : (processes.map budget).sum ≤ 2147483647)
    (hrun : run steps (seed processes) = some s) :
    s.cpuIdleTime + s.cpuBursts.sum = s.cpuTime ∧
    s.ioIdleTime + s.ioBursts.sum = s.ioTime ∧
    Fits s.cpuTime ∧ Fits s.cpuIdleTime ∧ Fits s.cpuBursts.sum ∧
    Fits s.ioTime ∧ Fits s.ioIdleTime ∧ Fits s.ioBursts.sum ∧
    (∀ p rest, s.cpuQueue = p :: rest →
      (cpuServeInt s p rest).cpuTime = (cpuServe s p rest).cpuTime ∧
      (cpuServeInt s p rest).cpuIdleTime = (cpuServe s p rest).cpuIdleTime) ∧
    (∀ p rest, s.ioQueue = p :: rest →
      (ioServeInt s p rest).ioTime = (ioServe s p rest).ioTime ∧
      (ioServeInt s p rest).ioIdleTime = (ioServe s p rest).ioIdleTime) := by
  have hb : Budgeted (processes.map budget).sum s :=
    run_invariant (Budgeted (processes.map budget).sum) (fun _ => True)
      (fun w ok s f s' _ hP h => budgeted_step _ w ok s s' f hP h)
      steps (seed processes) s (fun _ _ => trivial) (budgeted_seed processes hnn harrive) hrun
  exact ⟨hb.1.1, hb.1.2, budgeted_fits _ s hbudget hb⟩

theorem idle_plus_bursts_eq_clock_witness :
    (([sampleLong, sampleShort].map budget).sum ≤ 2147483647) ∧
    sampleEnd.cpuIdleTime + sampleEnd.cpuBursts.sum = sampleEnd.cpuTime ∧
    sampleEnd.ioIdleTime + sampleEnd.ioBursts.sum = sampleEnd.ioTime ∧
    Fits sampleEnd.cpuTime ∧ Fits sampleEnd.cpuIdleTime ∧ Fits sampleEnd.cpuBursts.sum ∧
    Fits sampleEnd.ioTime ∧ Fits sampleEnd.ioIdleTime ∧ Fits sampleEnd.ioBursts.sum ∧
    (∀ p rest, sampleEnd.cpuQueue = p :: rest →
      (cpuServeInt sampleEnd p rest).cpuTime = (cpuServe sampleEnd p rest).cpuTime ∧
      (cpuServeInt sampleEnd p rest).cpuIdleTime = (cpuServe sampleEnd p rest).cpuIdleTime) ∧
    (∀ p rest, sampleEnd.ioQueue = p :: rest →
      (ioServeInt sampleEnd p rest).ioTime = (ioServe sampleEnd p rest).ioTime ∧
      (ioServeInt sampleEnd p rest).ioIdleTime = (ioServe sampleEnd p rest).ioIdleTime) :=
  ⟨by decide, idle_plus_bursts_eq_clock [sampleLong, sampleShort] sampleSteps sampleEnd
    (by decide) (by decide) (by decide) sample_run⟩

/-- What a step does to the two clocks and to the totals of the other side, in
exact integers. -/
theorem clocks_step (w : Worker) (ok : Bool) (s s1 : Sched) (f : Flow)
    (h : body w ok s = some (f, s1)) :
    s.cpuTime ≤ s1.cpuTime ∧ s.ioTime ≤ s1.ioTime ∧
    (w = Worker.cpuThread → s1.ioTime = s.ioTime ∧ s1.ioIdleTime = s.ioIdleTime ∧
      s1.ioWaitingTime = s.ioWaitingTime) ∧
    (w = Worker.ioThread → s1.cpuTime = s.cpuTime ∧ s1.cpuIdleTime = s.cpuIdleTime ∧
      s1.cpuWaitingTime = s.cpuWaitingTime) := by
  cases w with
  | cpuThread =>
    have key : s.cpuTime ≤ s1.cpuTime ∧ s1.ioTime = s.ioTime ∧
        s1.ioIdleTime = s.ioIdleTime ∧ s1.ioWaitingTime = s.ioWaitingTime := by
      rcases cpu_cases h with ⟨rfl, _⟩ | ⟨rfl, _⟩ | ⟨rfl, _⟩ | ⟨p, rest, hq, h1, h2, hp⟩
      · simp
      · simp
      · simp
      · have e3 := (cpuServe_clock s p rest).2.2
        have hle : s.cpuTime ≤ (cpuServe s p rest).cpuTime := by omega
        rcases hp with ⟨next, _, hr, _, _, rfl⟩ | ⟨_, _, rfl⟩ | ⟨_, _, _, _, _, rfl⟩ |
          ⟨_, _, _, _, rfl⟩ <;> exact ⟨hle, rfl, rfl, rfl⟩
    exact ⟨key.1, le_of_eq key.2.1.symm, fun _ => key.2, fun hw => Worker.noConfusion hw⟩
  | ioThread =>
    have key : s.ioTime ≤ s1.ioTime ∧ s1.cpuTime = s.cpuTime ∧
        s1.cpuIdleTime = s.cpuIdleTime ∧ s1.cpuWaitingTime = s.cpuWaitingTime := by
      rcases io_cases h with ⟨rfl, _⟩ | ⟨rfl, _⟩ | ⟨rfl, _⟩ | ⟨p, rest, next, hq, h1, h2, _, hp⟩
      · simp
      · simp
      · simp
      · have e3 := (ioServe_clock s p rest).2.2
        have hle : s.ioTime ≤ (ioServe s p rest).ioTime := by omega
        rcases hp with ⟨_, _, rfl⟩ | ⟨_, _, rfl⟩ <;> exact ⟨hle, rfl, rfl, rfl⟩
    exact ⟨le_of_eq key.2.1.symm, key.1, fun hw => Worker.noConfusion hw, fun _ => key.2⟩

/-- C8, refuted as stated: in `sampleBrim`, reached from the seeded state of the
input `sampleLast`, `sampleTick` by one step of `cpu()`, `cpuTime` reads
2147483647. The next step of `cpu()` runs the burst of 1: in exact integers the
clock would be 2147483648, which is not a value of type `int`, and the lines of
`cpu()` leave the global `cpuTime` at -2147483648, less than before the step. -/
theorem clock_decreases_past_int :
    run [(Worker.cpuThread, true)] (seed [sampleLast, sampleTick]) = some sampleBrim ∧
    sampleBrim.errState = 0 ∧ sampleBrim.cpuQueue = [sampleTick] ∧
    sampleBrim.cpuTime = 2147483647 ∧
    (cpuServeInt sampleBrim sampleTick []).cpuTime = -2147483648 ∧
    (cpuServeInt sampleBrim sampleTick []).cpuTime < sampleBrim.cpuTime ∧
    cpu true sampleBrim = some (Flow.returned ERROR_CODE.E_SUCCESS, sampleOver) ∧
    sampleOver.cpuTime = 2147483648 ∧ ¬ Fits sampleOver.cpuTime :=
  ⟨sampleBrim_run, by decide, by decide, by decide, by decide, by decide, sampleBrim_step,
    by decide, by decide⟩

/-- C8, amended: let `errState` be 0, 1 or 2, let the burst that the pass of
worker `w` reads for the record at the head of its queue, if it reads one, be in
`times`, and let the values involved for that record and every sum and
difference that the pass makes of them be values of type `int` (`ServeFits`).
Then the pass has a result; after it `cpuTime` and `ioTime` are not less than
before; a pass of `cpu()` leaves `ioTime`, `ioIdleTime` and `ioWaitingTime` as
they were, and a pass of `io()` leaves `cpuTime`, `cpuIdleTime` and
`cpuWaitingTime` as they were; and the clock of a pass that takes a record is
the one the lines give in `int` arithmetic. -/
theorem clocks_monotone_and_owned (w : Worker) (ok : Bool) (s : Sched)
    (he : s.errState = 0 ∨ s.errState = 1 ∨ s.errState = 2)
    (hnext : ∀ p rest, ownQueue w s = p :: rest → w = Worker.ioThread ∨ p.ac < p.totalAc →
      ∃ next, readTimes p.times p.ac = some next)
    (hfit : ∀ p rest, ownQueue w s = p :: rest → ServeFits w s p) :
    ∃ f s1, body w ok s = some (f, s1) ∧
      s.cpuTime ≤ s1.cpuTime ∧ s.ioTime ≤ s1.ioTime ∧
      (w = Worker.cpuThread → s1.ioTime = s.ioTime ∧ s1.ioIdleTime = s.ioIdleTime ∧
        s1.ioWaitingTime = s.ioWaitingTime) ∧
      (w = Worker.ioThread → s1.cpuTime = s.cpuTime ∧ s1.cpuIdleTime = s.cpuIdleTime ∧
        s1.cpuWaitingTime = s.cpuWaitingTime) ∧
      (∀ p rest, s.errState = 0 → ownQueue w s = p :: rest →
        ownTime w s1 = ownTime w (serveInt w s p rest) ∧ Fits (ownTime w s1)) := by
  obtain ⟨f, s1, h⟩ := body_defined w ok s he hnext
  obtain ⟨c1, c2, c3, c4⟩ := clocks_step w ok s s1 f h
  refine ⟨f, s1, h, c1, c2, c3, c4, ?_⟩
  intro p rest h0 hq
  have e := (served_clock w ok s s1 f p rest h0 hq h).2.2
  refine ⟨by rw [e, (serveInt_own w s p rest (hfit p rest hq)).2.2], ?_⟩
  rw [e]
  exact (hfit p rest hq).2.2.2.2.2.2.2.2.2

theorem clocks_monotone_and_owned_witness :
    (∀ p rest, ownQueue Worker.cpuThread sampleBack = p :: rest →
      ServeFits Worker.cpuThread sampleBack p) ∧
    ∃ f s1, body Worker.cpuThread true sampleBack = some (f, s1) ∧
      sampleBack.cpuTime ≤ s1.cpuTime ∧ sampleBack.ioTime ≤ s1.ioTime ∧
      (Worker.cpuThread = Worker.cpuThread → s1.ioTime = sampleBack.ioTime ∧
        s1.ioIdleTime = sampleBack.ioIdleTime ∧ s1.ioWaitingTime = sampleBack.ioWaitingTime) ∧
      (Worker.cpuThread = Worker.ioThread → s1.cpuTime = sampleBack.cpuTime ∧
        s1.cpuIdleTime = sampleBack.cpuIdleTime ∧
        s1.cpuWaitingTime = sampleBack.cpuWaitingTime) ∧
      (∀ p rest, sampleBack.errState = 0 → ownQueue Worker.cpuThread sampleBack = p :: rest →
        ownTime Worker.cpuThread s1 =
          ownTime Worker.cpuThread (serveInt Worker.cpuThread sampleBack p rest) ∧
        Fits (ownTime Worker.cpuThread s1)) :=
  ⟨by
    intro p rest hq
    simp only [ownQueue, sampleBack, List.cons.injEq] at hq
    obtain ⟨rfl, -⟩ := hq
    decide,
   clocks_monotone_and_owned Worker.cpuThread true sampleBack (by decide)
    (by
      intro p rest hq hw
      simp only [ownQueue, sampleBack, List.cons.injEq] at hq
      obtain ⟨rfl, -⟩ := hq
      rcases hw with h | h
      · cases h
      · exact absurd h (by decide))
    (by
      intro p rest hq
      simp only [ownQueue, sampleBack, List.cons.injEq] at hq
      obtain ⟨rfl, -⟩ := hq
      decide)⟩

theorem threads_of_run : ∀ (steps : List (Worker × Bool)) (t : Threads) (s' : Sched),
    Joined t → run steps t.globals = some s' →
    ∃ t1, threads steps t = some t1 ∧ t1.globals = s' := by
  intro steps
  induction steps with
  | nil =>
    intro t s' _ hr
    simp only [run, Option.some.injEq] at hr
    exact ⟨t, rfl, hr⟩
  | cons x later ih =>
    intro t s' hj hr
    obtain ⟨w, ok⟩ := x
    simp only [run] at hr
    cases hb : body w ok t.globals with
    | none => rw [hb] at hr; cases hr
    | some r =>
      obtain ⟨f, s1⟩ := r
      rw [hb] at hr
      simp only at hr
      have hstep : ∃ t2, threadStep w ok t = some t2 ∧ t2.globals = s1 := by
        cases w with
        | cpuThread =>
          cases hv : t.returnValCPU with
          | some c =>
            have h12 : t.globals.errState = 1 ∨ t.globals.errState = 2 := by
              rcases hj with ⟨_, h, _⟩ | ⟨h, _⟩ | ⟨h, _⟩ | ⟨h, _⟩
              · rw [hv] at h; cases h
              · exact Or.inl h
              · exact Or.inr h
              · exact Or.inr h
            obtain ⟨code, hs⟩ := body_of_stopped Worker.cpuThread ok t.globals h12
            rw [hs] at hb
            cases hb
            exact ⟨t, by simp [threadStep, hv], rfl⟩
          | none =>
            simp only [body] at hb
            cases f with
            | blocked =>
              exact ⟨{ t with globals := s1 }, by simp [threadStep, hv, hb], rfl⟩
            | looped =>
              exact ⟨{ t with globals := s1 }, by simp [threadStep, hv, hb], rfl⟩
            | returned code =>
              exact ⟨{ t with globals := s1, returnValCPU := some code },
                by simp [threadStep, hv, hb], rfl⟩
        | ioThread =>
          cases hv : t.returnValIo with
          | some c =>
            have h12 : t.globals.errState = 1 ∨ t.globals.errState = 2 := by
              rcases hj with ⟨_, _, h⟩ | ⟨h, _⟩ | ⟨h, _⟩ | ⟨h, _⟩
              · rw [hv] at h; cases h
              · exact Or.inl h
              · exact Or.inr h
              · exact Or.inr h
            obtain ⟨code, hs⟩ := body_of_stopped Worker.ioThread ok t.globals h12
            rw [hs] at hb
            cases hb
            exact ⟨t, by simp [threadStep, hv], rfl⟩
          | none =>
            simp only [body] at hb
            cases f with
            | blocked =>
              exact ⟨{ t with globals := s1 }, by simp [threadStep, hv, hb], rfl⟩
            | looped =>
              exact ⟨{ t with globals := s1 }, by simp [threadStep, hv, hb], rfl⟩
            | returned code =>
              exact ⟨{ t with globals := s1, returnValIo := some code },
                by simp [threadStep, hv, hb], rfl⟩
      obtain ⟨t2, hs2, hg2⟩ := hstep
      obtain ⟨hj2, -⟩ := threadStep_body w ok t t2 hj hs2
      obtain ⟨t1, ht1, hg1⟩ := ih t2 s' hj2 (by rw [hg2]; exact hr)
      exact ⟨t1, by simp [threads, hs2, ht1], hg1⟩

/-- A run that has ended with `errState` at 1 gives, with one more pass of
`io()`, a successful result of `scheduler()`. -/
theorem scheduler_of_run (processes : List Pa) (steps : List (Worker × Bool)) (s : Sched)
    (hrun : run steps (seed processes) = some s) (he : s.errState = 1) :
    scheduler processes (steps ++ [(Worker.ioThread, true)]) true =
      some (ERROR_CODE.E_SUCCESS, some (statistics s processes.length)) := by
  obtain ⟨t1, ht1, hg⟩ := threads_of_run steps (spawn processes) s (joined_spawn processes) hrun
  obtain ⟨hj, -⟩ := threads_run steps (spawn processes) t1 (joined_spawn processes) ht1
  have he1 : t1.globals.errState = 1 := by rw [hg]; exact he
  have hv : t1.returnValCPU = some ERROR_CODE.E_SUCCESS ∧
      (t1.returnValIo = none ∨ t1.returnValIo = some ERROR_CODE.E_SUCCESS) := by
    rcases hj with ⟨h, _⟩ | ⟨_, h1, h2⟩ | ⟨h, _⟩ | ⟨h, _⟩
    · omega
    · exact ⟨h1, h2⟩
    · omega
    · omega
  have hio : io true t1.globals = some (Flow.returned ERROR_CODE.E_SUCCESS, t1.globals) := by
    simp [io, he1]
  have hlast : ∃ t2, threads [(Worker.ioThread, true)] t1 = some t2 ∧ t2.globals = s ∧
      t2.returnValCPU = some ERROR_CODE.E_SUCCESS ∧
      t2.returnValIo = some ERROR_CODE.E_SUCCESS := by
    rcases hv.2 with h | h
    · exact ⟨{ t1 with returnValIo := some ERROR_CODE.E_SUCCESS },
        by simp [threads, threadStep, h, hio], hg, hv.1, rfl⟩
    · exact ⟨t1, by simp [threads, threadStep, h], hg, hv.1, h⟩
  obtain ⟨t2, ht2, hg2, hc2, hi2⟩ := hlast
  have hall : threads (steps ++ [(Worker.ioThread, true)]) (spawn processes) = some t2 := by
    rw [threads_append, ht1]
    exact ht2
  rw [scheduler_of_threads processes _ true t2 _ _ hall hc2 hi2, hg2]
  simp [collect]

theorem single_run : ∀ (queue : List Pa) (s : Sched), s.errState = 0 → s.cpuQueue = queue →
    queue ≠ [] → s.ioQueue = [] → (∀ p ∈ queue, ¬ p.ac < p.totalAc) →
    ∃ t, run (List.replicate queue.length (Worker.cpuThread, true)) s = some t ∧
      t.errState = 1 := by
  intro queue
  induction queue with
  | nil => intro s _ _ hne; exact absurd rfl hne
  | cons p rest ih =>
    intro s h0 hq _ hi hlast
    have hp := hlast p (List.mem_cons_self _ _)
    cases rest with
    | nil =>
      have hc : cpu true s = some (Flow.returned ERROR_CODE.E_SUCCESS,
          { cpuServe s p [] with
            logB := s.logB ++ [Entry.terminated p.pid p.ac p.arriveTime p.remainingTime],
            errState := 1 }) := by
        simp [cpu, hq, isEmpty, dequeue, h0, hp, cpuServe, hi]
      exact ⟨{ cpuServe s p [] with
        logB := s.logB ++ [Entry.terminated p.pid p.ac p.arriveTime p.remainingTime],
        errState := 1 }, by simp [run, body, hc], rfl⟩
    | cons q rest2 =>
      have hc := cpu_eval_retire s p (q :: rest2) hq h0 hp (by simp)
      obtain ⟨t, hr, he⟩ := ih
        { cpuServe s p (q :: rest2) with
          logB := s.logB ++ [Entry.terminated p.pid p.ac p.arriveTime p.remainingTime] }
        (by simpa [cpuServe] using h0) (by simp [cpuServe]) (by simp)
        (by simpa [cpuServe] using hi)
        (fun x hx => hlast x (List.mem_cons_of_mem _ hx))
      refine ⟨t, ?_, he⟩
      simp only [List.length_cons, List.replicate_succ, run, body, hc]
      simpa [List.replicate_succ] using hr

theorem finishTime_le (processes : List Pa) (k : Nat)
    (h : ∀ p ∈ processes, 0 ≤ p.remainingTime) :
    finishTime processes k ≤ finishTime processes processes.length := by
  rw [finishTime_length]
  have h1 := List.sum_take_add_sum_drop (processes.map Pa.remainingTime) k
  have h2 : 0 ≤ ((processes.map Pa.remainingTime).drop k).sum := by
    apply List.sum_nonneg
    intro x hx
    obtain ⟨p, hp, rfl⟩ := List.mem_map.1 (List.mem_of_mem_drop hx)
    exact h p hp
  unfold finishTime
  rw [List.map_take]
  omega

theorem waitingTotal_le (processes : List Pa) (h : ∀ p ∈ processes, 0 ≤ p.remainingTime) :
    ∀ (n k : Nat), k ≤ n → waitingTotal processes k ≤ waitingTotal processes n := by
  intro n
  induction n with
  | zero =>
    intro k hk
    have : k = 0 := by omega
    rw [this]
  | succ m ih =>
    intro k hk
    by_cases hkm : k ≤ m
    · have := ih k hkm
      have h2 := finishTime_nonneg processes m h
      rw [waitingTotal_succ]
      omega
    · have : k = m + 1 := by omega
      rw [this]

theorem waitingTotal_nonneg (processes : List Pa) (h : ∀ p ∈ processes, 0 ≤ p.remainingTime)
    (k : Nat) : 0 ≤ waitingTotal processes k := by
  have := waitingTotal_le processes h k 0 (Nat.zero_le _)
  simpa [waitingTotal] using this

/-- On an input of processes of one CPU burst each whose bursts and whose waits
stay within the type `int`, the totals of a state that has retired the first `k`
of them are values of that type, and the lines of `cpu()` in `int` arithmetic
give for the next record what the exact integers give. -/
theorem served_fits (processes : List Pa)
    (hsingle : ∀ p ∈ processes,
      p.ac = 1 ∧ p.totalAc = 1 ∧ p.arriveTime = 0 ∧ 0 ≤ p.remainingTime)
    (hsum : (processes.map Pa.remainingTime).sum ≤ 2147483647)
    (hwait : waitingTotal processes processes.length ≤ 2147483647)
    (s : Sched) (k : Nat) (hk : k ≤ processes.length)
    (hq : s.cpuQueue = processes.drop k) (ht : s.cpuTime = finishTime processes k)
    (hidle : s.cpuIdleTime = 0) (hw : s.cpuWaitingTime = waitingTotal processes k) :
    Fits s.cpuTime ∧ Fits s.cpuWaitingTime ∧
    (∀ p rest, s.cpuQueue = p :: rest → cpuServeInt s p rest = cpuServe s p rest) := by
  have hnn : ∀ p ∈ processes, 0 ≤ p.remainingTime := fun p hp => (hsingle p hp).2.2.2
  have f0 := finishTime_nonneg processes k hnn
  have f1 := finishTime_le processes k hnn
  rw [finishTime_length] at f1
  have w0 := waitingTotal_nonneg processes hnn k
  have w1 := waitingTotal_le processes hnn processes.length k hk
  refine ⟨⟨by omega, by omega⟩, ⟨by omega, by omega⟩, ?_⟩
  intro p rest hq2
  have hdrop : processes.drop k = p :: rest := by rw [← hq, hq2]
  obtain ⟨hklt, -, -⟩ := drop_eq_cons processes k p rest hdrop
  have hmem : p ∈ processes := by
    apply List.mem_of_mem_drop (n := k)
    rw [hdrop]
    exact List.mem_cons_self _ _
  obtain ⟨-, -, parr, pb⟩ := hsingle p hmem
  have g1 := finishTime_succ processes k p rest hdrop
  have g2 := finishTime_le processes (k + 1) hnn
  rw [finishTime_length] at g2
  have g3 := waitingTotal_succ processes k
  have g4 := waitingTotal_le processes hnn processes.length (k + 1) (by omega)
  apply cpuServeInt_eq
  simp only [ServeFits, Fits, ownTime, ownIdleTime, ownWaitingTime, ht, hidle, hw, parr]
  refine ⟨⟨?_, ?_⟩, ⟨?_, ?_⟩, ⟨?_, ?_⟩, ⟨?_, ?_⟩, ⟨?_, ?_⟩, ⟨?_, ?_⟩, ⟨?_, ?_⟩, ⟨?_, ?_⟩,
    ⟨?_, ?_⟩, ⟨?_, ?_⟩⟩ <;> omega

/-- The states of every run on processes of one CPU burst each. -/
theorem served_run (processes : List Pa)
    (hsingle : ∀ p ∈ processes,
      p.ac = 1 ∧ p.totalAc = 1 ∧ p.arriveTime = 0 ∧ 0 ≤ p.remainingTime)
    (steps : List (Worker × Bool)) (s : Sched) (hrun : run steps (seed processes) = some s) :
    s.errState = 2 ∨ Served processes s :=
  run_invariant_unless_failed (Served processes)
    (fun w s f s' hP h => served_step processes hsingle w s s' f hP h)
    steps (seed processes) s (served_seed processes) hrun

/-- C18, refuted as stated: the input `sampleLast`, `sampleTick` has two
processes of one CPU burst each, 2147483647 and 1. The CPU serves the first and
`cpuTime` is 2147483647; when it has served the second, the run is complete and
the claim has `cpuTime` at the sum of the bursts, 2147483648, which is not a
value of type `int`: the global `cpuTime` holds -2147483648. -/
theorem single_bursts_exceed_int :
    (∀ p ∈ [sampleLast, sampleTick],
      p.ac = 1 ∧ p.totalAc = 1 ∧ p.arriveTime = 0 ∧ 0 ≤ p.remainingTime) ∧
    run [(Worker.cpuThread, true)] (seed [sampleLast, sampleTick]) = some sampleBrim ∧
    sampleBrim.errState = 0 ∧ sampleBrim.cpuQueue = [sampleTick] ∧ sampleBrim.ioQueue = [] ∧
    ([sampleLast, sampleTick].map Pa.remainingTime).sum = 2147483648 ∧
    ¬ Fits 2147483648 ∧
    (cpuServeInt sampleBrim sampleTick []).cpuTime = -2147483648 ∧
    (cpuServeInt sampleBrim sampleTick []).cpuTime ≠
      ([sampleLast, sampleTick].map Pa.remainingTime).sum ∧
    run [(Worker.cpuThread, true), (Worker.cpuThread, true)] (seed [sampleLast, sampleTick]) =
      some sampleOver ∧
    sampleOver.errState = 1 :=
  ⟨by decide, sampleBrim_run, by decide, by decide, by decide, by decide, by decide, by decide,
    by decide, sampleOver_run, by decide⟩

/-- C18, amended: for a non-empty input of processes with one CPU burst each
(activity number 1 of 1, arrive time 0, burst not negative) whose bursts add up
to at most 2147483647 and whose waits (for each process the bursts before it)
add up to at most 2147483647, the largest value of type `int`: every state of a
run from the seeded state either has `errState` at 2 or, for some `k`, has
retired the first `k` processes in input order (`log-B` holds their terminated
entries in that order, `cpuQueue` the others), with `cpuTime` the sum of the
first `k` bursts and `cpuWaitingTime` the sum, over the first `k` processes, of
the bursts before each; both are values of type `int`, and the lines of `cpu()`
in `int` arithmetic give for the next record what the exact integers give. With
`errState` at 1 all are retired: `cpuTime` is the sum of all bursts,
`cpuWaitingTime` the sum over all processes of the bursts before each, and the
average CPU wait computed (and reported, when `scheduler()` succeeds) is that
total divided by the number of processes. There is a run on which `scheduler()`
succeeds and reports this average. -/
theorem single_bursts_served_in_order (processes : List Pa)
    (steps : List (Worker × Bool)) (s : Sched) (hne : processes ≠ [])
    (hsingle : ∀ p ∈ processes,
      p.ac = 1 ∧ p.totalAc = 1 ∧ p.arriveTime = 0 ∧ 0 ≤ p.remainingTime)
    (hsum : (processes.map Pa.remainingTime).sum ≤ 2147483647)
    (hwait : waitingTotal processes processes.length ≤ 2147483647)
    (hrun : run steps (seed processes) = some s) :
    (s.errState = 2 ∨ ∃ k, k ≤ processes.length ∧
      s.logB = (processes.take k).map retirement ∧ s.cpuQueue = processes.drop k ∧
      s.cpuTime = finishTime processes k ∧ s.cpuWaitingTime = waitingTotal processes k ∧
      Fits s.cpuTime ∧ Fits s.cpuWaitingTime ∧
      (∀ p rest, s.cpuQueue = p :: rest → cpuServeInt s p rest = cpuServe s p rest)) ∧
    (s.errState = 1 →
      s.cpuTime = (processes.map Pa.remainingTime).sum ∧
      s.cpuWaitingTime = waitingTotal processes processes.length ∧
      s.cpuIdleTime = 0 ∧
      (statistics s processes.length).averageCpuWait =
        DoubleValue.finite
          ((waitingTotal processes processes.length : ℚ) / (processes.length : ℚ))) ∧
    (∀ logBOk report,
      scheduler processes steps logBOk = some (ERROR_CODE.E_SUCCESS, some report) →
      report.averageCpuWait =
        DoubleValue.finite
          ((waitingTotal processes processes.length : ℚ) / (processes.length : ℚ))) ∧
    (∃ all report,
      scheduler processes all true = some (ERROR_CODE.E_SUCCESS, some report) ∧
      report.averageCpuWait =
        DoubleValue.finite
          ((waitingTotal processes processes.length : ℚ) / (processes.length : ℚ))) := by
  have hlen : (processes.length : Int) ≠ 0 := by
    have : processes.length ≠ 0 := fun h => hne (List.length_eq_zero.1 h)
    omega
  have hdone : ∀ (steps : List (Worker × Bool)) (s : Sched),
      run steps (seed processes) = some s → s.errState = 1 →
      s.cpuTime = (processes.map Pa.remainingTime).sum ∧
      s.cpuWaitingTime = waitingTotal processes processes.length ∧
      s.cpuIdleTime = 0 ∧
      (statistics s processes.length).averageCpuWait =
        DoubleValue.finite
          ((waitingTotal processes processes.length : ℚ) / (processes.length : ℚ)) := by
    intro steps s hrun he
    rcases served_run processes hsingle steps s hrun with h2 |
      ⟨k, _, _, _, _, ht, hidle, hwait, hend⟩
    · omega
    · have hk := hend he
      subst hk
      refine ⟨by rw [ht, finishTime_length], hwait, hidle, ?_⟩
      simp [statistics, divide, hlen, hwait]
  refine ⟨?_, hdone steps s hrun, ?_, ?_⟩
  · rcases served_run processes hsingle steps s hrun with h2 |
      ⟨k, hk, hlog, hq, _, ht, hidle, hw, _⟩
    · exact Or.inl h2
    · obtain ⟨f1, f2, f3⟩ :=
        served_fits processes hsingle hsum hwait s k hk hq ht hidle hw
      exact Or.inr ⟨k, hk, hlog, hq, ht, hw, f1, f2, f3⟩
  · intro logBOk report hs
    obtain ⟨s2, hrun2, he, hr⟩ := scheduler_success processes steps logBOk _ hs
    rw [hrun] at hrun2
    cases hrun2
    have hrep : report = statistics s processes.length := by simpa using hr
    rw [hrep]
    exact (hdone steps s hrun he).2.2.2
  · obtain ⟨h1, h2, h3, -⟩ := seed_fields processes
    obtain ⟨t, hr, he⟩ := single_run processes (seed processes) h3 h1 hne h2
      (fun p hp => by
        obtain ⟨a, b, -, -⟩ := hsingle p hp
        omega)
    exact ⟨_, _, scheduler_of_run processes _ t hr he, (hdone _ t hr he).2.2.2⟩

theorem single_bursts_served_in_order_witness :
    (sampleFiveTwo.map Pa.remainingTime).sum ≤ 2147483647 ∧
    waitingTotal sampleFiveTwo sampleFiveTwo.length ≤ 2147483647 ∧
    (sampleFiveTwoEnd.errState = 2 ∨ ∃ k, k ≤ sampleFiveTwo.length ∧
      sampleFiveTwoEnd.logB = (sampleFiveTwo.take k).map retirement ∧
      sampleFiveTwoEnd.cpuQueue = sampleFiveTwo.drop k ∧
      sampleFiveTwoEnd.cpuTime = finishTime sampleFiveTwo k ∧
      sampleFiveTwoEnd.cpuWaitingTime = waitingTotal sampleFiveTwo k ∧
      Fits sampleFiveTwoEnd.cpuTime ∧ Fits sampleFiveTwoEnd.cpuWaitingTime ∧
      (∀ p rest, sampleFiveTwoEnd.cpuQueue = p :: rest →
        cpuServeInt sampleFiveTwoEnd p rest = cpuServe sampleFiveTwoEnd p rest)) ∧
    (sampleFiveTwoEnd.errState = 1 →
      sampleFiveTwoEnd.cpuTime = (sampleFiveTwo.map Pa.remainingTime).sum ∧
      sampleFiveTwoEnd.cpuWaitingTime = waitingTotal sampleFiveTwo sampleFiveTwo.length ∧
      sampleFiveTwoEnd.cpuIdleTime = 0 ∧
      (statistics sampleFiveTwoEnd sampleFiveTwo.length).averageCpuWait =
        DoubleValue.finite
          ((waitingTotal sampleFiveTwo sampleFiveTwo.length : ℚ) /
            (sampleFiveTwo.length : ℚ))) ∧
    (∀ logBOk report,
      scheduler sampleFiveTwo
          [(Worker.cpuThread, true), (Worker.cpuThread, true), (Worker.ioThread, true)] logBOk =
        some (ERROR_CODE.E_SUCCESS, some report) →
      report.averageCpuWait =
        DoubleValue.finite
          ((waitingTotal sampleFiveTwo sampleFiveTwo.length : ℚ) /
            (sampleFiveTwo.length : ℚ))) ∧
    (∃ all report,
      scheduler sampleFiveTwo all true = some (ERROR_CODE.E_SUCCESS, some report) ∧
      report.averageCpuWait =
        DoubleValue.finite
          ((waitingTotal sampleFiveTwo sampleFiveTwo.length : ℚ) /
            (sampleFiveTwo.length : ℚ))) :=
  ⟨by decide, by decide,
    single_bursts_served_in_order sampleFiveTwo
      [(Worker.cpuThread, true), (Worker.cpuThread, true), (Worker.ioThread, true)]
      sampleFiveTwoEnd
      (by decide) (by decide) (by decide) (by decide) (by decide)⟩

end Scheduler

namespace ARchiver

/-! ## The heap, the tree and the codes -/

theorem parentOf_eq (i : Nat) : parentOf i = (i - 1) / 2 := by
  cases i with
  | zero => rfl
  | succ k =>
    have h : ((k + 1 : Nat) : Int) - 1 = ((k : Nat) : Int) := by push_cast; ring
    rw [parentOf, h]
    simp [Int.tdiv]
    rfl

theorem getElem?_swap {α : Type} (h : List α) (i j : Nat) (x y : α) (hi : i < h.length)
    (hj : j < h.length) (k : Nat) :
    ((h.set i y).set j x)[k]? = if k = j then some x else if k = i then some y else h[k]? := by
  by_cases hkj : k = j
  · subst hkj; simp [hj]
  · rw [List.getElem?_set_ne (Ne.symm hkj)]
    by_cases hki : k = i
    · subst hki; simp [hkj, hi]
    · rw [List.getElem?_set_ne (Ne.symm hki)]; simp [hkj, hki]

theorem perm_cons_set {α : Type} (l : List α) (k : Nat) (a b : α) (h : l[k]? = some b) :
    (b :: l.set k a).Perm (a :: l) := by
  induction l generalizing k with
  | nil => simp at h
  | cons c t ih =>
    cases k with
    | zero =>
      simp at h; subst h
      exact List.Perm.swap _ _ _
    | succ k =>
      simp at h
      exact (List.Perm.swap _ _ _).trans (((ih k h).cons c).trans (List.Perm.swap _ _ _))

theorem swap_perm {α : Type} (l : List α) (i j : Nat) (x y : α) (hi : l[i]? = some x)
    (hj : l[j]? = some y) : ((l.set i y).set j x).Perm l := by
  induction l generalizing i j with
  | nil => simp at hi
  | cons c t ih =>
    cases i with
    | zero =>
      cases j with
      | zero => simp at hi hj; subst hi; subst hj; simp
      | succ j =>
        simp at hi hj; subst hi
        simpa using perm_cons_set t j c y hj
    | succ i =>
      cases j with
      | zero =>
        simp at hi hj; subst hj
        simpa using perm_cons_set t i c x hi
      | succ j =>
        simp at hi hj
        simpa using ih i j hi hj
theorem keyAt_node (h : List HuffNode) (i : Nat) (s f : Int) (l r : HuffNode)
    (hi : h[i]? = some (HuffNode.node s f l r)) : keyAt h i = f := by
  simp [keyAt, hi, key, freq]

theorem keyAt_swap (h : List HuffNode) (i j : Nat) (x y : HuffNode) (hi : i < h.length)
    (hj : j < h.length) (k : Nat) :
    keyAt ((h.set i y).set j x) k =
      if k = j then key x else if k = i then key y else keyAt h k := by
  unfold keyAt
  rw [getElem?_swap h i j x y hi hj k]
  split_ifs <;> simp

theorem nodes_lt (h : List HuffNode) (m i : Nat) (hn : Nodes h m) (hi : i < m) :
    i < h.length := by
  obtain ⟨s, f, l, r, e⟩ := hn i hi
  by_contra hlt
  rw [List.getElem?_eq_none (by omega)] at e
  cases e

theorem nodes_swap (h : List HuffNode) (m i j : Nat) (hn : Nodes h m) (hi : i < m)
    (hj : j < m) (x y : HuffNode) (hx : h[i]? = some x) (hy : h[j]? = some y) :
    Nodes ((h.set i y).set j x) m := by
  intro k hk
  rw [getElem?_swap h i j x y (nodes_lt h m i hn hi) (nodes_lt h m j hn hj) k]
  by_cases hkj : k = j
  · subst hkj
    obtain ⟨s, f, l, r, e⟩ := hn i hi
    rw [hx] at e; cases e
    exact ⟨s, f, l, r, by simp⟩
  · by_cases hki : k = i
    · subst hki
      obtain ⟨s, f, l, r, e⟩ := hn j hj
      rw [hy] at e; cases e
      exact ⟨s, f, l, r, by simp [hkj]⟩
    · simpa [hkj, hki] using hn k hk

theorem take_swap_perm (h : List HuffNode) (m i j : Nat) (hi : i < m) (hj : j < m)
    (x y : HuffNode) (hx : h[i]? = some x) (hy : h[j]? = some y) :
    (((h.set i y).set j x).take m).Perm (h.take m) := by
  rw [List.set_take, List.set_take]
  apply swap_perm
  · rw [List.getElem?_take_of_lt hi]; exact hx
  · rw [List.getElem?_take_of_lt hj]; exact hy

theorem trickleUp_spec (m : Nat) : ∀ (fuel : Nat) (h : List HuffNode) (c : Nat),
    c < fuel → c < m → Nodes h m →
    (∀ i, 1 ≤ i → i < m → i ≠ c → keyAt h ((i - 1) / 2) ≤ keyAt h i) →
    (∀ j, 1 ≤ j → j < m → (j - 1) / 2 = c → 1 ≤ c → keyAt h ((c - 1) / 2) ≤ keyAt h j) →
    ∃ h1, trickleUp fuel h c = some h1 ∧ MinHeap h1 m ∧ (h1.take m).Perm (h.take m) ∧
      h1.length = h.length := by
  intro fuel
  induction fuel with
  | zero => intro h c hc; omega
  | succ fuel ih =>
    intro h c hfuel hcm hn hheap hgrand
    obtain ⟨sc, fc, lc, rc, hcn⟩ := hn c hcm
    have hpm : (c - 1) / 2 < m := by omega
    obtain ⟨sp, fp, lp, rp, hpn⟩ := hn ((c - 1) / 2) hpm
    have hkc := keyAt_node h c sc fc lc rc hcn
    have hkp := keyAt_node h _ sp fp lp rp hpn
    have hclen := nodes_lt h m c hn hcm
    have hplen := nodes_lt h m _ hn hpm
    by_cases hgt : fp > fc
    · have hc1 : 1 ≤ c := by
        by_contra h0
        have h00 : c = 0 := by omega
        subst h00
        simp at hpn
        rw [hcn] at hpn
        cases hpn
        omega
      have step : trickleUp (fuel + 1) h c =
          trickleUp fuel ((h.set ((c - 1) / 2) (HuffNode.node sc fc lc rc)).set c
            (HuffNode.node sp fp lp rp)) ((c - 1) / 2) := by
        simp [trickleUp, parentOf_eq, hcn, hpn, freq, hgt]
      have hk := keyAt_swap h ((c - 1) / 2) c (HuffNode.node sp fp lp rp)
        (HuffNode.node sc fc lc rc) hplen hclen
      simp only [key, freq, Option.getD_some] at hk
      rw [step]
      have hheap2 : ∀ i, 1 ≤ i → i < m → i ≠ (c - 1) / 2 →
          keyAt ((h.set ((c - 1) / 2) (HuffNode.node sc fc lc rc)).set c
            (HuffNode.node sp fp lp rp)) ((i - 1) / 2) ≤
          keyAt ((h.set ((c - 1) / 2) (HuffNode.node sc fc lc rc)).set c
            (HuffNode.node sp fp lp rp)) i := by
        intro i h1 him hip
        rw [hk, hk]
        by_cases hic : i = c
        · subst hic
          have : (i - 1) / 2 ≠ i := by omega
          simp [this]
          omega
        · have hpi : (i - 1) / 2 ≠ i := by omega
          have hh := hheap i h1 him hic
          simp only [hic, hip, if_false]
          by_cases hq : (i - 1) / 2 = c
          · have hg := hgrand i h1 him hq hc1
            simp [hq]; omega
          · by_cases hq2 : (i - 1) / 2 = (c - 1) / 2
            · simp [hq, hq2]; rw [hq2] at hh; omega
            · simp [hq, hq2]; exact hh
      have hgrand2 : ∀ j, 1 ≤ j → j < m → (j - 1) / 2 = (c - 1) / 2 → 1 ≤ (c - 1) / 2 →
          keyAt ((h.set ((c - 1) / 2) (HuffNode.node sc fc lc rc)).set c
            (HuffNode.node sp fp lp rp)) (((c - 1) / 2 - 1) / 2) ≤
          keyAt ((h.set ((c - 1) / 2) (HuffNode.node sc fc lc rc)).set c
            (HuffNode.node sp fp lp rp)) j := by
        intro j h1 hjm hjp hp1
        rw [hk, hk]
        have hne1 : (((c - 1) / 2 - 1) / 2) ≠ c := by omega
        have hne2 : (((c - 1) / 2 - 1) / 2) ≠ (c - 1) / 2 := by omega
        have hhp := hheap ((c - 1) / 2) hp1 hpm (by omega)
        simp only [hne1, hne2, if_false]
        by_cases hjc : j = c
        · simp [hjc]; omega
        · have hjp2 : j ≠ (c - 1) / 2 := by omega
          have hh := hheap j h1 hjm hjc
          rw [hjp] at hh
          simp [hjc, hjp2]; omega
      obtain ⟨h1, e, mh, perm, len⟩ := ih _ ((c - 1) / 2) (by omega) hpm
        (nodes_swap h m _ c hn hpm hcm _ _ hpn hcn) hheap2 hgrand2
      refine ⟨h1, e, mh, perm.trans (take_swap_perm h m _ c hpm hcm _ _ hpn hcn), ?_⟩
      simp [len]
    · have step : trickleUp (fuel + 1) h c = some h := by
        simp [trickleUp, parentOf_eq, hcn, hpn, freq, hgt]
      refine ⟨h, step, ⟨hn, ?_⟩, List.Perm.refl _, rfl⟩
      intro i h1 him
      by_cases hic : i = c
      · subst hic; omega
      · exact hheap i h1 him hic
theorem keyAt_set_ne (h : List HuffNode) (i k : Nat) (x : HuffNode) (hk : k ≠ i) :
    keyAt (h.set i x) k = keyAt h k := by
  unfold keyAt
  rw [List.getElem?_set_ne (Ne.symm hk)]

theorem insert_spec (heap : List HuffNode) (size : Nat) (s f : Int) (l r : HuffNode)
    (hm : MinHeap heap size) (hcap : size < heap.length) :
    ∃ h1, insert heap size (HuffNode.node s f l r) = some (h1, (size : Int) + 1) ∧
      MinHeap h1 (size + 1) ∧
      (h1.take (size + 1)).Perm (HuffNode.node s f l r :: heap.take size) ∧
      h1.length = heap.length := by
  have hn : Nodes (heap.set size (HuffNode.node s f l r)) (size + 1) := by
    intro i hi
    by_cases his : i = size
    · subst his; exact ⟨s, f, l, r, by simp [hcap]⟩
    · rw [List.getElem?_set_ne (Ne.symm his)]; exact hm.1 i (by omega)
  obtain ⟨h1, e, mh, perm, len⟩ := trickleUp_spec (size + 1) (size + 1)
    (heap.set size (HuffNode.node s f l r)) size (by omega) (by omega) hn
    (by
      intro i h1 him hic
      rw [keyAt_set_ne _ _ _ _ hic, keyAt_set_ne _ _ _ _ (by omega)]
      exact hm.2 i h1 (by omega))
    (by intro j h1 hjm hjp; omega)
  refine ⟨h1, ?_, mh, perm.trans ?_, by simpa using len⟩
  · have hc : (0 : Int) ≤ size ∧ (size : Int) < heap.length := by constructor <;> omega
    simp only [insert, hc, and_self, if_true, Int.toNat_ofNat, e, Option.map_some']
  · rw [List.take_succ, List.set_take, List.set_eq_of_length_le (by simp)]
    simp [hcap]
theorem trickleDown_step (n c j : Nat) (h : List HuffNode) (cn jn : HuffNode) (fc fj : Int)
    (hn : Nodes h (n + 1)) (hcn : h[c]? = some cn) (hjn : h[j]? = some jn)
    (hkc : keyAt h c = fc) (hkj : keyAt h j = fj) (hkcn : key cn = fc) (hkjn : key jn = fj)
    (hjc : j = c * 2 + 1 ∨ j = c * 2 + 2) (hjn1 : j < n) (hlt : fj < fc)
    (hsib : ∀ i, i < n → (i - 1) / 2 = c → 1 ≤ i → fj ≤ keyAt h i)
    (hstale : keyAt h n = keyAt h c)
    (hheap : ∀ i, 1 ≤ i → i < n → (i - 1) / 2 ≠ c → keyAt h ((i - 1) / 2) ≤ keyAt h i)
    (hgrand : ∀ i, 1 ≤ i → i < n → (i - 1) / 2 = c → 1 ≤ c →
      keyAt h ((c - 1) / 2) ≤ keyAt h i) :
    Nodes ((h.set c jn).set j cn) (n + 1) ∧
    keyAt ((h.set c jn).set j cn) n = keyAt ((h.set c jn).set j cn) j ∧
    (∀ i, 1 ≤ i → i < n → (i - 1) / 2 ≠ j →
      keyAt ((h.set c jn).set j cn) ((i - 1) / 2) ≤ keyAt ((h.set c jn).set j cn) i) ∧
    (∀ i, 1 ≤ i → i < n → (i - 1) / 2 = j → 1 ≤ j →
      keyAt ((h.set c jn).set j cn) ((j - 1) / 2) ≤ keyAt ((h.set c jn).set j cn) i) ∧
    (((h.set c jn).set j cn).take n).Perm (h.take n) := by
  have hcn1 : c < n := by omega
  have hclen := nodes_lt h (n + 1) c hn (by omega)
  have hjlen := nodes_lt h (n + 1) j hn (by omega)
  have hk := keyAt_swap h c j cn jn hclen hjlen
  rw [hkcn, hkjn] at hk
  have hpj : (j - 1) / 2 = c := by omega
  refine ⟨nodes_swap h (n + 1) c j hn (by omega) (by omega) cn jn hcn hjn, ?_, ?_, ?_,
    take_swap_perm h n c j hcn1 hjn1 cn jn hcn hjn⟩
  · rw [hk, hk]
    have h1 : n ≠ j := by omega
    have h2 : n ≠ c := by omega
    simp [h1, h2, hstale, hkc]
  · intro i h1 hin hpi
    rw [hk, hk]
    by_cases hij : i = j
    · subst hij
      have : (i - 1) / 2 ≠ i := by omega
      simp [hpj, this]
      omega
    · by_cases hic : i = c
      · subst hic
        have h3 : (i - 1) / 2 ≠ i := by omega
        have hg := hgrand j (by omega) hjn1 hpj h1
        simp [hpi, h3, hij]
        omega
      · by_cases hq : (i - 1) / 2 = c
        · have hs := hsib i hin hq h1
          have : c ≠ j := by omega
          simp [hq, this, hij, hic]
          exact hs
        · have hh := hheap i h1 hin hq
          simp [hq, hpi, hij, hic]
          exact hh
  · intro i h1 hin hpi hj1
    rw [hk, hk]
    have h3 : i ≠ j := by omega
    have h4 : i ≠ c := by omega
    have h5 : c ≠ j := by omega
    have hh := hheap i h1 hin (by omega)
    rw [hpi] at hh
    simp [hpj, h3, h4, h5]
    omega
theorem trickleDown_spec (n : Nat) : ∀ (fuel : Nat) (h : List HuffNode) (c : Nat),
    n < fuel + c → c ≤ n → Nodes h (n + 1) → keyAt h n = keyAt h c →
    (∀ i, 1 ≤ i → i < n → (i - 1) / 2 ≠ c → keyAt h ((i - 1) / 2) ≤ keyAt h i) →
    (∀ i, 1 ≤ i → i < n → (i - 1) / 2 = c → 1 ≤ c → keyAt h ((c - 1) / 2) ≤ keyAt h i) →
    ∃ h1, trickleDown fuel h n c = some h1 ∧ MinHeap h1 n ∧ (h1.take n).Perm (h.take n) ∧
      h1.length = h.length := by
  intro fuel
  induction fuel with
  | zero => intro h c hf hc; omega
  | succ fuel ih =>
    intro h c hfuel hcn hn hstale hheap hgrand
    have hnodes : Nodes h n := fun i hi => hn i (by omega)
    by_cases hg : c < n / 2
    · obtain ⟨sc, fc, lc, rc, hc⟩ := hn c (by omega)
      obtain ⟨sl, fl, ll, rl, hl⟩ := hn (c * 2 + 1) (by omega)
      obtain ⟨sr, fr, lr, rr, hr⟩ := hn (c * 2 + 2) (by omega)
      have hkc := keyAt_node h c sc fc lc rc hc
      have hkl := keyAt_node h _ sl fl ll rl hl
      have hkr := keyAt_node h _ sr fr lr rr hr
      by_cases cond : fc > fl ∨ fc > fr
      · by_cases hlr : fl < fr
        · have step : trickleDown (fuel + 1) h n c =
              trickleDown fuel ((h.set c (HuffNode.node sl fl ll rl)).set (c * 2 + 1)
                (HuffNode.node sc fc lc rc)) n (c * 2 + 1) := by
            simp [trickleDown, hg, hc, hl, hr, freq, cond, hlr]
          obtain ⟨a1, a2, a3, a4, a5⟩ := trickleDown_step n c (c * 2 + 1) h
            (HuffNode.node sc fc lc rc) (HuffNode.node sl fl ll rl) fc fl hn hc hl hkc hkl
            (by simp [key, freq]) (by simp [key, freq]) (Or.inl rfl) (by omega) (by omega)
            (by
              intro i hi hp h1
              have : i = c * 2 + 1 ∨ i = c * 2 + 2 := by omega
              rcases this with rfl | rfl
              · omega
              · omega)
            hstale hheap hgrand
          rw [step]
          obtain ⟨h1, e, mh, perm, len⟩ := ih _ (c * 2 + 1) (by omega) (by omega) a1 a2 a3 a4
          exact ⟨h1, e, mh, perm.trans a5, by simp [len]⟩
        · have hrn : c * 2 + 2 < n := by
            by_contra hge
            have : c * 2 + 2 = n := by omega
            rw [this] at hkr
            omega
          have step : trickleDown (fuel + 1) h n c =
              trickleDown fuel ((h.set c (HuffNode.node sr fr lr rr)).set (c * 2 + 2)
                (HuffNode.node sc fc lc rc)) n (c * 2 + 2) := by
            simp [trickleDown, hg, hc, hl, hr, freq, cond, hlr]
          obtain ⟨a1, a2, a3, a4, a5⟩ := trickleDown_step n c (c * 2 + 2) h
            (HuffNode.node sc fc lc rc) (HuffNode.node sr fr lr rr) fc fr hn hc hr hkc hkr
            (by simp [key, freq]) (by simp [key, freq]) (Or.inr rfl) hrn (by omega)
            (by
              intro i hi hp h1
              have : i = c * 2 + 1 ∨ i = c * 2 + 2 := by omega
              rcases this with rfl | rfl
              · omega
              · omega)
            hstale hheap hgrand
          rw [step]
          obtain ⟨h1, e, mh, perm, len⟩ := ih _ (c * 2 + 2) (by omega) (by omega) a1 a2 a3 a4
          exact ⟨h1, e, mh, perm.trans a5, by simp [len]⟩
      · have step : trickleDown (fuel + 1) h n c = some h := by
          simp [trickleDown, hg, hc, hl, hr, freq, cond]
        refine ⟨h, step, ⟨hnodes, ?_⟩, List.Perm.refl _, rfl⟩
        intro i h1 hin
        by_cases hp : (i - 1) / 2 = c
        · have : i = c * 2 + 1 ∨ i = c * 2 + 2 := by omega
          rw [hp]
          rcases this with rfl | rfl
          · omega
          · omega
        · exact hheap i h1 hin hp
    · have step : trickleDown (fuel + 1) h n c = some h := by
        simp [trickleDown, hg]
      refine ⟨h, step, ⟨hnodes, ?_⟩, List.Perm.refl _, rfl⟩
      intro i h1 hin
      exact hheap i h1 hin (by omega)
theorem minHeap_root_le (heap : List HuffNode) (size : Nat) (hm : MinHeap heap size) :
    ∀ i, i < size → keyAt heap 0 ≤ keyAt heap i := by
  intro i
  induction i using Nat.strong_induction_on with
  | _ i ih =>
    intro hi
    by_cases h0 : i = 0
    · subst h0; exact le_refl _
    · have h1 := hm.2 i (by omega) hi
      have h2 := ih ((i - 1) / 2) (by omega) (by omega)
      omega

theorem removeNode_spec (heap : List HuffNode) (size : Nat) (hs : 1 ≤ size)
    (hm : MinHeap heap size) :
    ∃ node h1, removeNode heap size = some (node, h1, (size : Int) - 1) ∧
      heap[0]? = some node ∧ (∀ i, i < size → key node ≤ keyAt heap i) ∧
      MinHeap h1 (size - 1) ∧ (node :: h1.take (size - 1)).Perm (heap.take size) ∧
      h1.length = heap.length := by
  obtain ⟨n, rfl⟩ : ∃ n, size = n + 1 := ⟨size - 1, by omega⟩
  obtain ⟨s0, f0, l0, r0, h0⟩ := hm.1 0 (by omega)
  obtain ⟨sn, fn, ln, rn, hn⟩ := hm.1 n (by omega)
  have hlen0 := nodes_lt heap (n + 1) 0 hm.1 (by omega)
  have hnodes : Nodes (heap.set 0 (HuffNode.node sn fn ln rn)) (n + 1) := by
    intro i hi
    by_cases hi0 : i = 0
    · subst hi0; exact ⟨sn, fn, ln, rn, by simp [hlen0]⟩
    · rw [List.getElem?_set_ne (Ne.symm hi0)]; exact hm.1 i hi
  have hstale : keyAt (heap.set 0 (HuffNode.node sn fn ln rn)) n =
      keyAt (heap.set 0 (HuffNode.node sn fn ln rn)) 0 := by
    by_cases hn0 : n = 0
    · subst hn0; rfl
    · rw [keyAt_set_ne _ _ _ _ hn0, keyAt_node heap n sn fn ln rn hn]
      simp [keyAt, hlen0, key, freq]
  obtain ⟨h1, e, mh, perm, len⟩ := trickleDown_spec n (n + 1)
    (heap.set 0 (HuffNode.node sn fn ln rn)) 0 (by omega) (by omega) hnodes hstale
    (by
      intro i h1 hin hp
      rw [keyAt_set_ne _ _ _ _ hp, keyAt_set_ne _ _ _ _ (by omega)]
      exact hm.2 i h1 (by omega))
    (by intro i h1 hin hp hc; omega)
  refine ⟨HuffNode.node s0 f0 l0 r0, h1, ?_, h0, ?_, by simpa using mh, ?_, by simpa using len⟩
  · have hc : (1 : Int) ≤ ((n + 1 : Nat) : Int) := by omega
    have ht : (((n + 1 : Nat) : Int) - 1).toNat = n := by omega
    have ht2 : (((n + 1 : Nat) : Int)).toNat = n + 1 := by omega
    simp only [removeNode, hc, if_true, ht, ht2, h0, hn, e, Option.map_some']
  · intro i hi
    have := minHeap_root_le heap (n + 1) hm i hi
    rw [keyAt_node heap 0 s0 f0 l0 r0 h0] at this
    simpa [key, freq] using this
  · have hp2 : ((HuffNode.node s0 f0 l0 r0) :: (h1.take n)).Perm
        ((HuffNode.node s0 f0 l0 r0) :: ((heap.set 0 (HuffNode.node sn fn ln rn)).take n)) :=
      perm.cons _
    simp only [Nat.add_sub_cancel]
    refine hp2.trans ?_
    rw [List.take_succ, hn]
    cases heap with
    | nil => simp at h0
    | cons a t =>
      simp at h0
      subst h0
      cases n with
      | zero => simpa using hn
      | succ k =>
        simp
        exact (List.perm_append_singleton _ _).symm
theorem mem_take_getElem? {α : Type} (l : List α) (k : Nat) (x : α) (hx : x ∈ l.take k) :
    ∃ i, i < k ∧ l[i]? = some x := by
  obtain ⟨i, hi⟩ := List.mem_iff_getElem?.1 hx
  rw [List.getElem?_take] at hi
  by_cases hik : i < k
  · exact ⟨i, hik, by simpa [hik] using hi⟩
  · simp [hik] at hi

theorem key_le_of_mem_take (heap : List HuffNode) (k : Nat) (b : Int)
    (h : ∀ i, i < k → b ≤ keyAt heap i) : ∀ x ∈ heap.take k, b ≤ key x := by
  intro x hx
  obtain ⟨i, hik, hi⟩ := mem_take_getElem? heap k x hx
  have := h i hik
  simpa [keyAt, hi] using this

theorem forest_append (a b : List HuffNode) : forest (a ++ b) = forest a ++ forest b := by
  induction a with
  | nil => rfl
  | cons x t ih => simp [forest, ih]

theorem takeWhile_before {α : Type} (f : α → Bool) (p : List α) (x : α) (rest : List α)
    (hp : ∀ c ∈ p, f c = true) (hx : f x = false) : (p ++ x :: rest).takeWhile f = p := by
  induction p with
  | nil => simp [List.takeWhile, hx]
  | cons a t ih =>
    have h1 := ih (fun c hc => hp c (List.mem_cons_of_mem _ hc))
    simp [List.takeWhile_cons, hp a (List.mem_cons_self _ _), h1]

theorem cString_set (code : List Char) (level : Nat) (pre : List Char)
    (htake : code.take level = pre) (hlen : level < code.length)
    (hpre : ∀ c ∈ pre, c ≠ Char.ofNat 0) : cString (code.set level (Char.ofNat 0)) = pre := by
  rw [cString, List.set_eq_take_append_cons_drop, if_pos hlen, htake]
  apply takeWhile_before
  · intro c hc
    simpa using hpre c hc
  · simp

theorem store_append (table : List (Option (List Char))) (a b : List (Int × List Char)) :
    store table (a ++ b) = store (store table a) b := by
  induction a generalizing table with
  | nil => rfl
  | cons e t ih => simp [store, ih]

theorem store_length (table : List (Option (List Char))) (a : List (Int × List Char)) :
    (store table a).length = table.length := by
  induction a generalizing table with
  | nil => rfl
  | cons e t ih => simp [store, ih]

theorem take_set_succ (code : List Char) (level : Nat) (pre : List Char) (c : Char)
    (htake : code.take level = pre) (hlen : level < code.length) :
    (code.set level c).take (level + 1) = pre ++ [c] := by
  rw [List.take_succ, List.set_take, List.set_eq_of_length_le (by simp), htake]
  simp [hlen]

theorem take_of_take_succ (code : List Char) (level : Nat) (pre : List Char) (c : Char)
    (h : code.take (level + 1) = pre ++ [c]) (hlen : level < code.length) :
    code.take level = pre := by
  have h1 : (code.take (level + 1)).take level = code.take level := by
    rw [List.take_take]; simp
  rw [← h1, h]
  have hl : (pre ++ [c]).length = level + 1 := by
    rw [← h]; simp; omega
  have hl2 : pre.length = level := by simpa using hl
  rw [← hl2]
  simp

theorem buildCodeTable_spec : ∀ (t : HuffNode) (table : List (Option (List Char)))
    (code : List Char) (level : Nat) (pre : List Char),
    Full t → code.take level = pre → (∀ c ∈ pre, c ≠ Char.ofNat 0) →
    level + height t < code.length → (∀ e ∈ codes t, 0 ≤ e.1 ∧ e.1 < table.length) →
    ∃ code1, buildCodeTable t table code level =
        some (store table ((codes t).map (fun e => (e.1, pre ++ e.2))), code1) ∧
      code1.take level = pre ∧ code1.length = code.length := by
  intro t
  induction t with
  | null => intro table code level pre hf; simp [Full] at hf
  | node s f l r ihl ihr =>
    intro table code level pre hf htake hpre hh hv
    by_cases hleaf : l = HuffNode.null ∧ r = HuffNode.null
    · have hlen : level < code.length := by omega
      have hs := hv (s, []) (by simp [codes, hleaf])
      refine ⟨code.set level (Char.ofNat 0), ?_, ?_, by simp⟩
      · simp only [buildCodeTable, hleaf, and_self, if_true, hlen, hs, true_and, codes,
          List.map_cons, List.map_nil, store, List.append_nil]
        rw [cString_set code level pre htake hlen hpre]
      · rw [List.set_take, List.set_eq_of_length_le (by simp)]
        exact htake
    · simp only [Full, hleaf, false_or] at hf
      simp only [height, hleaf, if_false] at hh
      simp only [codes, hleaf, if_false] at hv
      have hlen : level < code.length := by omega
      have hpre0 : ∀ c ∈ pre ++ ['0'], c ≠ Char.ofNat 0 := by
        intro c hc
        rcases List.mem_append.1 hc with h | h
        · exact hpre c h
        · simp at h; subst h; decide
      have hpre1 : ∀ c ∈ pre ++ ['1'], c ≠ Char.ofNat 0 := by
        intro c hc
        rcases List.mem_append.1 hc with h | h
        · exact hpre c h
        · simp at h; subst h; decide
      obtain ⟨code1, e1, t1, len1⟩ := ihl table (code.set level '0') (level + 1) (pre ++ ['0'])
        hf.1 (take_set_succ code level pre '0' htake hlen) hpre0 (by simp; omega)
        (by
          intro e he
          exact hv (e.1, '0' :: e.2) (List.mem_append_left _ (List.mem_map.2 ⟨e, he, rfl⟩)))
      have len1b : code1.length = code.length := by simpa using len1
      have htake1 : code1.take level = pre :=
        take_of_take_succ code1 level pre '0' t1 (by omega)
      obtain ⟨code2, e2, t2, len2⟩ := ihr
        (store table ((codes l).map (fun e => (e.1, (pre ++ ['0']) ++ e.2))))
        (code1.set level '1') (level + 1) (pre ++ ['1'])
        hf.2 (take_set_succ code1 level pre '1' htake1 (by omega)) hpre1 (by simp; omega)
        (by
          intro e he
          rw [store_length]
          exact hv (e.1, '1' :: e.2) (List.mem_append_right _ (List.mem_map.2 ⟨e, he, rfl⟩)))
      have len2b : code2.length = code.length := by simpa [len1b] using len2
      refine ⟨code2, ?_, take_of_take_succ code2 level pre '1' t2 (by omega), len2b⟩
      simp only [buildCodeTable, hleaf, if_false, hlen, if_true, e1, e2, codes, List.map_append,
        store_append, List.map_map]
      simp
      rfl
theorem codes_fst (t : HuffNode) : (codes t).map Prod.fst = symbols t := by
  induction t with
  | null => rfl
  | node s f l r ihl ihr =>
    by_cases hleaf : l = HuffNode.null ∧ r = HuffNode.null
    · simp [codes, symbols, hleaf]
    · simp only [codes, symbols, hleaf, if_false, List.map_append, List.map_map, ← ihl, ← ihr]
      rfl

theorem symbols_length (t : HuffNode) : (symbols t).length = (leaves t).length := by
  induction t with
  | null => rfl
  | node s f l r ihl ihr =>
    by_cases hleaf : l = HuffNode.null ∧ r = HuffNode.null
    · simp [leaves, symbols, hleaf]
    · simp [leaves, symbols, hleaf, ihl, ihr]

theorem leaves_pos (t : HuffNode) (hf : Full t) : 1 ≤ (leaves t).length := by
  induction t with
  | null => simp [Full] at hf
  | node s f l r ihl ihr =>
    by_cases hleaf : l = HuffNode.null ∧ r = HuffNode.null
    · simp [leaves, hleaf]
    · simp only [Full, hleaf, false_or] at hf
      have := ihl hf.1
      simp [leaves, hleaf]
      omega

theorem height_lt_leaves (t : HuffNode) (hf : Full t) : height t < (leaves t).length := by
  induction t with
  | null => simp [Full] at hf
  | node s f l r ihl ihr =>
    by_cases hleaf : l = HuffNode.null ∧ r = HuffNode.null
    · simp [leaves, height, hleaf]
    · simp only [Full, hleaf, false_or] at hf
      have h1 := ihl hf.1
      have h2 := ihr hf.2
      have h3 := leaves_pos l hf.1
      have h4 := leaves_pos r hf.2
      simp only [leaves, height, hleaf, if_false, List.length_append]
      omega

theorem nodup_length_le (L : List Int) (n : Nat) (hd : L.Nodup)
    (hr : ∀ s ∈ L, 0 ≤ s ∧ s < n) : L.length ≤ n := by
  have hinj : (L.map Int.toNat).Nodup := by
    apply (List.nodup_map_iff_inj_on hd).2
    intro x hx y hy hxy
    have := hr x hx
    have := hr y hy
    omega
  have hsub : (L.map Int.toNat).toFinset ⊆ Finset.range n := by
    intro k hk
    simp only [List.mem_toFinset, List.mem_map] at hk
    obtain ⟨s, hs, rfl⟩ := hk
    have := hr s hs
    simp
    omega
  have hc := Finset.card_le_card hsub
  rw [List.toFinset_card_of_nodup hinj] at hc
  simpa using hc

theorem store_get_of_not_mem (es : List (Int × List Char)) :
    ∀ (table : List (Option (List Char))) (i : Nat), (∀ e ∈ es, e.1.toNat ≠ i) →
      (store table es)[i]? = table[i]? := by
  induction es with
  | nil => intro table i _; rfl
  | cons e rest ih =>
    intro table i h
    rw [store, ih _ i (fun x hx => h x (List.mem_cons_of_mem _ hx))]
    exact List.getElem?_set_ne (h e (List.mem_cons_self _ _))

theorem store_get_of_mem (es : List (Int × List Char)) :
    ∀ (table : List (Option (List Char))), (es.map Prod.fst).Nodup →
      (∀ e ∈ es, 0 ≤ e.1 ∧ e.1 < table.length) →
      ∀ e ∈ es, (store table es)[e.1.toNat]? = some (some e.2) := by
  induction es with
  | nil => intro table _ _ e he; simp at he
  | cons x rest ih =>
    intro table hd hv e he
    simp only [List.map_cons, List.nodup_cons] at hd
    rcases List.mem_cons.1 he with rfl | hmem
    · rw [store, store_get_of_not_mem]
      · have := hv e (List.mem_cons_self _ _)
        rw [List.getElem?_set_self (by omega)]
      · intro y hy heq
        have h1 := hv y (List.mem_cons_of_mem _ hy)
        have h2 := hv e (List.mem_cons_self _ _)
        have : y.1 = e.1 := by omega
        exact hd.1 (this ▸ List.mem_map_of_mem Prod.fst hy)
    · rw [store]
      exact ih _ hd.2 (fun y hy => by simpa using hv y (List.mem_cons_of_mem _ hy)) e hmem

theorem codes_no_extension (t : HuffNode) :
    ∀ e1 ∈ codes t, ∀ e2 ∈ codes t, e1.2 <+: e2.2 → e1 = e2 := by
  induction t with
  | null => intro e1 h1; simp [codes] at h1
  | node s f l r ihl ihr =>
    by_cases hleaf : l = HuffNode.null ∧ r = HuffNode.null
    · intro e1 h1 e2 h2 _
      simp [codes, hleaf] at h1 h2
      rw [h1, h2]
    · intro e1 h1 e2 h2 hp
      simp only [codes, hleaf, if_false, List.mem_append, List.mem_map] at h1 h2
      rcases h1 with ⟨a, ha, rfl⟩ | ⟨a, ha, rfl⟩ <;> rcases h2 with ⟨b, hb, rfl⟩ | ⟨b, hb, rfl⟩
      · simp only [List.cons_prefix_cons, true_and] at hp
        rw [ihl a ha b hb hp]
      · simp [List.cons_prefix_cons] at hp
      · simp [List.cons_prefix_cons] at hp
      · simp only [List.cons_prefix_cons, true_and] at hp
        rw [ihr a ha b hb hp]

theorem codes_ne_nil (t : HuffNode) (h2 : 2 ≤ (leaves t).length) :
    ∀ e ∈ codes t, e.2 ≠ [] := by
  cases t with
  | null => intro e he; simp [codes] at he
  | node s f l r =>
    by_cases hleaf : l = HuffNode.null ∧ r = HuffNode.null
    · simp [leaves, hleaf] at h2
    · intro e he
      simp only [codes, hleaf, if_false, List.mem_append, List.mem_map] at he
      rcases he with ⟨a, _, rfl⟩ | ⟨a, _, rfl⟩ <;> simp
theorem buildCodeTable_defined : ∀ (t : HuffNode) (table : List (Option (List Char)))
    (code : List Char) (level : Nat) (table1 : List (Option (List Char))) (code1 : List Char),
    buildCodeTable t table code level = some (table1, code1) →
    Full t ∧ level + height t < code.length ∧ (∀ s ∈ symbols t, 0 ≤ s ∧ s < table.length) ∧
      code1.length = code.length ∧ table1.length = table.length := by
  intro t
  induction t with
  | null => intro table code level table1 code1 h; simp [buildCodeTable] at h
  | node s f l r ihl ihr =>
    intro table code level table1 code1 h
    by_cases hleaf : l = HuffNode.null ∧ r = HuffNode.null
    · simp only [buildCodeTable, hleaf, and_self, if_true] at h
      by_cases hc : level < code.length ∧ 0 ≤ s ∧ s < table.length
      · rw [if_pos hc] at h
        cases h
        simp [Full, height, symbols, hleaf, hc]
      · rw [if_neg hc] at h
        cases h
    · simp only [buildCodeTable, hleaf, if_false] at h
      by_cases hc : level < code.length
      · rw [if_pos hc] at h
        cases h1 : buildCodeTable l table (code.set level '0') (level + 1) with
        | none => rw [h1] at h; cases h
        | some p =>
          obtain ⟨t1, c1⟩ := p
          rw [h1] at h
          obtain ⟨a1, a2, a3, a4, a5⟩ := ihl _ _ _ _ _ h1
          obtain ⟨b1, b2, b3, b4, b5⟩ := ihr _ _ _ _ _ h
          simp only [List.length_set] at a2 a4 b2 b4
          refine ⟨?_, ?_, ?_, by omega, by omega⟩
          · simp [Full, a1, b1]
          · simp only [height, hleaf, if_false]
            omega
          · intro x hx
            simp only [symbols, hleaf, if_false, List.mem_append] at hx
            rcases hx with hx | hx
            · exact a3 x hx
            · have := b3 x hx
              omega
      · rw [if_neg hc] at h
        cases h

theorem buildCodeTable_table (t : HuffNode) (table : List (Option (List Char)))
    (code : List Char) (hf : Full t) (hv : ∀ s ∈ symbols t, 0 ≤ s ∧ s < table.length)
    (hc : height t < code.length) :
    ∃ code1, buildCodeTable t table code 0 = some (store table (codes t), code1) := by
  obtain ⟨code1, e, -, -⟩ := buildCodeTable_spec t table code 0 [] hf (by simp) (by simp)
    (by omega)
    (by
      intro e he
      exact hv e.1 (by rw [← codes_fst]; exact List.mem_map_of_mem Prod.fst he))
  refine ⟨code1, ?_⟩
  rw [e]
  simp

theorem buildCodeTable_negative (table : List (Option (List Char))) (code : List Char) :
    buildCodeTable sampleHigh table code 0 = none := by
  cases h : buildCodeTable sampleHigh table code 0 with
  | none => rfl
  | some p =>
    obtain ⟨-, -, hs, -, -⟩ := buildCodeTable_defined _ _ _ _ _ _ h
    have := hs (-3) (by decide)
    omega
theorem getElem?_of_drop {α : Type} (l : List α) (i : Nat) (a : α) (t : List α)
    (h : l.drop i = a :: t) : l[i]? = some a ∧ l.drop (i + 1) = t := by
  have hlt : i < l.length := by
    by_contra hge
    rw [List.drop_eq_nil_iff.2 (by omega)] at h
    cases h
  rw [List.drop_eq_getElem_cons hlt] at h
  simp only [List.cons.injEq] at h
  exact ⟨by rw [List.getElem?_eq_getElem hlt, h.1], h.2⟩

theorem full_of_marked (t : HuffNode) (h : Marked t) : Full t := by
  induction t with
  | null => simp [Marked] at h
  | node s f l r ihl ihr =>
    simp only [Marked] at h
    rcases h with ⟨h1, h2, -⟩ | ⟨-, h1, h2⟩
    · simp [Full, h1, h2]
    · simp [Full, ihl h1, ihr h2]

theorem decodeLoop_symbol (root : HuffNode) (binary : List Char) (uncompressed : Int) :
    ∀ (cur : HuffNode), Marked cur → (∀ s f, cur ≠ HuffNode.node s f HuffNode.null HuffNode.null) →
    ∀ e ∈ codes cur, ∀ (count i : Nat) (d : List Int) (tail : List Char),
      binary.drop i = e.2 ++ tail → e.2.length ≤ count → (d.length : Int) < uncompressed + 1 →
      decodeLoop root binary uncompressed count i cur d =
        decodeLoop root binary uncompressed (count - e.2.length) (i + e.2.length) root
          (d ++ [e.1]) := by
  intro cur
  induction cur with
  | null => intro hm; simp [Marked] at hm
  | node s0 f0 l r ihl ihr =>
    intro hm hnl e he count i d tail hdrop hcount hd
    have hleaf : ¬ (l = HuffNode.null ∧ r = HuffNode.null) := by
      intro hh
      exact hnl s0 f0 (by rw [hh.1, hh.2])
    simp only [Marked, hleaf, false_and, and_false, false_or] at hm
    have hm' : s0 = -1 ∧ Marked l ∧ Marked r := by
      rcases hm with h | h
      · exact absurd ⟨h.1, h.2.1⟩ hleaf
      · exact h
    obtain ⟨-, hml, hmr⟩ := hm'
    simp only [codes, hleaf, if_false, List.mem_append, List.mem_map] at he
    rcases he with ⟨a, ha, rfl⟩ | ⟨a, ha, rfl⟩
    · obtain ⟨c, rfl⟩ : ∃ c, count = c + 1 := ⟨count - 1, by simp at hcount; omega⟩
      obtain ⟨hget, hdrop2⟩ := getElem?_of_drop binary i '0' (a.2 ++ tail) (by simpa using hdrop)
      cases l with
      | null => simp [Marked] at hml
      | node s1 f1 l1 r1 =>
        by_cases hleaf1 : l1 = HuffNode.null ∧ r1 = HuffNode.null
        · simp only [codes, hleaf1, and_self, if_true, List.mem_singleton] at ha
          subst ha
          have hs1 : s1 ≠ -1 := by
            simp only [Marked] at hml
            rcases hml with h | h
            · exact h.2.2
            · have := h.2.1
              rw [hleaf1.1] at this
              simp [Marked] at this
          simp [decodeLoop, hget, hs1, hd]
        · have hs1 : s1 = -1 := by
            simp only [Marked] at hml
            rcases hml with h | h
            · exact absurd ⟨h.1, h.2.1⟩ hleaf1
            · exact h.1
          have hstep : decodeLoop root binary uncompressed (c + 1) i
              (HuffNode.node s0 f0 (HuffNode.node s1 f1 l1 r1) r) d =
              decodeLoop root binary uncompressed c (i + 1) (HuffNode.node s1 f1 l1 r1) d := by
            simp [decodeLoop, hget, hs1]
          rw [hstep, ihl hml (by
            intro s f hh
            cases hh
            exact hleaf1 ⟨rfl, rfl⟩) a ha c (i + 1) d tail hdrop2
            (by simp at hcount; omega) hd]
          simp only [List.length_cons]
          congr 1
          · omega
          · omega
    · obtain ⟨c, rfl⟩ : ∃ c, count = c + 1 := ⟨count - 1, by simp at hcount; omega⟩
      obtain ⟨hget, hdrop2⟩ := getElem?_of_drop binary i '1' (a.2 ++ tail) (by simpa using hdrop)
      cases r with
      | null => simp [Marked] at hmr
      | node s1 f1 l1 r1 =>
        by_cases hleaf1 : l1 = HuffNode.null ∧ r1 = HuffNode.null
        · simp only [codes, hleaf1, and_self, if_true, List.mem_singleton] at ha
          subst ha
          have hs1 : s1 ≠ -1 := by
            simp only [Marked] at hmr
            rcases hmr with h | h
            · exact h.2.2
            · have := h.2.1
              rw [hleaf1.1] at this
              simp [Marked] at this
          simp [decodeLoop, hget, hs1, hd]
        · have hs1 : s1 = -1 := by
            simp only [Marked] at hmr
            rcases hmr with h | h
            · exact absurd ⟨h.1, h.2.1⟩ hleaf1
            · exact h.1
          have hstep : decodeLoop root binary uncompressed (c + 1) i
              (HuffNode.node s0 f0 l (HuffNode.node s1 f1 l1 r1)) d =
              decodeLoop root binary uncompressed c (i + 1) (HuffNode.node s1 f1 l1 r1) d := by
            simp [decodeLoop, hget, hs1]
          rw [hstep, ihr hmr (by
            intro s f hh
            cases hh
            exact hleaf1 ⟨rfl, rfl⟩) a ha c (i + 1) d tail hdrop2
            (by simp at hcount; omega) hd]
          simp only [List.length_cons]
          congr 1
          · omega
          · omega

theorem decodeLoop_sequence (root : HuffNode) (binary : List Char) (uncompressed : Int)
    (hm : Marked root) (hnl : ∀ s f, root ≠ HuffNode.node s f HuffNode.null HuffNode.null) :
    ∀ (es : List (Int × List Char)), (∀ e ∈ es, e ∈ codes root) →
    ∀ (i : Nat) (d : List Int), binary.drop i = bitsOf es →
      (d.length : Int) + es.length < uncompressed + 1 →
      decodeLoop root binary uncompressed (bitsOf es).length i root d =
        some (root, d ++ es.map Prod.fst) := by
  intro es
  induction es with
  | nil => intro _ i d _ _; simp [bitsOf, decodeLoop]
  | cons e rest ih =>
    intro hes i d hdrop hlen
    simp only [bitsOf] at hdrop ⊢
    simp only [List.length_cons] at hlen
    rw [decodeLoop_symbol root binary uncompressed root hm hnl e
      (hes e (List.mem_cons_self _ _)) _ i d (bitsOf rest) hdrop (by simp) (by omega)]
    have hdrop2 : binary.drop (i + e.2.length) = bitsOf rest := by
      rw [← List.drop_drop, hdrop]
      simp
    have := ih (fun x hx => hes x (List.mem_cons_of_mem _ hx)) (i + e.2.length) (d ++ [e.1])
      hdrop2 (by simp; omega)
    simpa using this

theorem concatCodes_store (t : HuffNode) (table : List (Option (List Char)))
    (hd : (symbols t).Nodup) (hv : ∀ s ∈ symbols t, 0 ≤ s ∧ s < table.length) :
    ∀ (s : List Int), (∀ x ∈ s, x ∈ symbols t) →
      ∃ es, (∀ e ∈ es, e ∈ codes t) ∧ es.map Prod.fst = s ∧
        concatCodes (store table (codes t)) s = some (bitsOf es) := by
  intro s
  induction s with
  | nil => intro _; exact ⟨[], by simp, rfl, rfl⟩
  | cons x rest ih =>
    intro hs
    obtain ⟨es, h1, h2, h3⟩ := ih (fun y hy => hs y (List.mem_cons_of_mem _ hy))
    have hx := hs x (List.mem_cons_self _ _)
    rw [← codes_fst] at hx
    obtain ⟨e, he, rfl⟩ := List.mem_map.1 hx
    have hget := store_get_of_mem (codes t) table (by rw [codes_fst]; exact hd)
      (fun y hy => hv y.1 (by rw [← codes_fst]; exact List.mem_map_of_mem Prod.fst hy)) e he
    have hnn := (hv e.1 (by rw [← codes_fst]; exact List.mem_map_of_mem Prod.fst he)).1
    refine ⟨e :: es, ?_, by simp [h2], ?_⟩
    · intro y hy
      rcases List.mem_cons.1 hy with rfl | hy
      · exact he
      · exact h1 y hy
    · simp [concatCodes, codeOf, hnn, hget, h3, bitsOf]

theorem decode_spec (t : HuffNode) (table table1 : List (Option (List Char)))
    (code code1 : List Char) (s : List Int) (uncompressed : Int) (hm : Marked t)
    (h2 : 2 ≤ (leaves t).length) (hd : (symbols t).Nodup) (hs : ∀ x ∈ s, x ∈ symbols t)
    (hb : buildCodeTable t table code 0 = some (table1, code1))
    (hu : (s.length : Int) ≤ uncompressed) :
    ∃ binary, concatCodes table1 s = some binary ∧
      decode binary binary.length uncompressed t = some s := by
  obtain ⟨hf, hh, hv, -, -⟩ := buildCodeTable_defined t table code 0 table1 code1 hb
  obtain ⟨code2, e⟩ := buildCodeTable_table t table code hf hv (by omega)
  rw [hb] at e
  have ht : table1 = store table (codes t) := by cases e; rfl
  obtain ⟨es, h1, h3, h4⟩ := concatCodes_store t table hd hv s hs
  have hnl : ∀ s f, t ≠ HuffNode.node s f HuffNode.null HuffNode.null := by
    intro s f hh
    rw [hh] at h2
    simp [leaves] at h2
  refine ⟨bitsOf es, by rw [ht]; exact h4, ?_⟩
  have hlen : es.length = s.length := by rw [← h3]; simp
  have := decodeLoop_sequence t (bitsOf es) uncompressed hm hnl es h1 0 [] (by simp)
    (by simp; omega)
  simp only [decode, Int.toNat_ofNat, this, List.nil_append, h3]
  rw [if_pos (by omega)]

theorem decompress_pair_undefined (fuel : Nat) :
    decompressTree [0, 1, 97, 1, 98, 0, 0, 0, 0, 0, 0, 0, 0, 0, 0, 0, 0, 0, 0] fuel = none := by
  cases fuel with
  | zero => rfl
  | succ n =>
    simp [decompressTree, serialSymbol, deserializeRecurse, serialLeft, shortOf]

theorem deserialize_single_loops (fuel : Nat) (s : Int) :
    deserializeRecurse [1, 97, 0, 0, 0, 0, 0, 0, 0] fuel s 0 = none := by
  induction fuel generalizing s with
  | zero => rfl
  | succ n ih =>
    simp [deserializeRecurse, serialLeft, shortOf, serialSymbol, ih]
theorem sampleHeap_minHeap : MinHeap sampleHeap 4 := by
  constructor
  · intro i hi
    interval_cases i <;> exact ⟨_, _, _, _, rfl⟩
  · intro i h1 hi
    interval_cases i <;> decide

/-- C25: for every array whose first `size ≥ 1` elements are nodes in min-heap
order by `freq`, `removeNode` returns the element at index 0, whose `freq` is
the least among the first `size` elements, decrements the size by 1 and leaves
the first `size - 1` elements a min-heap that holds exactly the other
elements. -/
theorem removeNode_returns_minimum (heap : List HuffNode) (size : Nat) (hs : 1 ≤ size)
    (hm : MinHeap heap size) :
    ∃ node heap1, removeNode heap size = some (node, heap1, (size : Int) - 1) ∧
      heap[0]? = some node ∧ (∀ x ∈ heap.take size, key node ≤ key x) ∧
      MinHeap heap1 (size - 1) ∧ (node :: heap1.take (size - 1)).Perm (heap.take size) := by
  obtain ⟨node, h1, e, h0, hmin, mh, perm, -⟩ := removeNode_spec heap size hs hm
  exact ⟨node, h1, e, h0, key_le_of_mem_take heap size _ hmin, mh, perm⟩

theorem removeNode_returns_minimum_witness :
    ∃ node heap1, removeNode sampleHeap ((4 : Nat) : Int) = some (node, heap1, ((4 : Nat) : Int) - 1) ∧
      sampleHeap[0]? = some node ∧ (∀ x ∈ sampleHeap.take 4, key node ≤ key x) ∧
      MinHeap heap1 (4 - 1) ∧ (node :: heap1.take (4 - 1)).Perm (sampleHeap.take 4) :=
  removeNode_returns_minimum sampleHeap 4 (by decide) sampleHeap_minHeap

/-- C26: for every array with room for one more element whose first `size ≥ 0`
elements are nodes in min-heap order by `freq`, `insert` of a node increments
the size by 1 and leaves the first `size + 1` elements a min-heap that holds
exactly the old elements and the node. The loop ends: at index 0 the parent
index `(0 - 1)/2` is 0, so the loop compares the element with itself, and a node
of least `freq` ends at index 0. -/
theorem insert_keeps_min_heap (heap : List HuffNode) (size : Nat) (node : HuffNode)
    (hnode : node ≠ HuffNode.null) (hm : MinHeap heap size) (hcap : size < heap.length) :
    ∃ heap1, insert heap size node = some (heap1, (size : Int) + 1) ∧
      MinHeap heap1 (size + 1) ∧ (heap1.take (size + 1)).Perm (node :: heap.take size) ∧
      parentOf 0 = 0 ∧
      ((∀ x ∈ heap.take size, key node < key x) → heap1[0]? = some node) := by
  cases node with
  | null => exact absurd rfl hnode
  | node s f l r =>
    obtain ⟨h1, e, mh, perm, -⟩ := insert_spec heap size s f l r hm hcap
    refine ⟨h1, e, mh, perm, rfl, ?_⟩
    intro hlt
    obtain ⟨s0, f0, l0, r0, h0⟩ := mh.1 0 (by omega)
    have hmem : HuffNode.node s0 f0 l0 r0 ∈ h1.take (size + 1) := by
      apply List.mem_iff_getElem?.2
      exact ⟨0, by rw [List.getElem?_take_of_lt (by omega)]; exact h0⟩
    have hroot : ∀ x ∈ h1.take (size + 1), key (HuffNode.node s0 f0 l0 r0) ≤ key x := by
      apply key_le_of_mem_take
      intro i hi
      have := minHeap_root_le h1 (size + 1) mh i hi
      rw [keyAt_node h1 0 s0 f0 l0 r0 h0] at this
      simpa [key, freq] using this
    rcases List.mem_cons.1 (perm.subset hmem) with heq | hold
    · rw [h0, heq]
    · have h2 := hlt _ hold
      have h3 := hroot _ (perm.symm.subset (List.mem_cons_self _ _))
      omega

theorem insert_keeps_min_heap_witness :
    ∃ heap1, insert sampleHeap ((4 : Nat) : Int) (leaf 101 0) = some (heap1, ((4 : Nat) : Int) + 1) ∧
      MinHeap heap1 (4 + 1) ∧ (heap1.take (4 + 1)).Perm (leaf 101 0 :: sampleHeap.take 4) ∧
      parentOf 0 = 0 ∧
      ((∀ x ∈ sampleHeap.take 4, key (leaf 101 0) < key x) → heap1[0]? = some (leaf 101 0)) :=
  insert_keeps_min_heap sampleHeap 4 (leaf 101 0) (by decide) sampleHeap_minHeap (by decide)

/-- C22, where the code departs from it. The tree `sampleHigh` has two leaves
with the symbols 97 and -3 (the byte 0xFD as a `char`), distinct and other than
-1, and `decode` reads its codes as the claim says; but `buildCodeTable` indexes
the table with -3 and has no defined result, whatever the table and the buffer,
so no codes are assigned. For every Huffman tree (a leaf has a symbol other than
-1, an inner node has the symbol -1 and two children) with at least two leaves
whose leaf symbols are pairwise distinct and are indices of the table, with a
buffer at least as long as the table: `buildCodeTable` returns a table, the
codes of that table for the symbols of a sequence `s` of leaf symbols form a
string `binary`, and `decode` of `binary` with `sizeBits` equal to its length,
and with room for the symbols of `s`, returns exactly `s`. -/
theorem decode_inverts_code_table :
    (Marked sampleHigh ∧ 2 ≤ (leaves sampleHigh).length ∧ (symbols sampleHigh).Nodup ∧
      symbols sampleHigh = [97, -3] ∧
      (∀ table code, buildCodeTable sampleHigh table code 0 = none) ∧
      decode ['1', '0', '1'] 3 3 sampleHigh = some [-3, 97, -3]) ∧
    (∀ t table code s uncompressed, Marked t → 2 ≤ (leaves t).length → (symbols t).Nodup →
      (∀ x ∈ symbols t, 0 ≤ x ∧ x < table.length) → table.length ≤ code.length →
      (∀ x ∈ s, x ∈ symbols t) → (s.length : Int) ≤ uncompressed →
      ∃ table1 code1 binary, buildCodeTable t table code 0 = some (table1, code1) ∧
        concatCodes table1 s = some binary ∧
        decode binary binary.length uncompressed t = some s) ∧
    (∃ table1 code1 binary,
      buildCodeTable sampleSmall [none, none] ['x', 'x'] 0 = some (table1, code1) ∧
      concatCodes table1 [1, 0, 0, 1] = some binary ∧ binary = ['1', '0', '0', '1'] ∧
      decode binary binary.length 4 sampleSmall = some [1, 0, 0, 1]) := by
  refine ⟨⟨by simp [Marked, sampleHigh, leaf], by decide, by decide, by decide,
    buildCodeTable_negative, by decide⟩, ?_,
    ⟨[some ['0'], some ['1']], ['1', Char.ofNat 0], ['1', '0', '0', '1'], by decide, by decide,
      rfl, by decide⟩⟩
  intro t table code s uncompressed hm h2 hd hv hlen hs hu
  have hf := full_of_marked t hm
  have hh : height t < code.length := by
    have h1 := height_lt_leaves t hf
    have h3 := nodup_length_le (symbols t) table.length hd hv
    rw [symbols_length] at h3
    omega
  obtain ⟨code1, e⟩ := buildCodeTable_table t table code hf hv hh
  obtain ⟨binary, hb1, hb2⟩ := decode_spec t table _ code code1 s uncompressed hm h2 hd hs e hu
  exact ⟨_, code1, binary, e, hb1, hb2⟩

/-- C23: `buildCodeTable` indexes the table with `(int)node->symbol`. For the tree
`sampleHigh`, whose second leaf has the symbol -3 (the byte 0xFD as a `char`),
the index is -3 and the call has no defined result, whatever the table and the
buffer. For every tree with at least two leaves, each node of which is a leaf or
has two children, whose leaf symbols are pairwise distinct and are indices of
the table, and with a buffer `code` at least as long as the table:
`buildCodeTable` stores for each leaf symbol the path from the root to the leaf
('0' for a left edge, '1' for a right edge); the codes stored are not empty, no
code is a prefix of the code of another symbol, and the entries at the other
indices are left as they were. -/
theorem code_table_index_before_table :
    (∀ table code, buildCodeTable sampleHigh table code 0 = none) ∧
    (∀ t table code, Full t → 2 ≤ (leaves t).length → (symbols t).Nodup →
      (∀ s ∈ symbols t, 0 ≤ s ∧ s < table.length) → table.length ≤ code.length →
      ∃ table1 code1, buildCodeTable t table code 0 = some (table1, code1) ∧
        (∀ e ∈ codes t, table1[e.1.toNat]? = some (some e.2) ∧ e.2 ≠ []) ∧
        (∀ e1 ∈ codes t, ∀ e2 ∈ codes t, e1.1 ≠ e2.1 → ¬ e1.2 <+: e2.2) ∧
        (∀ i, (∀ s ∈ symbols t, s.toNat ≠ i) → table1[i]? = table[i]?)) ∧
    (∃ table1 code1, buildCodeTable sampleSmall [none, none] ['x', 'x'] 0 =
      some (table1, code1) ∧ table1 = [some ['0'], some ['1']]) := by
  refine ⟨buildCodeTable_negative, ?_,
    ⟨[some ['0'], some ['1']], ['1', Char.ofNat 0], by decide, rfl⟩⟩
  intro t table code hf h2 hd hv hlen
  have hh : height t < code.length := by
    have h1 := height_lt_leaves t hf
    have h3 := nodup_length_le (symbols t) table.length hd hv
    rw [symbols_length] at h3
    omega
  obtain ⟨code1, e⟩ := buildCodeTable_table t table code hf hv hh
  refine ⟨_, code1, e, ?_, ?_, ?_⟩
  · intro x hx
    refine ⟨?_, codes_ne_nil t h2 x hx⟩
    exact store_get_of_mem (codes t) table (by rw [codes_fst]; exact hd)
      (fun y hy => hv y.1 (by rw [← codes_fst]; exact List.mem_map_of_mem Prod.fst hy)) x hx
  · intro e1 h1 e2 h3 hne hp
    exact hne (by rw [codes_no_extension t e1 h1 e2 h3 hp])
  · intro i hi
    apply store_get_of_not_mem
    intro x hx
    exact hi x.1 (by rw [← codes_fst]; exact List.mem_map_of_mem Prod.fst hx)

/-- C27: `compressTree` writes the tree in pre-order, one byte 1 and the symbol
for a leaf and one byte 0 for an inner node, while `decompressTree` reads an
array of `HuffNodeSerial` with the indices of the children. For the tree of the
two leaves `a` and `b` the bytes written are 0, 1, 97, 1, 98 and zeros, in which
`decompressTree` reads 353 as the index of the left child of element 0, outside
the array; for the tree of one leaf `a` the bytes are 1, 97 and zeros, in which
element 0 is its own left child, so that `deserializeRecurse` does not return.
Neither call gives the tree back. An array in the form that `decompressTree`
reads is `samplePairSerial`. -/
theorem decompressTree_not_inverse :
    compressTree samplePair 2 =
      some ([0, 1, 97, 1, 98, 0, 0, 0, 0, 0, 0, 0, 0, 0, 0, 0, 0, 0, 0], 19) ∧
    (∀ fuel, decompressTree [0, 1, 97, 1, 98, 0, 0, 0, 0, 0, 0, 0, 0, 0, 0, 0, 0, 0, 0] fuel =
      none) ∧
    compressTree (leaf 97 1) 1 = some ([1, 97, 0, 0, 0, 0, 0, 0, 0], 9) ∧
    (∀ fuel, decompressTree [1, 97, 0, 0, 0, 0, 0, 0, 0] fuel = none) ∧
    decompressTree samplePairSerial 2 =
      some (HuffNode.node (-1) (-1) (leaf 97 (-1)) (leaf 98 (-1))) := by
  refine ⟨by decide, decompress_pair_undefined, by decide, ?_, by decide⟩
  intro fuel
  simp only [decompressTree, serialSymbol]
  exact deserialize_single_loops fuel _

end ARchiver
